import Mathlib

/-!
# mandoc: index reader (`dbm.c`), table solver (`out.c`, `tbl_term.c`) and validator (`validate.c`)

A shallow embedding of the C sources and the properties checked against it.

Conventions of the embedding.

* The mapped database file is a list of bytes; an address is a byte offset from
  `dbm_base`.  A `NULL` pointer is `none`.  Using a `NULL` pointer, reading
  outside the mapping, a failed `assert` and `abort()` make a function return
  `none`.
* Where C leaves the result to the implementation, the code is read as
  compiled for x86-64: `char` is signed, and the difference of two pointers
  that are not a whole number of elements apart is what the compiled division
  gives, `page_diff`.
* Function-local `static` variables and file-scope globals of `dbm.c` are the
  fields of one record that every function takes and returns.
* Loops over memory are written with a fuel argument; the callers pass a fuel
  that is enough for every walk that stays inside the mapping.
-/

set_option autoImplicit false

namespace Dbm

/-! ## Memory -/

/-- The bytes of the mapping, starting at `dbm_base`; its length is
`max_offset`. -/
abbrev Mem := List (Fin 256)

/-- The byte at address `a`.  An address outside the mapping has no value:
there the program reads memory that is not the file's, or faults. -/
def byte (m : Mem) (a : Nat) : Option (Fin 256) := m[a]?

/-- The statement `be32toh(*(int32_t *)(dbm_base + a))`: the four bytes at `a`
decoded big-endian as a signed 32-bit integer.  It has no value unless all
four bytes lie inside the mapping. -/
def be32 (m : Mem) (a : Nat) : Option Int :=
  match byte m a, byte m (a + 1), byte m (a + 2), byte m (a + 3) with
  | some b0, some b1, some b2, some b3 =>
    let u : Nat := ((b0.val * 256 + b1.val) * 256 + b2.val) * 256 + b3.val
    some (if u < 2147483648 then (u : Int) else (u : Int) - 4294967296)
  | _, _, _, _ => none

/-- The pointer `dbm_getint(i)`: the address of header slot `i`. -/
def dbm_getint (i : Nat) : Nat := 4 * i

/-- Modelled from the spec: `dbm_get` of `dbm_map.c`, which is not part of the
sources at hand.  It takes the stored (big-endian) offset word and resolves it
inside the mapping: the result is `NULL` unless `0 <= offset < max_offset`,
where `max_offset` is the size of the mapping.  The argument here is the word
already decoded. -/
def dbm_get (m : Mem) (offset : Int) : Option Nat :=
  if offset < 0 ∨ (m.length : Int) ≤ offset then none else some offset.toNat

/-- The C string at the head of the bytes `l`: the bytes before the first NUL.
It has no value when `l` holds no NUL. -/
def cstr_of : List (Fin 256) → Option (List (Fin 256))
  | [] => none
  | b :: rest => if b = 0 then some [] else (cstr_of rest).map (fun s => b :: s)

/-- The C string starting at address `a` (without its terminating NUL), as
`dbm_match` and `strchr(cp, '\0')` read it.  It has no value when no NUL
follows `a` inside the mapping: the read runs past the end. -/
def cstr (m : Mem) (a : Nat) : Option (List (Fin 256)) := cstr_of (m.drop a)

/-- The value of a byte read through `const char *`, as compiled for x86-64,
where `char` is signed: the bytes from 128 on are negative. -/
def schar (b : Fin 256) : Int := if b.val < 128 then (b.val : Int) else (b.val : Int) - 256

/-- The difference `p - pages` of two `struct page *` that are `d` bytes
apart, stored into the `int32_t` field `page`, as compiled for x86-64.  C
defines the difference only when `d` is a multiple of 20, the size of a page
record; the compiled code shifts `d` right by two bits and multiplies by the
inverse of 5 modulo a power of two, the low 32 bits of which are kept. -/
def page_diff (d : Int) : Int :=
  let p := ((d / 4) * 3435973837) % 4294967296
  if p < 2147483648 then p else p - 4294967296

/-! ## State -/

/-- The enumeration `enum iter`. -/
inductive iter where
  | ITER_NONE | ITER_NAME | ITER_SECT | ITER_ARCH | ITER_DESC | ITER_MACRO
  deriving DecidableEq, Repr

/-- A `struct dbm_match` together with `dbm_match()`: the caller's predicate on
a candidate C string. -/
abbrev Match := List (Fin 256) → Bool

/-- The result record `struct dbm_res`. -/
structure dbm_res where
  page : Int
  bits : Int
  deriving DecidableEq, Repr

/-- The value of `errno` set by `dbm_open`. -/
inductive Errno where
  | EFTYPE
  deriving DecidableEq, Repr

/-- The globals of `dbm.c` and the statics of its functions. -/
structure Globals where
  /-- The mapping: `dbm_base` and its contents. -/
  m : Mem
  /-- False after `dbm_unmap()`. -/
  mapped : Bool
  errno : Option Errno
  /-- The array `macros[MACRO_MAX]`: addresses of the first entry of each macro. -/
  macros : List Nat
  /-- The array `nvals[MACRO_MAX]`. -/
  nvals : List Int
  /-- The address `pages`. -/
  pages : Nat
  npages : Int
  iteration : iter
  /-- The statics `match`, `cp`, `ip` of `page_bytitle`. -/
  bt_match : Option Match
  bt_cp : Option Nat
  bt_ip : Int
  /-- The statics `match`, `ip` of `page_byarch`. -/
  ba_match : Option Match
  ba_ip : Int
  /-- The static `pp` of `page_bymacro`. -/
  bm_pp : Option Nat
  /-- The statics `pp`, `im`, `ip`, `iv` of `macro_bypage`. -/
  mp_pp : Option Nat
  mp_im : Int
  mp_ip : Int
  mp_iv : Int

/-- The state of a process that has just mapped the file `m` with `dbm_map`:
all statics are zero, `MACRO_MAX` array entries each. -/
def Globals.init (MACRO_MAX : Nat) (m : Mem) : Globals :=
  { m := m, mapped := true, errno := none
    macros := List.replicate MACRO_MAX 0, nvals := List.replicate MACRO_MAX 0
    pages := 0, npages := 0, iteration := iter.ITER_NONE
    bt_match := none, bt_cp := none, bt_ip := 0
    ba_match := none, ba_ip := 0
    bm_pp := none
    mp_pp := none, mp_im := 0, mp_ip := 0, mp_iv := 0 }

/-! ## dbm_open -/

/-- The `fail:` label of `dbm_open`: unmap, set `errno`, return -1. -/
def dbm_open_fail (g : Globals) : Int × Globals :=
  (-1, { g with mapped := false, errno := some Errno.EFTYPE })

/-- The loop `for (im = 0; im < MACRO_MAX; im++)` of `dbm_open`; `n` counts the
iterations left and `mp` is the address of the word before the next offset.
The result tells whether the loop ran to its end (`false`: some `dbm_get`
returned `NULL` and the loop was left by `goto fail`) and gives the arrays as
the loop left them.  There is no result when `*++mp` or `*ep` is read outside
the mapping. -/
def dbm_open_macros (m : Mem) : (n : Nat) → (im : Nat) → (mp : Nat) →
    List Nat → List Int → Option (Bool × List Nat × List Int)
  | 0, _, _, macros, nvals => some (true, macros, nvals)
  | n + 1, im, mp, macros, nvals =>
    match be32 m (mp + 4) with
    | none => none
    | some w =>
      match dbm_get m w with
      | none => some (false, macros, nvals)
      | some ep =>
        match be32 m ep with
        | none => none
        | some nv =>
          dbm_open_macros m n (im + 1) (mp + 4) (macros.set im (ep + 4)) (nvals.set im nv)

/-- The function `dbm_open`, entered after `dbm_map(fname)` has succeeded and
mapped the bytes `m`.  `MACRO_MAX` is a constant of `mansearch.h`.  There is
no result when the function reads outside the mapping. -/
def dbm_open (MACRO_MAX : Nat) (m : Mem) : Option (Int × Globals) :=
  let g := Globals.init MACRO_MAX m
  match be32 m (dbm_getint 4) with
  | none => none
  | some np =>
    let g := { g with npages := np }
    if np < 0 then some (dbm_open_fail g)
    else
      let g := { g with pages := dbm_getint 5 }
      match be32 m (dbm_getint 2) with
      | none => none
      | some off =>
        match dbm_get m off with
        | none => some (dbm_open_fail g)
        | some mp =>
          match be32 m mp with
          | none => none
          | some cnt =>
            if cnt ≠ (MACRO_MAX : Int) then some (dbm_open_fail g)
            else
              match dbm_open_macros m MACRO_MAX 0 mp g.macros g.nvals with
              | none => none
              | some (false, macros, nvals) =>
                some (dbm_open_fail { g with macros := macros, nvals := nvals })
              | some (true, macros, nvals) =>
                some (0, { g with macros := macros, nvals := nvals })

/-- The state in which `dbm_open` leaves the reader of the file `m`; the state
before the call when `dbm_open` has no result. -/
def dbm_opened (MACRO_MAX : Nat) (m : Mem) : Globals :=
  match dbm_open MACRO_MAX m with
  | some r => r.2
  | none => Globals.init MACRO_MAX m

/-- The function `dbm_page_count`. -/
def dbm_page_count (g : Globals) : Int := g.npages

/-- The function `dbm_macro_count`; `none` when an `assert` fails. -/
def dbm_macro_count (MACRO_MAX : Nat) (g : Globals) (im : Int) : Option Int :=
  if 0 ≤ im ∧ im < MACRO_MAX then some (g.nvals.getD im.toNat 0) else none

/-! ## Pages -/

/-- The word `pages[ip].f` decoded, where `k` is the index of field `f` in
`struct page` (0 name, 1 sect, 2 arch, 3 desc, 4 file); no value when the
word lies outside the mapping. -/
def page_field (g : Globals) (ip : Nat) (k : Nat) : Option Int :=
  be32 g.m (g.pages + 20 * ip + 4 * k)

/-- The record `struct dbm_page`; `addr` is the offset of the page record. -/
structure dbm_page where
  name : Option Nat
  sect : Option Nat
  arch : Option Nat
  desc : Option Nat
  file : Option Nat
  addr : Nat
  deriving DecidableEq, Repr

/-- The function `dbm_page_get`; `none` when an `assert` fails or a word of
the page record lies outside the mapping. -/
def dbm_page_get (g : Globals) (ip : Int) : Option dbm_page :=
  if 0 ≤ ip ∧ ip < g.npages then
    let i := ip.toNat
    match page_field g i 0, page_field g i 1, page_field g i 2, page_field g i 3,
        page_field g i 4 with
    | some name, some sect, some arch, some desc, some file =>
      some { name := dbm_get g.m name
             sect := dbm_get g.m sect
             arch := if arch ≠ 0 then dbm_get g.m arch else none
             desc := dbm_get g.m desc
             file := dbm_get g.m file
             addr := g.pages + 20 * i }
    | _, _, _, _, _ => none
  else none

/-- The record `struct dbm_macro`. -/
structure dbm_macro where
  value : Option Nat
  pp : Option Nat
  deriving DecidableEq, Repr

/-- The function `dbm_macro_get`; `none` when an `assert` fails or a word of
the macro entry lies outside the mapping. -/
def dbm_macro_get (MACRO_MAX : Nat) (g : Globals) (im iv : Int) : Option dbm_macro :=
  if 0 ≤ im ∧ im < MACRO_MAX ∧ 0 ≤ iv ∧ iv < g.nvals.getD im.toNat 0 then
    let e := g.macros.getD im.toNat 0 + 8 * iv.toNat
    match be32 g.m e, be32 g.m (e + 4) with
    | some v, some p => some { value := dbm_get g.m v, pp := dbm_get g.m p }
    | _, _ => none
  else none

/-- The sentinel `\x7b-1, 0\x7d`. -/
def res_none : dbm_res := { page := -1, bits := 0 }

/-- The search loop `while (ip < npages)` of `page_bytitle`.  The result is
the pair `(cp, ip)` on leaving the loop, `none` when the loop reads outside
the mapping or the fuel runs out. -/
def bytitle_search (m : Mem) (it : iter) (mt : Match) (npages : Int) :
    Nat → Nat → Int → Option (Nat × Int)
  | 0, _, _ => none
  | fuel + 1, cp, ip =>
    if ip < npages then
      let cp1 := if it = iter.ITER_NAME then cp + 1 else cp
      match cstr m cp1 with
      | none => none
      | some s =>
        if mt s then some (cp1, ip)
        else
          let cp2 := cp1 + s.length + 1
          if it = iter.ITER_DESC then bytitle_search m it mt npages fuel cp2 (ip + 1)
          else
            match byte m cp2 with
            | none => none
            | some b =>
              if b = 0 then bytitle_search m it mt npages fuel (cp2 + 1) (ip + 1)
              else bytitle_search m it mt npages fuel cp2 ip
    else some (cp, ip)

/-- The loop `do \x7b cp++; \x7d while (cp[-1] != '\0' || (iteration != ITER_DESC &&
cp[-2] != '\0'))` of `page_bytitle`.  The result is `none` when the fuel runs
out or `cp[-1]` or `cp[-2]` lies outside the mapping. -/
def bytitle_skip (m : Mem) (it : iter) : Nat → Nat → Option Nat
  | 0, _ => none
  | fuel + 1, cp =>
    let cp := cp + 1
    match byte m (cp - 1) with
    | none => none
    | some b1 =>
      if b1 ≠ 0 then bytitle_skip m it fuel cp
      else if it = iter.ITER_DESC then some cp
      else if cp < 2 then none
      else
        match byte m (cp - 2) with
        | none => none
        | some b2 => if b2 ≠ 0 then bytitle_skip m it fuel cp else some cp

/-- The value of `iteration == ITER_NAME ? cp[-1] : 0` in `page_bytitle`,
where `cp[-1]` is read through `const char *`; no value when `cp[-1]` lies
outside the mapping. -/
def bytitle_bits (g : Globals) (c : Nat) : Option Int :=
  if g.iteration = iter.ITER_NAME then
    if c = 0 then none else (byte g.m (c - 1)).map schar
  else some 0

/-- The part of `page_bytitle` after the search loop. -/
def bytitle_finish (g : Globals) (cp : Option Nat) (ip : Int) : Option (dbm_res × Globals) :=
  if ip = g.npages then
    some (res_none, { g with iteration := iter.ITER_NONE, bt_match := none, bt_cp := none,
                             bt_ip := ip })
  else
    match cp with
    | none => none
    | some c =>
      match bytitle_bits g c with
      | none => none
      | some bits =>
        let res : dbm_res := { page := ip, bits := bits }
        if ip + 1 < g.npages then
          match bytitle_skip g.m g.iteration (g.m.length + 2) c with
          | none => none
          | some c1 => some (res, { g with bt_cp := some c1, bt_ip := ip + 1 })
        else some (res, { g with bt_cp := some c, bt_ip := ip + 1 })

/-- The field of `pages[0]` from which `page_bytitle` sets its string cursor
in `switch (iteration)`, as its index in `struct page`: `name`, `sect` or
`desc`. -/
def title_field : iter → Nat
  | iter.ITER_NAME => 0
  | iter.ITER_SECT => 1
  | _ => 3

/-- The function `page_bytitle`. -/
def page_bytitle (g : Globals) (arg_iter : iter) (arg_match : Option Match) :
    Option (dbm_res × Globals) :=
  if ¬ (arg_iter = iter.ITER_NAME ∨ arg_iter = iter.ITER_DESC ∨ arg_iter = iter.ITER_SECT) then none
  else
    match arg_match with
    | some mt =>
      match page_field g 0 (title_field arg_iter) with
      | none => none
      | some w =>
        some (res_none, { g with iteration := arg_iter, bt_match := some mt,
                                 bt_cp := dbm_get g.m w, bt_ip := 0 })
    | none =>
      if g.bt_ip < g.npages then
        match g.bt_cp, g.bt_match with
        | some cp, some mt =>
          match bytitle_search g.m g.iteration mt g.npages
              (g.m.length + g.npages.toNat + 1) cp g.bt_ip with
          | none => none
          | some (cp1, ip1) => bytitle_finish g (some cp1) ip1
        | _, _ => none
      else bytitle_finish g g.bt_cp g.bt_ip

/-- The inner loop of `page_byarch` over the strings of one arch block:
`some true` on a match, `some false` at the end of the block, `none` when the
loop reads outside the mapping or the fuel runs out. -/
def byarch_block (m : Mem) (mt : Match) : Nat → Nat → Option Bool
  | 0, _ => none
  | fuel + 1, cp =>
    match byte m cp with
    | none => none
    | some b =>
      if b = 0 then some false
      else
        match cstr m cp with
        | none => none
        | some s => if mt s then some true else byarch_block m mt fuel (cp + s.length + 1)

/-- The loop `for ( ; ip < npages; ip++)` of `page_byarch`; `n` bounds the
number of pages left.  The result is the final `ip` and whether it is a hit. -/
def byarch_search (g : Globals) (mt : Match) : Nat → Int → Option (Int × Bool)
  | 0, ip => some (ip, false)
  | n + 1, ip =>
    if ip < g.npages then
      match page_field g ip.toNat 2 with
      | none => none
      | some w =>
        if w ≠ 0 then
          match dbm_get g.m w with
          | none => none
          | some cp =>
            match byarch_block g.m mt (g.m.length + 1) cp with
            | none => none
            | some true => some (ip, true)
            | some false => byarch_search g mt n (ip + 1)
        else byarch_search g mt n (ip + 1)
    else some (ip, false)

/-- The function `page_byarch`. -/
def page_byarch (g : Globals) (arg_match : Option Match) : Option (dbm_res × Globals) :=
  match arg_match with
  | some mt =>
    some (res_none, { g with iteration := iter.ITER_ARCH, ba_match := some mt, ba_ip := 0 })
  | none =>
    if g.ba_ip < g.npages then
      match g.ba_match with
      | none => none
      | some mt =>
        match byarch_search g mt (g.npages - g.ba_ip).toNat g.ba_ip with
        | none => none
        | some (ip, true) => some ({ page := ip, bits := 0 }, { g with ba_ip := ip + 1 })
        | some (ip, false) =>
          some (res_none, { g with iteration := iter.ITER_NONE, ba_match := none, ba_ip := ip })
    else some (res_none, { g with iteration := iter.ITER_NONE, ba_match := none })

/-- The loop `for (iv = 0; iv < nvals[im]; iv++)` of `page_bymacro`; the
result is the final `iv`, `none` when `cp` is `NULL` or the loop reads outside
the mapping. -/
def bymacro_search (m : Mem) (mt : Match) (nv : Int) : Nat → Int → Option Nat → Option Int
  | 0, iv, _ => some iv
  | n + 1, iv, cp =>
    if iv < nv then
      match cp with
      | none => none
      | some c =>
        match cstr m c with
        | none => none
        | some s =>
          if mt s then some iv
          else bymacro_search m mt nv n (iv + 1) (some (c + s.length + 1))
    else some iv

/-- The function `page_bymacro`.  The page index of a hit is the difference of
two `struct page` pointers, `page_diff`.  There is no result when an `assert`
fails, a word or string is read outside the mapping, or the pointer that is
subtracted from is `NULL`. -/
def page_bymacro (MACRO_MAX : Nat) (g : Globals) (im : Int) (arg_match : Option Match) :
    Option (dbm_res × Globals) :=
  if ¬ (0 ≤ im ∧ im < MACRO_MAX) then none
  else
    match arg_match with
    | some mt =>
      let g := { g with iteration := iter.ITER_MACRO }
      let nv := g.nvals.getD im.toNat 0
      let mac := g.macros.getD im.toNat 0
      let cp : Option (Option Nat) :=
        if nv ≠ 0 then (be32 g.m mac).map (dbm_get g.m) else some none
      match cp with
      | none => none
      | some cp =>
        match bymacro_search g.m mt nv nv.toNat 0 cp with
        | none => none
        | some iv =>
          if iv = nv then some (res_none, { g with bm_pp := none })
          else
            match be32 g.m (mac + 8 * iv.toNat + 4) with
            | none => none
            | some w => some (res_none, { g with bm_pp := dbm_get g.m w })
    | none =>
      if g.iteration ≠ iter.ITER_MACRO then some (res_none, g)
      else
        match g.bm_pp with
        | none => some (res_none, { g with iteration := iter.ITER_NONE, bm_pp := none })
        | some pp =>
          match be32 g.m pp with
          | none => none
          | some w =>
            if w = 0 then
              some (res_none, { g with iteration := iter.ITER_NONE, bm_pp := none })
            else
              match dbm_get g.m w with
              | none => none
              | some a =>
                some ({ page := page_diff ((a : Int) - (g.pages : Int)), bits := 0 },
                      { g with bm_pp := some (pp + 4) })

/-- The function `dbm_page_byname`. -/
def dbm_page_byname (g : Globals) (mt : Match) : Option Globals :=
  (page_bytitle g iter.ITER_NAME (some mt)).map Prod.snd

/-- The function `dbm_page_bysect`. -/
def dbm_page_bysect (g : Globals) (mt : Match) : Option Globals :=
  (page_bytitle g iter.ITER_SECT (some mt)).map Prod.snd

/-- The function `dbm_page_byarch`. -/
def dbm_page_byarch (g : Globals) (mt : Match) : Option Globals :=
  (page_byarch g (some mt)).map Prod.snd

/-- The function `dbm_page_bydesc`. -/
def dbm_page_bydesc (g : Globals) (mt : Match) : Option Globals :=
  (page_bytitle g iter.ITER_DESC (some mt)).map Prod.snd

/-- The function `dbm_page_bymacro`. -/
def dbm_page_bymacro (MACRO_MAX : Nat) (g : Globals) (im : Int) (mt : Match) : Option Globals :=
  ( page_bymacro MACRO_MAX g im (some mt)).map Prod.snd

/-- The function `dbm_page_next`. -/
def dbm_page_next (MACRO_MAX : Nat) (g : Globals) : Option (dbm_res × Globals) :=
  match g.iteration with
  | iter.ITER_NONE => some (res_none, g)
  | iter.ITER_ARCH => page_byarch g none
  | iter.ITER_MACRO => page_bymacro MACRO_MAX g 0 none
  | it => page_bytitle g it none

/-- The results of calling `dbm_page_next` up to `n` times, stopping after the
first sentinel: the hits in order, and whether the sentinel was reached. -/
def page_next_all (MACRO_MAX : Nat) : Nat → Globals → Option (List dbm_res × Bool)
  | 0, _ => some ([], false)
  | n + 1, g =>
    match dbm_page_next MACRO_MAX g with
    | none => none
    | some (r, g1) =>
      if r = res_none then some ([], true)
      else (page_next_all MACRO_MAX n g1).map (fun p => (r :: p.1, p.2))

/-- The results of `n` successive calls of `dbm_page_next`, sentinels
included, and the state after them. -/
def page_nexts (MACRO_MAX : Nat) : Nat → Globals → Option (List dbm_res × Globals)
  | 0, g => some ([], g)
  | n + 1, g =>
    match dbm_page_next MACRO_MAX g with
    | none => none
    | some (r, g1) => (page_nexts MACRO_MAX n g1).map (fun p => (r :: p.1, p.2))

/-- A filter with which an iteration over pages is armed: the function
`dbm_page_by*` called and its arguments. -/
inductive page_filter where
  | by_name (mt : Match)
  | by_sect (mt : Match)
  | by_arch (mt : Match)
  | by_desc (mt : Match)
  | by_macro (im : Int) (mt : Match)

/-- The call of the `dbm_page_by*` function that the filter names. -/
def arm (MACRO_MAX : Nat) (g : Globals) : page_filter → Option Globals
  | page_filter.by_name mt => dbm_page_byname g mt
  | page_filter.by_sect mt => dbm_page_bysect g mt
  | page_filter.by_arch mt => dbm_page_byarch g mt
  | page_filter.by_desc mt => dbm_page_bydesc g mt
  | page_filter.by_macro im mt => dbm_page_bymacro MACRO_MAX g im mt

/-- A call that the user of an open database makes: one of the `dbm_page_by*`
functions with its arguments, or `dbm_page_next`. -/
inductive reader_call where
  | by_filter (f : page_filter)
  | next

/-- The state after a sequence of calls; `none` when one of them faults. -/
def run_calls (MACRO_MAX : Nat) : List reader_call → Globals → Option Globals
  | [], g => some g
  | reader_call.by_filter f :: cs, g => (arm MACRO_MAX g f).bind (run_calls MACRO_MAX cs)
  | reader_call.next :: cs, g =>
    (dbm_page_next MACRO_MAX g).bind (fun p => run_calls MACRO_MAX cs p.2)

/-- What holds of the cursors in every state that the reader reaches after a
successful `dbm_open`: the page array starts at header slot 5 and the page
cursors of `page_bytitle` and `page_byarch` lie between 0 and `npages`. -/
def reader_ok (g : Globals) : Prop :=
  g.pages = dbm_getint 5 ∧ 0 ≤ g.bt_ip ∧ g.bt_ip ≤ g.npages ∧ 0 ≤ g.ba_ip ∧ g.ba_ip ≤ g.npages

instance (g : Globals) : Decidable (reader_ok g) :=
  inferInstanceAs (Decidable (_ ∧ _ ∧ _ ∧ _ ∧ _))

/-- Two states of a reader of the same file: what `dbm_open` set up is the
same in both. -/
def same_file (g h : Globals) : Prop :=
  g.m = h.m ∧ g.macros = h.macros ∧ g.nvals = h.nvals ∧ g.pages = h.pages ∧ g.npages = h.npages

/-- Two states of a reader of the same file that are in the same iteration
with the same cursor: the statics of the function that `dbm_page_next` calls
for this iteration are the same in both. -/
def same_cursor (g h : Globals) : Prop :=
  same_file g h ∧ g.iteration = h.iteration ∧
  (g.iteration = iter.ITER_NAME ∨ g.iteration = iter.ITER_SECT ∨ g.iteration = iter.ITER_DESC →
    g.bt_match = h.bt_match ∧ g.bt_cp = h.bt_cp ∧ g.bt_ip = h.bt_ip) ∧
  (g.iteration = iter.ITER_ARCH → g.ba_match = h.ba_match ∧ g.ba_ip = h.ba_ip) ∧
  (g.iteration = iter.ITER_MACRO → g.bm_pp = h.bm_pp)

/-! ## Macros by page -/

/-- The loop `while (iv < nvals[im])` of `macro_bypage`; the result is the
pair `(iv, pp)` on leaving the loop, `none` when `*pp` is read outside the
mapping or the fuel runs out. -/
def bypage_search (m : Mem) (ip nv : Int) : Nat → Int → Nat → Option (Int × Nat)
  | 0, _, _ => none
  | fuel + 1, iv, pp =>
    if iv < nv then
      match be32 m pp with
      | none => none
      | some w =>
        if w = ip then some (iv, pp)
        else if w = 0 then bypage_search m ip nv fuel (iv + 1) (pp + 4)
        else bypage_search m ip nv fuel iv (pp + 4)
    else some (iv, pp)

/-- The loop `while (*pp++ != 0) continue;` of `macro_bypage`; `none` when
`*pp` is read outside the mapping or the fuel runs out. -/
def bypage_skip (m : Mem) : Nat → Nat → Option Nat
  | 0, _ => none
  | fuel + 1, pp =>
    match be32 m pp with
    | none => none
    | some w => if w ≠ 0 then bypage_skip m fuel (pp + 4) else some (pp + 4)

/-- The function `macro_bypage`: the returned pointer (`none` for `NULL`) and
the new state; `none` for the whole when a `NULL` pointer or an array entry
before `macros[0]` is used or a word is read outside the mapping.  The code
compares the words of the pages lists with `ip` as they are stored; here both
sides of `*pp == ip` are given by their values decoded big-endian, which
compares the same. -/
def macro_bypage (MACRO_MAX : Nat) (g : Globals) (arg_im arg_ip : Int) :
    Option (Option Nat × Globals) :=
  if arg_im < MACRO_MAX ∧ arg_ip ≠ 0 then
    if arg_im < 0 then none
    else
      match be32 g.m (g.macros.getD arg_im.toNat 0 + 4) with
      | none => none
      | some w =>
        some (none, { g with mp_im := arg_im, mp_ip := arg_ip, mp_pp := dbm_get g.m w,
                             mp_iv := 0 })
  else if (MACRO_MAX : Int) ≤ g.mp_im then some (none, g)
  else if g.mp_im < 0 then none
  else
    let nv := g.nvals.getD g.mp_im.toNat 0
    let mac := g.macros.getD g.mp_im.toNat 0
    let found : Option (Int × Option Nat) :=
      if g.mp_iv < nv then
        match g.mp_pp with
        | none => none
        | some pp =>
          (bypage_search g.m g.mp_ip nv (g.m.length + nv.toNat + 1) g.mp_iv pp).map
            (fun r => (r.1, some r.2))
      else some (g.mp_iv, g.mp_pp)
    match found with
    | none => none
    | some (iv, pp) =>
      if iv = nv then
        some (none, { g with mp_im := MACRO_MAX, mp_ip := 0, mp_pp := none, mp_iv := iv })
      else
        let skipped : Option (Option Nat) :=
          if iv + 1 < nv then
            match pp with
            | none => none
            | some p => (bypage_skip g.m (g.m.length + 1) p).map some
          else some pp
        match skipped with
        | none => none
        | some pp1 =>
          match be32 g.m (mac + 8 * iv.toNat) with
          | none => none
          | some v => some (dbm_get g.m v, { g with mp_iv := iv + 1, mp_pp := pp1 })

/-- The function `dbm_macro_bypage`; `none` when an `assert` fails. -/
def dbm_macro_bypage (MACRO_MAX : Nat) (g : Globals) (im ip : Int) : Option Globals :=
  if 0 ≤ im ∧ im < MACRO_MAX ∧ ip ≠ 0 then ( macro_bypage MACRO_MAX g im ip).map Prod.snd
  else none

/-- The function `dbm_macro_next`. -/
def dbm_macro_next (MACRO_MAX : Nat) (g : Globals) : Option (Option Nat × Globals) :=
  macro_bypage MACRO_MAX g MACRO_MAX 0

/-- The results of `n` successive calls of `dbm_macro_next` and the state
after them. -/
def macro_nexts (MACRO_MAX : Nat) : Nat → Globals → Option (List (Option Nat) × Globals)
  | 0, g => some ([], g)
  | n + 1, g =>
    match dbm_macro_next MACRO_MAX g with
    | none => none
    | some (r, g1) => (macro_nexts MACRO_MAX n g1).map (fun p => (r :: p.1, p.2))

/-! ## The layout of macro values and pages lists -/

/-- The address of the `i`-th of the strings stored one after the other from
address `c` on; no value when one of the strings before it does not end inside
the mapping. -/
def seq_addr (m : Mem) (c : Nat) : Nat → Option Nat
  | 0 => some c
  | i + 1 =>
    match seq_addr m c i with
    | none => none
    | some a => (cstr m a).map (fun s => a + s.length + 1)

/-- The `i`-th of the strings stored one after the other from address `c`
on. -/
def seq_str (m : Mem) (c : Nat) (i : Nat) : Option (List (Fin 256)) :=
  (seq_addr m c i).bind (cstr m)

/-- The first index below `n`, counted from `i`, of a string in the sequence
from `c` on that satisfies the match; `i + n` when there is none; no value
when a string that has to be looked at does not end inside the mapping. -/
def first_value (m : Mem) (mt : Match) (c : Nat) : Nat → Nat → Option Nat
  | 0, i => some i
  | n + 1, i =>
    match seq_str m c i with
    | none => none
    | some s => if mt s then some i else first_value m mt c n (i + 1)

/-- The words stored from address `pp` up to the first zero word: a pages
list.  `none` when the fuel runs out or the list does not end inside the
mapping. -/
def word_list (m : Mem) : Nat → Nat → Option (List Int)
  | 0, _ => none
  | fuel + 1, pp =>
    match be32 m pp with
    | none => none
    | some w => if w = 0 then some [] else (word_list m fuel (pp + 4)).map (fun l => w :: l)

/-- The words stored from address `pp` on are those of the list `l`, none of
them zero, followed by a zero word. -/
def words_at (m : Mem) : Nat → List Int → Prop
  | pp, [] => be32 m pp = some 0
  | pp, x :: l => x ≠ 0 ∧ be32 m pp = some x ∧ words_at m (pp + 4) l

/-- Whether `words_at` holds can be computed. -/
def words_at.dec (m : Mem) : (pp : Nat) → (l : List Int) → Decidable (words_at m pp l)
  | pp, [] => inferInstanceAs (Decidable (be32 m pp = some 0))
  | pp, x :: l =>
    have := words_at.dec m (pp + 4) l
    inferInstanceAs (Decidable (x ≠ 0 ∧ be32 m pp = some x ∧ words_at m (pp + 4) l))

instance (m : Mem) (pp : Nat) (l : List Int) : Decidable (words_at m pp l) :=
  words_at.dec m pp l

/-- The pointer that `dbm_get` gives for the offset word stored at address
`a`; `none` when the word lies outside the mapping or the offset does not
resolve. -/
def ptr_at (m : Mem) (a : Nat) : Option Nat := (be32 m a).bind (dbm_get m)

/-- The pages lists of the values of the macro record at `mac`, from value
`i` on, are the lists `ls`, stored one after the other from address `pp` on,
each with its final zero word: the pages offset of each value resolves to the
first word of its list, and the list of the next value follows the zero word. -/
def lists_at (m : Mem) (mac : Nat) : Nat → Nat → List (List Int) → Prop
  | _, _, [] => True
  | i, pp, l :: rest =>
    ptr_at m (mac + 8 * i + 4) = some pp ∧ words_at m pp l ∧
    lists_at m mac (i + 1) (pp + 4 * l.length + 4) rest

/-- Whether `lists_at` holds can be computed. -/
def lists_at.dec (m : Mem) (mac : Nat) :
    (i pp : Nat) → (ls : List (List Int)) → Decidable (lists_at m mac i pp ls)
  | _, _, [] => isTrue trivial
  | i, pp, l :: rest =>
    have := lists_at.dec m mac (i + 1) (pp + 4 * l.length + 4) rest
    inferInstanceAs (Decidable (_ ∧ _ ∧ _))

instance (m : Mem) (mac i pp : Nat) (ls : List (List Int)) :
    Decidable (lists_at m mac i pp ls) := lists_at.dec m mac i pp ls

/-- What `dbm_macro_next` is to return after `dbm_macro_bypage(im, ip)` for
the pages lists `ls` of the values from index `i` on: for each value whose
list holds `ip`, the pointer that `dbm_get` gives for its value offset. -/
def bypage_values (m : Mem) (mac : Nat) (ip : Int) : Nat → List (List Int) → List (Option Nat)
  | _, [] => []
  | i, l :: rest =>
    if ip ∈ l then ptr_at m (mac + 8 * i) :: bypage_values m mac ip (i + 1) rest
    else bypage_values m mac ip (i + 1) rest

/-- The quality byte before the first name that satisfies the match in the
name block at address `cp`; `none` when the block holds no such name, the
fuel runs out or the block does not end inside the mapping. -/
def block_quality (m : Mem) (mt : Match) : Nat → Nat → Option (Fin 256)
  | 0, _ => none
  | fuel + 1, cp =>
    match byte m cp with
    | none => none
    | some q =>
      if q = 0 then none
      else
        match cstr m (cp + 1) with
        | none => none
        | some s =>
          if mt s then some q else block_quality m mt fuel (cp + 1 + s.length + 1)

/-- The quality byte of the first name of page `ip` that satisfies the match,
read from the name block that the page record points to. -/
def page_quality (g : Globals) (mt : Match) (ip : Nat) : Option (Fin 256) :=
  ((page_field g ip 0).bind (dbm_get g.m)).bind (fun cp => block_quality g.m mt g.m.length cp)

/-! ## The layout of name blocks -/

/-- The bytes of a name block: for each name its quality byte, its characters
and a NUL; then one more NUL. -/
def enc_names : List (Fin 256 × List (Fin 256)) → List (Fin 256)
  | [] => [0]
  | e :: r => e.1 :: (e.2 ++ 0 :: enc_names r)

/-- The bytes of the names of a block without the final NUL. -/
def enc_entries : List (Fin 256 × List (Fin 256)) → List (Fin 256)
  | [] => []
  | e :: r => e.1 :: (e.2 ++ 0 :: enc_entries r)

/-- The name blocks of consecutive pages, stored one after the other. -/
def enc_name_blocks : List (List (Fin 256 × List (Fin 256))) → List (Fin 256)
  | [] => []
  | p :: r => enc_names p ++ enc_name_blocks r

/-- A name block that `page_bytitle` can walk: at least one name, no quality
byte is zero and no name contains a NUL. -/
def wf_names (p : List (Fin 256 × List (Fin 256))) : Prop :=
  p ≠ [] ∧ ∀ e ∈ p, e.1 ≠ 0 ∧ ∀ b ∈ e.2, b ≠ 0

/-- The hits a name iteration is to produce for the pages `db`, the first of
which has index `i`: one for each page with a matching name, carrying the
quality byte of its first matching name as `cp[-1]` reads it. -/
def name_hits (mt : Match) : Nat → List (List (Fin 256 × List (Fin 256))) → List dbm_res
  | _, [] => []
  | i, p :: r =>
    match p.find? (fun e => mt e.2) with
    | some e => { page := (i : Int), bits := schar e.1 } :: name_hits mt (i + 1) r
    | none => name_hits mt (i + 1) r

instance (p : List (Fin 256 × List (Fin 256))) : Decidable (wf_names p) := by
  unfold wf_names; infer_instance

/-- The state of a name iteration that is about to read the name blocks of the
pages `db`, of which the first has index `i`: the cursor `cp` stands at the
first byte of these blocks, which follow one another in memory. -/
def name_cursor (g : Globals) (mt : Match) (i : Nat)
    (db : List (List (Fin 256 × List (Fin 256)))) : Prop :=
  g.iteration = iter.ITER_NAME ∧ g.bt_match = some mt ∧ g.bt_ip = (i : Int) ∧
  g.npages = (i : Int) + (db.length : Int) ∧ (∀ p ∈ db, wf_names p) ∧
  (db ≠ [] → ∃ A T, g.m = A ++ (enc_name_blocks db ++ T) ∧ g.bt_cp = some A.length)

/-! ## Example databases -/

/-- The low eight bits of a number. -/
def low8 (x : Nat) : Fin 256 := ⟨x % 256, Nat.mod_lt x (by decide)⟩

/-- The four bytes of a big-endian 32-bit word. -/
def w32 (x : Nat) : List (Fin 256) := [low8 (x / 16777216), low8 (x / 65536), low8 (x / 256), low8 x]

/-- A table of 36 macros that all point to the record at `rec`. -/
def macro_table (rec : Nat) : List (Fin 256) := w32 36 ++ (List.replicate 36 (w32 rec)).flatten

/-- A database with one page whose name offset (1000) lies outside the file.
Header at 0, the page record at 20, the section, description and file strings
at 40, 43 and 45, the macros table at 48, an empty macro record at 196 and the
final magic at 200. -/
def db_badname : Mem :=
  w32 0x3a7d0cdb ++ w32 1 ++ w32 48 ++ w32 200 ++ w32 1 ++
  (w32 1000 ++ w32 40 ++ w32 0 ++ w32 43 ++ w32 45) ++
  [49, 0, 0] ++ [100, 0] ++ [102, 0] ++ [0] ++
  macro_table 196 ++ w32 0 ++ w32 0x3a7d0cdb

/-- The match predicate "the name is foo". -/
def match_foo : Match := fun s => s == [102, 111, 111]

/-- The match predicate "the name is bar". -/
def match_bar : Match := fun s => s == [98, 97, 114]

/-- The names of the three pages of `db_names`: foo; foo and bar; baz. -/
def names3 : List (List (Fin 256 × List (Fin 256))) :=
  [[(1, [102, 111, 111])], [(2, [102, 111, 111]), (1, [98, 97, 114])], [(1, [98, 97, 122])]]

/-- A database with three pages whose name blocks are stored one after the
other at 80, 86 and 97.  Header at 0, the page records at 20, 40 and 60, the
section, description and file strings at 103, 106 and 108, the macros table at
112, an empty macro record at 260 and the final magic at 264. -/
def db_names : Mem :=
  w32 0x3a7d0cdb ++ w32 1 ++ w32 112 ++ w32 264 ++ w32 3 ++
  (w32 80 ++ w32 103 ++ w32 0 ++ w32 106 ++ w32 108) ++
  (w32 86 ++ w32 103 ++ w32 0 ++ w32 106 ++ w32 108) ++
  (w32 97 ++ w32 103 ++ w32 0 ++ w32 106 ++ w32 108) ++
  enc_name_blocks names3 ++
  [49, 0, 0] ++ [100, 0] ++ [102, 0] ++ [0, 0] ++
  macro_table 260 ++ w32 0 ++ w32 0x3a7d0cdb

/-- A database with two pages, named foo and bar, in which the name block of
page 1 (at 60) is stored before the name block of page 0 (at 66).  Header at
0, the page records at 20 and 40, the section, description and file strings at
72, 75 and 77, the macros table at 80, an empty macro record at 228 and the
final magic at 232. -/
def db_swapped : Mem :=
  w32 0x3a7d0cdb ++ w32 1 ++ w32 80 ++ w32 232 ++ w32 2 ++
  (w32 66 ++ w32 72 ++ w32 0 ++ w32 75 ++ w32 77) ++
  (w32 60 ++ w32 72 ++ w32 0 ++ w32 75 ++ w32 77) ++
  enc_names [(1, [98, 97, 114])] ++ enc_names [(1, [102, 111, 111])] ++
  [49, 0, 0] ++ [100, 0] ++ [102, 0] ++ [0] ++
  macro_table 228 ++ w32 0 ++ w32 0x3a7d0cdb

/-- The match predicate "the string is `s`". -/
def match_is (s : List (Fin 256)) : Match := fun t => t == s

/-- A database with three pages, named a; foo (quality 2); foo (quality 4),
in which the name block of page 2 (at 84) is stored before the name block of
page 1 (at 90).  Header at 0, the page records at 20, 40 and 60, the name
block of page 0 at 80, the section, description and file strings at 96, 99
and 101, an empty macro record at 104, the macros table (one macro) at 108
and the final magic at 116. -/
def db_shuffled : Mem :=
  w32 0x3a7d0cdb ++ w32 1 ++ w32 108 ++ w32 116 ++ w32 3 ++
  (w32 80 ++ w32 96 ++ w32 0 ++ w32 99 ++ w32 101) ++
  (w32 90 ++ w32 96 ++ w32 0 ++ w32 99 ++ w32 101) ++
  (w32 84 ++ w32 96 ++ w32 0 ++ w32 99 ++ w32 101) ++
  enc_names [(1, [97])] ++ enc_names [(4, [102, 111, 111])] ++ enc_names [(2, [102, 111, 111])] ++
  [49, 0, 0] ++ [100, 0] ++ [102, 0] ++ [0] ++
  w32 0 ++ (w32 1 ++ w32 104) ++ w32 0x3a7d0cdb

/-- A database with two pages (named a and b) and four macros.  Header at 0,
the page records at 20 and 40, the name blocks at 60 and 64, the section,
description and file strings at 68, 71 and 73.  The value strings x, y, a, b,
u, v, z at 76, 78, 80, 82, 84, 86, 88; the pages lists from 92 on; the macro
records at 152, 172, 192 and 212; the macros table at 224; the final magic at
244.

* Macro 0 has the values x (pages 0 and 1) and y (page 1), stored in order.
* Macro 1 has the values b (page 0) and a (page 1): the string of its first
  value is stored after the string of its second value.
* Macro 2 has the values u (page 0) and v (page 1): the pages list of its
  first value (at 136) is stored after the pages list of its second value
  (at 128).
* Macro 3 has the value z, whose pages list holds the offset 60, just past
  the two page records. -/
def db_macros : Mem :=
  w32 0x3a7d0cdb ++ w32 1 ++ w32 224 ++ w32 244 ++ w32 2 ++
  (w32 60 ++ w32 68 ++ w32 0 ++ w32 71 ++ w32 73) ++
  (w32 64 ++ w32 68 ++ w32 0 ++ w32 71 ++ w32 73) ++
  enc_names [(1, [97])] ++ enc_names [(1, [98])] ++
  [49, 0, 0] ++ [100, 0] ++ [102, 0] ++ [0] ++
  [120, 0] ++ [121, 0] ++ [97, 0] ++ [98, 0] ++ [117, 0] ++ [118, 0] ++ [122, 0] ++ [0, 0] ++
  (w32 20 ++ w32 40 ++ w32 0) ++ (w32 40 ++ w32 0) ++
  (w32 20 ++ w32 0) ++ (w32 40 ++ w32 0) ++
  (w32 40 ++ w32 0) ++ (w32 20 ++ w32 0) ++
  (w32 60 ++ w32 0) ++
  (w32 2 ++ (w32 76 ++ w32 92) ++ (w32 78 ++ w32 104)) ++
  (w32 2 ++ (w32 82 ++ w32 112) ++ (w32 80 ++ w32 120)) ++
  (w32 2 ++ (w32 84 ++ w32 136) ++ (w32 86 ++ w32 128)) ++
  (w32 1 ++ (w32 88 ++ w32 144)) ++
  (w32 4 ++ w32 152 ++ w32 172 ++ w32 192 ++ w32 212) ++
  w32 0x3a7d0cdb

/-- A database without pages and with 36 macros that have no value.  Header
at 0 (page count 0), the macros table at 20, the one macro record that all
table entries point to at 168 (its count is 0), and the final magic at 172;
the file is 176 bytes long. -/
def db_empty : Mem :=
  w32 0x3a7d0cdb ++ w32 1 ++ w32 20 ++ w32 172 ++ w32 0 ++
  macro_table 168 ++ w32 0 ++ w32 0x3a7d0cdb

/-- A file of 24 bytes whose header slot 2 names the offset 20, where the
word 36 is stored: the count of a macros table of which nothing else lies
inside the file. -/
def db_oob : Mem :=
  w32 0x3a7d0cdb ++ w32 1 ++ w32 20 ++ w32 20 ++ w32 0 ++ w32 36

/-- A database of 56 bytes whose header gives 100000 pages, of which only the
first record (at 20) lies inside the file.  Header at 0, the page record at
20, an empty macro record at 40, the macros table (one macro) at 44 and the
final magic at 52. -/
def db_short : Mem :=
  w32 0x3a7d0cdb ++ w32 1 ++ w32 44 ++ w32 52 ++ w32 100000 ++
  (w32 0 ++ w32 0 ++ w32 0 ++ w32 0 ++ w32 0) ++
  w32 0 ++ (w32 1 ++ w32 40) ++ w32 0x3a7d0cdb

/-- A database without pages and with one macro that has no value.  Header at
0 (page count 0), the macro record (the count 0) at 20, the macros table at
24 and the final magic at 32; the file is 36 bytes long.  The two words after
the count of the macro record are those of the macros table. -/
def db_sparse : Mem :=
  w32 0x3a7d0cdb ++ w32 1 ++ w32 24 ++ w32 32 ++ w32 0 ++
  w32 0 ++ (w32 1 ++ w32 20) ++ w32 0x3a7d0cdb

end Dbm

namespace Out

/-! ## The table model (`mandoc.h`, `out.h`) -/

/-- The value `SIZE_MAX` of a 64-bit `size_t`. -/
def SIZE_MAX : Nat := 18446744073709551615

/-- The flag bits of a layout cell (`TBL_CELL_*`) that the solver looks at,
one field per bit. -/
structure cell_flags where
  EQUAL : Bool := false
  WMAX : Bool := false
  WIGN : Bool := false
  BOLD : Bool := false
  ITALIC : Bool := false
  deriving DecidableEq, Repr

/-- The operation `a |= b` on flag words. -/
def cell_flags.or (a b : cell_flags) : cell_flags :=
  { EQUAL := a.EQUAL || b.EQUAL, WMAX := a.WMAX || b.WMAX, WIGN := a.WIGN || b.WIGN,
    BOLD := a.BOLD || b.BOLD, ITALIC := a.ITALIC || b.ITALIC }

/-- The enumeration `enum tbl_cellt`: the position of a layout cell. -/
inductive tbl_cellt where
  | TBL_CELL_CENTRE | TBL_CELL_RIGHT | TBL_CELL_LEFT | TBL_CELL_NUMBER
  | TBL_CELL_LONG | TBL_CELL_DOWN | TBL_CELL_HORIZ | TBL_CELL_DHORIZ
  deriving DecidableEq, Repr

/-- The enumeration `enum tbl_datt`: the position of a data cell. -/
inductive tbl_datt where
  | TBL_DATA_NONE | TBL_DATA_DATA | TBL_DATA_HORIZ | TBL_DATA_DHORIZ
  | TBL_DATA_NHORIZ | TBL_DATA_NDHORIZ
  deriving DecidableEq, Repr

/-- The enumeration `enum tbl_spant`: the kind of a span. -/
inductive tbl_spant where
  | TBL_SPAN_DATA | TBL_SPAN_HORIZ | TBL_SPAN_DHORIZ
  deriving DecidableEq, Repr

/-- The record `struct tbl_opts`; `BOX`, `DBOX` and `CENTRE` are the bits
`TBL_OPT_BOX`, `TBL_OPT_DBOX` and `TBL_OPT_CENTRE` of its field `opts`. -/
structure tbl_opts where
  BOX : Bool := false
  DBOX : Bool := false
  CENTRE : Bool := false
  decimal : Char := '.'
  lvert : Nat := 0
  rvert : Nat := 0
  cols : Nat
  deriving DecidableEq, Repr

/-- The record `struct tbl_cell`: a layout cell. -/
structure tbl_cell where
  col : Nat
  pos : tbl_cellt
  wstr : Option (List Char) := none
  width : Nat := 0
  spacing : Nat := SIZE_MAX
  vert : Nat := 0
  flags : cell_flags := {}
  deriving DecidableEq, Repr

/-- The record `struct tbl_dat`: a data cell. -/
structure tbl_dat where
  layout : tbl_cell
  string : Option (List Char)
  block : Int := 0
  hspans : Int := 0
  spans : Nat := 0
  pos : tbl_datt := tbl_datt.TBL_DATA_DATA
  deriving DecidableEq, Repr

/-- The record `struct tbl_span`: one row, with the list of its data cells
(`first`, `next`). -/
structure tbl_span where
  pos : tbl_spant
  first : List tbl_dat
  deriving DecidableEq, Repr

/-- The record `struct roffcol`: what the solver computes for one column. -/
structure roffcol where
  width : Nat := 0
  decimal : Nat := 0
  nwidth : Nat := 0
  spacing : Nat := 0
  flags : cell_flags := {}
  deriving DecidableEq, Repr

/-- The enumeration `enum roffscale`. -/
inductive roffscale where
  | SCALE_CM | SCALE_IN | SCALE_PC | SCALE_PT | SCALE_EM | SCALE_MM | SCALE_EN
  | SCALE_BU | SCALE_VS | SCALE_FS | SCALE_MAX
  deriving DecidableEq, Repr

/-- The record `struct roffsu`; the `double` is taken as a rational number. -/
structure roffsu where
  unit : roffscale
  scale : ℚ

/-- The measurement callbacks of `struct rofftbl`, with `strtod` of the C
library: `strtod s` is the value parsed and the number of bytes used. -/
structure rofftbl where
  slen : List Char → Nat
  len : Nat → Nat
  sulen : roffsu → Nat
  strtod : List Char → ℚ × Nat

/-! ## a2roffsu -/

/-- The function `a2roffsu`: the result is the returned pointer as a number of
bytes after `src` (`none` for `NULL`) together with the record left in `*dst`. -/
def a2roffsu (strtod : List Char → ℚ × Nat) (src : List Char) (defscale : roffscale) :
    Option Nat × roffsu :=
  let r := strtod src
  let unit0 := if defscale = roffscale.SCALE_MAX then roffscale.SCALE_BU else defscale
  if r.2 = 0 then (none, { unit := unit0, scale := r.1 })
  else
    let su (u : roffscale) : Option Nat × roffsu := (some (r.2 + 1), { unit := u, scale := r.1 })
    match src.drop r.2 with
    | 'c' :: _ => su roffscale.SCALE_CM
    | 'i' :: _ => su roffscale.SCALE_IN
    | 'f' :: _ => su roffscale.SCALE_FS
    | 'M' :: _ => su roffscale.SCALE_MM
    | 'm' :: _ => su roffscale.SCALE_EM
    | 'n' :: _ => su roffscale.SCALE_EN
    | 'P' :: _ => su roffscale.SCALE_PC
    | 'p' :: _ => su roffscale.SCALE_PT
    | 'u' :: _ => su roffscale.SCALE_BU
    | 'v' :: _ => su roffscale.SCALE_VS
    | _ =>
      if defscale = roffscale.SCALE_MAX then (none, { unit := unit0, scale := r.1 })
      else (some r.2, { unit := defscale, scale := r.1 })

/-- The unit letters of the scaled-unit grammar with the unit each names, as
the specification lists them. -/
def unit_letter : Char → Option roffscale
  | 'c' => some roffscale.SCALE_CM
  | 'i' => some roffscale.SCALE_IN
  | 'f' => some roffscale.SCALE_FS
  | 'M' => some roffscale.SCALE_MM
  | 'm' => some roffscale.SCALE_EM
  | 'n' => some roffscale.SCALE_EN
  | 'P' => some roffscale.SCALE_PC
  | 'p' => some roffscale.SCALE_PT
  | 'u' => some roffscale.SCALE_BU
  | 'v' => some roffscale.SCALE_VS
  | _ => none

/-! ## Measuring cells -/

/-- The loop of `tblcalc_literal` over the lines of a cell; `str` is what is
left of the text at `beg`, `lsz` the length of the current line and `w` the
column width so far.  The result is the new column width. -/
def literal_loop (slen : List Char → Nat) (mw : Nat) : Nat → List Char → Nat → Nat → Nat
  | 0, _, _, w => w
  | fuel + 1, str, lsz, w =>
    if str = [] then w
    else
      let word := if mw ≠ 0 then str.takeWhile (fun c => c != ' ') else str
      let rest := if mw ≠ 0 then (str.dropWhile (fun c => c != ' ')).dropWhile (fun c => c == ' ')
        else []
      let wsz := slen word
      let lsz1 := if mw ≠ 0 ∧ lsz ≠ 0 ∧ lsz + 1 + wsz ≤ mw then lsz + 1 + wsz else wsz
      literal_loop slen mw fuel rest lsz1 (if w < lsz1 then lsz1 else w)

/-- The function `tblcalc_literal`. -/
def tblcalc_literal (tbl : rofftbl) (col : roffcol) (dp : tbl_dat) (mw : Nat) : roffcol :=
  match dp.string with
  | none => col
  | some [] => col
  | some s => { col with width := literal_loop tbl.slen mw (s.length + 1) s 0 col.width }

/-- The scan of `tblcalc_number` for the last digit and the last decimal
point next to a digit; `prev` is `cp[-1]` (`none` at the start of the string),
`i` the index of `cp[0]`.  The result is `(lastdigit, lastpoint)`. -/
def number_scan (decimal : Char) :
    Option Char → Nat → List Char → Option Nat → Option Nat → Option Nat × Option Nat
  | _, _, [], ld, lp => (ld, lp)
  | prev, i, c :: rest, ld, lp =>
    if c = '\\' ∧ rest.head? = some '&' then (some i, some i)
    else if c = decimal ∧
        ((rest.head?.map Char.isDigit) = some true ∨ (prev.map Char.isDigit) = some true) then
      number_scan decimal (some c) (i + 1) rest ld (some i)
    else if c.isDigit then number_scan decimal (some c) (i + 1) rest (some i) lp
    else number_scan decimal (some c) (i + 1) rest ld lp

/-- The loop of `tblcalc_number` that adds up the widths of the characters
before `lastpoint`. -/
def number_intsz (slen : List Char → Nat) (s : List Char) (lastpoint : Nat) : Nat :=
  ((s.take lastpoint).map (fun c => slen [c])).sum

/-- The function `tblcalc_number`. -/
def tblcalc_number (tbl : rofftbl) (col : roffcol) (opts : tbl_opts) (dp : tbl_dat) : roffcol :=
  match dp.string with
  | none => col
  | some [] => col
  | some s =>
    let r := number_scan opts.decimal none 0 s none none
    let totsz := tbl.slen s
    match r.1 with
    | none => if col.width < totsz then { col with width := totsz } else col
    | some lastdigit =>
      let lastpoint := match r.2 with
        | none => lastdigit + 1
        | some p => p
      let intsz := number_intsz tbl.slen s lastpoint
      let col1 := if intsz > col.decimal then
          { col with nwidth := col.nwidth + (intsz - col.decimal), decimal := intsz }
        else col
      let totsz1 := if intsz > col.decimal then totsz else totsz + (col.decimal - intsz)
      if totsz1 > col1.nwidth then { col1 with nwidth := totsz1 } else col1

/-- The function `tblcalc_data`. -/
def tblcalc_data (tbl : rofftbl) (col : roffcol) (opts : tbl_opts) (dp : tbl_dat) (mw : Nat) :
    roffcol :=
  match dp.layout.pos with
  | tbl_cellt.TBL_CELL_HORIZ | tbl_cellt.TBL_CELL_DHORIZ =>
    if col.width < tbl.len 1 then { col with width := tbl.len 1 } else col
  | tbl_cellt.TBL_CELL_LONG | tbl_cellt.TBL_CELL_CENTRE | tbl_cellt.TBL_CELL_LEFT
  | tbl_cellt.TBL_CELL_RIGHT => tblcalc_literal tbl col dp mw
  | tbl_cellt.TBL_CELL_NUMBER => tblcalc_number tbl col opts dp
  | tbl_cellt.TBL_CELL_DOWN => col

/-! ## tblcalc -/

/-- The width of a layout cell as `tblcalc` uses it: the cached `width`, or,
when that is 0 and a width string is given that `a2roffsu` accepts, the value
that `tblcalc` computes with `sulen` and stores in the layout cell. -/
def layout_width (tbl : rofftbl) (cp : tbl_cell) : Nat :=
  match cp.wstr with
  | none => cp.width
  | some w =>
    if cp.width = 0 then
      match a2roffsu tbl.strtod w roffscale.SCALE_EN with
      | (some _, su) => tbl.sulen su
      | (none, _) => cp.width
    else cp.width

/-- The loop `while (maxcol < icol) tbl->cols[++maxcol].spacing = SIZE_MAX`. -/
def grow_maxcol (icol : Nat) : Nat → List roffcol → Int → List roffcol × Int
  | 0, cols, maxcol => (cols, maxcol)
  | fuel + 1, cols, maxcol =>
    if maxcol < (icol : Int) then
      let k := (maxcol + 1).toNat
      grow_maxcol icol fuel (cols.set k { cols.getD k {} with spacing := SIZE_MAX }) (maxcol + 1)
    else (cols, maxcol)

/-- The state of the first pass of `tblcalc`: the column array, `maxcol` and
`hspans`. -/
structure pass1 where
  cols : List roffcol
  maxcol : Int
  hspans : Int

/-- The body of the loop `for (dp = sp->first; dp; dp = dp->next)` of
`tblcalc` for one data cell; `none` when the cell's column lies outside the
column array. -/
def tblcalc_cell (tbl : rofftbl) (opts : tbl_opts) (rmargin : Nat) (st : pass1) (dp : tbl_dat) :
    Option pass1 :=
  if 0 < st.hspans - 1 then some { st with hspans := st.hspans - 1 }
  else if 1 < dp.hspans then some { st with hspans := dp.hspans }
  else
    let icol := dp.layout.col
    if opts.cols ≤ icol then none
    else
      let g := grow_maxcol icol (icol + 1) st.cols st.maxcol
      let col := g.1.getD icol {}
      let col := { col with flags := col.flags.or dp.layout.flags }
      if dp.layout.flags.WIGN then
        some { cols := g.1.set icol col, maxcol := g.2, hspans := dp.hspans }
      else
        let lw := layout_width tbl dp.layout
        let col := if col.width < lw then { col with width := lw } else col
        let col := if dp.layout.spacing ≠ SIZE_MAX ∧
            (col.spacing = SIZE_MAX ∨ col.spacing < dp.layout.spacing)
          then { col with spacing := dp.layout.spacing } else col
        let mw := if dp.block = 0 then 0
          else if lw ≠ 0 then lw
          else if rmargin ≠ 0 then (rmargin + opts.cols / 2) / (opts.cols + 1)
          else 0
        some { cols := g.1.set icol (tblcalc_data tbl col opts dp mw), maxcol := g.2,
               hspans := dp.hspans }

/-- The loop over the data cells of one span. -/
def tblcalc_cells (tbl : rofftbl) (opts : tbl_opts) (rmargin : Nat) :
    pass1 → List tbl_dat → Option pass1
  | st, [] => some st
  | st, dp :: rest =>
    match tblcalc_cell tbl opts rmargin st dp with
    | none => none
    | some st1 => tblcalc_cells tbl opts rmargin st1 rest

/-- The loop `for (maxcol = -1; sp; sp = sp->next)` of `tblcalc`. -/
def tblcalc_spans (tbl : rofftbl) (opts : tbl_opts) (rmargin : Nat) :
    List roffcol → Int → List tbl_span → Option (List roffcol × Int)
  | cols, maxcol, [] => some (cols, maxcol)
  | cols, maxcol, sp :: rest =>
    if sp.pos ≠ tbl_spant.TBL_SPAN_DATA then tblcalc_spans tbl opts rmargin cols maxcol rest
    else
      match tblcalc_cells tbl opts rmargin { cols := cols, maxcol := maxcol, hspans := 1 }
          sp.first with
      | none => none
      | some st => tblcalc_spans tbl opts rmargin st.cols st.maxcol rest

/-- The counters `necol`, `nxcol`, `ewidth`, `xwidth` of `tblcalc`. -/
structure counters where
  necol : Nat := 0
  nxcol : Nat := 0
  ewidth : Nat := 0
  xwidth : Nat := 0
  deriving DecidableEq, Repr

/-- The body of the loop "align numbers with text" for column `icol`. -/
def align_col (maxcol : Int) (icol : Nat) (col : roffcol) (a : counters) : roffcol × counters :=
  let col := if col.width > col.nwidth
    then { col with decimal := col.decimal + (col.width - col.nwidth) / 2 }
    else { col with width := col.nwidth }
  let col := if col.spacing = SIZE_MAX ∨ (icol : Int) = maxcol then { col with spacing := 3 } else col
  let a := if col.flags.EQUAL
    then { a with necol := a.necol + 1, ewidth := if a.ewidth < col.width then col.width else a.ewidth }
    else a
  let a := if col.flags.WMAX then { a with nxcol := a.nxcol + 1 }
    else { a with xwidth := a.xwidth + col.width }
  (col, a)

/-- The loop `for (icol = 0; icol <= maxcol; icol++)` that aligns numbers with
text and counts; the list holds the columns from `icol` on. -/
def align_loop (maxcol : Int) : Nat → List roffcol → counters → List roffcol × counters
  | _, [], a => ([], a)
  | icol, col :: rest, a =>
    if (icol : Int) ≤ maxcol then
      let r := align_col maxcol icol col a
      let t := align_loop maxcol (icol + 1) rest r.2
      (r.1 :: t.1, t.2)
    else (col :: rest, a)

/-- The loop that equalizes columns; `gate` is `nxcol && rmargin`.  The result
is the columns and the new `xwidth`. -/
def equalize_loop (maxcol : Int) (ewidth : Nat) (gate : Bool) :
    Nat → List roffcol → Nat → List roffcol × Nat
  | _, [], xwidth => ([], xwidth)
  | icol, col :: rest, xwidth =>
    if (icol : Int) ≤ maxcol then
      if ¬ col.flags.EQUAL then
        let t := equalize_loop maxcol ewidth gate (icol + 1) rest xwidth
        (col :: t.1, t.2)
      else if col.width = ewidth then
        let t := equalize_loop maxcol ewidth gate (icol + 1) rest xwidth
        (col :: t.1, t.2)
      else
        let xwidth := if gate then xwidth + (ewidth - col.width) else xwidth
        let t := equalize_loop maxcol ewidth gate (icol + 1) rest xwidth
        ({ col with width := ewidth } :: t.1, t.2)
    else (col :: rest, xwidth)

/-- The conversion of a `double` to `size_t`: the integer part.  The value is
given as the fraction `num / den` with `den > 0`.  A value below 0, for which
C leaves the conversion undefined from -1 on, gives 0. -/
def double_to_size (num : Int) (den : Nat) : Nat := (num / (den : Int)).toNat

/-- The width `(double)xwidth * necol / nxcol - ewidth + 0.4995` of `tblcalc`
converted to `size_t`, in exact arithmetic: the value is the fraction with
numerator `10000 * xwidth * necol - 10000 * nxcol * ewidth + 4995 * nxcol` and
denominator `10000 * nxcol`. -/
def max_width (xwidth necol nxcol ewidth : Nat) : Nat :=
  double_to_size
    (10000 * (xwidth : Int) * necol - 10000 * (nxcol : Int) * ewidth + 4995 * (nxcol : Int))
    (10000 * nxcol)

/-- The statement `col->width--` on a `size_t`. -/
def size_dec (w : Nat) : Nat := (w + SIZE_MAX) % (SIZE_MAX + 1)

/-- The loop that distributes the available width `xwidth` over the columns to
maximize; `necol` counts them and `ewidth` is the sum of their new widths. -/
def maximize_loop (maxcol : Int) (xwidth nxcol : Nat) (quirkcol : Int) :
    Nat → List roffcol → Nat → Nat → List roffcol
  | _, [], _, _ => []
  | icol, col :: rest, necol, ewidth =>
    if (icol : Int) ≤ maxcol then
      if ¬ col.flags.WMAX then
        col :: maximize_loop maxcol xwidth nxcol quirkcol (icol + 1) rest necol ewidth
      else
        let necol := necol + 1
        let w := max_width xwidth necol nxcol ewidth
        let w := if (necol : Int) = quirkcol then size_dec w else w
        { col with width := w } ::
          maximize_loop maxcol xwidth nxcol quirkcol (icol + 1) rest necol (ewidth + w)
    else col :: rest

/-- The frame overhead `(opts->opts & (TBL_OPT_BOX | TBL_OPT_DBOX) ? 2 :
!!opts->lvert + !!opts->rvert)`. -/
def frame_width (opts : tbl_opts) : Nat :=
  if opts.BOX ∨ opts.DBOX then 2
  else (if opts.lvert ≠ 0 then 1 else 0) + (if opts.rvert ≠ 0 then 1 else 0)

/-- The value of `quirkcol` for the available width `xwidth`. -/
def quirk_col (xwidth nxcol : Nat) : Int :=
  if nxcol = 5 then
    if xwidth % nxcol + 2 ≠ 3 ∧ xwidth % nxcol + 2 ≠ 4 then -1 else ((xwidth % nxcol + 2 : Nat) : Int)
  else -1

/-- The columns and counters of `tblcalc` after the equalize step, before the
maximize step. -/
def tblcalc_equalized (cols : List roffcol) (maxcol : Int) (rmargin : Nat) :
    List roffcol × counters :=
  let r := align_loop maxcol 0 cols {}
  if r.2.necol ≠ 0 then
    let e := equalize_loop maxcol r.2.ewidth (decide (r.2.nxcol ≠ 0 ∧ rmargin ≠ 0)) 0 r.1 r.2.xwidth
    (e.1, { r.2 with xwidth := e.2 })
  else r

/-- The total `xwidth` that `tblcalc` compares with the right margin: the
width of the columns not to maximize, the margins between columns and the
frame. -/
def fixed_width (opts : tbl_opts) (maxcol : Int) (a : counters) : Int :=
  (a.xwidth : Int) + 3 * maxcol + (frame_width opts : Int)

/-- The second half of `tblcalc`, from "align numbers with text" on, for the
column array and `maxcol` left by the first pass. -/
def tblcalc_solve (opts : tbl_opts) (cols : List roffcol) (maxcol : Int)
    (offset rmargin : Nat) : List roffcol :=
  let r := tblcalc_equalized cols maxcol rmargin
  if r.2.nxcol ≠ 0 ∧ rmargin ≠ 0 then
    let xw := fixed_width opts maxcol r.2
    if (rmargin : Int) ≤ (offset : Int) + xw then r.1
    else
      let avail := ((rmargin : Int) - offset - xw).toNat
      maximize_loop maxcol avail r.2.nxcol (quirk_col avail r.2.nxcol) 0 r.1 0 0
  else r.1

/-- The function `tblcalc`; `spans` is the list of spans from `sp` on.  The
result is the column array `tbl->cols`; `none` when a data cell names a column
outside the array. -/
def tblcalc (tbl : rofftbl) (opts : tbl_opts) (spans : List tbl_span) (offset rmargin : Nat) :
    Option (List roffcol) :=
  match tblcalc_spans tbl opts rmargin (List.replicate opts.cols {}) (-1) spans with
  | none => none
  | some (cols, maxcol) => some (tblcalc_solve opts cols maxcol offset rmargin)

/-! ## Quantities used to state the properties of the solver -/

/-- The rounded share of the first `k` of `n` maximized columns in the
available width `A`: the integer part of `A * k / n + 0.4995`. -/
def rounded_share (A n k : Nat) : Nat := (10000 * A * k + 4995 * n) / (10000 * n)

/-- The sum of the widths that `tblcalc` gives to the first `k` maximized
columns: the rounded share, less 1 when `k` is the quirk column `q`. -/
def quirk_share (A n : Nat) (q : Int) (k : Nat) : Nat :=
  rounded_share A n k - (if (k : Int) = q then 1 else 0)

/-- The quirk column `q` is either absent (-1) or the third or fourth of five
columns, and then at least one unit wide before it is decremented. -/
def quirk_ok (A n : Nat) (q : Int) : Prop :=
  q = -1 ∨ (n = 5 ∧ (q = 3 ∨ q = 4) ∧
    ∀ k : Nat, ((k + 1 : Nat) : Int) = q → rounded_share A 5 k < rounded_share A 5 (k + 1))

/-- The plain rounded distribution of the available width `A` over `n`
columns: the differences of consecutive rounded shares. -/
def plain_widths (A n : Nat) : List Nat :=
  (List.range n).map (fun j => rounded_share A n (j + 1) - rounded_share A n j)

/-- The widths of the columns to maximize, in column order. -/
def wmax_widths (cols : List roffcol) : List Nat :=
  (cols.filter (fun c => c.flags.WMAX)).map (fun c => c.width)

/-- The sum of the widths of the columns not to maximize. -/
def fixed_sum (cols : List roffcol) : Nat :=
  ((cols.filter (fun c => !c.flags.WMAX)).map (fun c => c.width)).sum

/-- The sum of the widths of all columns. -/
def total_width (cols : List roffcol) : Nat := (cols.map (fun c => c.width)).sum

/-- The largest width of a column to equalize. -/
def equal_max (cols : List roffcol) : Nat :=
  ((cols.filter (fun c => c.flags.EQUAL)).map (fun c => c.width)).foldr max 0

/-- The columns after `maxcol` are as `calloc` left them; the list holds the
columns from `icol` on. -/
def unused_beyond (maxcol : Int) (icol : Nat) (cols : List roffcol) : Prop :=
  ∀ (j : Nat) (c : roffcol), cols[j]? = some c → maxcol < ((icol + j : Nat) : Int) → c = {}

/-- The last index in `a, a + 1, ..., a + n - 1` at which `P` holds. -/
def last_index (P : Nat → Bool) (a n : Nat) : Option Nat := ((List.range' a n).filter P).getLast?

/-- The text holds the alignment indicator, a backslash followed by `&`. -/
def has_indicator : List Char → Bool
  | [] => false
  | c :: rest => if c = '\\' ∧ rest.head? = some '&' then true else has_indicator rest

/-- The index `i` holds a decimal point that has a digit next to it. -/
def is_point (decimal : Char) (s : List Char) (i : Nat) : Bool :=
  decide (s.getD i '\x00' = decimal ∧
    ((s.getD (i + 1) '\x00').isDigit = true ∨ (0 < i ∧ (s.getD (i - 1) '\x00').isDigit = true)))

/-- The length of the integer part of a numeric cell as the specification
words it: the part before the last decimal point adjacent to a digit, or
through the last digit when there is no such point. -/
def claimed_intlen (decimal : Char) (s : List Char) : Nat :=
  match last_index (is_point decimal s) 0 s.length with
  | some p => p
  | none =>
    match last_index (fun i => (s.getD i '\x00').isDigit) 0 s.length with
    | some d => d + 1
    | none => 0

/-- The width of the integer part of a numeric cell as the specification
words it. -/
def claimed_intsz (slen : List Char → Nat) (decimal : Char) (s : List Char) : Nat :=
  ((s.take (claimed_intlen decimal s)).map (fun c => slen [c])).sum

/-! ## Quantities used to state the properties of the first pass -/

/-- The last argument of the call of `tblcalc_data` in `tblcalc`: the maximum
line width `mw` for the data cell `dp`. -/
def wrap_width (tbl : rofftbl) (opts : tbl_opts) (rmargin : Nat) (dp : tbl_dat) : Nat :=
  if dp.block = 0 then 0
  else if layout_width tbl dp.layout ≠ 0 then layout_width tbl dp.layout
  else if rmargin ≠ 0 then (rmargin + opts.cols / 2) / (opts.cols + 1)
  else 0

/-- The maximum line width of a data cell as the specification words it: 0
for a cell not in block mode; for a block cell the layout width when that is
not 0, else the integer quotient of the right margin by the number of declared
columns plus one when the right margin is positive, else 0. -/
def claimed_wrap_width (tbl : rofftbl) (opts : tbl_opts) (rmargin : Nat) (dp : tbl_dat) : Nat :=
  if dp.block = 0 then 0
  else if layout_width tbl dp.layout ≠ 0 then layout_width tbl dp.layout
  else if 0 < rmargin then rmargin / (opts.cols + 1)
  else 0

/-- The words that the loop of `tblcalc_literal` measures when `mw` is not 0,
one for each turn of the loop: a word ends before the next space, and the
spaces after that one are skipped. -/
def words_loop : Nat → List Char → List (List Char)
  | 0, _ => []
  | fuel + 1, str =>
    if str = [] then []
    else str.takeWhile (fun c => c != ' ') ::
      words_loop fuel ((str.dropWhile (fun c => c != ' ')).dropWhile (fun c => c == ' '))

/-- The words of a text. -/
def text_words (s : List Char) : List (List Char) := words_loop (s.length + 1) s

/-- Greedy filling of lines as the specification words it, on the widths of
the words; `cur` is the width of the current line.  A word joins the current
line, after a space one unit wide, when that line is not empty and the sum
does not exceed `mw`; otherwise it starts a new line.  The result is the
widths of the lines. -/
def greedy_lines (mw : Nat) : Nat → List Nat → List Nat
  | cur, [] => [cur]
  | cur, w :: ws =>
    if cur ≠ 0 ∧ cur + 1 + w ≤ mw then greedy_lines mw (cur + 1 + w) ws
    else cur :: greedy_lines mw w ws

/-- The largest number of a list, 0 for the empty list. -/
def longest (l : List Nat) : Nat := l.foldr max 0

/-- The data cells of one span that the first pass of `tblcalc` measures: the
cells that its loop does not skip as part of a horizontal span; `hspans` is
the counter on entry (1 at the start of a span). -/
def measured_cells : Int → List tbl_dat → List tbl_dat
  | _, [] => []
  | hspans, dp :: rest =>
    if 0 < hspans - 1 then measured_cells (hspans - 1) rest
    else if 1 < dp.hspans then measured_cells dp.hspans rest
    else dp :: measured_cells dp.hspans rest

/-- The layout positions that `tblcalc_data` measures with
`tblcalc_literal`. -/
def is_literal_pos : tbl_cellt → Bool
  | tbl_cellt.TBL_CELL_LONG | tbl_cellt.TBL_CELL_CENTRE | tbl_cellt.TBL_CELL_LEFT
  | tbl_cellt.TBL_CELL_RIGHT => true
  | _ => false

/-- The data cell `dp` fits in a column of width `w`: `w` is at least the
layout width of the cell and, when the cell is not in block mode and is
measured as a literal (LONG, CENTRE, LEFT or RIGHT), at least the width of its
text. -/
def cell_fits (tbl : rofftbl) (dp : tbl_dat) (w : Nat) : Prop :=
  layout_width tbl dp.layout ≤ w ∧
  (dp.block = 0 → is_literal_pos dp.layout.pos = true →
    ∀ s, dp.string = some s → tbl.slen s ≤ w ∨ (s = [] ∧ tbl.slen [] ≠ 0))

/-- The loop of `maximize_loop` with its two conversions checked: the result
is `none` when the value converted to `size_t` is below 0 or when
`col->width--` is applied to the width 0. -/
def maximize_checked (maxcol : Int) (xwidth nxcol : Nat) (quirkcol : Int) :
    Nat → List roffcol → Nat → Nat → Option (List roffcol)
  | _, [], _, _ => some []
  | icol, col :: rest, necol, ewidth =>
    if (icol : Int) ≤ maxcol then
      if ¬ col.flags.WMAX then
        (maximize_checked maxcol xwidth nxcol quirkcol (icol + 1) rest necol ewidth).map
          (fun t => col :: t)
      else
        let necol := necol + 1
        if 10000 * (xwidth : Int) * necol - 10000 * (nxcol : Int) * ewidth + 4995 * (nxcol : Int) < 0
        then none
        else
          let w := max_width xwidth necol nxcol ewidth
          if (necol : Int) = quirkcol ∧ w = 0 then none
          else
            let w := if (necol : Int) = quirkcol then w - 1 else w
            (maximize_checked maxcol xwidth nxcol quirkcol (icol + 1) rest necol (ewidth + w)).map
              (fun t => { col with width := w } :: t)
    else some (col :: rest)

/-! ## Example tables -/

/-- A terminal in which every character is one unit wide. -/
def tbl_unit : rofftbl :=
  { slen := List.length, len := fun n => n, sulen := fun _ => 0, strtod := fun _ => (0, 0) }

/-- A data cell of column `col` with the given layout position, flags and text. -/
def cell (col : Nat) (pos : tbl_cellt) (flags : cell_flags) (text : String) : tbl_dat :=
  { layout := { col := col, pos := pos, flags := flags }, string := some text.toList }

/-- Five columns to maximize, all empty. -/
def spans_five : List tbl_span :=
  [{ pos := tbl_spant.TBL_SPAN_DATA,
     first := (List.range 5).map
       (fun i => cell i tbl_cellt.TBL_CELL_LEFT { WMAX := true } "") }]

/-- Three columns to equalize, holding texts of 4, 7 and 5 characters. -/
def spans_equal : List tbl_span :=
  [{ pos := tbl_spant.TBL_SPAN_DATA,
     first := [cell 0 tbl_cellt.TBL_CELL_LEFT { EQUAL := true } "aaaa",
               cell 1 tbl_cellt.TBL_CELL_LEFT { EQUAL := true } "bbbbbbb",
               cell 2 tbl_cellt.TBL_CELL_LEFT { EQUAL := true } "ccccc"] }]

/-- Two columns to equalize, of which the first is also to maximize. -/
def spans_equal_wmax : List tbl_span :=
  [{ pos := tbl_spant.TBL_SPAN_DATA,
     first := [cell 0 tbl_cellt.TBL_CELL_LEFT { EQUAL := true, WMAX := true } "aaaa",
               cell 1 tbl_cellt.TBL_CELL_LEFT { EQUAL := true } "bbbbbbb"] }]

/-- One numeric column with the cells 12.5 and 100.125. -/
def spans_numbers : List tbl_span :=
  [{ pos := tbl_spant.TBL_SPAN_DATA, first := [cell 0 tbl_cellt.TBL_CELL_NUMBER {} "12.5"] },
   { pos := tbl_spant.TBL_SPAN_DATA, first := [cell 0 tbl_cellt.TBL_CELL_NUMBER {} "100.125"] }]

/-- One column holding the number 12.5 and a text of 20 characters. -/
def spans_mixed : List tbl_span :=
  [{ pos := tbl_spant.TBL_SPAN_DATA, first := [cell 0 tbl_cellt.TBL_CELL_NUMBER {} "12.5"] },
   { pos := tbl_spant.TBL_SPAN_DATA,
     first := [cell 0 tbl_cellt.TBL_CELL_LEFT {} "aaaaaaaaaaaaaaaaaaaa"] }]

/-- One numeric column to maximize, holding 100.125. -/
def spans_number_wmax : List tbl_span :=
  [{ pos := tbl_spant.TBL_SPAN_DATA,
     first := [cell 0 tbl_cellt.TBL_CELL_NUMBER { WMAX := true } "100.125"] }]

/-- One row with the text block "a b" in the first of three declared
columns. -/
def spans_block : List tbl_span :=
  [{ pos := tbl_spant.TBL_SPAN_DATA,
     first := [{ layout := { col := 0, pos := tbl_cellt.TBL_CELL_LEFT },
                 string := some "a b".toList, block := 1 }] }]

/-- The text block "a b" of `spans_block`. -/
def cell_block : tbl_dat :=
  { layout := { col := 0, pos := tbl_cellt.TBL_CELL_LEFT }, string := some "a b".toList,
    block := 1 }

/-- Five columns to maximize, all of width 0. -/
def cols_five : List roffcol := List.replicate 5 { flags := { WMAX := true } }

end Out

namespace TblTerm

open Out

/-! ## Rendering of table cells (`tbl_term.c`) -/

/-- The character `ASCII_NBRSP` of `mandoc.h`, the non-breaking space. -/
def ASCII_NBRSP : Char := Char.ofNat 31

/-- What a cell renderer hands to the terminal: a word, or a change of font. -/
inductive term_op where
  | word (s : List Char)
  | fontpush_bold
  | fontpush_under
  | fontpopq
  deriving DecidableEq, Repr

/-- The loop `for (i = 0; i < len; i += sz) term_word(tp, cp)` of `tbl_char`. -/
def tbl_char_loop (c : Char) (sz len : Nat) : Nat → Nat → List term_op
  | 0, _ => []
  | fuel + 1, i => if i < len then term_op.word [c] :: tbl_char_loop c sz len fuel (i + sz) else []

/-- The function `tbl_char`; `none` when the character has width 0 and the
loop does not end. -/
def tbl_char (strlen : List Char → Nat) (c : Char) (len : Nat) : Option (List term_op) :=
  if strlen [c] = 0 ∧ 0 < len then none else some (tbl_char_loop c (strlen [c]) len len 0)

/-- The function `tbl_word`. -/
def tbl_word (dp : tbl_dat) : List term_op :=
  (if dp.layout.flags.BOLD then [term_op.fontpush_bold]
    else if dp.layout.flags.ITALIC then [term_op.fontpush_under] else []) ++
  [term_op.word (dp.string.getD [])] ++ [term_op.fontpopq]

/-- The value `strrchr(s, c) - s`: the index of the last `c` in `s`. -/
def strrchr (s : List Char) (c : Char) : Option Nat :=
  ((List.range s.length).filter (fun i => s.getD i '\x00' == c)).getLast?

/-- The value `d` of `tbl_number`: the width of the text before the last
decimal character plus the width of that character, or the width of the whole
text plus the width of a decimal character when there is none. -/
def number_d (strlen : List Char → Nat) (opts : tbl_opts) (s : List Char) : Nat :=
  match strrchr s opts.decimal with
  | some k => ((s.take k).map (fun c => strlen [c])).sum + strlen [opts.decimal]
  | none => strlen s + strlen [opts.decimal]

/-- The left padding `padl` that `tbl_number` computes. -/
def number_padl (strlen : List Char → Nat) (opts : tbl_opts) (s : List Char) (col : roffcol) :
    Nat :=
  if col.decimal > number_d strlen opts s ∧ col.width > strlen s then
    (if col.decimal - number_d strlen opts s + strlen s > col.width then col.width - strlen s
      else col.decimal - number_d strlen opts s)
  else 0

/-- The function `tbl_number`: what it writes for the data cell `dp` in a
column solved to `col`; `none` when an `assert` fails or `tbl_char` does not
end. -/
def tbl_number (strlen : List Char → Nat) (opts : tbl_opts) (dp : tbl_dat) (col : roffcol) :
    Option (List term_op) :=
  match dp.string with
  | none => none
  | some s =>
    let sz := strlen s
    let padl := number_padl strlen opts s col
    let left := if col.decimal > number_d strlen opts s ∧ col.width > sz
      then tbl_char strlen ASCII_NBRSP padl else some []
    let right := if col.width > sz + padl then tbl_char strlen ASCII_NBRSP (col.width - sz - padl)
      else some []
    match left, right with
    | some l, some r => some (l ++ tbl_word dp ++ r)
    | _, _ => none

/-- The output column in which the decimal point of a rendered numeric cell
stands: the left padding plus the width of the text before the last decimal
character. -/
def point_column (strlen : List Char → Nat) (opts : tbl_opts) (s : List Char) (col : roffcol) :
    Option Nat :=
  (strrchr s opts.decimal).map
    (fun k => number_padl strlen opts s col + ((s.take k).map (fun c => strlen [c])).sum)

/-- The loop `while (spans--) width += tp->tbl.cols[++ic].width + 3` of
`tbl_literal`; `none` when it reads past the end of the column array. -/
def span_width (cols : List roffcol) : Nat → Nat → Nat → Option Nat
  | 0, _, width => some width
  | spans + 1, ic, width =>
    match cols[ic + 1]? with
    | none => none
    | some c => span_width cols spans (ic + 1) (width + c.width + 3)

/-- The padding `(padl, padr)` that `tbl_literal` computes for a cell at
position `pos` whose text is `len` wide, in a field of width `width`; `len1`
is the value of `term_len(tp, 1)`. -/
def literal_pad (len1 : Nat) (pos : tbl_cellt) (width len : Nat) : Nat × Nat :=
  let padr := if width > len then width - len else 0
  match pos with
  | tbl_cellt.TBL_CELL_LONG => (len1, if padr > len1 then padr - len1 else 0)
  | tbl_cellt.TBL_CELL_CENTRE => if 2 > padr then (0, padr) else (padr / 2, padr - padr / 2)
  | tbl_cellt.TBL_CELL_RIGHT => (padr, 0)
  | _ => (0, padr)

/-- The function `tbl_literal`: what it writes for the data cell `dp` in a
column solved to `col`, where `cols` is the array `tp->tbl.cols`; `none` when
the `assert` fails, the column array is overrun or `tbl_char` does not end.
The callbacks `term_strlen` and `term_len` of the output device are the
parameters `strlen` and `term_len`. -/
def tbl_literal (strlen : List Char → Nat) (term_len : Nat → Nat) (cols : List roffcol)
    (dp : tbl_dat) (col : roffcol) : Option (List term_op) :=
  match dp.string with
  | none => none
  | some s =>
    match span_width cols dp.spans dp.layout.col col.width with
    | none => none
    | some width =>
      let p := literal_pad (term_len 1) dp.layout.pos width (strlen s)
      match tbl_char strlen ASCII_NBRSP p.1, tbl_char strlen ASCII_NBRSP p.2 with
      | some l, some r => some (l ++ tbl_word dp ++ r)
      | _, _ => none

/-- The width of what a cell renderer has written: the sum of the widths of
the words. -/
def ops_width (strlen : List Char → Nat) : List term_op → Nat
  | [] => 0
  | term_op.word s :: rest => strlen s + ops_width strlen rest
  | _ :: rest => ops_width strlen rest

/-- The width of the field of a cell that starts in column `ic` and spans
`spans` further columns: the width of the column plus, for each column
spanned, its width and 3. -/
def field_width (cols : List roffcol) (spans ic : Nat) (width : Nat) : Nat :=
  width + ((List.range spans).map (fun k => (cols.getD (ic + k + 1) {}).width + 3)).sum

end TblTerm

namespace Validate

/-! ## The macro tree (`mdoc.h`, `private.h`) -/

/-- The enumeration `enum mdoc_type`: the kind of a node. -/
inductive mdoc_type where
  | MDOC_ROOT | MDOC_BLOCK | MDOC_HEAD | MDOC_BODY | MDOC_TAIL | MDOC_ELEM | MDOC_TEXT | MDOC_TBL
  deriving DecidableEq, Repr

/-- The macro tokens, in the order of the table `mdoc_valids`; `MDOC_Comment`
is entry 0. -/
inductive mdoc_tok where
  | MDOC_Comment | MDOC_Dd | MDOC_Dt | MDOC_Os | MDOC_Sh | MDOC_Ss | MDOC_Pp | MDOC_D1 | MDOC_Dl
  | MDOC_Bd | MDOC_Ed | MDOC_Bl | MDOC_El | MDOC_It | MDOC_Ad | MDOC_An | MDOC_Ar | MDOC_Cd
  | MDOC_Cm | MDOC_Dv | MDOC_Er | MDOC_Ev | MDOC_Ex | MDOC_Fa | MDOC_Fd | MDOC_Fl | MDOC_Fn
  | MDOC_Ft | MDOC_Ic | MDOC_In | MDOC_Li | MDOC_Nd | MDOC_Nm | MDOC_Op | MDOC_Ot | MDOC_Pa
  | MDOC_Rv | MDOC_St | MDOC_Va | MDOC_Vt | MDOC_Xr | MDOC__A | MDOC__B | MDOC__D | MDOC__I
  | MDOC__J | MDOC__N | MDOC__O | MDOC__P | MDOC__R | MDOC__T | MDOC__V | MDOC_Ac | MDOC_Ao
  | MDOC_Aq | MDOC_At | MDOC_Bc | MDOC_Bf | MDOC_Bo | MDOC_Bq | MDOC_Bsx | MDOC_Bx | MDOC_Db
  | MDOC_Dc | MDOC_Do | MDOC_Dq | MDOC_Ec | MDOC_Ef | MDOC_Em | MDOC_Eo | MDOC_Fx | MDOC_Ms
  | MDOC_No | MDOC_Ns | MDOC_Nx | MDOC_Ox | MDOC_Pc | MDOC_Pf | MDOC_Po | MDOC_Pq | MDOC_Qc
  | MDOC_Ql | MDOC_Qo | MDOC_Qq | MDOC_Re | MDOC_Rs | MDOC_Sc | MDOC_So | MDOC_Sq | MDOC_Sm
  | MDOC_Sx | MDOC_Sy | MDOC_Tn | MDOC_Ux | MDOC_Xc | MDOC_Xo | MDOC_Fo | MDOC_Fc | MDOC_Oo
  | MDOC_Oc | MDOC_Bk | MDOC_Ek | MDOC_Bt | MDOC_Hf | MDOC_Fr | MDOC_Ud
  deriving DecidableEq, Repr

/-- The identifiers of macro arguments that the validator looks at; any other
argument is `MDOC_Other`. -/
inductive mdoc_argt where
  | MDOC_Ragged | MDOC_Unfilled | MDOC_Filled | MDOC_Literal | MDOC_File
  | MDOC_Bullet | MDOC_Dash | MDOC_Enum | MDOC_Hyphen | MDOC_Item | MDOC_Tag | MDOC_Diag
  | MDOC_Hang | MDOC_Ohang | MDOC_Inset | MDOC_Column | MDOC_Std | MDOC_Other
  deriving DecidableEq, Repr

/-- The record `struct mdoc_arg`: an argument with the number `sz` of its
values. -/
structure mdoc_arg where
  arg : mdoc_argt
  line : Nat := 0
  pos : Nat := 0
  sz : Nat := 0
  deriving DecidableEq, Repr

/-- Modelled from the spec: the enumeration `enum mdoc_sec` of `mdoc.h`, the
named sections in their conventional order, from `SEC_PROLOGUE` (the initial
value of `lastnamed`) to `SEC_CUSTOM`. -/
inductive mdoc_sec where
  | SEC_PROLOGUE | SEC_BODY | SEC_NAME | SEC_SYNOPSIS | SEC_DESCRIPTION | SEC_RETURN_VALUES
  | SEC_ENVIRONMENT | SEC_FILES | SEC_EXAMPLES | SEC_DIAGNOSTICS | SEC_ERRORS | SEC_SEE_ALSO
  | SEC_STANDARDS | SEC_HISTORY | SEC_AUTHORS | SEC_CAVEATS | SEC_BUGS | SEC_CUSTOM
  deriving DecidableEq, Repr

/-- The numeric value of a section in the enumeration. -/
def mdoc_sec.ord (s : mdoc_sec) : Nat := s.toCtorIdx

/-- The enumeration `enum mdoc_msec`: the manual section. -/
inductive mdoc_msec where
  | MSEC_DEFAULT | MSEC_1 | MSEC_2 | MSEC_3 | MSEC_3f | MSEC_3p | MSEC_4 | MSEC_5 | MSEC_6
  | MSEC_7 | MSEC_8 | MSEC_9 | MSEC_X11 | MSEC_X11R6 | MSEC_local | MSEC_n | MSEC_unass
  | MSEC_draft | MSEC_paper
  deriving DecidableEq, Repr

/-- The record `struct mdoc_node`.  Pointers to nodes are indices into the
node array of the document.  `VALID` is the bit `MDOC_VALID` of `flags`;
`argv` is `data.elem.argv` or `data.block.argv` (with `argc` its length),
`head` and `body` are `data.block.head` and `data.block.body`, and `string` is
`data.text.string`. -/
structure mdoc_node where
  type : mdoc_type
  tok : mdoc_tok := mdoc_tok.MDOC_Comment
  VALID : Bool := false
  line : Nat := 0
  pos : Nat := 0
  parent : Option Nat := none
  child : Option Nat := none
  next : Option Nat := none
  argv : List mdoc_arg := []
  head : Option Nat := none
  body : Option Nat := none
  string : List Char := []
  deriving DecidableEq, Repr

/-- The record `struct mdoc_meta`; `date` is 0 when unset. -/
structure mdoc_meta where
  msec : mdoc_msec := mdoc_msec.MSEC_DEFAULT
  date : Int := 0
  title : Option (List Char) := none
  os : Option (List Char) := none
  name : Option (List Char) := none
  deriving DecidableEq, Repr

/-- The class of a diagnostic: an error, or a warning of type `WARN_SYNTAX` or
`WARN_COMPAT`. -/
inductive diag_level where
  | ERR | WARN_SYNTAX | WARN_COMPAT
  deriving DecidableEq, Repr

/-- A diagnostic handed to the caller's callbacks. -/
structure diag where
  level : diag_level
  line : Nat
  pos : Nat
  msg : String
  deriving DecidableEq, Repr

/-- The record `struct mdoc`, with the diagnostics emitted so far. -/
structure mdoc where
  nodes : List mdoc_node
  last : Nat
  first : Nat
  meta : mdoc_meta := {}
  lastnamed : mdoc_sec := mdoc_sec.SEC_PROLOGUE
  log : List diag := []
  deriving DecidableEq, Repr

/-- What the validator takes from outside: the answer "continue?" of the
caller's callbacks to a diagnostic, and the lookup functions `mdoc_atosec`,
`mdoc_atomsec` and `mdoc_atoatt` (of which only the test against
`ATT_DEFAULT` is used). -/
structure externs where
  sink : diag → Bool
  mdoc_atosec : List Char → mdoc_sec
  mdoc_atomsec : List Char → mdoc_msec
  atoatt_is_default : List Char → Bool

/-! ## Diagnostics -/

/-- Modelled from the spec: the functions `mdoc_nerr`, `mdoc_nwarn` and
`mdoc_perr` of `mdoc.c`, which hand a diagnostic with a position to the
caller's callback and return its answer. -/
def mdoc_emit (e : externs) (m : mdoc) (d : diag) : Option (Bool × mdoc) :=
  some (e.sink d, { m with log := m.log ++ [d] })

/-- Modelled from the spec: the functions `mdoc_err` and `mdoc_warn` of
`mdoc.c`, which report at the position of `mdoc->last`. -/
def mdoc_emit_last (e : externs) (m : mdoc) (level : diag_level) (msg : String) :
    Option (Bool × mdoc) :=
  match m.nodes[m.last]? with
  | none => none
  | some n => mdoc_emit e m { level := level, line := n.line, pos := n.pos, msg := msg }

/-- A diagnostic at the position of node `n`. -/
def mdoc_emit_node (e : externs) (m : mdoc) (n : mdoc_node) (level : diag_level) (msg : String) :
    Option (Bool × mdoc) :=
  mdoc_emit e m { level := level, line := n.line, pos := n.pos, msg := msg }

/-! ## Walking the tree -/

/-- The nodes reached from `n` by following `next`; `none` when a pointer
leaves the node array or the chain does not end within `fuel` nodes. -/
def siblings (nodes : List mdoc_node) : Nat → Option Nat → Option (List mdoc_node)
  | _, none => some []
  | 0, some _ => none
  | fuel + 1, some i =>
    match nodes[i]? with
    | none => none
    | some n => (siblings nodes fuel n.next).map (fun l => n :: l)

/-- The children of node `n`. -/
def children (m : mdoc) (n : mdoc_node) : Option (List mdoc_node) :=
  siblings m.nodes m.nodes.length n.child

/-- The function `count_child`. -/
def count_child (m : mdoc) : Option Nat :=
  match m.nodes[m.last]? with
  | none => none
  | some n => (children m n).map List.length

/-- The document `m1` is the document `m` with further diagnostics at the end
of the log, and nothing else changed. -/
def frame (m m1 : mdoc) : Prop := ∃ ds : List diag, m1 = { m with log := m.log ++ ds }

/-! ## Generic counting rules -/

/-- The comparisons of `CHECK_CHILD_DEFN`. -/
inductive ineq where
  | gt | eq | lt
  deriving DecidableEq, Repr

/-- The text `#ineq` of a comparison. -/
def ineq.text : ineq → String
  | ineq.gt => ">"
  | ineq.eq => "=="
  | ineq.lt => "<"

/-- The test `i ineq sz`. -/
def ineq.holds : ineq → Nat → Nat → Bool
  | ineq.gt, i, sz => decide (i > sz)
  | ineq.eq, i, sz => decide (i = sz)
  | ineq.lt, i, sz => decide (i < sz)

/-- The functions `err_child_*` (`err = true`) and `warn_child_*` generated by
`CHECK_CHILD_DEFN`, with `err_count` and `warn_count`. -/
def check_child (e : externs) (err : Bool) (op : ineq) (m : mdoc) (p : String) (sz : Nat) :
    Option (Bool × mdoc) :=
  match count_child m with
  | none => none
  | some i =>
    if op.holds i sz then some (true, m)
    else if err then
      mdoc_emit_last e m diag_level.ERR
        ("requires " ++ p ++ " " ++ toString sz ++ " " ++ op.text ++ " (has " ++ toString i ++ ")")
    else
      mdoc_emit_last e m diag_level.WARN_SYNTAX
        ("suggests " ++ p ++ " " ++ toString sz ++ " " ++ op.text ++ " (has " ++ toString i ++ ")")

/-- The functions generated by `CHECK_BODY_DEFN`. -/
def check_body (e : externs) (err : Bool) (op : ineq) (num : Nat) (m : mdoc) :
    Option (Bool × mdoc) :=
  match m.nodes[m.last]? with
  | none => none
  | some n =>
    if n.type ≠ mdoc_type.MDOC_BODY then some (true, m)
    else check_child e err op m "multiline parameters" num

/-- The functions generated by `CHECK_ELEM_DEFN`; `none` when the `assert`
fails. -/
def check_elem (e : externs) (err : Bool) (op : ineq) (num : Nat) (m : mdoc) :
    Option (Bool × mdoc) :=
  match m.nodes[m.last]? with
  | none => none
  | some n =>
    if n.type ≠ mdoc_type.MDOC_ELEM then none
    else check_child e err op m "line parameters" num

/-- The functions generated by `CHECK_HEAD_DEFN`. -/
def check_head (e : externs) (err : Bool) (op : ineq) (num : Nat) (m : mdoc) :
    Option (Bool × mdoc) :=
  match m.nodes[m.last]? with
  | none => none
  | some n =>
    if n.type ≠ mdoc_type.MDOC_HEAD then some (true, m)
    else check_child e err op m "multiline parameters" num

/-! ## Specific post-child-parse rules -/

/-- Modelled from the spec: the function `xstrcmp` of `xstd.c`, true when the
strings are equal. -/
def xstrcmp (p : List Char) (q : String) : Bool := p == q.toList

/-- Modelled from the spec: the function `xstrlcats` of `xstd.c`, which joins
the texts of a node list with single blanks in a buffer of `sz` bytes.  The
result is `none` when an `assert` fails (a node is no text), `some none` when
the text does not fit (return value 0), and otherwise the buffer. -/
def xstrlcats (sz : Nat) : List mdoc_node → List Char → Option (Option (List Char))
  | [], buf => some (some buf)
  | n :: rest, buf =>
    if n.type ≠ mdoc_type.MDOC_TEXT then none
    else if sz ≤ (buf ++ n.string).length then some none
    else if rest ≠ [] then
      if sz ≤ (buf ++ n.string ++ [' ']).length then some none
      else xstrlcats sz rest (buf ++ n.string ++ [' '])
    else xstrlcats sz rest (buf ++ n.string)

/-- The function `post_bf`. -/
def post_bf (e : externs) (m : mdoc) : Option (Bool × mdoc) :=
  match m.nodes[m.last]? with
  | none => none
  | some last =>
    if last.type ≠ mdoc_type.MDOC_BLOCK then some (true, m)
    else
      match last.head.bind (fun h => m.nodes[h]?) with
      | none => none
      | some head =>
        if last.argv.length = 0 then
          match head.child with
          | none => mdoc_emit_last e m diag_level.ERR "argument expected"
          | some c =>
            match m.nodes[c]? with
            | none => none
            | some cn =>
              if xstrcmp cn.string "Em" then some (true, m)
              else if xstrcmp cn.string "Li" then some (true, m)
              else if xstrcmp cn.string "Sm" then some (true, m)
              else mdoc_emit_node e m cn diag_level.ERR "invalid font"
        else if head.child.isSome then mdoc_emit_last e m diag_level.ERR "argument expected"
        else if last.argv.length = 1 then some (true, m)
        else mdoc_emit_last e m diag_level.ERR "argument expected"

/-- The function `post_nm`. -/
def post_nm (e : externs) (m : mdoc) : Option (Bool × mdoc) :=
  match m.nodes[m.last]? with
  | none => none
  | some last =>
    if last.child.isSome then some (true, m)
    else if m.meta.name.isSome then some (true, m)
    else mdoc_emit_last e m diag_level.ERR "not yet invoked with name"

/-- The function `post_xr`. -/
def post_xr (e : externs) (m : mdoc) : Option (Bool × mdoc) :=
  match (m.nodes[m.last]?).bind (fun last => last.child.bind (fun c => m.nodes[c]?)) with
  | none => none
  | some c =>
    match c.next with
    | none => some (true, m)
    | some i =>
      match m.nodes[i]? with
      | none => none
      | some n =>
        if e.mdoc_atomsec n.string ≠ mdoc_msec.MSEC_DEFAULT then some (true, m)
        else mdoc_emit_node e m n diag_level.ERR "invalid manual section"

/-- The function `post_at`. -/
def post_at (e : externs) (m : mdoc) : Option (Bool × mdoc) :=
  match m.nodes[m.last]? with
  | none => none
  | some last =>
    match last.child with
    | none => some (true, m)
    | some c =>
      match m.nodes[c]? with
      | none => none
      | some cn =>
        if ¬ e.atoatt_is_default cn.string then some (true, m)
        else mdoc_emit_last e m diag_level.ERR "require valid symbol"

/-- The function `post_an`. -/
def post_an (e : externs) (m : mdoc) : Option (Bool × mdoc) :=
  match m.nodes[m.last]? with
  | none => none
  | some last =>
    if last.argv.length ≠ 0 then
      if last.child.isNone then some (true, m)
      else mdoc_emit_last e m diag_level.ERR "argument(s) expected"
    else if last.child.isSome then some (true, m)
    else mdoc_emit_last e m diag_level.ERR "argument(s) expected"

/-- The function `post_ex`. -/
def post_ex (e : externs) (m : mdoc) : Option (Bool × mdoc) :=
  match m.nodes[m.last]? with
  | none => none
  | some last =>
    if last.argv.length = 0 then
      if last.child.isSome then some (true, m)
      else mdoc_emit_last e m diag_level.ERR "argument(s) expected"
    else if last.child.isSome then mdoc_emit_last e m diag_level.ERR "argument(s) expected"
    else if last.argv.length ≠ 1 then mdoc_emit_last e m diag_level.ERR "argument(s) expected"
    else if (last.argv.head?.map (fun a => a.arg)) ≠ some mdoc_argt.MDOC_Std then
      mdoc_emit_last e m diag_level.ERR "argument(s) expected"
    else some (true, m)

/-- The kinds of list that `post_it` tells apart. -/
inductive it_type where
  | TYPE_NONE | TYPE_BODY | TYPE_HEAD | TYPE_OHEAD
  deriving DecidableEq, Repr

/-- The loop of `post_it` over the arguments of the list: the kind of the
first list-type argument and that argument (`sv`). -/
def it_scan : List mdoc_arg → it_type × Option mdoc_argt
  | [] => (it_type.TYPE_NONE, none)
  | a :: rest =>
    match a.arg with
    | mdoc_argt.MDOC_Tag | mdoc_argt.MDOC_Diag | mdoc_argt.MDOC_Hang | mdoc_argt.MDOC_Ohang
    | mdoc_argt.MDOC_Inset => (it_type.TYPE_HEAD, some a.arg)
    | mdoc_argt.MDOC_Bullet | mdoc_argt.MDOC_Dash | mdoc_argt.MDOC_Enum | mdoc_argt.MDOC_Hyphen
    | mdoc_argt.MDOC_Item => (it_type.TYPE_BODY, some a.arg)
    | mdoc_argt.MDOC_Column => (it_type.TYPE_OHEAD, some a.arg)
    | _ => it_scan rest

/-- A warning of `post_it`, emitted when `cond` holds; the result is false
when the callback said not to continue. -/
def it_warn (e : externs) (m : mdoc) (cond : Bool) (msg : String) : Option (Bool × mdoc) :=
  if cond then mdoc_emit_last e m diag_level.WARN_SYNTAX msg else some (true, m)

/-- The function `post_it`. -/
def post_it (e : externs) (m : mdoc) : Option (Bool × mdoc) :=
  match m.nodes[m.last]? with
  | none => none
  | some last =>
    if last.type ≠ mdoc_type.MDOC_BLOCK then some (true, m)
    else
      match (last.parent.bind (fun p => m.nodes[p]?)).bind
          (fun p => p.parent.bind (fun q => m.nodes[q]?)),
        last.head.bind (fun h => m.nodes[h]?), last.body.bind (fun b => m.nodes[b]?) with
      | some bl, some head, some body =>
        let t := it_scan bl.argv
        if t.1 = it_type.TYPE_NONE then none
        else
          let w1 := if t.1 = it_type.TYPE_BODY
            then it_warn e m head.child.isSome "no argument suggested"
            else it_warn e m head.child.isNone "argument(s) suggested"
          match w1 with
          | none => none
          | some (false, m1) => some (false, m1)
          | some (true, m1) =>
            let w2 := if t.1 = it_type.TYPE_OHEAD
              then it_warn e m1 body.child.isSome "no multiline body suggested"
              else it_warn e m1 body.child.isNone "multiline body suggested"
            match w2 with
            | none => none
            | some (false, m2) => some (false, m2)
            | some (true, m2) =>
              if t.2 ≠ some mdoc_argt.MDOC_Column then some (true, m2)
              else
                match bl.argv.head?, children m2 head with
                | some a0, some cs =>
                  if cs.length = a0.sz then some (true, m2)
                  else mdoc_emit_last e m2 diag_level.ERR
                    ("need " ++ toString a0.sz ++ " columns (have " ++ toString cs.length ++ ")")
                | _, _ => none
      | _, _, _ => none

/-- The function `post_bl`. -/
def post_bl (e : externs) (m : mdoc) : Option (Bool × mdoc) :=
  match m.nodes[m.last]? with
  | none => none
  | some last =>
    if last.type ≠ mdoc_type.MDOC_BODY then some (true, m)
    else
      match children m last with
      | none => none
      | some cs =>
        match cs.find? (fun n => ¬ (n.type = mdoc_type.MDOC_BLOCK ∧ n.tok = mdoc_tok.MDOC_It)) with
        | none => some (true, m)
        | some n => mdoc_emit_node e m n diag_level.ERR "bad child of parent list"

/-- The function `ebool`. -/
def ebool (e : externs) (m : mdoc) : Option (Bool × mdoc) :=
  match m.nodes[m.last]? with
  | none => none
  | some last =>
    match children m last with
    | none => none
    | some cs =>
      match cs.find? (fun n => ¬ (n.type = mdoc_type.MDOC_TEXT ∧
          (xstrcmp n.string "on" ∨ xstrcmp n.string "off"))) with
      | none => some (true, m)
      | some n => mdoc_emit_node e m n diag_level.ERR "expected boolean"

/-- The function `post_root`. -/
def post_root (e : externs) (m : mdoc) : Option (Bool × mdoc) :=
  match m.nodes[m.first]? with
  | none => none
  | some first =>
    match first.child with
    | none => mdoc_emit_last e m diag_level.ERR "document lacks data"
    | some c =>
      if m.lastnamed = mdoc_sec.SEC_PROLOGUE then
        mdoc_emit_last e m diag_level.ERR "document lacks prologue"
      else
        match m.nodes[c]? with
        | none => none
        | some cn =>
          if cn.type ≠ mdoc_type.MDOC_BLOCK then
            mdoc_emit_last e m diag_level.ERR "lacking post-prologue `Sh'"
          else if cn.tok ≠ mdoc_tok.MDOC_Sh then
            mdoc_emit_last e m diag_level.ERR "lacking post-prologue `Sh'"
          else some (true, m)

/-- The loop of `post_sh_body` over the children before the last one; the
result is false when a callback said not to continue. -/
def sh_body_loop (e : externs) : mdoc → List mdoc_node → Option (Bool × mdoc)
  | m, [] => some (true, m)
  | m, [_] => some (true, m)
  | m, n :: n1 :: rest =>
    if n.type = mdoc_type.MDOC_ELEM ∧ n.tok = mdoc_tok.MDOC_Nm then sh_body_loop e m (n1 :: rest)
    else if n.type = mdoc_type.MDOC_TEXT then sh_body_loop e m (n1 :: rest)
    else
      match mdoc_emit_node e m n diag_level.WARN_COMPAT
          "section NAME should contain Nm as initial body child" with
      | none => none
      | some (false, m1) => some (false, m1)
      | some (true, m1) => sh_body_loop e m1 (n1 :: rest)

/-- The function `post_sh_body`. -/
def post_sh_body (e : externs) (m : mdoc) : Option (Bool × mdoc) :=
  if m.lastnamed ≠ mdoc_sec.SEC_NAME then some (true, m)
  else
    match (m.nodes[m.last]?).bind (fun last => children m last) with
    | none => none
    | some [] =>
      mdoc_emit_last e m diag_level.WARN_COMPAT "section NAME should contain Nm and Nd"
    | some (c :: cs) =>
      match sh_body_loop e m (c :: cs) with
      | none => none
      | some (false, m1) => some (false, m1)
      | some (true, m1) =>
        if ((c :: cs).getLast?.map
            (fun n => decide (n.type = mdoc_type.MDOC_ELEM ∧ n.tok = mdoc_tok.MDOC_Nd))) =
            some true then some (true, m1)
        else mdoc_emit_last e m1 diag_level.WARN_COMPAT
          "section NAME should contain Nd as the last child"

/-- The function `post_sh_head`. -/
def post_sh_head (e : externs) (m : mdoc) : Option (Bool × mdoc) :=
  match m.nodes[m.last]? with
  | none => none
  | some last =>
    if last.tok ≠ mdoc_tok.MDOC_Sh then none
    else
      match (children m last).bind (fun cs => xstrlcats 64 cs []) with
      | none => none
      | some none => mdoc_emit_last e m diag_level.ERR "macro parameters too long"
      | some (some buf) =>
        let sec := e.mdoc_atosec buf
        if m.lastnamed = mdoc_sec.SEC_BODY ∧ sec ≠ mdoc_sec.SEC_NAME then
          mdoc_emit_last e m diag_level.ERR "section NAME must be first"
        else if sec = mdoc_sec.SEC_CUSTOM then some (true, m)
        else if sec = m.lastnamed then
          mdoc_emit_last e m diag_level.WARN_SYNTAX "section repeated"
        else if sec.ord < m.lastnamed.ord then
          mdoc_emit_last e m diag_level.WARN_SYNTAX "section out of conventional order"
        else some (true, m)

/-- The function `post_sh`. -/
def post_sh (e : externs) (m : mdoc) : Option (Bool × mdoc) :=
  match m.nodes[m.last]? with
  | none => none
  | some last =>
    if last.type = mdoc_type.MDOC_HEAD then post_sh_head e m
    else if last.type = mdoc_type.MDOC_BODY then post_sh_body e m
    else some (true, m)

/-! ## The rule table -/

/-- The post-child-parse rules (`v_post`) that the table names. -/
inductive v_post where
  | herr_ge1 | herr_le1 | herr_eq0 | eerr_eq0 | eerr_le1 | eerr_le2 | eerr_eq1 | eerr_ge1
  | ewarn_eq0 | ewarn_eq1 | bwarn_ge1 | ewarn_ge1 | ebool | post_sh | post_bl | post_it
  | post_ex | post_an | post_at | post_xr | post_nm | post_bf
  deriving DecidableEq, Repr

/-- The function a rule of the table stands for. -/
def v_post.run (e : externs) : v_post → mdoc → Option (Bool × mdoc)
  | v_post.herr_ge1 => check_head e true ineq.gt 0
  | v_post.herr_le1 => check_head e true ineq.lt 2
  | v_post.herr_eq0 => check_head e true ineq.eq 0
  | v_post.eerr_eq0 => check_elem e true ineq.eq 0
  | v_post.eerr_le1 => check_elem e true ineq.lt 2
  | v_post.eerr_le2 => check_elem e true ineq.lt 3
  | v_post.eerr_eq1 => check_elem e true ineq.eq 1
  | v_post.eerr_ge1 => check_elem e true ineq.gt 0
  | v_post.ewarn_eq0 => check_elem e false ineq.eq 0
  | v_post.ewarn_eq1 => check_elem e false ineq.eq 1
  | v_post.bwarn_ge1 => check_body e false ineq.gt 0
  | v_post.ewarn_ge1 => check_elem e false ineq.gt 0
  | v_post.ebool => Validate.ebool e
  | v_post.post_sh => Validate.post_sh e
  | v_post.post_bl => Validate.post_bl e
  | v_post.post_it => Validate.post_it e
  | v_post.post_ex => Validate.post_ex e
  | v_post.post_an => Validate.post_an e
  | v_post.post_at => Validate.post_at e
  | v_post.post_xr => Validate.post_xr e
  | v_post.post_nm => Validate.post_nm e
  | v_post.post_bf => Validate.post_bf e

/-- The collections of post-child-parse routines. -/
def posts_bool : List v_post := [v_post.eerr_eq1, v_post.ebool]
/-- See `posts_bool`. -/
def posts_bd : List v_post := [v_post.herr_eq0, v_post.bwarn_ge1]
/-- See `posts_bool`. -/
def posts_text : List v_post := [v_post.eerr_ge1]
/-- See `posts_bool`. -/
def posts_wtext : List v_post := [v_post.ewarn_ge1]
/-- See `posts_bool`. -/
def posts_notext : List v_post := [v_post.eerr_eq0]
/-- See `posts_bool`. -/
def posts_wline : List v_post := [v_post.bwarn_ge1, v_post.herr_eq0]
/-- See `posts_bool`. -/
def posts_sh : List v_post := [v_post.herr_ge1, v_post.bwarn_ge1, v_post.post_sh]
/-- See `posts_bool`. -/
def posts_bl : List v_post := [v_post.herr_eq0, v_post.bwarn_ge1, v_post.post_bl]
/-- See `posts_bool`. -/
def posts_it : List v_post := [v_post.post_it]
/-- See `posts_bool`. -/
def posts_in : List v_post := [v_post.ewarn_eq1]
/-- See `posts_bool`. -/
def posts_ss : List v_post := [v_post.herr_ge1]
/-- See `posts_bool`. -/
def posts_pf : List v_post := [v_post.eerr_eq1]
/-- See `posts_bool`. -/
def posts_pp : List v_post := [v_post.ewarn_eq0]
/-- See `posts_bool`. -/
def posts_ex : List v_post := [v_post.eerr_le1, v_post.post_ex]
/-- See `posts_bool`. -/
def posts_an : List v_post := [v_post.post_an]
/-- See `posts_bool`. -/
def posts_at : List v_post := [v_post.post_at]
/-- See `posts_bool`. -/
def posts_xr : List v_post := [v_post.eerr_ge1, v_post.eerr_le2, v_post.post_xr]
/-- See `posts_bool`. -/
def posts_nm : List v_post := [v_post.post_nm]
/-- See `posts_bool`. -/
def posts_bf : List v_post := [v_post.herr_le1, v_post.post_bf]
/-- See `posts_bool`. -/
def posts_rs : List v_post := [v_post.herr_eq0, v_post.bwarn_ge1]
/-- See `posts_bool`. -/
def posts_fo : List v_post := [v_post.bwarn_ge1]
/-- See `posts_bool`. -/
def posts_bk : List v_post := [v_post.herr_eq0, v_post.bwarn_ge1]

/-- The column `post` of the table `mdoc_valids`; `none` is `NULL`. -/
def mdoc_valids_post : mdoc_tok → Option (List v_post)
  | mdoc_tok.MDOC_Dd => some posts_text
  | mdoc_tok.MDOC_Sh => some posts_sh
  | mdoc_tok.MDOC_Ss => some posts_ss
  | mdoc_tok.MDOC_Pp => some posts_pp
  | mdoc_tok.MDOC_D1 => some posts_wline
  | mdoc_tok.MDOC_Dl => some posts_wline
  | mdoc_tok.MDOC_Bd => some posts_bd
  | mdoc_tok.MDOC_Bl => some posts_bl
  | mdoc_tok.MDOC_It => some posts_it
  | mdoc_tok.MDOC_Ad => some posts_text
  | mdoc_tok.MDOC_An => some posts_an
  | mdoc_tok.MDOC_Cd => some posts_text
  | mdoc_tok.MDOC_Dv => some posts_text
  | mdoc_tok.MDOC_Er => some posts_text
  | mdoc_tok.MDOC_Ev => some posts_text
  | mdoc_tok.MDOC_Ex => some posts_ex
  | mdoc_tok.MDOC_Fa => some posts_text
  | mdoc_tok.MDOC_Fd => some posts_wtext
  | mdoc_tok.MDOC_Fn => some posts_text
  | mdoc_tok.MDOC_Ft => some posts_wtext
  | mdoc_tok.MDOC_Ic => some posts_text
  | mdoc_tok.MDOC_In => some posts_in
  | mdoc_tok.MDOC_Li => some posts_text
  | mdoc_tok.MDOC_Nd => some posts_wtext
  | mdoc_tok.MDOC_Nm => some posts_nm
  | mdoc_tok.MDOC_Op => some posts_wline
  | mdoc_tok.MDOC_Rv => some posts_notext
  | mdoc_tok.MDOC_St => some posts_notext
  | mdoc_tok.MDOC_Va => some posts_text
  | mdoc_tok.MDOC_Vt => some posts_text
  | mdoc_tok.MDOC_Xr => some posts_xr
  | mdoc_tok.MDOC__A => some posts_text
  | mdoc_tok.MDOC__B => some posts_text
  | mdoc_tok.MDOC__D => some posts_text
  | mdoc_tok.MDOC__I => some posts_text
  | mdoc_tok.MDOC__J => some posts_text
  | mdoc_tok.MDOC__N => some posts_text
  | mdoc_tok.MDOC__O => some posts_text
  | mdoc_tok.MDOC__P => some posts_text
  | mdoc_tok.MDOC__R => some posts_text
  | mdoc_tok.MDOC__T => some posts_text
  | mdoc_tok.MDOC__V => some posts_text
  | mdoc_tok.MDOC_Aq => some posts_wline
  | mdoc_tok.MDOC_At => some posts_at
  | mdoc_tok.MDOC_Bf => some posts_bf
  | mdoc_tok.MDOC_Bq => some posts_wline
  | mdoc_tok.MDOC_Db => some posts_bool
  | mdoc_tok.MDOC_Dq => some posts_wline
  | mdoc_tok.MDOC_Em => some posts_text
  | mdoc_tok.MDOC_Ms => some posts_text
  | mdoc_tok.MDOC_No => some posts_notext
  | mdoc_tok.MDOC_Ns => some posts_notext
  | mdoc_tok.MDOC_Pf => some posts_pf
  | mdoc_tok.MDOC_Pq => some posts_wline
  | mdoc_tok.MDOC_Ql => some posts_wline
  | mdoc_tok.MDOC_Qq => some posts_wline
  | mdoc_tok.MDOC_Rs => some posts_rs
  | mdoc_tok.MDOC_Sq => some posts_wline
  | mdoc_tok.MDOC_Sm => some posts_bool
  | mdoc_tok.MDOC_Sx => some posts_text
  | mdoc_tok.MDOC_Sy => some posts_text
  | mdoc_tok.MDOC_Tn => some posts_text
  | mdoc_tok.MDOC_Fo => some posts_fo
  | mdoc_tok.MDOC_Bk => some posts_bk
  | mdoc_tok.MDOC_Bt => some posts_notext
  | mdoc_tok.MDOC_Ud => some posts_notext
  | _ => none

/-! ## mdoc_valid_post -/

/-- The loop `for (p = mdoc_valids[tok].post; *p; p++)` of `mdoc_valid_post`. -/
def run_posts (e : externs) : List v_post → mdoc → Option (Bool × mdoc)
  | [], m => some (true, m)
  | p :: ps, m =>
    match p.run e m with
    | none => none
    | some (false, m1) => some (false, m1)
    | some (true, m1) => run_posts e ps m1

/-- The function `mdoc_valid_post`; `none` when a pointer cannot be followed
or an `assert` fails. -/
def mdoc_valid_post (e : externs) (m : mdoc) : Option (Bool × mdoc) :=
  match m.nodes[m.last]? with
  | none => none
  | some last =>
    if last.VALID then some (true, m)
    else
      let m1 := { m with nodes := m.nodes.set m.last { last with VALID := true } }
      if last.type = mdoc_type.MDOC_TEXT then some (true, m1)
      else if last.type = mdoc_type.MDOC_ROOT then post_root e m1
      else
        match mdoc_valids_post last.tok with
        | none => some (true, m1)
        | some ps => run_posts e ps m1

/-! ## Pre-child-parse rules -/

/-- Modelled from the spec: what "ERR aborts the document" says of the
callbacks, that the answer to a diagnostic of class ERR is "do not
continue". -/
def err_aborts (e : externs) : Prop :=
  ∀ d : diag, d.level = diag_level.ERR → e.sink d = false

/-- Modelled from the spec: the function `mdoc_perr` of `mdoc.c`, an error
at a given line and column. -/
def mdoc_perr (e : externs) (m : mdoc) (line pos : Nat) (msg : String) : Option (Bool × mdoc) :=
  mdoc_emit e m { level := diag_level.ERR, line := line, pos := pos, msg := msg }

/-- The function `check_stdarg`; `none` when `argv[0]` is read from an empty
argument vector. -/
def check_stdarg (e : externs) (m : mdoc) (node : mdoc_node) : Option (Bool × mdoc) :=
  match node.argv with
  | [] => none
  | a0 :: _ =>
    if a0.arg = mdoc_argt.MDOC_Std ∧ node.argv.length = 1 then some (true, m)
    else mdoc_emit_node e m node diag_level.WARN_COMPAT "one argument suggested"

/-- The function `check_msec`; the array `msecs` with its size is a list. -/
def check_msec (e : externs) (m : mdoc) (node : mdoc_node) (msecs : List mdoc_msec) :
    Option (Bool × mdoc) :=
  if msecs.contains m.meta.msec then some (true, m)
  else mdoc_emit_node e m node diag_level.WARN_COMPAT "wrong manual section"

/-- Modelled from the spec: the function `check_parent`, declared in
`validate.c` but defined elsewhere: the parent of the node has kind `t` and,
when a token is asked for, that token.  `none` when the node has no parent. -/
def check_parent (e : externs) (m : mdoc) (node : mdoc_node) (tok : Option mdoc_tok)
    (t : mdoc_type) : Option (Bool × mdoc) :=
  match node.parent.bind (fun p => m.nodes[p]?) with
  | none => none
  | some p =>
    if (tok = none ∨ tok = some p.tok) ∧ p.type = t then some (true, m)
    else mdoc_emit_node e m node diag_level.ERR "invalid macro parent"

/-- The loop of `pre_display` from node index `n` up the `parent` pointers:
the first node of kind BLOCK with token `Bd`, or no node.  `none` when a
pointer leaves the node array or the loop does not end. -/
def display_loop (nodes : List mdoc_node) : Nat → Option Nat → Option (Option mdoc_node)
  | _, none => some none
  | 0, some _ => none
  | fuel + 1, some i =>
    match nodes[i]? with
    | none => none
    | some n =>
      if n.type = mdoc_type.MDOC_BLOCK ∧ n.tok = mdoc_tok.MDOC_Bd then some (some n)
      else display_loop nodes fuel n.parent

/-- The function `pre_display`. -/
def pre_display (e : externs) (m : mdoc) (node : mdoc_node) : Option (Bool × mdoc) :=
  if node.type ≠ mdoc_type.MDOC_BLOCK then some (true, m)
  else
    match m.nodes[m.last]? with
    | none => none
    | some last =>
      match display_loop m.nodes m.nodes.length last.parent with
      | none => none
      | some none => some (true, m)
      | some (some _) => mdoc_emit_node e m node diag_level.ERR "displays may not be nested"

/-- The cases of the `switch` of `pre_bl`: the arguments that name a list
type. -/
def is_list_type : mdoc_argt → Bool
  | mdoc_argt.MDOC_Bullet | mdoc_argt.MDOC_Dash | mdoc_argt.MDOC_Enum | mdoc_argt.MDOC_Hyphen
  | mdoc_argt.MDOC_Item | mdoc_argt.MDOC_Tag | mdoc_argt.MDOC_Diag | mdoc_argt.MDOC_Hang
  | mdoc_argt.MDOC_Ohang | mdoc_argt.MDOC_Inset | mdoc_argt.MDOC_Column => true
  | _ => false

/-- The cases of the `switch` of `pre_bd`: the arguments that name a display
type. -/
def is_display_type : mdoc_argt → Bool
  | mdoc_argt.MDOC_Ragged | mdoc_argt.MDOC_Unfilled | mdoc_argt.MDOC_Filled
  | mdoc_argt.MDOC_Literal | mdoc_argt.MDOC_File => true
  | _ => false

/-- The loop of `pre_bl` and of `pre_bd` over the arguments, with the counter
`type`: the argument at which the loop returns "multiple types specified", or
the final value of the counter. -/
def type_loop (is_type : mdoc_argt → Bool) : List mdoc_arg → Nat → Sum mdoc_arg Nat
  | [], type => Sum.inr type
  | a :: rest, type =>
    if is_type a.arg then
      if type = 0 then type_loop is_type rest (type + 1)
      else Sum.inl a
    else type_loop is_type rest type

/-- The common body of `pre_bl` and `pre_bd`. -/
def pre_types (is_type : mdoc_argt → Bool) (e : externs) (m : mdoc) (node : mdoc_node) :
    Option (Bool × mdoc) :=
  if node.type ≠ mdoc_type.MDOC_BLOCK then some (true, m)
  else
    match type_loop is_type node.argv 0 with
    | Sum.inl a => mdoc_perr e m a.line a.pos "multiple types specified"
    | Sum.inr type =>
      if type ≠ 0 then some (true, m)
      else mdoc_emit_last e m diag_level.ERR "no type specified"

/-- The function `pre_bl`. -/
def pre_bl (e : externs) (m : mdoc) (node : mdoc_node) : Option (Bool × mdoc) :=
  pre_types is_list_type e m node

/-- The function `pre_bd`. -/
def pre_bd (e : externs) (m : mdoc) (node : mdoc_node) : Option (Bool × mdoc) :=
  pre_types is_display_type e m node

/-- The function `pre_ss`. -/
def pre_ss (e : externs) (m : mdoc) (node : mdoc_node) : Option (Bool × mdoc) :=
  if node.type ≠ mdoc_type.MDOC_BLOCK then some (true, m)
  else check_parent e m node (some mdoc_tok.MDOC_Sh) mdoc_type.MDOC_BODY

/-- The function `pre_sh`. -/
def pre_sh (e : externs) (m : mdoc) (node : mdoc_node) : Option (Bool × mdoc) :=
  if node.type ≠ mdoc_type.MDOC_BLOCK then some (true, m)
  else check_parent e m node none mdoc_type.MDOC_ROOT

/-- The function `pre_it`. -/
def pre_it (e : externs) (m : mdoc) (node : mdoc_node) : Option (Bool × mdoc) :=
  if node.type ≠ mdoc_type.MDOC_BLOCK then some (true, m)
  else check_parent e m node (some mdoc_tok.MDOC_Bl) mdoc_type.MDOC_BODY

/-- The function `pre_st`. -/
def pre_st (e : externs) (m : mdoc) (node : mdoc_node) : Option (Bool × mdoc) :=
  if node.argv.length = 1 then some (true, m)
  else mdoc_emit_node e m node diag_level.ERR "one argument required"

/-- The function `pre_an`. -/
def pre_an (e : externs) (m : mdoc) (node : mdoc_node) : Option (Bool × mdoc) :=
  if node.argv.length ≤ 1 then some (true, m)
  else mdoc_emit_node e m node diag_level.ERR "one argument allowed"

/-- The function `pre_rv`. -/
def pre_rv (e : externs) (m : mdoc) (node : mdoc_node) : Option (Bool × mdoc) :=
  match check_msec e m node [mdoc_msec.MSEC_2, mdoc_msec.MSEC_3] with
  | none => none
  | some (false, m1) => some (false, m1)
  | some (true, m1) => check_stdarg e m1 node

/-- The function `pre_ex`. -/
def pre_ex (e : externs) (m : mdoc) (node : mdoc_node) : Option (Bool × mdoc) :=
  match check_msec e m node [mdoc_msec.MSEC_1, mdoc_msec.MSEC_6, mdoc_msec.MSEC_8] with
  | none => none
  | some (false, m1) => some (false, m1)
  | some (true, m1) => check_stdarg e m1 node

/-- The function `pre_er`. -/
def pre_er (e : externs) (m : mdoc) (node : mdoc_node) : Option (Bool × mdoc) :=
  check_msec e m node [mdoc_msec.MSEC_2]

/-- The function `pre_cd`. -/
def pre_cd (e : externs) (m : mdoc) (node : mdoc_node) : Option (Bool × mdoc) :=
  check_msec e m node [mdoc_msec.MSEC_4]

/-- The first `switch` of `pre_prologue`, the check for ordering: whether the
case ends in `break`; `none` at `abort()`. -/
def prologue_order (m : mdoc) : mdoc_tok → Option Bool
  | mdoc_tok.MDOC_Os => some (m.meta.title.isSome && decide (m.meta.date ≠ 0))
  | mdoc_tok.MDOC_Dt => some (m.meta.title.isNone && decide (m.meta.date ≠ 0))
  | mdoc_tok.MDOC_Dd => some (m.meta.title.isNone && decide (m.meta.date = 0))
  | _ => none

/-- The second `switch` of `pre_prologue`, the check for repetition: whether
the case returns 1; `none` at `abort()`. -/
def prologue_fresh (m : mdoc) : mdoc_tok → Option Bool
  | mdoc_tok.MDOC_Os => some m.meta.os.isNone
  | mdoc_tok.MDOC_Dd => some (decide (m.meta.date = 0))
  | mdoc_tok.MDOC_Dt => some m.meta.title.isNone
  | _ => none

/-- The function `pre_prologue`. -/
def pre_prologue (e : externs) (m : mdoc) (node : mdoc_node) : Option (Bool × mdoc) :=
  if m.lastnamed ≠ mdoc_sec.SEC_PROLOGUE then
    mdoc_emit_node e m node diag_level.ERR "prologue only"
  else
    match prologue_order m node.tok with
    | none => none
    | some false => mdoc_emit_node e m node diag_level.ERR "prologue out-of-order"
    | some true =>
      match prologue_fresh m node.tok with
      | none => none
      | some true => some (true, m)
      | some false => mdoc_emit_node e m node diag_level.ERR "prologue repetition"

/-- The pre-child-parse rules (`v_pre`) that the table names. -/
inductive v_pre where
  | pre_display | pre_sh | pre_ss | pre_bd | pre_bl | pre_it | pre_cd | pre_er | pre_ex
  | pre_rv | pre_an | pre_st | pre_prologue
  deriving DecidableEq, Repr

/-- The function a pre-rule of the table stands for. -/
def v_pre.run (e : externs) : v_pre → mdoc → mdoc_node → Option (Bool × mdoc)
  | v_pre.pre_display => Validate.pre_display e
  | v_pre.pre_sh => Validate.pre_sh e
  | v_pre.pre_ss => Validate.pre_ss e
  | v_pre.pre_bd => Validate.pre_bd e
  | v_pre.pre_bl => Validate.pre_bl e
  | v_pre.pre_it => Validate.pre_it e
  | v_pre.pre_cd => Validate.pre_cd e
  | v_pre.pre_er => Validate.pre_er e
  | v_pre.pre_ex => Validate.pre_ex e
  | v_pre.pre_rv => Validate.pre_rv e
  | v_pre.pre_an => Validate.pre_an e
  | v_pre.pre_st => Validate.pre_st e
  | v_pre.pre_prologue => Validate.pre_prologue e

/-- The collections of pre-child-parse routines. -/
def pres_prologue : List v_pre := [v_pre.pre_prologue]
/-- The collection `pres_d1`. -/
def pres_d1 : List v_pre := [v_pre.pre_display]
/-- The collection `pres_bd`. -/
def pres_bd : List v_pre := [v_pre.pre_display, v_pre.pre_bd]
/-- The collection `pres_bl`. -/
def pres_bl : List v_pre := [v_pre.pre_bl]
/-- The collection `pres_it`. -/
def pres_it : List v_pre := [v_pre.pre_it]
/-- The collection `pres_ss`. -/
def pres_ss : List v_pre := [v_pre.pre_ss]
/-- The collection `pres_sh`. -/
def pres_sh : List v_pre := [v_pre.pre_sh]
/-- The collection `pres_cd`. -/
def pres_cd : List v_pre := [v_pre.pre_cd]
/-- The collection `pres_er`. -/
def pres_er : List v_pre := [v_pre.pre_er]
/-- The collection `pres_ex`. -/
def pres_ex : List v_pre := [v_pre.pre_ex]
/-- The collection `pres_rv`. -/
def pres_rv : List v_pre := [v_pre.pre_rv]
/-- The collection `pres_an`. -/
def pres_an : List v_pre := [v_pre.pre_an]
/-- The collection `pres_st`. -/
def pres_st : List v_pre := [v_pre.pre_st]

/-- The column `pre` of the table `mdoc_valids`; `none` is `NULL`. -/
def mdoc_valids_pre : mdoc_tok → Option (List v_pre)
  | mdoc_tok.MDOC_Dd => some pres_prologue
  | mdoc_tok.MDOC_Dt => some pres_prologue
  | mdoc_tok.MDOC_Os => some pres_prologue
  | mdoc_tok.MDOC_Sh => some pres_sh
  | mdoc_tok.MDOC_Ss => some pres_ss
  | mdoc_tok.MDOC_D1 => some pres_d1
  | mdoc_tok.MDOC_Dl => some pres_d1
  | mdoc_tok.MDOC_Bd => some pres_bd
  | mdoc_tok.MDOC_Bl => some pres_bl
  | mdoc_tok.MDOC_It => some pres_it
  | mdoc_tok.MDOC_An => some pres_an
  | mdoc_tok.MDOC_Cd => some pres_cd
  | mdoc_tok.MDOC_Er => some pres_er
  | mdoc_tok.MDOC_Ex => some pres_ex
  | mdoc_tok.MDOC_Rv => some pres_rv
  | mdoc_tok.MDOC_St => some pres_st
  | _ => none

/-- The loop `for (p = mdoc_valids[tok].pre; *p; p++)` of `mdoc_valid_pre`. -/
def run_pres (e : externs) : List v_pre → mdoc → mdoc_node → Option (Bool × mdoc)
  | [], m, _ => some (true, m)
  | p :: ps, m, node =>
    match p.run e m node with
    | none => none
    | some (false, m1) => some (false, m1)
    | some (true, m1) => run_pres e ps m1 node

/-- The function `mdoc_valid_pre`; `none` when a pointer cannot be followed
or an `assert` fails. -/
def mdoc_valid_pre (e : externs) (m : mdoc) (node : mdoc_node) : Option (Bool × mdoc) :=
  if node.type = mdoc_type.MDOC_TEXT then some (true, m)
  else if node.type = mdoc_type.MDOC_ROOT then none
  else
    match mdoc_valids_pre node.tok with
    | none => some (true, m)
    | some ps => run_pres e ps m node

/-! ## Conditions of the specification -/

/-- The condition under which the specification lets the prologue macro `tok`
pass, as the specification words it. -/
def prologue_claim (m : mdoc) (tok : mdoc_tok) : Prop :=
  m.lastnamed = mdoc_sec.SEC_PROLOGUE ∧
  (tok = mdoc_tok.MDOC_Dd → m.meta.title = none ∧ m.meta.date = 0) ∧
  (tok = mdoc_tok.MDOC_Dt → m.meta.title = none ∧ m.meta.date ≠ 0) ∧
  (tok = mdoc_tok.MDOC_Os → m.meta.title ≠ none ∧ m.meta.date ≠ 0 ∧ m.meta.os = none)

/-- A node of kind BLOCK with token `Bd`. -/
def is_bd_block (n : mdoc_node) : Bool :=
  decide (n.type = mdoc_type.MDOC_BLOCK ∧ n.tok = mdoc_tok.MDOC_Bd)

/-- The nodes reached from index `n` by following `parent`, nearest first:
with `n` the parent of a node, the ancestors of that node.  `none` when a
pointer leaves the node array or the chain does not end within `fuel`
nodes. -/
def ancestors (nodes : List mdoc_node) : Nat → Option Nat → Option (List mdoc_node)
  | _, none => some []
  | 0, some _ => none
  | fuel + 1, some i =>
    match nodes[i]? with
    | none => none
    | some n => (ancestors nodes fuel n.parent).map (fun l => n :: l)

/-- The arguments of a block that name a type, in their order. -/
def type_args (is_type : mdoc_argt → Bool) (node : mdoc_node) : List mdoc_arg :=
  node.argv.filter (fun a => is_type a.arg)

/-- The type-exclusivity rule as the specification words it, of a result `r`
of validating `node` in the document `m` with current node `last`: `r` is a
silent pass exactly when one argument names a type; with none the error "no
type specified" is reported (at the current node), with two or more the error
"multiple types specified" at the position of the second of them. -/
def type_exclusive (is_type : mdoc_argt → Bool) (e : externs) (m : mdoc) (node last : mdoc_node)
    (r : Option (Bool × mdoc)) : Prop :=
  (r = some (true, m) ↔ (type_args is_type node).length = 1) ∧
  ((type_args is_type node).length = 0 →
    r = mdoc_emit e m ⟨diag_level.ERR, last.line, last.pos, "no type specified"⟩) ∧
  (∀ a : mdoc_arg, (type_args is_type node)[1]? = some a →
    r = mdoc_emit e m ⟨diag_level.ERR, a.line, a.pos, "multiple types specified"⟩)

/-- The section that the title of the `Sh` head at index `h` maps to, read
as `post_sh_head` reads it; `none` when the title cannot be read or does not
fit the buffer. -/
def head_sec (e : externs) (m : mdoc) (h : Nat) : Option mdoc_sec :=
  (m.nodes[h]?).bind (fun hd =>
    ((children m hd).bind (fun cs => xstrlcats 64 cs [])).bind
      (fun ob => ob.map e.mdoc_atosec))

/-- Modelled from the spec: how `lastnamed` follows the sections, "tracking
the highest-ordered named section seen so far"; a CUSTOM section leaves it
as it is. -/
def sh_seen (m : mdoc) (sec : mdoc_sec) : mdoc :=
  if sec = mdoc_sec.SEC_CUSTOM then m
  else if m.lastnamed.ord < sec.ord then { m with lastnamed := sec } else m

/-- Modelled from the spec: the validation of a document's `Sh` heads (the
node indices `heads`, in document order), each by `post_sh_head` as the
current node and followed by the update of `lastnamed`.  The result is the
answer, the final document and the sections of the heads that passed. -/
def sh_walk (e : externs) : mdoc → List Nat → Option (Bool × mdoc × List mdoc_sec)
  | m, [] => some (true, m, [])
  | m, h :: hs =>
    match post_sh_head e { m with last := h }, head_sec e m h with
    | some (true, m1), some sec =>
      (sh_walk e (sh_seen m1 sec) hs).map (fun r => (r.1, r.2.1, sec :: r.2.2))
    | some (false, m1), _ => some (false, m1, [])
    | _, _ => none

/-- The Bf post rule as the specification words it: no argument and a first
head child whose text is Em, Li or Sm, or exactly one argument and no head
child. -/
def bf_claim (m : mdoc) (last head : mdoc_node) : Prop :=
  (last.argv.length = 0 ∧ ∃ c cn, head.child = some c ∧ m.nodes[c]? = some cn ∧
    (cn.string = ['E', 'm'] ∨ cn.string = ['L', 'i'] ∨ cn.string = ['S', 'm'])) ∨
  (last.argv.length = 1 ∧ head.child = none)

/-- The root rule as the specification words it: the root has a child,
`lastnamed` has left the prologue, and the first child is an `Sh` BLOCK. -/
def root_claim (m : mdoc) (first : mdoc_node) : Prop :=
  ∃ c cn, first.child = some c ∧ m.nodes[c]? = some cn ∧
    m.lastnamed ≠ mdoc_sec.SEC_PROLOGUE ∧
    cn.type = mdoc_type.MDOC_BLOCK ∧ cn.tok = mdoc_tok.MDOC_Sh

/-- A child that may stand before the last one in the body of the NAME
section: an `Nm` element or text. -/
def is_name_child (n : mdoc_node) : Bool :=
  decide (n.type = mdoc_type.MDOC_ELEM ∧ n.tok = mdoc_tok.MDOC_Nm) ||
    decide (n.type = mdoc_type.MDOC_TEXT)

/-- An `Nd` element. -/
def is_nd_elem (n : mdoc_node) : Bool :=
  decide (n.type = mdoc_type.MDOC_ELEM ∧ n.tok = mdoc_tok.MDOC_Nd)

/-- The generated count rules as their names read: the kind of node the rule
applies to (`h` HEAD, `b` BODY, `e` ELEM), whether it is an `err` rule, and
the test on the number of children that the suffix names (`ge1`, `le1`,
`le2`, `eq0`, `eq1`).  `none` for the rules that are not generated. -/
def count_rule : v_post → Option (mdoc_type × Bool × (Nat → Bool))
  | v_post.herr_ge1 => some (mdoc_type.MDOC_HEAD, true, fun k => decide (k ≥ 1))
  | v_post.herr_le1 => some (mdoc_type.MDOC_HEAD, true, fun k => decide (k ≤ 1))
  | v_post.herr_eq0 => some (mdoc_type.MDOC_HEAD, true, fun k => decide (k = 0))
  | v_post.eerr_eq0 => some (mdoc_type.MDOC_ELEM, true, fun k => decide (k = 0))
  | v_post.eerr_le1 => some (mdoc_type.MDOC_ELEM, true, fun k => decide (k ≤ 1))
  | v_post.eerr_le2 => some (mdoc_type.MDOC_ELEM, true, fun k => decide (k ≤ 2))
  | v_post.eerr_eq1 => some (mdoc_type.MDOC_ELEM, true, fun k => decide (k = 1))
  | v_post.eerr_ge1 => some (mdoc_type.MDOC_ELEM, true, fun k => decide (k ≥ 1))
  | v_post.ewarn_eq0 => some (mdoc_type.MDOC_ELEM, false, fun k => decide (k = 0))
  | v_post.ewarn_eq1 => some (mdoc_type.MDOC_ELEM, false, fun k => decide (k = 1))
  | v_post.bwarn_ge1 => some (mdoc_type.MDOC_BODY, false, fun k => decide (k ≥ 1))
  | v_post.ewarn_ge1 => some (mdoc_type.MDOC_ELEM, false, fun k => decide (k ≥ 1))
  | _ => none

/-! ## Example documents -/

/-- Callbacks that always answer "continue", with lookups that know no name. -/
def externs_continue : externs :=
  { sink := fun _ => true,
    mdoc_atosec := fun _ => mdoc_sec.SEC_CUSTOM,
    mdoc_atomsec := fun _ => mdoc_msec.MSEC_DEFAULT,
    atoatt_is_default := fun _ => false }

/-- A document whose current node is a `Pp` element with one text child, not
yet validated. -/
def doc_pp : mdoc :=
  { nodes :=
      [ { type := mdoc_type.MDOC_ROOT, child := some 1 },
        { type := mdoc_type.MDOC_ELEM, tok := mdoc_tok.MDOC_Pp, line := 3, pos := 1,
          parent := some 0, child := some 2 },
        { type := mdoc_type.MDOC_TEXT, line := 3, pos := 5, parent := some 1,
          string := ['x'] } ],
    last := 1,
    first := 0 }

/-- The current node of `doc_pp`. -/
def node_pp : mdoc_node :=
  { type := mdoc_type.MDOC_ELEM, tok := mdoc_tok.MDOC_Pp, line := 3, pos := 1,
    parent := some 0, child := some 2 }

/-- The document `doc_pp` after post-validation: the flag is set and the
warning of `ewarn_eq0` is in the log. -/
def doc_pp_valid : mdoc :=
  { doc_pp with
    nodes := doc_pp.nodes.set 1 { node_pp with VALID := true },
    log := [ { level := diag_level.WARN_SYNTAX, line := 3, pos := 1,
               msg := "suggests line parameters 0 == (has 1)" } ] }

/-- Callbacks that answer "continue" to a warning and "stop" to an error. -/
def externs_strict : externs :=
  { sink := fun d => decide (d.level ≠ diag_level.ERR),
    mdoc_atosec := fun _ => mdoc_sec.SEC_CUSTOM,
    mdoc_atomsec := fun _ => mdoc_msec.MSEC_DEFAULT,
    atoatt_is_default := fun _ => false }

/-- A document in its prologue, before any prologue macro: only the root. -/
def doc_prologue : mdoc :=
  { nodes := [ { type := mdoc_type.MDOC_ROOT } ], last := 0, first := 0 }

/-- A `Dt` element at line 1. -/
def node_dt : mdoc_node :=
  { type := mdoc_type.MDOC_ELEM, tok := mdoc_tok.MDOC_Dt, line := 1, pos := 1, parent := some 0 }

/-- The document ROOT > Sh block > (head "NAME", body > Bd block -ragged >
(head, body > Bd block -literal)); the current node is the body of the outer
`Bd`, below which the inner `Bd` block (node 8) is being attached. -/
def doc_nested : mdoc :=
  { nodes :=
      [ { type := mdoc_type.MDOC_ROOT, child := some 1 },
        { type := mdoc_type.MDOC_BLOCK, tok := mdoc_tok.MDOC_Sh, line := 1, parent := some 0,
          child := some 2, head := some 2, body := some 4 },
        { type := mdoc_type.MDOC_HEAD, tok := mdoc_tok.MDOC_Sh, line := 1, parent := some 1,
          child := some 3, next := some 4 },
        { type := mdoc_type.MDOC_TEXT, line := 1, pos := 4, parent := some 2,
          string := ['N', 'A', 'M', 'E'] },
        { type := mdoc_type.MDOC_BODY, tok := mdoc_tok.MDOC_Sh, line := 1, parent := some 1,
          child := some 5 },
        { type := mdoc_type.MDOC_BLOCK, tok := mdoc_tok.MDOC_Bd, line := 2, parent := some 4,
          child := some 6, head := some 6, body := some 7,
          argv := [ { arg := mdoc_argt.MDOC_Ragged, line := 2, pos := 4 } ] },
        { type := mdoc_type.MDOC_HEAD, tok := mdoc_tok.MDOC_Bd, line := 2, parent := some 5,
          next := some 7 },
        { type := mdoc_type.MDOC_BODY, tok := mdoc_tok.MDOC_Bd, line := 2, parent := some 5,
          child := some 8 },
        { type := mdoc_type.MDOC_BLOCK, tok := mdoc_tok.MDOC_Bd, line := 3, parent := some 7,
          argv := [ { arg := mdoc_argt.MDOC_Literal, line := 3, pos := 4 } ] } ],
    last := 7,
    first := 0,
    lastnamed := mdoc_sec.SEC_NAME }

/-- The inner `Bd` block of `doc_nested`. -/
def node_inner_bd : mdoc_node :=
  { type := mdoc_type.MDOC_BLOCK, tok := mdoc_tok.MDOC_Bd, line := 3, parent := some 7,
    argv := [ { arg := mdoc_argt.MDOC_Literal, line := 3, pos := 4 } ] }

/-- The body of the outer `Bd` of `doc_nested`, its current node. -/
def node_outer_body : mdoc_node :=
  { type := mdoc_type.MDOC_BODY, tok := mdoc_tok.MDOC_Bd, line := 2, parent := some 5,
    child := some 8 }

/-- The ancestors of the inner `Bd` block of `doc_nested` above its parent:
the outer `Bd` block, the body and the block of `Sh`, and the root. -/
def anc_outer_body : List mdoc_node :=
  (ancestors doc_nested.nodes doc_nested.nodes.length (some 5)).getD []

/-- A `Bl` block with the arguments `-compact -tag -width -column`. -/
def node_bl_two_types : mdoc_node :=
  { type := mdoc_type.MDOC_BLOCK, tok := mdoc_tok.MDOC_Bl, line := 4, pos := 1, parent := some 0,
    argv := [ { arg := mdoc_argt.MDOC_Other, line := 4, pos := 5 },
              { arg := mdoc_argt.MDOC_Tag, line := 4, pos := 14 },
              { arg := mdoc_argt.MDOC_Other, line := 4, pos := 19, sz := 1 },
              { arg := mdoc_argt.MDOC_Column, line := 4, pos := 28, sz := 2 } ] }

/-- The argument `-width` with one value. -/
def arg_width : mdoc_arg := { arg := mdoc_argt.MDOC_Other, line := 4, pos := 5, sz := 1 }

/-- The argument `-column` with three values. -/
def arg_column : mdoc_arg := { arg := mdoc_argt.MDOC_Column, line := 4, pos := 14, sz := 3 }

/-- The document ROOT > Bl block with the arguments `argv` > (head, body > It
block > (head with the three text children a, b, c; empty body)); the
current node is the `It` block. -/
def doc_it (argv : List mdoc_arg) : mdoc :=
  { nodes :=
      [ { type := mdoc_type.MDOC_ROOT, child := some 1 },
        { type := mdoc_type.MDOC_BLOCK, tok := mdoc_tok.MDOC_Bl, line := 4, pos := 1,
          parent := some 0, child := some 2, head := some 2, body := some 3, argv := argv },
        { type := mdoc_type.MDOC_HEAD, tok := mdoc_tok.MDOC_Bl, line := 4, pos := 1,
          parent := some 1, next := some 3 },
        { type := mdoc_type.MDOC_BODY, tok := mdoc_tok.MDOC_Bl, line := 4, pos := 1,
          parent := some 1, child := some 4 },
        { type := mdoc_type.MDOC_BLOCK, tok := mdoc_tok.MDOC_It, line := 5, pos := 1,
          parent := some 3, child := some 5, head := some 5, body := some 9 },
        { type := mdoc_type.MDOC_HEAD, tok := mdoc_tok.MDOC_It, line := 5, pos := 1,
          parent := some 4, child := some 6, next := some 9 },
        { type := mdoc_type.MDOC_TEXT, line := 5, pos := 4, parent := some 5, next := some 7,
          string := ['a'] },
        { type := mdoc_type.MDOC_TEXT, line := 5, pos := 6, parent := some 5, next := some 8,
          string := ['b'] },
        { type := mdoc_type.MDOC_TEXT, line := 5, pos := 8, parent := some 5,
          string := ['c'] },
        { type := mdoc_type.MDOC_BODY, tok := mdoc_tok.MDOC_It, line := 5, pos := 1,
          parent := some 4 } ],
    last := 4,
    first := 0,
    lastnamed := mdoc_sec.SEC_DESCRIPTION }

/-- The document ROOT > Bf block without arguments > head > text `Em`; the
current node is the block. -/
def doc_bf : mdoc :=
  { nodes :=
      [ { type := mdoc_type.MDOC_ROOT, child := some 1 },
        { type := mdoc_type.MDOC_BLOCK, tok := mdoc_tok.MDOC_Bf, line := 7, pos := 1,
          parent := some 0, child := some 2, head := some 2, body := some 4 },
        { type := mdoc_type.MDOC_HEAD, tok := mdoc_tok.MDOC_Bf, line := 7, pos := 1,
          parent := some 1, child := some 3, next := some 4 },
        { type := mdoc_type.MDOC_TEXT, line := 7, pos := 5, parent := some 2,
          string := ['E', 'm'] },
        { type := mdoc_type.MDOC_BODY, tok := mdoc_tok.MDOC_Bf, line := 7, pos := 1,
          parent := some 1 } ],
    last := 1,
    first := 0,
    lastnamed := mdoc_sec.SEC_DESCRIPTION }

/-- The block of `doc_bf`. -/
def node_bf : mdoc_node :=
  { type := mdoc_type.MDOC_BLOCK, tok := mdoc_tok.MDOC_Bf, line := 7, pos := 1,
    parent := some 0, child := some 2, head := some 2, body := some 4 }

/-- The head of `doc_bf`. -/
def node_bf_head : mdoc_node :=
  { type := mdoc_type.MDOC_HEAD, tok := mdoc_tok.MDOC_Bf, line := 7, pos := 1,
    parent := some 1, child := some 3, next := some 4 }

/-- The document ROOT > Sh block > (head > text NAME, body > two elements
with the tokens `t1` and `t2`); the current node is the body and `lastnamed`
is `SEC_NAME`. -/
def doc_name (t1 t2 : mdoc_tok) : mdoc :=
  { nodes :=
      [ { type := mdoc_type.MDOC_ROOT, child := some 1 },
        { type := mdoc_type.MDOC_BLOCK, tok := mdoc_tok.MDOC_Sh, line := 4, pos := 1,
          parent := some 0, child := some 2, head := some 2, body := some 4 },
        { type := mdoc_type.MDOC_HEAD, tok := mdoc_tok.MDOC_Sh, line := 4, pos := 1,
          parent := some 1, child := some 3, next := some 4 },
        { type := mdoc_type.MDOC_TEXT, line := 4, pos := 5, parent := some 2,
          string := ['N', 'A', 'M', 'E'] },
        { type := mdoc_type.MDOC_BODY, tok := mdoc_tok.MDOC_Sh, line := 4, pos := 1,
          parent := some 1, child := some 5 },
        { type := mdoc_type.MDOC_ELEM, tok := t1, line := 5, pos := 1, parent := some 4,
          next := some 6 },
        { type := mdoc_type.MDOC_ELEM, tok := t2, line := 6, pos := 1, parent := some 4 } ],
    last := 4,
    first := 0,
    lastnamed := mdoc_sec.SEC_NAME }

/-- The body of the `Sh` block of `doc_name`. -/
def node_name_body : mdoc_node :=
  { type := mdoc_type.MDOC_BODY, tok := mdoc_tok.MDOC_Sh, line := 4, pos := 1,
    parent := some 1, child := some 5 }

/-- Callbacks that answer "stop" to every diagnostic (warnings treated as
errors), with a lookup that knows the titles NAME, SYNOPSIS and DESCRIPTION. -/
def externs_werror : externs :=
  { sink := fun _ => false,
    mdoc_atosec := fun t =>
      if t = ['N', 'A', 'M', 'E'] then mdoc_sec.SEC_NAME
      else if t = ['S', 'Y', 'N', 'O', 'P', 'S', 'I', 'S'] then mdoc_sec.SEC_SYNOPSIS
      else if t = ['D', 'E', 'S', 'C', 'R', 'I', 'P', 'T', 'I', 'O', 'N'] then
        mdoc_sec.SEC_DESCRIPTION
      else mdoc_sec.SEC_CUSTOM,
    mdoc_atomsec := fun _ => mdoc_msec.MSEC_DEFAULT,
    atoatt_is_default := fun _ => false }

/-- The document ROOT > (Sh block > head > text `t1`), (Sh block > head >
text `t2`), with the current node at the first head and `lastnamed` as
given. -/
def doc_sh (t1 t2 : List Char) (lastnamed : mdoc_sec) : mdoc :=
  { nodes :=
      [ { type := mdoc_type.MDOC_ROOT, child := some 1 },
        { type := mdoc_type.MDOC_BLOCK, tok := mdoc_tok.MDOC_Sh, line := 4, pos := 1,
          parent := some 0, child := some 2, head := some 2, next := some 4 },
        { type := mdoc_type.MDOC_HEAD, tok := mdoc_tok.MDOC_Sh, line := 4, pos := 1,
          parent := some 1, child := some 3 },
        { type := mdoc_type.MDOC_TEXT, line := 4, pos := 5, parent := some 2, string := t1 },
        { type := mdoc_type.MDOC_BLOCK, tok := mdoc_tok.MDOC_Sh, line := 9, pos := 1,
          parent := some 0, child := some 5, head := some 5 },
        { type := mdoc_type.MDOC_HEAD, tok := mdoc_tok.MDOC_Sh, line := 9, pos := 1,
          parent := some 4, child := some 6 },
        { type := mdoc_type.MDOC_TEXT, line := 9, pos := 5, parent := some 5, string := t2 } ],
    last := 2,
    first := 0,
    lastnamed := lastnamed }

/-- The first `Sh` head of `doc_sh`. -/
def node_sh_head : mdoc_node :=
  { type := mdoc_type.MDOC_HEAD, tok := mdoc_tok.MDOC_Sh, line := 4, pos := 1,
    parent := some 1, child := some 3 }

/-- An `Ex` element without arguments. -/
def node_ex_noargs : mdoc_node :=
  { type := mdoc_type.MDOC_ELEM, tok := mdoc_tok.MDOC_Ex, line := 12, pos := 1, parent := some 0 }

/-- A document of manual section 1. -/
def doc_msec1 : mdoc :=
  { doc_prologue with
    meta := { msec := mdoc_msec.MSEC_1 }, lastnamed := mdoc_sec.SEC_DESCRIPTION }

/-- The kind of list that an argument names, as the specification words it:
Tag, Diag, Hang, Ohang and Inset expect a head; Bullet, Dash, Enum, Hyphen and
Item have a body only; Column has a head and no body. -/
def claimed_it_type (a : mdoc_argt) : it_type :=
  if a = mdoc_argt.MDOC_Tag ∨ a = mdoc_argt.MDOC_Diag ∨ a = mdoc_argt.MDOC_Hang ∨
      a = mdoc_argt.MDOC_Ohang ∨ a = mdoc_argt.MDOC_Inset then it_type.TYPE_HEAD
  else if a = mdoc_argt.MDOC_Bullet ∨ a = mdoc_argt.MDOC_Dash ∨ a = mdoc_argt.MDOC_Enum ∨
      a = mdoc_argt.MDOC_Hyphen ∨ a = mdoc_argt.MDOC_Item then it_type.TYPE_BODY
  else if a = mdoc_argt.MDOC_Column then it_type.TYPE_OHEAD
  else it_type.TYPE_NONE

/-- A document whose prologue is complete (date, title and os are set), with
`lastnamed` as given: only the root. -/
def doc_complete (lastnamed : mdoc_sec) : mdoc :=
  { nodes := [ { type := mdoc_type.MDOC_ROOT } ], last := 0, first := 0,
    meta := { date := 1, title := some ['T'], os := some ['O'] }, lastnamed := lastnamed }

/-- A `Dd` element at line 9. -/
def node_dd : mdoc_node :=
  { type := mdoc_type.MDOC_ELEM, tok := mdoc_tok.MDOC_Dd, line := 9, pos := 1, parent := some 0 }

/-- An `Os` element at line 9. -/
def node_os : mdoc_node :=
  { type := mdoc_type.MDOC_ELEM, tok := mdoc_tok.MDOC_Os, line := 9, pos := 1, parent := some 0 }

/-- The `Bl` block of `doc_it` with the arguments `-width -column`. -/
def node_bl_column : mdoc_node :=
  { type := mdoc_type.MDOC_BLOCK, tok := mdoc_tok.MDOC_Bl, line := 4, pos := 1,
    parent := some 0, child := some 2, head := some 2, body := some 3,
    argv := [arg_width, arg_column] }

end Validate

/-! # Properties of the index reader -/

namespace Dbm

theorem dbm_get_isSome (m : Mem) (o : Int) :
    (dbm_get m o).isSome ↔ 0 ≤ o ∧ o < m.length := by
  unfold dbm_get
  split
  · simp; omega
  · simp; omega

theorem byte_lt (m : Mem) (a : Nat) (b : Fin 256) (h : byte m a = some b) : a < m.length := by
  unfold byte at h
  by_contra hc
  rw [List.getElem?_eq_none (by omega)] at h
  cases h

theorem byte_of_lt (m : Mem) (a : Nat) (h : a < m.length) : ∃ b, byte m a = some b := by
  unfold byte
  exact ⟨m[a], List.getElem?_eq_getElem h⟩

theorem byte_none (m : Mem) (a : Nat) (h : m.length ≤ a) : byte m a = none := by
  unfold byte
  exact List.getElem?_eq_none h

theorem be32_lt (m : Mem) (a : Nat) (w : Int) (h : be32 m a = some w) : a + 4 ≤ m.length := by
  unfold be32 at h
  cases h3 : byte m (a + 3) with
  | none =>
    rw [h3] at h
    cases h0 : byte m a <;> cases h1 : byte m (a + 1) <;> cases h2 : byte m (a + 2) <;>
      simp [h0, h1, h2] at h
  | some b3 =>
    have := byte_lt m _ _ h3
    omega

theorem be32_of_le (m : Mem) (a : Nat) (h : a + 4 ≤ m.length) : ∃ w, be32 m a = some w := by
  obtain ⟨b0, h0⟩ := byte_of_lt m a (by omega)
  obtain ⟨b1, h1⟩ := byte_of_lt m (a + 1) (by omega)
  obtain ⟨b2, h2⟩ := byte_of_lt m (a + 2) (by omega)
  obtain ⟨b3, h3⟩ := byte_of_lt m (a + 3) (by omega)
  unfold be32
  rw [h0, h1, h2, h3]
  exact ⟨_, rfl⟩

theorem be32_none (m : Mem) (a : Nat) (h : m.length < a + 4) : be32 m a = none := by
  cases hw : be32 m a with
  | none => rfl
  | some w =>
    have := be32_lt m a w hw
    omega

theorem be32_isSome (m : Mem) (a : Nat) : (be32 m a).isSome ↔ a + 4 ≤ m.length := by
  constructor
  · intro h
    obtain ⟨w, hw⟩ := Option.isSome_iff_exists.1 h
    exact be32_lt m a w hw
  · intro h
    obtain ⟨w, hw⟩ := be32_of_le m a h
    rw [hw]; rfl

theorem ptr_at_some (m : Mem) (a p : Nat) (h : ptr_at m a = some p) :
    ∃ w, be32 m a = some w ∧ dbm_get m w = some p := by
  unfold ptr_at at h
  cases hw : be32 m a with
  | none => rw [hw] at h; cases h
  | some w => rw [hw] at h; exact ⟨w, rfl, h⟩

theorem ptr_at_eq (m : Mem) (a : Nat) (w : Int) (h : be32 m a = some w) :
    ptr_at m a = dbm_get m w := by
  unfold ptr_at
  rw [h]
  rfl

theorem dbm_open_macros_spec (m : Mem) (n im mp : Nat) (ms ms1 : List Nat) (nv nv1 : List Int)
    (b : Bool) (h : dbm_open_macros m n im mp ms nv = some (b, ms1, nv1)) :
    ms1.length = ms.length ∧ nv1.length = nv.length ∧
    (b = true ↔ ∀ k, k < n → (ptr_at m (mp + 4 * (k + 1))).isSome) ∧
    (∀ j, j < im → nv1.getD j 0 = nv.getD j 0 ∧ ms1.getD j 0 = ms.getD j 0) ∧
    (b = true → ∀ k, k < n → im + k < nv.length → im + k < ms.length →
      ∃ ep cnt, ptr_at m (mp + 4 * (k + 1)) = some ep ∧ be32 m ep = some cnt ∧
        nv1.getD (im + k) 0 = cnt ∧ ms1.getD (im + k) 0 = ep + 4) := by
  induction n generalizing im mp ms nv with
  | zero =>
    simp only [dbm_open_macros, Option.some.injEq, Prod.mk.injEq] at h
    obtain ⟨rfl, rfl, rfl⟩ := h
    simp
  | succ n ih =>
    unfold dbm_open_macros at h
    cases hw : be32 m (mp + 4) with
    | none => simp [hw] at h
    | some w =>
      simp only [hw] at h
      cases hg : dbm_get m w with
      | none =>
        simp only [hg, Option.some.injEq, Prod.mk.injEq] at h
        obtain ⟨rfl, rfl, rfl⟩ := h
        refine ⟨rfl, rfl, ?_, fun j _ => ⟨rfl, rfl⟩, fun hb => by cases hb⟩
        constructor
        · intro hb; cases hb
        · intro hk
          have := hk 0 (by omega)
          rw [ptr_at_eq m _ w hw, hg] at this
          cases this
      | some ep =>
        simp only [hg] at h
        cases hc : be32 m ep with
        | none => simp [hc] at h
        | some cnt =>
          simp only [hc] at h
          obtain ⟨h1, h2, h3, h4, h5⟩ := ih _ _ _ _ h
          simp only [List.length_set] at h1 h2 h5
          refine ⟨h1, h2, ?_, ?_, ?_⟩
          · rw [h3]
            constructor
            · intro hk k hkn
              cases k with
              | zero => rw [ptr_at_eq m _ w hw, hg]; rfl
              | succ k =>
                have := hk k (by omega)
                rw [show mp + 4 + 4 * (k + 1) = mp + 4 * (k + 1 + 1) by ring] at this
                exact this
            · intro hk k hkn
              have := hk (k + 1) (by omega)
              rw [show mp + 4 * (k + 1 + 1) = mp + 4 + 4 * (k + 1) by ring] at this
              exact this
          · intro j hj
            obtain ⟨a, b⟩ := h4 j (by omega)
            rw [a, b]
            simp only [List.getD_eq_getElem?_getD]
            rw [List.getElem?_set_ne (by omega), List.getElem?_set_ne (by omega)]
            exact ⟨rfl, rfl⟩
          · intro hb k hk hl1 hl2
            cases k with
            | zero =>
              refine ⟨ep, cnt, by rw [ptr_at_eq m _ w hw, hg], hc, ?_, ?_⟩
              · rw [Nat.add_zero, (h4 im (by omega)).1]
                simp only [List.getD_eq_getElem?_getD]
                rw [List.getElem?_set_eq_of_lt _ (by omega)]; rfl
              · rw [Nat.add_zero, (h4 im (by omega)).2]
                simp only [List.getD_eq_getElem?_getD]
                rw [List.getElem?_set_eq_of_lt _ (by omega)]; rfl
            | succ k =>
              obtain ⟨ep1, c1, e1, e0, e2, e3⟩ := h5 hb k (by omega) (by omega) (by omega)
              refine ⟨ep1, c1, ?_, e0, ?_, ?_⟩
              · rw [show mp + 4 * (k + 1 + 1) = mp + 4 + 4 * (k + 1) by ring]; exact e1
              · rw [show im + (k + 1) = im + 1 + k by ring]; exact e2
              · rw [show im + (k + 1) = im + 1 + k by ring]; exact e3

theorem dbm_open_macros_total (m : Mem) (n im mp : Nat) (ms : List Nat) (nv : List Int)
    (htab : mp + 4 * (n + 1) ≤ m.length)
    (hrec : ∀ k ep, k < n → ptr_at m (mp + 4 * (k + 1)) = some ep → ep + 4 ≤ m.length) :
    (dbm_open_macros m n im mp ms nv).isSome = true := by
  induction n generalizing im mp ms nv with
  | zero => rfl
  | succ n ih =>
    unfold dbm_open_macros
    obtain ⟨w, hw⟩ := be32_of_le m (mp + 4) (by omega)
    rw [hw]
    simp only []
    cases hg : dbm_get m w with
    | none => rfl
    | some ep =>
      simp only []
      have hep := hrec 0 ep (by omega) (by rw [ptr_at_eq m _ w hw, hg])
      obtain ⟨cnt, hc⟩ := be32_of_le m ep hep
      rw [hc]
      simp only []
      apply ih
      · omega
      · intro k ep1 hk h1
        apply hrec (k + 1) ep1 (by omega)
        rw [show mp + 4 * (k + 1 + 1) = mp + 4 + 4 * (k + 1) by ring]
        exact h1

/-- What `dbm_open` has done when it returns. -/
theorem dbm_open_spec (MACRO_MAX : Nat) (m : Mem) (r : Int) (g : Globals)
    (h : dbm_open MACRO_MAX m = some (r, g)) :
    ∃ np off, be32 m (dbm_getint 4) = some np ∧ (0 ≤ np → be32 m (dbm_getint 2) = some off) ∧
      g.m = m ∧ g.npages = np ∧
      (r = 0 ↔
        (0 ≤ np ∧ ∃ mp, dbm_get m off = some mp ∧ be32 m mp = some (MACRO_MAX : Int) ∧
          ∀ im, im < MACRO_MAX → (ptr_at m (mp + 4 * (im + 1))).isSome)) ∧
      (r ≠ 0 → r = -1 ∧ g.errno = some Errno.EFTYPE ∧ g.mapped = false) ∧
      (r = 0 → g.mapped = true ∧ g.pages = dbm_getint 5 ∧
        g.macros.length = MACRO_MAX ∧ g.nvals.length = MACRO_MAX ∧
        ∀ im : Nat, im < MACRO_MAX →
          ∃ mp ep cnt, dbm_get m off = some mp ∧ ptr_at m (mp + 4 * (im + 1)) = some ep ∧
            be32 m ep = some cnt ∧ g.nvals.getD im 0 = cnt ∧ g.macros.getD im 0 = ep + 4) := by
  unfold dbm_open at h
  simp only [] at h
  cases h4 : be32 m (dbm_getint 4) with
  | none => simp [h4] at h
  | some np =>
    simp only [h4] at h
    by_cases hn : np < 0
    · simp only [hn, if_true, dbm_open_fail, Option.some.injEq, Prod.mk.injEq] at h
      obtain ⟨rfl, rfl⟩ := h
      refine ⟨np, 0, rfl, fun h0 => by omega, rfl, rfl, ?_, fun _ => ⟨rfl, rfl, rfl⟩, ?_⟩
      · constructor
        · intro h; simp at h
        · rintro ⟨h, -⟩; omega
      · intro h; simp at h
    · simp only [hn, if_false] at h
      cases h2 : be32 m (dbm_getint 2) with
      | none => simp [h2] at h
      | some off =>
        simp only [h2] at h
        refine ⟨np, off, rfl, fun _ => rfl, ?_⟩
        cases hmp : dbm_get m off with
        | none =>
          simp only [hmp, dbm_open_fail, Option.some.injEq, Prod.mk.injEq] at h
          obtain ⟨rfl, rfl⟩ := h
          refine ⟨rfl, rfl, ?_, fun _ => ⟨rfl, rfl, rfl⟩, ?_⟩
          · constructor
            · intro h; simp at h
            · rintro ⟨-, mp, h, -⟩; cases h
          · intro h; simp at h
        | some mp =>
          simp only [hmp] at h
          cases hcw : be32 m mp with
          | none => simp [hcw] at h
          | some cnt =>
            simp only [hcw] at h
            by_cases hc : cnt = (MACRO_MAX : Int)
            · simp only [hc, ne_eq, not_true_eq_false, if_false] at h
              cases hl : dbm_open_macros m MACRO_MAX 0 mp (Globals.init MACRO_MAX m).macros
                  (Globals.init MACRO_MAX m).nvals with
              | none => simp [hl] at h
              | some res =>
                obtain ⟨b, ms1, nv1⟩ := res
                obtain ⟨l1, l2, h3, -, h5⟩ := dbm_open_macros_spec _ _ _ _ _ _ _ _ _ hl
                simp only [Globals.init, List.length_replicate] at l1 l2 h5
                cases b with
                | false =>
                  simp only [hl, dbm_open_fail, Option.some.injEq, Prod.mk.injEq] at h
                  obtain ⟨rfl, rfl⟩ := h
                  refine ⟨rfl, rfl, ?_, fun _ => ⟨rfl, rfl, rfl⟩, ?_⟩
                  · constructor
                    · intro h; simp at h
                    · rintro ⟨-, mp1, h, -, hall⟩
                      cases h
                      have := h3.2 hall
                      cases this
                  · intro h; simp at h
                | true =>
                  simp only [hl, Option.some.injEq, Prod.mk.injEq] at h
                  obtain ⟨rfl, rfl⟩ := h
                  refine ⟨rfl, rfl, ?_, fun h => absurd rfl h, ?_⟩
                  · constructor
                    · intro _
                      exact ⟨by omega, mp, rfl, by rw [hcw, hc], h3.1 rfl⟩
                    · intro _; rfl
                  · intro _
                    refine ⟨rfl, rfl, l1, l2, ?_⟩
                    intro im him
                    obtain ⟨ep, c, e1, e0, e2, e3⟩ := h5 rfl im him (by omega) (by omega)
                    simp only [Nat.zero_add] at e2 e3
                    exact ⟨mp, ep, c, rfl, e1, e0, e2, e3⟩
            · simp only [hc, ne_eq, not_false_eq_true, if_true, dbm_open_fail,
                Option.some.injEq, Prod.mk.injEq] at h
              obtain ⟨rfl, rfl⟩ := h
              refine ⟨rfl, rfl, ?_, fun _ => ⟨rfl, rfl, rfl⟩, ?_⟩
              · constructor
                · intro h; simp at h
                · rintro ⟨-, mp1, h, h2, -⟩
                  cases h
                  rw [hcw] at h2
                  simp only [Option.some.injEq] at h2
                  exact absurd h2 hc
              · intro h; simp at h

/-- When the words that `dbm_open` reads lie inside the mapping, it returns. -/
theorem dbm_open_total (MACRO_MAX : Nat) (m : Mem) (np off : Int)
    (h4 : be32 m (dbm_getint 4) = some np) (h2 : be32 m (dbm_getint 2) = some off)
    (htab : ∀ mp, dbm_get m off = some mp → mp + 4 * (MACRO_MAX + 1) ≤ m.length)
    (hrec : ∀ mp k ep, dbm_get m off = some mp → k < MACRO_MAX →
      ptr_at m (mp + 4 * (k + 1)) = some ep → ep + 4 ≤ m.length) :
    (dbm_open MACRO_MAX m).isSome = true := by
  unfold dbm_open
  simp only [h4, h2]
  split
  · rfl
  · cases hmp : dbm_get m off with
    | none => rfl
    | some mp =>
      simp only []
      obtain ⟨cnt, hc⟩ := be32_of_le m mp (by have := htab mp hmp; omega)
      rw [hc]
      simp only []
      split
      · rfl
      · have := dbm_open_macros_total m MACRO_MAX 0 mp (Globals.init MACRO_MAX m).macros
          (Globals.init MACRO_MAX m).nvals (htab mp hmp) (fun k ep hk he => hrec mp k ep hmp hk he)
        obtain ⟨res, hres⟩ := Option.isSome_iff_exists.1 this
        obtain ⟨b, ms1, nv1⟩ := res
        simp only [Globals.init] at hres
        simp only [Globals.init]
        rw [hres]
        cases b <;> rfl

theorem dbm_open_some (MACRO_MAX : Nat) (m : Mem)
    (h : (dbm_open MACRO_MAX m).map Prod.fst = some 0) :
    dbm_open MACRO_MAX m = some (0, dbm_opened MACRO_MAX m) := by
  unfold dbm_opened
  cases ho : dbm_open MACRO_MAX m with
  | none => rw [ho] at h; cases h
  | some r =>
    rw [ho] at h
    simp only [Option.map, Option.some.injEq] at h
    obtain ⟨r1, g⟩ := r
    simp only [] at h
    subst h
    rfl

theorem dbm_open_success (MACRO_MAX : Nat) (m : Mem)
    (h : (dbm_open MACRO_MAX m).map Prod.fst = some 0) :
    (dbm_opened MACRO_MAX m).m = m ∧ (dbm_opened MACRO_MAX m).pages = dbm_getint 5 ∧
    be32 m (dbm_getint 4) = some (dbm_opened MACRO_MAX m).npages ∧
    0 ≤ (dbm_opened MACRO_MAX m).npages := by
  obtain ⟨np, off, h4, -, hm, hnp, hiff, -, hs⟩ :=
    dbm_open_spec MACRO_MAX m 0 _ (dbm_open_some MACRO_MAX m h)
  obtain ⟨-, hp, -⟩ := hs rfl
  obtain ⟨h0, -⟩ := hiff.1 rfl
  exact ⟨hm, hp, by rw [h4, hnp], by rw [hnp]; exact h0⟩

theorem dbm_page_get_some (g : Globals) (ip : Int) (p : dbm_page)
    (h : dbm_page_get g ip = some p) :
    ∃ w0 w1 w2 w3 w4, page_field g ip.toNat 0 = some w0 ∧ page_field g ip.toNat 1 = some w1 ∧
      page_field g ip.toNat 2 = some w2 ∧ page_field g ip.toNat 3 = some w3 ∧
      page_field g ip.toNat 4 = some w4 ∧
      p = { name := dbm_get g.m w0, sect := dbm_get g.m w1,
            arch := if w2 ≠ 0 then dbm_get g.m w2 else none,
            desc := dbm_get g.m w3, file := dbm_get g.m w4, addr := g.pages + 20 * ip.toNat } := by
  unfold dbm_page_get at h
  split at h
  · simp only [] at h
    generalize page_field g ip.toNat 0 = o0 at h
    generalize page_field g ip.toNat 1 = o1 at h
    generalize page_field g ip.toNat 2 = o2 at h
    generalize page_field g ip.toNat 3 = o3 at h
    generalize page_field g ip.toNat 4 = o4 at h
    cases o0 with
    | none => simp at h
    | some w0 =>
    cases o1 with
    | none => simp at h
    | some w1 =>
    cases o2 with
    | none => simp at h
    | some w2 =>
    cases o3 with
    | none => simp at h
    | some w3 =>
    cases o4 with
    | none => simp at h
    | some w4 =>
      simp only [Option.some.injEq] at h
      exact ⟨w0, w1, w2, w3, w4, rfl, rfl, rfl, rfl, rfl, h.symm⟩
  · cases h

theorem dbm_page_get_of_fields (g : Globals) (ip : Int) (w0 w1 w2 w3 w4 : Int)
    (hr : 0 ≤ ip ∧ ip < g.npages)
    (e0 : page_field g ip.toNat 0 = some w0) (e1 : page_field g ip.toNat 1 = some w1)
    (e2 : page_field g ip.toNat 2 = some w2) (e3 : page_field g ip.toNat 3 = some w3)
    (e4 : page_field g ip.toNat 4 = some w4) :
    (dbm_page_get g ip).isSome = true := by
  unfold dbm_page_get
  rw [if_pos hr]
  simp only [e0, e1, e2, e3, e4]
  rfl

theorem dbm_macro_get_some (MACRO_MAX : Nat) (g : Globals) (im iv : Int) (e : dbm_macro)
    (h : dbm_macro_get MACRO_MAX g im iv = some e) :
    ∃ v w, be32 g.m (g.macros.getD im.toNat 0 + 8 * iv.toNat) = some v ∧
      be32 g.m (g.macros.getD im.toNat 0 + 8 * iv.toNat + 4) = some w ∧
      e = { value := dbm_get g.m v, pp := dbm_get g.m w } := by
  unfold dbm_macro_get at h
  split at h
  · simp only [] at h
    generalize be32 g.m (g.macros.getD im.toNat 0 + 8 * iv.toNat) = o0 at h
    generalize be32 g.m (g.macros.getD im.toNat 0 + 8 * iv.toNat + 4) = o1 at h
    cases o0 with
    | none => simp at h
    | some v =>
    cases o1 with
    | none => simp at h
    | some w =>
      simp only [Option.some.injEq] at h
      exact ⟨v, w, rfl, rfl, h.symm⟩
  · cases h

theorem dbm_macro_get_of_words (MACRO_MAX : Nat) (g : Globals) (im iv : Int) (v w : Int)
    (hr : 0 ≤ im ∧ im < MACRO_MAX ∧ 0 ≤ iv ∧ iv < g.nvals.getD im.toNat 0)
    (e0 : be32 g.m (g.macros.getD im.toNat 0 + 8 * iv.toNat) = some v)
    (e1 : be32 g.m (g.macros.getD im.toNat 0 + 8 * iv.toNat + 4) = some w) :
    (dbm_macro_get MACRO_MAX g im iv).isSome = true := by
  unfold dbm_macro_get
  rw [if_pos hr]
  simp only [e0, e1]
  rfl

set_option maxRecDepth 100000 in
/-- C2, as stated, fails: in the file `db_oob`, 24 bytes long, header slot 4
decodes to 0 pages, the offset 20 of header slot 2 resolves inside the mapping
and the word there decodes to `MACRO_MAX` = 36; the 36 offsets that are to
follow would start at 24, past the last byte of the file.  `dbm_open` does not
return -1: it reads the first of them with `*++mp`, outside the mapping. -/
theorem dbm_open_reads_past_table :
    db_oob.length = 24 ∧ be32 db_oob (dbm_getint 4) = some 0 ∧
    ptr_at db_oob (dbm_getint 2) = some 20 ∧ be32 db_oob 20 = some 36 ∧
    be32 db_oob (20 + 4) = none ∧
    (dbm_open 36 db_oob).map Prod.fst = none := by
  decide

/-- C2, amended: let the words that `dbm_open` reads lie inside the mapping:
header slots 2 and 4, and, when the offset of slot 2 resolves to `mp`, the
`MACRO_MAX + 1` words of the macros table from `mp` on and the count word at
each address that an offset of the table resolves to.  Then `dbm_open`
returns.  It returns 0 exactly when header slot 4 decodes to `npages >= 0`,
the offset of header slot 2 resolves inside the mapping, the word there
decodes to `MACRO_MAX` and each of the `MACRO_MAX` offsets that follow resolves
inside the mapping.  In every other case it returns -1, sets `errno` to
`EFTYPE` and unmaps.  After success `dbm_page_count` is the decoded `npages`
and `dbm_macro_count im` is the decoded count word of macro `im`. -/
theorem dbm_open_returns (MACRO_MAX : Nat) (m : Mem) (np off : Int)
    (h4 : be32 m (dbm_getint 4) = some np) (h2 : be32 m (dbm_getint 2) = some off)
    (htab : ∀ mp ∈ dbm_get m off, mp + 4 * (MACRO_MAX + 1) ≤ m.length)
    (hrec : ∀ mp ∈ dbm_get m off, ∀ k, k < MACRO_MAX →
      ∀ ep ∈ ptr_at m (mp + 4 * (k + 1)), ep + 4 ≤ m.length) :
    ∃ r g, dbm_open MACRO_MAX m = some (r, g) ∧
      (r = 0 ↔
        (0 ≤ np ∧ ∃ mp, dbm_get m off = some mp ∧ be32 m mp = some (MACRO_MAX : Int) ∧
          ∀ im, im < MACRO_MAX → (ptr_at m (mp + 4 * (im + 1))).isSome)) ∧
      (r ≠ 0 → r = -1 ∧ g.errno = some Errno.EFTYPE ∧ g.mapped = false) ∧
      (r = 0 →
        g.mapped = true ∧ dbm_page_count g = np ∧
        ∀ im : Nat, im < MACRO_MAX →
          ∃ mp ep cnt, dbm_get m off = some mp ∧ ptr_at m (mp + 4 * (im + 1)) = some ep ∧
            be32 m ep = some cnt ∧ dbm_macro_count MACRO_MAX g (im : Int) = some cnt) := by
  have ht := dbm_open_total MACRO_MAX m np off h4 h2 (fun mp h => htab mp h)
    (fun mp k ep h hk he => hrec mp h k hk ep he)
  obtain ⟨res, hres⟩ := Option.isSome_iff_exists.1 ht
  obtain ⟨r, g⟩ := res
  obtain ⟨np1, off1, e4, e2, -, hnp, hiff, hfail, hs⟩ := dbm_open_spec MACRO_MAX m r g hres
  rw [h4] at e4
  simp only [Option.some.injEq] at e4
  subst e4
  refine ⟨r, g, hres, ?_, hfail, ?_⟩
  · by_cases h0 : 0 ≤ np
    · have := e2 h0
      rw [h2] at this
      simp only [Option.some.injEq] at this
      subst this
      exact hiff
    · constructor
      · intro hr; exact absurd (hiff.1 hr).1 h0
      · intro hc; exact absurd hc.1 h0
  · intro hr
    have h0 : 0 ≤ np := (hiff.1 hr).1
    have := e2 h0
    rw [h2] at this
    simp only [Option.some.injEq] at this
    subst this
    obtain ⟨hm, -, -, -, hall⟩ := hs hr
    refine ⟨hm, hnp, ?_⟩
    intro im him
    obtain ⟨mp, ep, cnt, a1, a2, a3, a4, -⟩ := hall im him
    refine ⟨mp, ep, cnt, a1, a2, a3, ?_⟩
    simp only [dbm_macro_count]
    rw [if_pos (by constructor <;> omega)]
    simp only [Int.toNat_ofNat, Option.some.injEq]
    exact a4

set_option maxRecDepth 100000 in
/-- Witness for `dbm_open_returns`: the database `db_names` is opened with 3
pages. -/
theorem dbm_open_returns_witness :
    ∃ r g, dbm_open 36 db_names = some (r, g) ∧ r = 0 ∧ dbm_page_count g = 3 := by
  obtain ⟨r, g, h1, h2, -, h4⟩ := dbm_open_returns 36 db_names 3 112
    (by decide) (by decide) (by decide) (by decide)
  have hr : r = 0 := h2.2 (by decide)
  exact ⟨r, g, h1, hr, (h4 hr).2.1⟩

set_option maxRecDepth 100000 in
/-- C3, as stated, fails: `dbm_open` succeeds on `db_badname`, yet
`dbm_page_get 0` returns a `NULL` name pointer, because the page record's name
offset was never checked.  Nor is the page count checked against the size of
the file: `dbm_open` succeeds on `db_short`, whose header gives 100000 pages,
and `dbm_page_get 1` reads a page record that ends outside the mapping. -/
theorem dbm_open_unchecked_page_offset :
    ((dbm_open 36 db_badname).map Prod.fst = some 0 ∧
      0 < dbm_page_count (dbm_opened 36 db_badname) ∧
      (dbm_page_get (dbm_opened 36 db_badname) 0).map (fun p => p.name) = some none) ∧
    ((dbm_open 1 db_short).map Prod.fst = some 0 ∧
      dbm_page_count (dbm_opened 1 db_short) = 100000 ∧ db_short.length = 56 ∧
      dbm_page_get (dbm_opened 1 db_short) 1 = none) := by
  decide

/-- C3, amended: when `dbm_open` succeeds, the offset of the macros table and
the `MACRO_MAX` macro offsets resolve inside the mapping.  Neither the page
count nor the offsets of the page records and of the macro entries are checked
at open.  For `0 <= ip < npages`, `dbm_page_get ip` returns exactly when the
page record lies inside the mapping; the record returned has name, sect, desc
and file pointers that are non-null exactly when the stored offset lies inside
the mapping, and an arch pointer that is null exactly when the stored arch
offset is 0 or lies outside the mapping.  `dbm_macro_get im iv` returns exactly
when the macro entry lies inside the mapping, with value and pages pointers
that are non-null exactly when the stored offsets lie inside the mapping. -/
theorem dbm_open_validates (MACRO_MAX : Nat) (m : Mem)
    (h : (dbm_open MACRO_MAX m).map Prod.fst = some 0) :
    (∃ mp, ptr_at m (dbm_getint 2) = some mp ∧
      ∀ im, im < MACRO_MAX → (ptr_at m (mp + 4 * (im + 1))).isSome) ∧
    (∀ ip : Int, 0 ≤ ip → ip < dbm_page_count (dbm_opened MACRO_MAX m) →
      ((dbm_page_get (dbm_opened MACRO_MAX m) ip).isSome ↔
        dbm_getint 5 + 20 * ip.toNat + 20 ≤ m.length) ∧
      ∀ p, dbm_page_get (dbm_opened MACRO_MAX m) ip = some p →
        (∀ k, k = 0 ∨ k = 1 ∨ k = 3 ∨ k = 4 →
          ∃ w, be32 m (dbm_getint 5 + 20 * ip.toNat + 4 * k) = some w ∧
            ((match k with | 0 => p.name | 1 => p.sect | 3 => p.desc | _ => p.file).isSome ↔
              0 ≤ w ∧ w < m.length)) ∧
        (∃ w, be32 m (dbm_getint 5 + 20 * ip.toNat + 4 * 2) = some w ∧
          (p.arch = none ↔ w = 0 ∨ ¬ (0 ≤ w ∧ w < m.length)))) ∧
    (∀ im iv nv : Int, 0 ≤ im → im < MACRO_MAX → 0 ≤ iv →
      dbm_macro_count MACRO_MAX (dbm_opened MACRO_MAX m) im = some nv → iv < nv →
      ∃ a, a = (dbm_opened MACRO_MAX m).macros.getD im.toNat 0 + 8 * iv.toNat ∧
        ((dbm_macro_get MACRO_MAX (dbm_opened MACRO_MAX m) im iv).isSome ↔ a + 8 ≤ m.length) ∧
        ∀ e, dbm_macro_get MACRO_MAX (dbm_opened MACRO_MAX m) im iv = some e →
          ∃ v w, be32 m a = some v ∧ be32 m (a + 4) = some w ∧
            (e.value.isSome ↔ 0 ≤ v ∧ v < m.length) ∧
            (e.pp.isSome ↔ 0 ≤ w ∧ w < m.length)) := by
  obtain ⟨hm, hp, hn, hn0⟩ := dbm_open_success MACRO_MAX m h
  refine ⟨?_, ?_, ?_⟩
  · obtain ⟨np, off, -, e2, -, -, hiff, -, -⟩ :=
      dbm_open_spec MACRO_MAX m 0 _ (dbm_open_some MACRO_MAX m h)
    obtain ⟨h0, mp, h1, -, h3⟩ := hiff.1 rfl
    exact ⟨mp, by rw [ptr_at_eq m _ off (e2 h0)]; exact h1, h3⟩
  · intro ip h0 h1
    simp only [dbm_page_count] at h1
    have hget : ∀ k, page_field (dbm_opened MACRO_MAX m) ip.toNat k =
        be32 m (dbm_getint 5 + 20 * ip.toNat + 4 * k) := by
      intro k; simp only [page_field, hm, hp]
    constructor
    · constructor
      · intro hs
        obtain ⟨p, hpg⟩ := Option.isSome_iff_exists.1 hs
        obtain ⟨w0, w1, w2, w3, w4, -, -, -, -, e4, -⟩ := dbm_page_get_some _ _ _ hpg
        rw [hget] at e4
        have := be32_lt m _ _ e4
        omega
      · intro hle
        obtain ⟨w0, e0⟩ := be32_of_le m (dbm_getint 5 + 20 * ip.toNat + 4 * 0) (by omega)
        obtain ⟨w1, e1⟩ := be32_of_le m (dbm_getint 5 + 20 * ip.toNat + 4 * 1) (by omega)
        obtain ⟨w2, e2⟩ := be32_of_le m (dbm_getint 5 + 20 * ip.toNat + 4 * 2) (by omega)
        obtain ⟨w3, e3⟩ := be32_of_le m (dbm_getint 5 + 20 * ip.toNat + 4 * 3) (by omega)
        obtain ⟨w4, e4⟩ := be32_of_le m (dbm_getint 5 + 20 * ip.toNat + 4 * 4) (by omega)
        rw [← hget] at e0 e1 e2 e3 e4
        exact dbm_page_get_of_fields _ _ _ _ _ _ _ ⟨h0, h1⟩ e0 e1 e2 e3 e4
    · intro p hpg
      obtain ⟨w0, w1, w2, w3, w4, e0, e1, e2, e3, e4, hp⟩ := dbm_page_get_some _ _ _ hpg
      rw [hget] at e0 e1 e2 e3 e4
      subst hp
      refine ⟨?_, ?_⟩
      · intro k hk
        rcases hk with rfl | rfl | rfl | rfl
        · exact ⟨w0, e0, by rw [hm]; exact dbm_get_isSome _ _⟩
        · exact ⟨w1, e1, by rw [hm]; exact dbm_get_isSome _ _⟩
        · exact ⟨w3, e3, by rw [hm]; exact dbm_get_isSome _ _⟩
        · exact ⟨w4, e4, by rw [hm]; exact dbm_get_isSome _ _⟩
      · refine ⟨w2, e2, ?_⟩
        simp only [hm]
        split
        · rename_i hne
          rw [← Option.not_isSome_iff_eq_none, dbm_get_isSome]
          constructor
          · intro hh; exact Or.inr hh
          · rintro (hh | hh)
            · exact absurd hh hne
            · exact hh
        · rename_i hne
          simp only [ne_eq, not_not] at hne
          simp [hne]
  · intro im iv nv h0 h1 h2 h3 h4
    simp only [dbm_macro_count] at h3
    rw [if_pos ⟨h0, h1⟩] at h3
    have h3 : iv < (dbm_opened MACRO_MAX m).nvals.getD im.toNat 0 := by
      simp only [Option.some.injEq] at h3
      rw [h3]; exact h4
    refine ⟨_, rfl, ?_, ?_⟩
    · constructor
      · intro hs
        obtain ⟨e, he⟩ := Option.isSome_iff_exists.1 hs
        obtain ⟨v, w, -, e1, -⟩ := dbm_macro_get_some _ _ _ _ _ he
        rw [hm] at e1
        have := be32_lt m _ _ e1
        omega
      · intro hle
        obtain ⟨v, e0⟩ := be32_of_le m
          ((dbm_opened MACRO_MAX m).macros.getD im.toNat 0 + 8 * iv.toNat) (by omega)
        obtain ⟨w, e1⟩ := be32_of_le m
          ((dbm_opened MACRO_MAX m).macros.getD im.toNat 0 + 8 * iv.toNat + 4) (by omega)
        exact dbm_macro_get_of_words _ _ _ _ v w ⟨h0, h1, h2, h3⟩ (by rw [hm]; exact e0)
          (by rw [hm]; exact e1)
    · intro e he
      obtain ⟨v, w, e0, e1, hp⟩ := dbm_macro_get_some _ _ _ _ _ he
      rw [hm] at e0 e1
      subst hp
      exact ⟨v, w, e0, e1, by rw [hm]; exact dbm_get_isSome _ _,
        by rw [hm]; exact dbm_get_isSome _ _⟩

set_option maxRecDepth 100000 in
/-- Witness for `dbm_open_validates`: the database `db_badname`. -/
theorem dbm_open_validates_witness :
    (dbm_open 36 db_badname).map Prod.fst = some 0 ∧
    ∃ mp, ptr_at db_badname (dbm_getint 2) = some mp ∧
      ∀ im, im < 36 → (ptr_at db_badname (mp + 4 * (im + 1))).isSome :=
  ⟨by decide, (dbm_open_validates 36 db_badname (by decide)).1⟩

/-! ## Name iteration -/

theorem byte_append (A X : Mem) (k : Nat) : byte (A ++ X) (A.length + k) = byte X k := by
  simp [byte, List.getElem?_append_right]

theorem byte_append_zero (A X : Mem) : byte (A ++ X) A.length = byte X 0 := by
  simpa using byte_append A X 0

theorem byte_cons_succ (b : Fin 256) (X : Mem) (k : Nat) : byte (b :: X) (k + 1) = byte X k := by
  simp [byte]

theorem byte_cons_zero (b : Fin 256) (X : Mem) : byte (b :: X) 0 = some b := by
  simp [byte]

theorem cstr_of_append (s R : List (Fin 256)) (hs : ∀ b ∈ s, b ≠ 0) :
    cstr_of (s ++ 0 :: R) = some s := by
  induction s with
  | nil => simp [cstr_of]
  | cons a s ih =>
    have ha : a ≠ 0 := hs a (by simp)
    show cstr_of (a :: (s ++ 0 :: R)) = _
    rw [cstr_of, if_neg ha, ih (fun b hb => hs b (by simp [hb]))]
    rfl

theorem cstr_append (A s R : Mem) (hs : ∀ b ∈ s, b ≠ 0) (k : Nat) (hk : k = A.length) :
    cstr (A ++ (s ++ 0 :: R)) k = some s := by
  subst hk
  simp only [cstr, List.drop_left]
  exact cstr_of_append s R hs

theorem search_step_match (m A R : Mem) (q : Fin 256) (s : List (Fin 256)) (mt : Match)
    (N i : Int) (f cp : Nat) (hm : m = A ++ (q :: (s ++ 0 :: R))) (hs : ∀ b ∈ s, b ≠ 0)
    (hcp : cp = A.length) (hi : i < N) (hmt : mt s = true) :
    bytitle_search m iter.ITER_NAME mt N (f + 1) cp i = some (cp + 1, i) := by
  have hc : cstr m (cp + 1) = some s := by
    rw [hm, show A ++ (q :: (s ++ 0 :: R)) = (A ++ [q]) ++ (s ++ 0 :: R) by simp]
    exact cstr_append _ _ _ hs _ (by simp [hcp])
  simp [bytitle_search, hi, hc, hmt]

theorem search_step_nomatch (m A R : Mem) (q b : Fin 256) (s : List (Fin 256)) (mt : Match)
    (N i : Int) (f cp : Nat) (hm : m = A ++ (q :: (s ++ 0 :: (b :: R))))
    (hs : ∀ b ∈ s, b ≠ 0) (hcp : cp = A.length) (hi : i < N) (hmt : mt s = false) :
    bytitle_search m iter.ITER_NAME mt N (f + 1) cp i =
      if b = 0 then bytitle_search m iter.ITER_NAME mt N f (cp + s.length + 3) (i + 1)
      else bytitle_search m iter.ITER_NAME mt N f (cp + s.length + 2) i := by
  have hc : cstr m (cp + 1) = some s := by
    rw [hm, show A ++ (q :: (s ++ 0 :: (b :: R))) = (A ++ [q]) ++ (s ++ 0 :: (b :: R)) by simp]
    exact cstr_append _ _ _ hs _ (by simp [hcp])
  have hb : byte m (cp + 1 + s.length + 1) = some b := by
    rw [hm, show A ++ (q :: (s ++ 0 :: (b :: R))) = (A ++ q :: (s ++ [0])) ++ (b :: R) by simp]
    rw [show cp + 1 + s.length + 1 = (A ++ q :: (s ++ [0])).length + 0 by simp [hcp]; ring]
    rw [byte_append, byte_cons_zero]
  have e1 : cp + 1 + s.length + 1 + 1 = cp + s.length + 3 := by omega
  have e2 : cp + 1 + s.length + 1 = cp + s.length + 2 := by omega
  rw [bytitle_search]
  simp only [hi, if_true, hc, hmt, Bool.false_eq_true, if_false, hb]
  simp only [show iter.ITER_NAME ≠ iter.ITER_DESC by decide, if_false, e1, e2]

theorem enc_names_append (p1 p2 : List (Fin 256 × List (Fin 256))) :
    enc_names (p1 ++ p2) = enc_entries p1 ++ enc_names p2 := by
  induction p1 with
  | nil => rfl
  | cons e r ih => simp [enc_names, enc_entries, ih]

theorem enc_names_length (e : Fin 256 × List (Fin 256)) (r : List (Fin 256 × List (Fin 256))) :
    (enc_names (e :: r)).length = e.2.length + 2 + (enc_names r).length := by
  simp [enc_names]; ring

theorem enc_entries_length_cons (e : Fin 256 × List (Fin 256))
    (r : List (Fin 256 × List (Fin 256))) :
    (enc_entries (e :: r)).length = e.2.length + 2 + (enc_entries r).length := by
  simp [enc_entries]; ring

theorem enc_names_cons (e : Fin 256 × List (Fin 256)) (r : List (Fin 256 × List (Fin 256))) :
    enc_names (e :: r) = e.1 :: (e.2 ++ 0 :: enc_names r) := rfl

/-- A page without a matching name: the search moves on to the next block. -/
theorem search_page_nomatch (m : Mem) (mt : Match) (N i : Int) (T : Mem)
    (r : List (Fin 256 × List (Fin 256))) :
    ∀ (e : Fin 256 × List (Fin 256)) (A : Mem) (cp f : Nat),
      m = A ++ (enc_names (e :: r) ++ T) → cp = A.length → i < N →
      (∀ x ∈ e :: r, (x.1 ≠ 0 ∧ ∀ b ∈ x.2, b ≠ 0) ∧ mt x.2 = false) →
      bytitle_search m iter.ITER_NAME mt N (f + (e :: r).length) cp i =
        bytitle_search m iter.ITER_NAME mt N f (cp + (enc_names (e :: r)).length) (i + 1) := by
  induction r with
  | nil =>
    intro e A cp f hm hcp hi hx
    obtain ⟨⟨-, hs⟩, hmt⟩ := hx e (by simp)
    have hm1 : m = A ++ (e.1 :: (e.2 ++ 0 :: (0 :: T))) := by simpa [enc_names] using hm
    rw [show f + [e].length = f + 1 by simp,
      search_step_nomatch m A _ e.1 0 e.2 mt N i f cp hm1 hs hcp hi hmt]
    rw [if_pos rfl]
    simp [enc_names, Nat.add_assoc]
  | cons e1 r ih =>
    intro e A cp f hm hcp hi hx
    obtain ⟨⟨-, hs⟩, hmt⟩ := hx e (by simp)
    obtain ⟨⟨hq1, -⟩, -⟩ := hx e1 (by simp)
    have hm1 : m = A ++ (e.1 :: (e.2 ++ 0 :: (e1.1 :: (e1.2 ++ 0 :: enc_names r ++ T)))) := by
      simpa [enc_names] using hm
    rw [show f + (e :: e1 :: r).length = (f + (e1 :: r).length) + 1 by simp; ring,
      search_step_nomatch m A _ e.1 e1.1 e.2 mt N i _ cp hm1 hs hcp hi hmt]
    rw [if_neg hq1]
    have hm2 : m = (A ++ e.1 :: (e.2 ++ [0])) ++ (enc_names (e1 :: r) ++ T) := by
      rw [hm1]; simp [enc_names]
    rw [ih e1 _ (cp + e.2.length + 2) f hm2 (by simp [hcp]; ring) hi
      (fun x hx1 => hx x (by simp at hx1 ⊢; right; exact hx1))]
    rw [enc_names_length e (e1 :: r)]
    congr 1; ring

/-- A page with a matching name: the search stops at the first one. -/
theorem search_page_match (m : Mem) (mt : Match) (N i : Int) (T : Mem)
    (e : Fin 256 × List (Fin 256)) (p2 : List (Fin 256 × List (Fin 256)))
    (p1 : List (Fin 256 × List (Fin 256))) :
    ∀ (A : Mem) (cp f : Nat),
      m = A ++ (enc_names (p1 ++ e :: p2) ++ T) → cp = A.length → i < N →
      (∀ x ∈ p1 ++ e :: p2, x.1 ≠ 0 ∧ ∀ b ∈ x.2, b ≠ 0) →
      (∀ x ∈ p1, mt x.2 = false) → mt e.2 = true → p1.length + 1 ≤ f →
      bytitle_search m iter.ITER_NAME mt N f cp i =
        some (cp + (enc_entries p1).length + 1, i) := by
  induction p1 with
  | nil =>
    intro A cp f hm hcp hi hx _ hmt hf
    obtain ⟨f, rfl⟩ : ∃ g, f = g + 1 := ⟨f - 1, by simp at hf; omega⟩
    have hm1 : m = A ++ (e.1 :: (e.2 ++ 0 :: (enc_names p2 ++ T))) := by
      simpa [enc_names] using hm
    rw [search_step_match m A _ e.1 e.2 mt N i f cp hm1 (hx e (by simp)).2 hcp hi hmt]
    simp [enc_entries]
  | cons e1 p1 ih =>
    intro A cp f hm hcp hi hx hno hmt hf
    obtain ⟨f, rfl⟩ : ∃ g, f = g + 1 := ⟨f - 1, by simp at hf; omega⟩
    obtain ⟨e2, p3, hp3⟩ : ∃ e2 p3, p1 ++ e :: p2 = e2 :: p3 := by
      cases p1 with
      | nil => exact ⟨e, p2, rfl⟩
      | cons e2 p3 => exact ⟨e2, p3 ++ e :: p2, rfl⟩
    have hq2 : e2.1 ≠ 0 := (hx e2 (by rw [List.cons_append, hp3]; simp)).1
    have hm1 : m = A ++ (e1.1 :: (e1.2 ++ 0 :: (e2.1 :: (e2.2 ++ 0 :: enc_names p3 ++ T)))) := by
      rw [hm, List.cons_append, hp3]; simp [enc_names]
    rw [search_step_nomatch m A _ e1.1 e2.1 e1.2 mt N i f cp hm1 (hx e1 (by simp)).2 hcp hi
      (hno e1 (by simp))]
    rw [if_neg hq2]
    have hm2 : m = (A ++ e1.1 :: (e1.2 ++ [0])) ++ (enc_names (p1 ++ e :: p2) ++ T) := by
      rw [hm1, hp3]; simp [enc_names]
    rw [ih _ (cp + e1.2.length + 2) f hm2 (by simp [hcp]; ring) hi
      (fun x hx1 => hx x (by simp at hx1 ⊢; right; exact hx1))
      (fun x hx1 => hno x (by simp [hx1])) hmt (by simp at hf; omega)]
    rw [enc_entries_length_cons]
    congr 2; ring

theorem enc_name_blocks_append (D1 D2 : List (List (Fin 256 × List (Fin 256)))) :
    enc_name_blocks (D1 ++ D2) = enc_name_blocks D1 ++ enc_name_blocks D2 := by
  induction D1 with
  | nil => rfl
  | cons p r ih => simp [enc_name_blocks, ih]

/-- Pages without a matching name are passed over one by one. -/
theorem search_pages_nomatch (m : Mem) (mt : Match) (N : Int) (T : Mem)
    (D : List (List (Fin 256 × List (Fin 256)))) :
    ∀ (A : Mem) (cp f : Nat) (i : Int),
      m = A ++ (enc_name_blocks D ++ T) → cp = A.length → i + D.length ≤ N →
      (∀ p ∈ D, wf_names p ∧ ∀ x ∈ p, mt x.2 = false) →
      bytitle_search m iter.ITER_NAME mt N (f + (D.map List.length).sum) cp i =
        bytitle_search m iter.ITER_NAME mt N f (cp + (enc_name_blocks D).length)
          (i + D.length) := by
  induction D with
  | nil => intro A cp f i _ _ _ _; simp [enc_name_blocks]
  | cons p D ih =>
    intro A cp f i hm hcp hN hD
    obtain ⟨⟨hne, hwf⟩, hno⟩ := hD p (by simp)
    obtain ⟨e, r, rfl⟩ : ∃ e r, p = e :: r := by
      cases p with
      | nil => exact absurd rfl hne
      | cons e r => exact ⟨e, r, rfl⟩
    have hlen : ((D.length : Nat) : Int) + 1 = ((e :: r) :: D).length := by simp
    have hm1 : m = A ++ (enc_names (e :: r) ++ (enc_name_blocks D ++ T)) := by
      rw [hm]; simp [enc_name_blocks]
    rw [show f + (((e :: r) :: D).map List.length).sum
        = (f + (D.map List.length).sum) + (e :: r).length by simp; ring]
    rw [search_page_nomatch m mt N i _ r e A cp _ hm1 hcp (by omega)
      (fun x hx => ⟨hwf x hx, hno x hx⟩)]
    have hm2 : m = (A ++ enc_names (e :: r)) ++ (enc_name_blocks D ++ T) := by
      rw [hm1]; simp
    rw [ih _ (cp + (enc_names (e :: r)).length) f (i + 1) hm2 (by simp [hcp]) (by omega)
      (fun q hq => hD q (by simp [hq]))]
    simp only [enc_name_blocks, List.length_append, List.length_cons, Nat.cast_add, Nat.cast_one]
    congr 1 <;> ring

/-- The search when no page is left: it ends with `ip = npages`. -/
theorem search_pages_none (m : Mem) (mt : Match) (N : Int) (T : Mem)
    (D : List (List (Fin 256 × List (Fin 256)))) (A : Mem) (cp f : Nat) (i : Int)
    (hm : m = A ++ (enc_name_blocks D ++ T)) (hcp : cp = A.length) (hN : i + D.length = N)
    (hD : ∀ p ∈ D, wf_names p ∧ ∀ x ∈ p, mt x.2 = false)
    (hf : (D.map List.length).sum + 1 ≤ f) :
    bytitle_search m iter.ITER_NAME mt N f cp i =
      some (cp + (enc_name_blocks D).length, N) := by
  obtain ⟨g, rfl⟩ : ∃ g, f = g + 1 + (D.map List.length).sum :=
    ⟨f - 1 - (D.map List.length).sum, by omega⟩
  rw [search_pages_nomatch m mt N T D A cp (g + 1) i hm hcp (by omega) hD, hN]
  simp [bytitle_search]

/-- The search when the first page with a matching name is `p1 ++ e :: p2`. -/
theorem search_pages_hit (m : Mem) (mt : Match) (N : Int) (T : Mem)
    (D1 D2 : List (List (Fin 256 × List (Fin 256)))) (p1 p2 : List (Fin 256 × List (Fin 256)))
    (e : Fin 256 × List (Fin 256)) (A : Mem) (cp f : Nat) (i : Int)
    (hm : m = A ++ (enc_name_blocks (D1 ++ (p1 ++ e :: p2) :: D2) ++ T))
    (hcp : cp = A.length) (hN : i + D1.length < N)
    (hD : ∀ p ∈ D1, wf_names p ∧ ∀ x ∈ p, mt x.2 = false)
    (hp : wf_names (p1 ++ e :: p2)) (hno : ∀ x ∈ p1, mt x.2 = false) (hmt : mt e.2 = true)
    (hf : (D1.map List.length).sum + p1.length + 1 ≤ f) :
    bytitle_search m iter.ITER_NAME mt N f cp i =
      some (cp + (enc_name_blocks D1).length + (enc_entries p1).length + 1, i + D1.length) := by
  obtain ⟨g, rfl⟩ : ∃ g, f = g + (D1.map List.length).sum :=
    ⟨f - (D1.map List.length).sum, by omega⟩
  have hm1 : m = A ++ (enc_name_blocks D1 ++ (enc_name_blocks ((p1 ++ e :: p2) :: D2) ++ T)) := by
    rw [hm, enc_name_blocks_append]; simp
  rw [search_pages_nomatch m mt N _ D1 A cp g i hm1 hcp (by omega) hD]
  have hm2 : m = (A ++ enc_name_blocks D1) ++
      (enc_names (p1 ++ e :: p2) ++ (enc_name_blocks D2 ++ T)) := by
    rw [hm1]; simp [enc_name_blocks]
  rw [search_page_match m mt N _ _ e p2 p1 _ (cp + (enc_name_blocks D1).length) g hm2
    (by simp [hcp]) hN hp.2 hno hmt (by omega)]

theorem byte_at (m A X : Mem) (b : Fin 256) (cp : Nat) (hm : m = A ++ (b :: X))
    (hcp : cp = A.length) : byte m cp = some b := by
  subst hm hcp
  rw [byte_append_zero, byte_cons_zero]

/-- Skipping over the bytes of a name. -/
theorem skip_nonzero (it : iter) (s : List (Fin 256)) :
    ∀ (m A X : Mem) (cp f : Nat), m = A ++ (s ++ X) → cp = A.length → (∀ b ∈ s, b ≠ 0) →
      bytitle_skip m it (f + s.length) cp = bytitle_skip m it f (cp + s.length) := by
  induction s with
  | nil => intro m A X cp f _ _ _; rfl
  | cons c s ih =>
    intro m A X cp f hm hcp hs
    have hb : byte m cp = some c := byte_at m A (s ++ X) c cp (by simpa using hm) hcp
    rw [show f + (c :: s).length = (f + s.length) + 1 by simp; ring, bytitle_skip]
    simp only [Nat.add_sub_cancel, hb, ne_eq, hs c (by simp), not_false_eq_true, if_true]
    rw [ih m (A ++ [c]) X (cp + 1) f (by simp [hm]) (by simp [hcp])
      (fun b hb1 => hs b (by simp [hb1]))]
    congr 1; simp; ring

theorem last_nonzero (m A X : Mem) (s : List (Fin 256)) (cp : Nat) (q : Fin 256)
    (hm : m = A ++ (s ++ X)) (hcp : cp = A.length) (hp : byte m (cp - 1) = some q)
    (hq : q ≠ 0) (hs : ∀ b ∈ s, b ≠ 0) :
    ∃ c, byte m (cp + s.length - 1) = some c ∧ c ≠ 0 := by
  rcases List.eq_nil_or_concat s with rfl | ⟨s1, c, rfl⟩
  · exact ⟨q, by simpa using hp, hq⟩
  · rw [List.concat_eq_append] at hm hs ⊢
    have : byte m (cp + (s1 ++ [c]).length - 1) = some c := by
      apply byte_at m (A ++ s1) X c
      · simp [hm]
      · simp [hcp]
    exact ⟨c, this, hs c (by simp)⟩

/-- One step of the skip loop at a NUL that ends a name and is followed by
another name. -/
theorem skip_step_nul (m : Mem) (f cp : Nat) (c : Fin 256) (hcp : 1 ≤ cp)
    (hz : byte m cp = some 0) (hl : byte m (cp - 1) = some c) (hc : c ≠ 0) :
    bytitle_skip m iter.ITER_NAME (f + 1) cp = bytitle_skip m iter.ITER_NAME f (cp + 1) := by
  rw [bytitle_skip]
  simp only [Nat.add_sub_cancel, hz, ne_eq, not_true_eq_false, if_false]
  rw [if_neg (by decide), if_neg (by omega)]
  rw [show cp + 1 - 2 = cp - 1 by omega, hl]
  simp only [ne_eq, hc, not_false_eq_true, if_true]

/-- Skipping from the first character of a name to the end of its block. -/
theorem skip_block (r : List (Fin 256 × List (Fin 256))) :
    ∀ (e : Fin 256 × List (Fin 256)) (m A T : Mem) (cp f : Nat) (q : Fin 256),
      m = A ++ (e.2 ++ 0 :: (enc_names r ++ T)) → cp = A.length → 1 ≤ cp →
      byte m (cp - 1) = some q → q ≠ 0 → (∀ x ∈ e :: r, x.1 ≠ 0 ∧ ∀ b ∈ x.2, b ≠ 0) →
      e.2.length + 1 + (enc_names r).length ≤ f →
      bytitle_skip m iter.ITER_NAME f cp = some (cp + e.2.length + 1 + (enc_names r).length) := by
  induction r with
  | nil =>
    intro e m A T cp f q hm hcp h1 hp hq hx hf
    obtain ⟨g, rfl⟩ : ∃ g, f = g + 1 + 1 + e.2.length := ⟨f - 2 - e.2.length, by
      simp [enc_names] at hf; omega⟩
    have hs := (hx e (by simp)).2
    rw [skip_nonzero _ e.2 m A _ cp _ hm hcp hs]
    obtain ⟨c, hl, hc⟩ := last_nonzero m A _ e.2 cp q hm hcp hp hq hs
    have hz : byte m (cp + e.2.length) = some 0 :=
      byte_at m (A ++ e.2) (enc_names [] ++ T) 0 _ (by simp [hm]) (by simp [hcp])
    have hz1 : byte m (cp + e.2.length + 1) = some 0 :=
      byte_at m (A ++ e.2 ++ [0]) T 0 _ (by simp [hm, enc_names]) (by simp [hcp]; omega)
    rw [skip_step_nul m (g + 1) (cp + e.2.length) c (by omega) hz hl hc]
    rw [bytitle_skip]
    simp only [Nat.add_sub_cancel, hz1, ne_eq, not_true_eq_false, if_false]
    rw [if_neg (by decide), if_neg (by omega)]
    rw [show cp + e.2.length + 1 + 1 - 2 = cp + e.2.length by omega, hz]
    simp [enc_names]
  | cons e1 r ih =>
    intro e m A T cp f q hm hcp h1 hp hq hx hf
    have hlen := enc_names_length e1 r
    obtain ⟨g, rfl⟩ : ∃ g, f = g + 1 + 1 + e.2.length := ⟨f - 2 - e.2.length, by omega⟩
    have hs := (hx e (by simp)).2
    rw [skip_nonzero _ e.2 m A _ cp _ hm hcp hs]
    obtain ⟨c, hl, hc⟩ := last_nonzero m A _ e.2 cp q hm hcp hp hq hs
    have hz : byte m (cp + e.2.length) = some 0 :=
      byte_at m (A ++ e.2) (enc_names (e1 :: r) ++ T) 0 _ (by simp [hm]) (by simp [hcp])
    have hq1 : byte m (cp + e.2.length + 1) = some e1.1 :=
      byte_at m (A ++ e.2 ++ [0]) (e1.2 ++ 0 :: enc_names r ++ T) e1.1 _
        (by simp [hm, enc_names]) (by simp [hcp]; omega)
    rw [skip_step_nul m (g + 1) (cp + e.2.length) c (by omega) hz hl hc]
    rw [bytitle_skip]
    simp only [Nat.add_sub_cancel, hq1, ne_eq, (hx e1 (by simp)).1, not_false_eq_true, if_true]
    rw [ih e1 m (A ++ e.2 ++ [0] ++ [e1.1]) T (cp + e.2.length + 1 + 1) g e1.1
      (by simp [hm, enc_names]) (by simp [hcp]; omega) (by omega)
      (by simp only [Nat.add_sub_cancel, hq1]) (hx e1 (by simp)).1
      (fun x hx1 => hx x (by simp at hx1 ⊢; right; exact hx1)) (by omega)]
    rw [hlen]
    congr 1; ring

theorem names_le_enc_names (p : List (Fin 256 × List (Fin 256))) :
    p.length ≤ (enc_names p).length := by
  induction p with
  | nil => simp [enc_names]
  | cons e r ih => rw [enc_names_length]; simp; omega

theorem names_le_enc_entries (p : List (Fin 256 × List (Fin 256))) :
    p.length ≤ (enc_entries p).length := by
  induction p with
  | nil => simp [enc_entries]
  | cons e r ih => rw [enc_entries_length_cons]; simp; omega

theorem names_le_enc_blocks (D : List (List (Fin 256 × List (Fin 256)))) :
    (D.map List.length).sum ≤ (enc_name_blocks D).length := by
  induction D with
  | nil => simp [enc_name_blocks]
  | cons p r ih =>
    have := names_le_enc_names p
    simp [enc_name_blocks]; omega

theorem name_hits_nomatch (mt : Match) (D : List (List (Fin 256 × List (Fin 256)))) :
    ∀ i, (∀ p ∈ D, ∀ x ∈ p, mt x.2 = false) → name_hits mt i D = [] := by
  induction D with
  | nil => intro i _; rfl
  | cons p r ih =>
    intro i h
    have hf : p.find? (fun e => mt e.2) = none := by
      rw [List.find?_eq_none]
      intro x hx; simp [h p (by simp) x hx]
    simp only [name_hits, hf]
    exact ih (i + 1) (fun q hq => h q (by simp [hq]))

theorem find_first (mt : Match) (p1 p2 : List (Fin 256 × List (Fin 256)))
    (e : Fin 256 × List (Fin 256))
    (hno : ∀ x ∈ p1, mt x.2 = false) (hmt : mt e.2 = true) :
    (p1 ++ e :: p2).find? (fun e => mt e.2) = some e := by
  induction p1 with
  | nil => simp [hmt]
  | cons a r ih =>
    simp only [List.cons_append, List.find?_cons, hno a (by simp)]
    exact ih (fun x hx => hno x (by simp [hx]))

theorem name_hits_hit (mt : Match) (D1 D2 : List (List (Fin 256 × List (Fin 256))))
    (p1 p2 : List (Fin 256 × List (Fin 256))) (e : Fin 256 × List (Fin 256))
    (hno : ∀ x ∈ p1, mt x.2 = false) (hmt : mt e.2 = true) :
    ∀ i, (∀ p ∈ D1, ∀ x ∈ p, mt x.2 = false) →
      name_hits mt i (D1 ++ (p1 ++ e :: p2) :: D2) =
        { page := ((i + D1.length : Nat) : Int), bits := schar e.1 } ::
          name_hits mt (i + D1.length + 1) D2 := by
  induction D1 with
  | nil => intro i _; simp [name_hits, find_first mt p1 p2 e hno hmt]
  | cons p r ih =>
    intro i h
    have hf : p.find? (fun e => mt e.2) = none := by
      rw [List.find?_eq_none]
      intro x hx; simp [h p (by simp) x hx]
    rw [List.cons_append, name_hits.eq_2]
    simp only [hf]
    rw [ih (i + 1) (fun q hq => h q (by simp [hq]))]
    simp only [List.length_cons]
    rw [show i + 1 + r.length = i + (r.length + 1) by ring]

/-- Either no page has a matching name, or there is a first page that has one
and in it a first matching name. -/
theorem first_hit (mt : Match) (D : List (List (Fin 256 × List (Fin 256)))) :
    (∀ p ∈ D, ∀ x ∈ p, mt x.2 = false) ∨
    ∃ D1 p1 e p2 D2, D = D1 ++ (p1 ++ e :: p2) :: D2 ∧
      (∀ p ∈ D1, ∀ x ∈ p, mt x.2 = false) ∧ (∀ x ∈ p1, mt x.2 = false) ∧ mt e.2 = true := by
  induction D with
  | nil => left; simp
  | cons p r ih =>
    cases hf : p.find? (fun e => mt e.2) with
    | some e =>
      right
      obtain ⟨hmt, p1, p2, hp, hno⟩ := List.find?_eq_some.1 hf
      exact ⟨[], p1, e, p2, r, by simp [hp], by simp, fun x hx => by simpa using hno x hx, hmt⟩
    | none =>
      rw [List.find?_eq_none] at hf
      rcases ih with h | ⟨D1, p1, e, p2, D2, h1, h2, h3, h4⟩
      · left
        intro q hq x hx
        rcases List.mem_cons.1 hq with rfl | hq
        · simpa using hf x hx
        · exact h q hq x hx
      · right
        refine ⟨p :: D1, p1, e, p2, D2, by simp [h1], ?_, h3, h4⟩
        intro q hq x hx
        rcases List.mem_cons.1 hq with rfl | hq
        · simpa using hf x hx
        · exact h2 q hq x hx

theorem page_bytitle_none (g : Globals) :
    page_bytitle g iter.ITER_NAME none =
      if g.bt_ip < g.npages then
        match g.bt_cp, g.bt_match with
        | some cp, some mt =>
          match bytitle_search g.m g.iteration mt g.npages
              (g.m.length + g.npages.toNat + 1) cp g.bt_ip with
          | none => none
          | some (cp1, ip1) => bytitle_finish g (some cp1) ip1
        | _, _ => none
      else bytitle_finish g g.bt_cp g.bt_ip := by
  unfold page_bytitle
  rw [if_neg (by simp)]
  try rfl

theorem page_bytitle_arm (g : Globals) (mt : Match) (w : Int) (hw : page_field g 0 0 = some w) :
    page_bytitle g iter.ITER_NAME (some mt) =
      some (res_none, { g with iteration := iter.ITER_NAME, bt_match := some mt,
                               bt_cp := dbm_get g.m w, bt_ip := 0 }) := by
  unfold page_bytitle
  rw [if_neg (by simp)]
  simp only [title_field, hw]

theorem page_next_name (MACRO_MAX : Nat) (g : Globals) (h : g.iteration = iter.ITER_NAME) :
    dbm_page_next MACRO_MAX g = page_bytitle g iter.ITER_NAME none := by
  simp [dbm_page_next, h]

/-- A call of `dbm_page_next` when no page that is left has a matching name. -/
theorem page_next_nohit (MACRO_MAX : Nat) (g : Globals) (mt : Match) (i : Nat)
    (D : List (List (Fin 256 × List (Fin 256)))) (hc : name_cursor g mt i D)
    (hno : ∀ p ∈ D, ∀ x ∈ p, mt x.2 = false) :
    ∃ g1, dbm_page_next MACRO_MAX g = some (res_none, g1) := by
  obtain ⟨hit, hmt, hip, hnp, hwf, hlay⟩ := hc
  rw [page_next_name MACRO_MAX g hit, page_bytitle_none]
  by_cases hD : D = []
  · subst hD
    rw [if_neg (by rw [hip, hnp]; simp)]
    simp only [bytitle_finish]
    rw [if_pos (by rw [hip, hnp]; simp)]
    exact ⟨_, rfl⟩
  · obtain ⟨A, T, hm, hcp⟩ := hlay hD
    have hlt : g.bt_ip < g.npages := by
      rw [hip, hnp]
      have : 0 < D.length := List.length_pos.2 hD
      omega
    rw [if_pos hlt, hcp, hmt]
    simp only [hit]
    have hfuel : (D.map List.length).sum + 1 ≤ g.m.length + g.npages.toNat + 1 := by
      have := names_le_enc_blocks D
      rw [hm]; simp only [List.length_append]; omega
    rw [search_pages_none g.m mt g.npages T D A A.length _ g.bt_ip hm rfl
      (by rw [hip, hnp]) (fun p hp => ⟨hwf p hp, hno p hp⟩) hfuel]
    simp only [bytitle_finish, if_true]
    exact ⟨_, rfl⟩

/-- A call of `dbm_page_next` when the first page with a matching name is
`p1 ++ e :: p2`: it is the hit, and the cursor moves to the block after it. -/
theorem page_next_hit (MACRO_MAX : Nat) (g : Globals) (mt : Match) (i : Nat)
    (D1 D2 : List (List (Fin 256 × List (Fin 256)))) (p1 p2 : List (Fin 256 × List (Fin 256)))
    (e : Fin 256 × List (Fin 256)) (hc : name_cursor g mt i (D1 ++ (p1 ++ e :: p2) :: D2))
    (hD : ∀ p ∈ D1, ∀ x ∈ p, mt x.2 = false)
    (hno : ∀ x ∈ p1, mt x.2 = false) (hmt : mt e.2 = true) :
    ∃ g1, dbm_page_next MACRO_MAX g =
        some ({ page := ((i + D1.length : Nat) : Int), bits := schar e.1 }, g1) ∧
      name_cursor g1 mt (i + D1.length + 1) D2 := by
  obtain ⟨hit, hmt1, hip, hnp, hwf, hlay⟩ := hc
  obtain ⟨A, T, hm, hcp⟩ := hlay (by simp)
  rw [page_next_name MACRO_MAX g hit, page_bytitle_none]
  simp only [List.length_append, List.length_cons, Nat.cast_add, Nat.cast_one] at hnp
  have hlt : g.bt_ip < g.npages := by rw [hip, hnp]; omega
  rw [if_pos hlt, hcp, hmt1]
  simp only [hit]
  have hpwf : wf_names (p1 ++ e :: p2) := hwf _ (by simp)
  have hfuel : (D1.map List.length).sum + p1.length + 1 ≤ g.m.length + g.npages.toNat + 1 := by
    have h1 := names_le_enc_blocks D1
    have h2 := names_le_enc_names (p1 ++ e :: p2)
    rw [hm, enc_name_blocks_append]
    simp only [List.length_append, enc_name_blocks, List.length_cons] at h2 ⊢
    omega
  rw [search_pages_hit g.m mt g.npages T D1 D2 p1 p2 e A A.length _ g.bt_ip hm rfl
    (by rw [hip, hnp]; omega) (fun p hp => ⟨hwf p (by simp [hp]), hD p hp⟩) hpwf hno hmt hfuel]
  simp only [bytitle_finish]
  rw [if_neg (by rw [hip, hnp]; omega)]
  -- the memory around the matching name
  have hm2 : g.m = (A ++ enc_name_blocks D1 ++ enc_entries p1 ++ [e.1]) ++
      (e.2 ++ 0 :: (enc_names p2 ++ (enc_name_blocks D2 ++ T))) := by
    rw [hm, enc_name_blocks_append]
    simp [enc_name_blocks, enc_names_append, enc_names]
  have hq : byte g.m (A.length + (enc_name_blocks D1).length + (enc_entries p1).length + 1 - 1)
      = some e.1 := by
    rw [Nat.add_sub_cancel]
    apply byte_at g.m (A ++ enc_name_blocks D1 ++ enc_entries p1)
      (e.2 ++ 0 :: (enc_names p2 ++ (enc_name_blocks D2 ++ T))) e.1
    · rw [hm2]; simp
    · simp; omega
  have hbits : bytitle_bits g
      (A.length + (enc_name_blocks D1).length + (enc_entries p1).length + 1) =
      some (schar e.1) := by
    unfold bytitle_bits
    rw [if_pos hit, if_neg (by omega), hq]
    rfl
  rw [hbits]
  simp only []
  have hpage : ((i + D1.length : Nat) : Int) = g.bt_ip + D1.length := by rw [hip]; simp
  rw [hpage]
  by_cases hD2 : D2 = []
  · subst hD2
    rw [if_neg (by rw [hip, hnp]; simp; omega)]
    refine ⟨_, rfl, ?_⟩
    · refine ⟨hit, hmt1, ?_, ?_, ?_, ?_⟩
      · simp [hip]
      · simp [hnp]; ring
      · intro p hp; cases hp
      · intro h; exact absurd rfl h
  · have hpos : 0 < D2.length := List.length_pos.2 hD2
    rw [if_pos (by rw [hip, hnp]; omega)]
    rw [hit, skip_block p2 e g.m _ (enc_name_blocks D2 ++ T) _ _ e.1 hm2 (by simp; omega)
      (by omega) hq (hpwf.2 e (by simp)).1
      (fun x hx => hpwf.2 x (by simp at hx ⊢; right; exact hx))
      (by rw [hm2]; simp; omega)]
    refine ⟨_, rfl, ?_⟩
    · refine ⟨rfl, hmt1, ?_, ?_, ?_, ?_⟩
      · simp [hip]
      · simp [hnp]; ring
      · intro p hp; exact hwf p (by simp [hp])
      · intro _
        refine ⟨A ++ enc_name_blocks D1 ++ enc_names (p1 ++ e :: p2), T, ?_, ?_⟩
        · show g.m = _
          rw [hm, enc_name_blocks_append]; simp [enc_name_blocks]
        · show some _ = some _
          rw [enc_names_append]
          simp [enc_names]; ring

/-- From a cursor state, the calls of `dbm_page_next` return the hits of the
pages that are left and then the sentinel. -/
theorem page_next_all_names (MACRO_MAX : Nat) (mt : Match) (n : Nat) :
    ∀ (D : List (List (Fin 256 × List (Fin 256)))) (g : Globals) (i : Nat),
      D.length ≤ n → name_cursor g mt i D →
      page_next_all MACRO_MAX (n + 1) g = some (name_hits mt i D, true) := by
  induction n with
  | zero =>
    intro D g i hn hc
    have hD : D = [] := List.length_eq_zero.1 (by omega)
    subst hD
    obtain ⟨g1, h1⟩ := page_next_nohit MACRO_MAX g mt i [] hc (by simp)
    simp [page_next_all, h1, name_hits]
  | succ n ih =>
    intro D g i hn hc
    rcases first_hit mt D with hno | ⟨D1, p1, e, p2, D2, rfl, h1, h2, h3⟩
    · obtain ⟨g1, hg⟩ := page_next_nohit MACRO_MAX g mt i D hc hno
      rw [name_hits_nomatch mt D i hno]
      simp [page_next_all, hg]
    · obtain ⟨g1, hg, hc1⟩ := page_next_hit MACRO_MAX g mt i D1 D2 p1 p2 e hc h1 h2 h3
      rw [name_hits_hit mt D1 D2 p1 p2 e h2 h3 i h1]
      have hne : ({ page := ((i + D1.length : Nat) : Int), bits := schar e.1 } : dbm_res)
          ≠ res_none := by
        intro h
        have := congrArg dbm_res.page h
        simp only [res_none] at this
        omega
      rw [page_next_all, hg]
      simp only [hne, if_false]
      rw [ih D2 g1 (i + D1.length + 1) (by simp at hn; omega) hc1]
      rfl

theorem name_hits_pages (mt : Match) (D : List (List (Fin 256 × List (Fin 256)))) :
    ∀ i, (name_hits mt i D).map (fun r => r.page) =
      ((List.range D.length).filter (fun k => (D.getD k []).any (fun e => mt e.2))).map
        (fun k => ((i + k : Nat) : Int)) := by
  induction D with
  | nil => intro i; rfl
  | cons p r ih =>
    intro i
    have htail : ((List.map Nat.succ (List.range r.length)).filter
        (fun k => ((p :: r).getD k []).any (fun e => mt e.2))).map (fun k => ((i + k : Nat) : Int))
        = (name_hits mt (i + 1) r).map (fun r => r.page) := by
      rw [ih (i + 1), List.filter_map, List.map_map]
      congr 1
      · funext k; simp only [Function.comp]; congr 1; omega
    rw [List.length_cons, List.range_succ_eq_map, List.filter_cons]
    cases hf : p.find? (fun e => mt e.2) with
    | some e =>
      have hany : (p.any (fun e => mt e.2)) = true := by
        rw [List.any_eq_true]
        exact ⟨e, List.mem_of_find?_eq_some hf, by simpa using List.find?_some hf⟩
      simp only [List.getD_cons_zero, hany, if_true, List.map_cons, name_hits, hf, htail]
      simp
    | none =>
      have hany : (p.any (fun e => mt e.2)) = false := by
        rw [List.any_eq_false]
        intro x hx
        simpa using (List.find?_eq_none.1 hf) x hx
      simp only [List.getD_cons_zero, hany, Bool.false_eq_true, if_false, name_hits, hf, htail]

/-- The name pointer that `dbm_page_get` returns is the one that the name
word of the page record resolves to. -/
theorem page_get_name (g : Globals) (ip : Int) (c : Nat)
    (h : (dbm_page_get g ip).map (fun p => p.name) = some (some c)) :
    (page_field g ip.toNat 0).bind (dbm_get g.m) = some c := by
  cases hp : dbm_page_get g ip with
  | none => rw [hp] at h; cases h
  | some p =>
    rw [hp] at h
    obtain ⟨w0, w1, w2, w3, w4, e0, -, -, -, -, hpe⟩ := dbm_page_get_some _ _ _ hp
    subst hpe
    simp only [Option.map, Option.some.injEq] at h
    rw [e0]
    exact h

theorem name_iteration_hits (MACRO_MAX : Nat) (m : Mem) (mt : Match)
    (db : List (List (Fin 256 × List (Fin 256)))) (A T : Mem)
    (hopen : (dbm_open MACRO_MAX m).map Prod.fst = some 0)
    (hn : dbm_page_count (dbm_opened MACRO_MAX m) = (db.length : Int))
    (hrec : db = [] → dbm_getint 6 ≤ m.length)
    (hwf : ∀ p ∈ db, wf_names p)
    (hlay : m = A ++ (enc_name_blocks db ++ T))
    (hptr : ∀ i, i < db.length →
      (dbm_page_get (dbm_opened MACRO_MAX m) (i : Int)).map (fun p => p.name) =
        some (some (A.length + (enc_name_blocks (db.take i)).length))) :
    ∃ g1, dbm_page_byname (dbm_opened MACRO_MAX m) mt = some g1 ∧
      page_next_all MACRO_MAX (db.length + 1) g1 = some (name_hits mt 0 db, true) := by
  obtain ⟨hm, hpg, -, -⟩ := dbm_open_success MACRO_MAX m hopen
  obtain ⟨w, hw⟩ : ∃ w, page_field (dbm_opened MACRO_MAX m) 0 0 = some w := by
    by_cases hdb : db = []
    · unfold page_field
      rw [hm, hpg]
      have := hrec hdb
      exact be32_of_le m _ (by simp only [dbm_getint] at this ⊢; omega)
    · have h0 := page_get_name _ _ _ (hptr 0 (List.length_pos.2 hdb))
      simp only [Nat.cast_zero, Int.toNat_zero] at h0
      cases hw : page_field (dbm_opened MACRO_MAX m) 0 0 with
      | none => rw [hw] at h0; cases h0
      | some w => exact ⟨w, rfl⟩
  have harm := page_bytitle_arm (dbm_opened MACRO_MAX m) mt w hw
  refine ⟨_, by rw [dbm_page_byname, harm]; rfl, ?_⟩
  apply page_next_all_names MACRO_MAX mt db.length db _ 0 (le_refl _)
  refine ⟨rfl, rfl, rfl, ?_, hwf, ?_⟩
  · simpa [dbm_page_count] using hn
  · intro hne
    refine ⟨A, T, ?_, ?_⟩
    · show (dbm_opened MACRO_MAX m).m = _
      rw [hm]; exact hlay
    · show dbm_get (dbm_opened MACRO_MAX m).m w = _
      have h0 := page_get_name _ _ _ (hptr 0 (List.length_pos.2 hne))
      simp only [Nat.cast_zero, Int.toNat_zero] at h0
      rw [hw] at h0
      simpa [enc_name_blocks] using h0

set_option maxRecDepth 100000 in
/-- C1, as stated, fails: `db_swapped` opens successfully and the name block
of its page 1 holds the name bar, yet a name iteration for bar returns the
sentinel at once, because the cursor walks on from the name block of page 0
instead of following the name offset of page 1. -/
theorem name_iteration_misses_page :
    (dbm_open 36 db_swapped).map Prod.fst = some 0 ∧
    dbm_page_count (dbm_opened 36 db_swapped) = 2 ∧
    (dbm_page_get (dbm_opened 36 db_swapped) 1).map (fun p => p.name) = some (some 60) ∧
    (db_swapped.drop 60).take 6 = enc_names [(1, [98, 97, 114])] ∧
    match_bar [98, 97, 114] = true ∧
    (dbm_page_byname (dbm_opened 36 db_swapped) match_bar).bind
      (fun g => page_next_all 36 3 g) = some ([], true) := by
  decide

/-- C1, amended: for a successfully opened database whose name blocks are
stored one after the other in page order, each with at least one name, no zero
quality byte and no NUL inside a name (when there is no page, let the word
after the header, which arming reads all the same, lie inside the mapping),
the page indices returned by the `dbm_page_next` calls that follow
`dbm_page_byname`, up to the sentinel, are exactly the pages with a name
satisfying the match, in increasing order and each once; the hit of a page
carries the quality byte of its first matching name, read as a `char`. -/
theorem name_iteration_exact (MACRO_MAX : Nat) (m : Mem) (mt : Match)
    (db : List (List (Fin 256 × List (Fin 256)))) (A T : Mem)
    (hopen : (dbm_open MACRO_MAX m).map Prod.fst = some 0)
    (hn : dbm_page_count (dbm_opened MACRO_MAX m) = (db.length : Int))
    (hrec : db = [] → dbm_getint 6 ≤ m.length)
    (hwf : ∀ p ∈ db, wf_names p)
    (hlay : m = A ++ (enc_name_blocks db ++ T))
    (hptr : ∀ i, i < db.length →
      (dbm_page_get (dbm_opened MACRO_MAX m) (i : Int)).map (fun p => p.name) =
        some (some (A.length + (enc_name_blocks (db.take i)).length))) :
    ∃ g1 rs, dbm_page_byname (dbm_opened MACRO_MAX m) mt = some g1 ∧
      page_next_all MACRO_MAX (db.length + 1) g1 = some (rs, true) ∧
      rs = name_hits mt 0 db ∧
      rs.map (fun r => r.page) =
        ((List.range db.length).filter (fun k => (db.getD k []).any (fun e => mt e.2))).map
          (fun (k : Nat) => (k : Int)) ∧
      (rs.map (fun r => r.page)).Nodup := by
  have hpages : (name_hits mt 0 db).map (fun r => r.page) =
      ((List.range db.length).filter (fun k => (db.getD k []).any (fun e => mt e.2))).map
        (fun (k : Nat) => (k : Int)) := by
    rw [name_hits_pages mt db 0]; simp
  obtain ⟨g1, h1, h2⟩ := name_iteration_hits MACRO_MAX m mt db A T hopen hn hrec hwf hlay hptr
  refine ⟨g1, name_hits mt 0 db, h1, h2, rfl, hpages, ?_⟩
  rw [hpages]
  apply List.Nodup.map
  · intro a b h; exact Int.ofNat.inj h
  · exact (List.nodup_range _).filter _

set_option maxRecDepth 100000 in
/-- Witness for `name_iteration_exact`: the three pages foo; foo, bar; baz of
`db_names` and the match foo give the hits (0, 1) and (1, 2), then the
sentinel. -/
theorem name_iteration_exact_witness :
    ∃ g1, dbm_page_byname (dbm_opened 36 db_names) match_foo = some g1 ∧
      page_next_all 36 4 g1 = some ([{ page := 0, bits := 1 }, { page := 1, bits := 2 }], true) := by
  obtain ⟨g1, rs, h1, h2, h3, -, -⟩ :=
    name_iteration_exact 36 db_names match_foo names3 (db_names.take 80) (db_names.drop 103)
      (by decide) (by decide) (by decide) (by decide) (by decide) (by decide)
  refine ⟨g1, h1, ?_⟩
  rw [h3] at h2
  exact h2

/-! ## One call of `dbm_page_next` -/

theorem bytitle_search_ip (m : Mem) (it : iter) (mt : Match) (npages : Int) :
    ∀ (fuel cp cp1 : Nat) (ip ip1 : Int),
      bytitle_search m it mt npages fuel cp ip = some (cp1, ip1) →
      ip ≤ ip1 ∧ (ip ≤ npages → ip1 ≤ npages) := by
  intro fuel
  induction fuel with
  | zero => intro cp cp1 ip ip1 h; simp [bytitle_search] at h
  | succ f ih =>
    intro cp cp1 ip ip1 h
    rw [bytitle_search] at h
    simp only [] at h
    repeat' split at h
    all_goals first
      | (obtain ⟨a, b⟩ := ih _ _ _ _ h
         exact ⟨by omega, fun hh => b (by omega)⟩)
      | (simp only [Option.some.injEq, Prod.mk.injEq] at h
         obtain ⟨rfl, rfl⟩ := h
         exact ⟨le_refl _, fun h => h⟩)
      | cases h

theorem bytitle_bits_other (g : Globals) (c : Nat) (b : Int) (h : bytitle_bits g c = some b)
    (hn : g.iteration ≠ iter.ITER_NAME) : b = 0 := by
  unfold bytitle_bits at h
  rw [if_neg hn] at h
  simp only [Option.some.injEq] at h
  exact h.symm

theorem bytitle_finish_spec (g : Globals) (cp : Option Nat) (ip : Int) (r : dbm_res)
    (g1 : Globals) (h : bytitle_finish g cp ip = some (r, g1)) :
    same_file g g1 ∧ g1.pages = g.pages ∧ g1.ba_ip = g.ba_ip ∧ g1.ba_match = g.ba_match ∧
    g1.bm_pp = g.bm_pp ∧
    ((ip = g.npages ∧ r = res_none ∧ g1.iteration = iter.ITER_NONE ∧ g1.bt_ip = ip) ∨
     (ip ≠ g.npages ∧ r.page = ip ∧ g1.bt_ip = ip + 1 ∧ g1.iteration = g.iteration ∧
       (∃ c, cp = some c ∧ bytitle_bits g c = some r.bits) ∧
       (g.iteration ≠ iter.ITER_NAME → r.bits = 0))) := by
  unfold bytitle_finish at h
  by_cases h1 : ip = g.npages
  · rw [if_pos h1] at h
    simp only [Option.some.injEq, Prod.mk.injEq] at h
    obtain ⟨rfl, rfl⟩ := h
    exact ⟨⟨rfl, rfl, rfl, rfl, rfl⟩, rfl, rfl, rfl, rfl, Or.inl ⟨h1, rfl, rfl, rfl⟩⟩
  · rw [if_neg h1] at h
    cases cp with
    | none => simp at h
    | some c =>
      simp only [] at h
      cases hb : bytitle_bits g c with
      | none => rw [hb] at h; simp at h
      | some bits =>
        rw [hb] at h
        simp only [] at h
        by_cases h3 : ip + 1 < g.npages
        · simp only [h3, if_true] at h
          cases hs : bytitle_skip g.m g.iteration (g.m.length + 2) c with
          | none => rw [hs] at h; simp at h
          | some c1 =>
            rw [hs] at h
            simp only [Option.some.injEq, Prod.mk.injEq] at h
            obtain ⟨rfl, rfl⟩ := h
            exact ⟨⟨rfl, rfl, rfl, rfl, rfl⟩, rfl, rfl, rfl, rfl,
              Or.inr ⟨h1, rfl, rfl, rfl, ⟨c, rfl, hb⟩, bytitle_bits_other g c bits hb⟩⟩
        · simp only [h3, if_false] at h
          simp only [Option.some.injEq, Prod.mk.injEq] at h
          obtain ⟨rfl, rfl⟩ := h
          exact ⟨⟨rfl, rfl, rfl, rfl, rfl⟩, rfl, rfl, rfl, rfl,
            Or.inr ⟨h1, rfl, rfl, rfl, ⟨c, rfl, hb⟩, bytitle_bits_other g c bits hb⟩⟩

theorem byarch_search_ip (g : Globals) (mt : Match) :
    ∀ (n : Nat) (ip ip1 : Int) (b : Bool), byarch_search g mt n ip = some (ip1, b) →
      ip ≤ ip1 ∧ (b = true → ip1 < g.npages) ∧ (ip ≤ g.npages → ip1 ≤ g.npages) := by
  intro n
  induction n with
  | zero =>
    intro ip ip1 b h
    simp only [byarch_search, Option.some.injEq, Prod.mk.injEq] at h
    obtain ⟨rfl, rfl⟩ := h
    exact ⟨le_refl _, fun h => (by cases h), fun h => h⟩
  | succ n ih =>
    intro ip ip1 b h
    rw [byarch_search] at h
    by_cases h1 : ip < g.npages
    · rw [if_pos h1] at h
      repeat' split at h
      all_goals first
        | (obtain ⟨a, b1, c⟩ := ih _ _ _ h
           exact ⟨by omega, b1, fun _ => c (by omega)⟩)
        | (simp only [Option.some.injEq, Prod.mk.injEq] at h
           obtain ⟨rfl, rfl⟩ := h
           exact ⟨le_refl _, fun _ => h1, fun h => h⟩)
        | cases h
    · rw [if_neg h1] at h
      simp only [Option.some.injEq, Prod.mk.injEq] at h
      obtain ⟨rfl, rfl⟩ := h
      exact ⟨le_refl _, fun h => (by cases h), fun h => h⟩

theorem res_none_page (r : dbm_res) (h : 0 ≤ r.page) : r ≠ res_none := by
  intro hr
  rw [hr] at h
  simp [res_none] at h

theorem page_bytitle_step (g g1 : Globals) (r : dbm_res) (it : iter) (hok : reader_ok g)
    (h : page_bytitle g it none = some (r, g1)) :
    reader_ok g1 ∧ same_file g g1 ∧
    (r = res_none → g1.iteration = iter.ITER_NONE) ∧
    (r ≠ res_none → g1.iteration = g.iteration ∧ 0 ≤ r.page ∧ r.page < g.npages) ∧
    (g.iteration ≠ iter.ITER_NAME → r.bits = 0) := by
  obtain ⟨hp, hb0, hb1, ha0, ha1⟩ := hok
  have key : ∀ (cp : Option Nat) (ip : Int), 0 ≤ ip → ip ≤ g.npages →
      bytitle_finish g cp ip = some (r, g1) →
      reader_ok g1 ∧ same_file g g1 ∧
      (r = res_none → g1.iteration = iter.ITER_NONE) ∧
      (r ≠ res_none → g1.iteration = g.iteration ∧ 0 ≤ r.page ∧ r.page < g.npages) ∧
      (g.iteration ≠ iter.ITER_NAME → r.bits = 0) := by
    intro cp ip h0 h1 hf
    obtain ⟨hsf, hpg, hai, -, -, hc⟩ := bytitle_finish_spec g cp ip r g1 hf
    have hnp : g1.npages = g.npages := hsf.2.2.2.2.symm
    rcases hc with ⟨he, hr, hi, hbt⟩ | ⟨hne, hpage, hbt, hi, -, hbits⟩
    · refine ⟨⟨by rw [hpg, hp], by rw [hbt]; exact h0, by rw [hbt, hnp]; exact h1,
        by rw [hai]; exact ha0, by rw [hai, hnp]; exact ha1⟩, hsf, fun _ => hi,
        fun hn => absurd hr hn, fun _ => by rw [hr]; rfl⟩
    · have hlt : ip < g.npages := lt_of_le_of_ne h1 hne
      refine ⟨⟨by rw [hpg, hp], by rw [hbt]; omega, by rw [hbt, hnp]; omega,
        by rw [hai]; exact ha0, by rw [hai, hnp]; exact ha1⟩, hsf, ?_,
        fun _ => ⟨hi, by rw [hpage]; exact h0, by rw [hpage]; exact hlt⟩, hbits⟩
      intro hr
      exact absurd hr (res_none_page r (by rw [hpage]; exact h0))
  unfold page_bytitle at h
  by_cases hk : ¬ (it = iter.ITER_NAME ∨ it = iter.ITER_DESC ∨ it = iter.ITER_SECT)
  · rw [if_pos hk] at h
    cases h
  · rw [if_neg hk] at h
    simp only [] at h
    by_cases hlt : g.bt_ip < g.npages
    · rw [if_pos hlt] at h
      cases hcp : g.bt_cp with
      | none => rw [hcp] at h; simp at h
      | some cp =>
        cases hmt : g.bt_match with
        | none => rw [hcp, hmt] at h; simp at h
        | some mt =>
          rw [hcp, hmt] at h
          simp only [] at h
          cases hs : bytitle_search g.m g.iteration mt g.npages
              (g.m.length + g.npages.toNat + 1) cp g.bt_ip with
          | none => rw [hs] at h; simp at h
          | some p =>
            obtain ⟨cp1, ip1⟩ := p
            rw [hs] at h
            simp only [] at h
            obtain ⟨hle, hup⟩ := bytitle_search_ip _ _ _ _ _ _ _ _ _ hs
            exact key _ _ (by omega) (hup hb1) h
    · rw [if_neg hlt] at h
      exact key _ _ hb0 hb1 h

theorem page_byarch_step (g g1 : Globals) (r : dbm_res) (hok : reader_ok g)
    (h : page_byarch g none = some (r, g1)) :
    reader_ok g1 ∧ same_file g g1 ∧
    (r = res_none → g1.iteration = iter.ITER_NONE) ∧
    (r ≠ res_none → g1.iteration = g.iteration ∧ 0 ≤ r.page ∧ r.page < g.npages) ∧
    r.bits = 0 := by
  obtain ⟨hp, hb0, hb1, ha0, ha1⟩ := hok
  unfold page_byarch at h
  simp only [] at h
  by_cases hlt : g.ba_ip < g.npages
  · rw [if_pos hlt] at h
    cases hm : g.ba_match with
    | none => rw [hm] at h; simp at h
    | some mt =>
      rw [hm] at h
      simp only [] at h
      cases hs : byarch_search g mt (g.npages - g.ba_ip).toNat g.ba_ip with
      | none => rw [hs] at h; simp at h
      | some p =>
        obtain ⟨ip, b⟩ := p
        rw [hs] at h
        obtain ⟨h1, h2, h3⟩ := byarch_search_ip g mt _ _ _ _ hs
        cases b with
        | true =>
          simp only [Option.some.injEq, Prod.mk.injEq] at h
          obtain ⟨rfl, rfl⟩ := h
          have hlt2 := h2 rfl
          refine ⟨⟨hp, hb0, hb1, ?_, ?_⟩, ⟨rfl, rfl, rfl, rfl, rfl⟩, ?_,
            fun _ => ⟨rfl, ?_, hlt2⟩, rfl⟩
          · show 0 ≤ ip + 1
            omega
          · show ip + 1 ≤ g.npages
            omega
          · intro hr
            exact absurd hr (res_none_page _ (by show 0 ≤ ip; omega))
          · show 0 ≤ ip
            omega
        | false =>
          simp only [Option.some.injEq, Prod.mk.injEq] at h
          obtain ⟨rfl, rfl⟩ := h
          refine ⟨⟨hp, hb0, hb1, ?_, ?_⟩, ⟨rfl, rfl, rfl, rfl, rfl⟩, fun _ => rfl,
            fun hn => absurd rfl hn, rfl⟩
          · show 0 ≤ ip
            omega
          · show ip ≤ g.npages
            exact h3 ha1
  · rw [if_neg hlt] at h
    simp only [Option.some.injEq, Prod.mk.injEq] at h
    obtain ⟨rfl, rfl⟩ := h
    exact ⟨⟨hp, hb0, hb1, ha0, ha1⟩, ⟨rfl, rfl, rfl, rfl, rfl⟩, fun _ => rfl,
      fun hn => absurd rfl hn, rfl⟩

/-- One call of `page_bymacro(0, NULL)` in a macro iteration: either the
cursor is `NULL` or at a zero word, and the iteration ends with the sentinel;
or the word `w` under the cursor is not zero and resolves, the result is the
pointer difference for it and the cursor moves on by one word. -/
theorem page_bymacro_step (MACRO_MAX : Nat) (g g1 : Globals) (r : dbm_res) (hok : reader_ok g)
    (hit : g.iteration = iter.ITER_MACRO)
    (h : page_bymacro MACRO_MAX g 0 none = some (r, g1)) :
    reader_ok g1 ∧ same_file g g1 ∧ r.bits = 0 ∧
    ((r = res_none ∧ g1.iteration = iter.ITER_NONE ∧
        ∀ pp, g.bm_pp = some pp → be32 g.m pp = some 0) ∨
     (g1.iteration = iter.ITER_MACRO ∧
      ∃ pp w a, g.bm_pp = some pp ∧ be32 g.m pp = some w ∧ w ≠ 0 ∧ dbm_get g.m w = some a ∧
        r.page = page_diff ((a : Int) - 20) ∧ g1.bm_pp = some (pp + 4))) := by
  obtain ⟨hp, hb0, hb1, ha0, ha1⟩ := hok
  unfold page_bymacro at h
  by_cases hm : ¬ (0 ≤ (0 : Int) ∧ (0 : Int) < MACRO_MAX)
  · rw [if_pos hm] at h
    cases h
  · rw [if_neg hm] at h
    simp only [] at h
    rw [if_neg (by rw [hit]; simp)] at h
    cases hpp : g.bm_pp with
    | none =>
      rw [hpp] at h
      simp only [Option.some.injEq, Prod.mk.injEq] at h
      obtain ⟨rfl, rfl⟩ := h
      exact ⟨⟨hp, hb0, hb1, ha0, ha1⟩, ⟨rfl, rfl, rfl, rfl, rfl⟩, rfl,
        Or.inl ⟨rfl, rfl, fun pp h => by cases h⟩⟩
    | some pp =>
      rw [hpp] at h
      simp only [] at h
      cases hw : be32 g.m pp with
      | none => rw [hw] at h; simp at h
      | some w =>
        rw [hw] at h
        simp only [] at h
        by_cases hz : w = 0
        · rw [if_pos hz] at h
          simp only [Option.some.injEq, Prod.mk.injEq] at h
          obtain ⟨rfl, rfl⟩ := h
          refine ⟨⟨hp, hb0, hb1, ha0, ha1⟩, ⟨rfl, rfl, rfl, rfl, rfl⟩, rfl,
            Or.inl ⟨rfl, rfl, ?_⟩⟩
          intro pp1 h1
          simp only [Option.some.injEq] at h1
          subst h1
          rw [hw, hz]
        · rw [if_neg hz] at h
          cases hg : dbm_get g.m w with
          | none => rw [hg] at h; simp at h
          | some a =>
            rw [hg] at h
            simp only [Option.some.injEq, Prod.mk.injEq] at h
            obtain ⟨rfl, rfl⟩ := h
            have hpg : (g.pages : Int) = 20 := by rw [hp]; rfl
            refine ⟨⟨hp, hb0, hb1, ha0, ha1⟩, ⟨rfl, rfl, rfl, rfl, rfl⟩, rfl,
              Or.inr ⟨hit, pp, w, a, rfl, hw, hz, hg, ?_, rfl⟩⟩
            show page_diff ((a : Int) - (g.pages : Int)) = _
            rw [hpg]

theorem page_next_step (MACRO_MAX : Nat) (g g1 : Globals) (r : dbm_res) (hok : reader_ok g)
    (h : dbm_page_next MACRO_MAX g = some (r, g1)) :
    reader_ok g1 ∧ same_file g g1 ∧
    (g1.iteration = iter.ITER_NONE ∨ g1.iteration = g.iteration) ∧
    (g.iteration ≠ iter.ITER_MACRO →
      (r = res_none → g1.iteration = iter.ITER_NONE) ∧
      (r ≠ res_none → g1.iteration = g.iteration ∧ 0 ≤ r.page ∧ r.page < g.npages)) ∧
    (g.iteration ≠ iter.ITER_NAME → r.bits = 0) := by
  have hdisj : ∀ (x : dbm_res) (a b : iter), (x = res_none → a = iter.ITER_NONE) →
      (x ≠ res_none → a = b) → a = iter.ITER_NONE ∨ a = b := by
    intro x a b h1 h2
    by_cases hx : x = res_none
    · exact Or.inl (h1 hx)
    · exact Or.inr (h2 hx)
  unfold dbm_page_next at h
  cases hit : g.iteration <;> rw [hit] at h <;> simp only [] at h
  · simp only [Option.some.injEq, Prod.mk.injEq] at h
    obtain ⟨rfl, rfl⟩ := h
    exact ⟨hok, ⟨rfl, rfl, rfl, rfl, rfl⟩, Or.inl hit,
      fun _ => ⟨fun _ => hit, fun hn => absurd rfl hn⟩, fun _ => rfl⟩
  · obtain ⟨a, b, c, d, e⟩ := page_bytitle_step g g1 r _ hok h
    exact ⟨a, b, hdisj r _ _ c (fun hn => by rw [← hit]; exact (d hn).1),
      fun _ => ⟨c, fun hn => ⟨by rw [← hit]; exact (d hn).1, (d hn).2⟩⟩,
      fun hn => e (by rw [hit]; exact hn)⟩
  · obtain ⟨a, b, c, d, e⟩ := page_bytitle_step g g1 r _ hok h
    exact ⟨a, b, hdisj r _ _ c (fun hn => by rw [← hit]; exact (d hn).1),
      fun _ => ⟨c, fun hn => ⟨by rw [← hit]; exact (d hn).1, (d hn).2⟩⟩,
      fun hn => e (by rw [hit]; exact hn)⟩
  · obtain ⟨a, b, c, d, e⟩ := page_byarch_step g g1 r hok h
    exact ⟨a, b, hdisj r _ _ c (fun hn => by rw [← hit]; exact (d hn).1),
      fun _ => ⟨c, fun hn => ⟨by rw [← hit]; exact (d hn).1, (d hn).2⟩⟩,
      fun _ => e⟩
  · obtain ⟨a, b, c, d, e⟩ := page_bytitle_step g g1 r _ hok h
    exact ⟨a, b, hdisj r _ _ c (fun hn => by rw [← hit]; exact (d hn).1),
      fun _ => ⟨c, fun hn => ⟨by rw [← hit]; exact (d hn).1, (d hn).2⟩⟩,
      fun hn => e (by rw [hit]; exact hn)⟩
  · obtain ⟨a, b, e, d⟩ := page_bymacro_step MACRO_MAX g g1 r hok hit h
    refine ⟨a, b, ?_, fun hn => absurd rfl hn, fun _ => e⟩
    rcases d with ⟨-, d, -⟩ | ⟨d, -⟩
    · exact Or.inl d
    · exact Or.inr d

theorem reader_ok_open (MACRO_MAX : Nat) (m : Mem)
    (h : (dbm_open MACRO_MAX m).map Prod.fst = some 0) :
    reader_ok (dbm_opened MACRO_MAX m) := by
  obtain ⟨np, off, -, -, -, hnp, hiff, -, hs⟩ :=
    dbm_open_spec MACRO_MAX m 0 _ (dbm_open_some MACRO_MAX m h)
  obtain ⟨-, hp, -⟩ := hs rfl
  have h0 : 0 ≤ np := (hiff.1 rfl).1
  have hinit : (dbm_opened MACRO_MAX m).bt_ip = 0 ∧ (dbm_opened MACRO_MAX m).ba_ip = 0 := by
    have ho := dbm_open_some MACRO_MAX m h
    unfold dbm_open at ho
    simp only [] at ho
    repeat' split at ho
    all_goals first
      | (simp only [dbm_open_fail, Option.some.injEq, Prod.mk.injEq] at ho
         obtain ⟨h1, h2⟩ := ho
         first
           | (exfalso; revert h1; decide)
           | (rw [← h2]; exact ⟨rfl, rfl⟩))
      | cases ho
  exact ⟨hp, by rw [hinit.1], by rw [hinit.1, hnp]; exact h0, by rw [hinit.2],
    by rw [hinit.2, hnp]; exact h0⟩

theorem page_bytitle_armed (g a : Globals) (it : iter) (mt : Match) (r : dbm_res)
    (h : page_bytitle g it (some mt) = some (r, a)) :
    r = res_none ∧ (it = iter.ITER_NAME ∨ it = iter.ITER_DESC ∨ it = iter.ITER_SECT) ∧
    ∃ w, page_field g 0 (title_field it) = some w ∧
      a = { g with iteration := it, bt_match := some mt, bt_cp := dbm_get g.m w, bt_ip := 0 } := by
  unfold page_bytitle at h
  by_cases hk : ¬ (it = iter.ITER_NAME ∨ it = iter.ITER_DESC ∨ it = iter.ITER_SECT)
  · rw [if_pos hk] at h
    cases h
  · rw [if_neg hk] at h
    simp only [] at h
    cases hw : page_field g 0 (title_field it) with
    | none => rw [hw] at h; simp at h
    | some w =>
      rw [hw] at h
      simp only [Option.some.injEq, Prod.mk.injEq] at h
      exact ⟨h.1.symm, not_not.1 hk, w, rfl, h.2.symm⟩

theorem page_bytitle_arm_of (g : Globals) (it : iter) (mt : Match) (w : Int)
    (hit : it = iter.ITER_NAME ∨ it = iter.ITER_DESC ∨ it = iter.ITER_SECT)
    (hw : page_field g 0 (title_field it) = some w) :
    page_bytitle g it (some mt) =
      some (res_none, { g with iteration := it, bt_match := some mt, bt_cp := dbm_get g.m w,
                               bt_ip := 0 }) := by
  unfold page_bytitle
  rw [if_neg (not_not.2 hit)]
  simp only []
  rw [hw]

theorem page_bymacro_armed (MACRO_MAX : Nat) (g a : Globals) (im : Int) (mt : Match)
    (r : dbm_res) (h : page_bymacro MACRO_MAX g im (some mt) = some (r, a)) :
    r = res_none ∧ ∃ pp, a = { g with iteration := iter.ITER_MACRO, bm_pp := pp } := by
  unfold page_bymacro at h
  by_cases hm : ¬ (0 ≤ im ∧ im < MACRO_MAX)
  · rw [if_pos hm] at h
    cases h
  · rw [if_neg hm] at h
    simp only [] at h
    repeat' split at h
    all_goals first
      | (simp only [Option.some.injEq, Prod.mk.injEq] at h
         exact ⟨h.1.symm, _, h.2.symm⟩)
      | cases h

theorem arm_spec (MACRO_MAX : Nat) (g a : Globals) (f : page_filter) (hok : reader_ok g)
    (h : arm MACRO_MAX g f = some a) : reader_ok a ∧ same_file g a := by
  obtain ⟨hp, hb0, hb1, ha0, ha1⟩ := hok
  have hn : 0 ≤ g.npages := le_trans hb0 hb1
  have htitle : ∀ (mt : Match) (it : iter), (page_bytitle g it (some mt)).map Prod.snd = some a →
      reader_ok a ∧ same_file g a := by
    intro mt it h
    cases hq : page_bytitle g it (some mt) with
    | none => rw [hq] at h; cases h
    | some q =>
      obtain ⟨r, a1⟩ := q
      rw [hq] at h
      simp only [Option.map, Option.some.injEq] at h
      subst h
      obtain ⟨-, -, w, -, rfl⟩ := page_bytitle_armed g _ it mt r hq
      exact ⟨⟨hp, le_refl _, hn, ha0, ha1⟩, rfl, rfl, rfl, rfl, rfl⟩
  cases f with
  | by_name mt => exact htitle mt _ h
  | by_sect mt => exact htitle mt _ h
  | by_desc mt => exact htitle mt _ h
  | by_arch mt =>
    simp only [arm, dbm_page_byarch, page_byarch, Option.map, Option.some.injEq] at h
    subst h
    exact ⟨⟨hp, hb0, hb1, le_refl _, hn⟩, rfl, rfl, rfl, rfl, rfl⟩
  | by_macro im mt =>
    simp only [arm, dbm_page_bymacro] at h
    cases hq : page_bymacro MACRO_MAX g im (some mt) with
    | none => rw [hq] at h; cases h
    | some q =>
      obtain ⟨r, a1⟩ := q
      rw [hq] at h
      simp only [Option.map, Option.some.injEq] at h
      subst h
      obtain ⟨-, pp, rfl⟩ := page_bymacro_armed MACRO_MAX g _ im mt r hq
      exact ⟨⟨hp, hb0, hb1, ha0, ha1⟩, rfl, rfl, rfl, rfl, rfl⟩

theorem page_nexts_none (MACRO_MAX : Nat) (g : Globals) (h : g.iteration = iter.ITER_NONE) :
    ∀ n, page_nexts MACRO_MAX n g = some (List.replicate n res_none, g) := by
  intro n
  induction n with
  | zero => rfl
  | succ n ih =>
    have h1 : dbm_page_next MACRO_MAX g = some (res_none, g) := by
      unfold dbm_page_next
      rw [h]
    rw [page_nexts, h1]
    simp only []
    rw [ih]
    rfl

theorem be32_range (m : Mem) (a : Nat) (w : Int) (h : be32 m a = some w) :
    -2147483648 ≤ w ∧ w < 2147483648 := by
  unfold be32 at h
  cases h0 : byte m a with
  | none => simp [h0] at h
  | some b0 =>
  cases h1 : byte m (a + 1) with
  | none => simp [h0, h1] at h
  | some b1 =>
  cases h2 : byte m (a + 2) with
  | none => simp [h0, h1, h2] at h
  | some b2 =>
  cases h3 : byte m (a + 3) with
  | none => simp [h0, h1, h2, h3] at h
  | some b3 =>
    simp only [h0, h1, h2, h3, Option.some.injEq] at h
    have e0 := b0.isLt
    have e1 := b1.isLt
    have e2 := b2.isLt
    have e3 := b3.isLt
    split_ifs at h <;> omega

/-- The pointer difference for the offset of page record `k` is `k`. -/
theorem page_diff_record (k : Int) (h0 : 0 ≤ k) (h1 : k < 2147483648) :
    page_diff (20 * k) = k := by
  unfold page_diff
  simp only []
  have e : 20 * k / 4 = 5 * k := by omega
  rw [e]
  split_ifs <;> omega

theorem bytitle_finish_cursor (g h : Globals) (cp : Option Nat) (ip : Int)
    (hs : same_file g h) (hit : g.iteration = h.iteration) (hbm : g.bt_match = h.bt_match)
    (ht : g.iteration = iter.ITER_NAME ∨ g.iteration = iter.ITER_SECT ∨
      g.iteration = iter.ITER_DESC) :
    (bytitle_finish g cp ip = none ∧ bytitle_finish h cp ip = none) ∨
    ∃ r g1 h1, bytitle_finish g cp ip = some (r, g1) ∧ bytitle_finish h cp ip = some (r, h1) ∧
      same_cursor g1 h1 := by
  obtain ⟨m, mapped, errno, macros, nvals, pages, npages, it, btm, btcp, btip, bam, baip, bmpp,
    mppp, mpim, mpip, mpiv⟩ := g
  obtain ⟨m2, mapped2, errno2, macros2, nvals2, pages2, npages2, it2, btm2, btcp2, btip2, bam2,
    baip2, bmpp2, mppp2, mpim2, mpip2, mpiv2⟩ := h
  simp only [same_file] at hs
  obtain ⟨rfl, rfl, rfl, rfl, rfl⟩ := hs
  simp only [] at hit hbm ht
  subst hit
  subst hbm
  unfold bytitle_finish bytitle_bits
  simp only []
  by_cases h1 : ip = npages
  · rw [if_pos h1, if_pos h1]
    refine Or.inr ⟨_, _, _, rfl, rfl, ⟨rfl, rfl, rfl, rfl, rfl⟩, rfl, ?_, ?_, ?_⟩
    · intro _; exact ⟨rfl, rfl, rfl⟩
    · intro hh; cases hh
    · intro hh; cases hh
  · rw [if_neg h1, if_neg h1]
    cases cp with
    | none => exact Or.inl ⟨rfl, rfl⟩
    | some c =>
      simp only []
      cases (if it = iter.ITER_NAME then if c = 0 then none else Option.map schar (byte m (c - 1))
          else some 0) with
      | none => exact Or.inl ⟨rfl, rfl⟩
      | some bits =>
        simp only []
        by_cases h3 : ip + 1 < npages
        · rw [if_pos h3, if_pos h3]
          cases hk : bytitle_skip m it (m.length + 2) c with
          | none => exact Or.inl ⟨rfl, rfl⟩
          | some c1 =>
            refine Or.inr ⟨_, _, _, rfl, rfl, ⟨rfl, rfl, rfl, rfl, rfl⟩, rfl, ?_, ?_, ?_⟩
            · intro _; exact ⟨rfl, rfl, rfl⟩
            · intro hh
              simp only [] at hh
              rcases ht with ht | ht | ht <;> rw [ht] at hh <;> cases hh
            · intro hh
              simp only [] at hh
              rcases ht with ht | ht | ht <;> rw [ht] at hh <;> cases hh
        · rw [if_neg h3, if_neg h3]
          refine Or.inr ⟨_, _, _, rfl, rfl, ⟨rfl, rfl, rfl, rfl, rfl⟩, rfl, ?_, ?_, ?_⟩
          · intro _; exact ⟨rfl, rfl, rfl⟩
          · intro hh
            simp only [] at hh
            rcases ht with ht | ht | ht <;> rw [ht] at hh <;> cases hh
          · intro hh
            simp only [] at hh
            rcases ht with ht | ht | ht <;> rw [ht] at hh <;> cases hh

theorem page_bytitle_cursor (g h : Globals) (hs : same_cursor g h)
    (ht : g.iteration = iter.ITER_NAME ∨ g.iteration = iter.ITER_SECT ∨
      g.iteration = iter.ITER_DESC) :
    (page_bytitle g g.iteration none = none ∧ page_bytitle h h.iteration none = none) ∨
    ∃ r g1 h1, page_bytitle g g.iteration none = some (r, g1) ∧
      page_bytitle h h.iteration none = some (r, h1) ∧ same_cursor g1 h1 := by
  obtain ⟨hf, hit, h1, -, -⟩ := hs
  obtain ⟨hbm, hcp, hip⟩ := h1 ht
  have hfin := fun cp ip => bytitle_finish_cursor g h cp ip hf hit hbm ht
  have hv : ¬ ¬ (g.iteration = iter.ITER_NAME ∨ g.iteration = iter.ITER_DESC ∨
      g.iteration = iter.ITER_SECT) := by
    rcases ht with ht | ht | ht <;> simp [ht]
  clear h1
  unfold page_bytitle
  rw [← hit, if_neg hv, if_neg hv]
  clear hv ht
  obtain ⟨m, mapped, errno, macros, nvals, pages, npages, it, btm, btcp, btip, bam, baip, bmpp,
    mppp, mpim, mpip, mpiv⟩ := g
  obtain ⟨m2, mapped2, errno2, macros2, nvals2, pages2, npages2, it2, btm2, btcp2, btip2, bam2,
    baip2, bmpp2, mppp2, mpim2, mpip2, mpiv2⟩ := h
  obtain ⟨hm, -, -, -, hnp⟩ := hf
  simp only [] at hm hnp hit hbm hcp hip hfin ⊢
  subst hm hnp hit hbm hcp hip
  by_cases h2 : btip < npages
  · rw [if_pos h2, if_pos h2]
    cases btcp with
    | none => exact Or.inl ⟨rfl, rfl⟩
    | some cp =>
      cases btm with
      | none => exact Or.inl ⟨rfl, rfl⟩
      | some mt =>
        simp only []
        cases bytitle_search m it mt npages (m.length + npages.toNat + 1) cp btip with
        | none => exact Or.inl ⟨rfl, rfl⟩
        | some q => exact hfin _ _
  · rw [if_neg h2, if_neg h2]
    exact hfin _ _

theorem byarch_search_cursor (g h : Globals) (mt : Match) (hs : same_file g h) :
    ∀ n ip, byarch_search g mt n ip = byarch_search h mt n ip := by
  obtain ⟨hm, -, -, hpg, hnp⟩ := hs
  intro n
  induction n with
  | zero => intro ip; rfl
  | succ n ih =>
    intro ip
    unfold byarch_search
    simp only [page_field]
    rw [← hm, ← hpg, ← hnp]
    simp only [ih]

theorem page_byarch_cursor (g h : Globals) (hs : same_cursor g h)
    (ht : g.iteration = iter.ITER_ARCH) :
    (page_byarch g none = none ∧ page_byarch h none = none) ∨
    ∃ r g1 h1, page_byarch g none = some (r, g1) ∧ page_byarch h none = some (r, h1) ∧
      same_cursor g1 h1 := by
  obtain ⟨hf, hit, -, h1, -⟩ := hs
  obtain ⟨hbm, hip⟩ := h1 ht
  have hsr := fun mt => byarch_search_cursor g h mt hf
  clear h1
  unfold page_byarch
  obtain ⟨m, mapped, errno, macros, nvals, pages, npages, it, btm, btcp, btip, bam, baip, bmpp,
    mppp, mpim, mpip, mpiv⟩ := g
  obtain ⟨m2, mapped2, errno2, macros2, nvals2, pages2, npages2, it2, btm2, btcp2, btip2, bam2,
    baip2, bmpp2, mppp2, mpim2, mpip2, mpiv2⟩ := h
  obtain ⟨hm, hmac, hnv, hpg, hnp⟩ := hf
  simp only [] at hm hmac hnv hpg hnp hit hbm hip ht ⊢
  subst hm hmac hnv hpg hnp hit hbm hip ht
  by_cases h2 : baip < npages
  · rw [if_pos h2, if_pos h2]
    cases bam with
    | none => exact Or.inl ⟨rfl, rfl⟩
    | some mt =>
      simp only []
      rw [← hsr mt]
      cases byarch_search _ mt (npages - baip).toNat baip with
      | none => exact Or.inl ⟨rfl, rfl⟩
      | some q =>
        obtain ⟨ip, b⟩ := q
        cases b with
        | true =>
          refine Or.inr ⟨_, _, _, rfl, rfl, ⟨rfl, rfl, rfl, rfl, rfl⟩, rfl, ?_, ?_, ?_⟩
          · intro hh
            rcases hh with hh | hh | hh <;> cases hh
          · intro _; exact ⟨rfl, rfl⟩
          · intro hh
            cases hh
        | false =>
          refine Or.inr ⟨_, _, _, rfl, rfl, ⟨rfl, rfl, rfl, rfl, rfl⟩, rfl, ?_, ?_, ?_⟩
          · intro hh
            rcases hh with hh | hh | hh <;> cases hh
          · intro hh; cases hh
          · intro hh; cases hh
  · rw [if_neg h2, if_neg h2]
    refine Or.inr ⟨_, _, _, rfl, rfl, ⟨rfl, rfl, rfl, rfl, rfl⟩, rfl, ?_, ?_, ?_⟩
    · intro hh
      rcases hh with hh | hh | hh <;> cases hh
    · intro hh; cases hh
    · intro hh; cases hh

theorem page_bymacro_cursor (MACRO_MAX : Nat) (g h : Globals) (hs : same_cursor g h)
    (ht : g.iteration = iter.ITER_MACRO) :
    ( page_bymacro MACRO_MAX g 0 none = none ∧ page_bymacro MACRO_MAX h 0 none = none) ∨
    ∃ r g1 h1, page_bymacro MACRO_MAX g 0 none = some (r, g1) ∧
      page_bymacro MACRO_MAX h 0 none = some (r, h1) ∧ same_cursor g1 h1 := by
  obtain ⟨hf, hit, -, -, h1⟩ := hs
  have hpp := h1 ht
  clear h1
  unfold page_bymacro
  by_cases hmx : ¬ (0 ≤ (0 : Int) ∧ (0 : Int) < MACRO_MAX)
  · rw [if_pos hmx, if_pos hmx]
    exact Or.inl ⟨rfl, rfl⟩
  · rw [if_neg hmx, if_neg hmx]
    obtain ⟨m, mapped, errno, macros, nvals, pages, npages, it, btm, btcp, btip, bam, baip, bmpp,
      mppp, mpim, mpip, mpiv⟩ := g
    obtain ⟨m2, mapped2, errno2, macros2, nvals2, pages2, npages2, it2, btm2, btcp2, btip2, bam2,
      baip2, bmpp2, mppp2, mpim2, mpip2, mpiv2⟩ := h
    obtain ⟨hm, hmac, hnv, hpg, hnp⟩ := hf
    simp only [] at hm hmac hnv hpg hnp hit hpp ht ⊢
    subst hm hmac hnv hpg hnp hit hpp ht
    rw [if_neg (by simp), if_neg (by simp)]
    cases bmpp with
    | none =>
      refine Or.inr ⟨_, _, _, rfl, rfl, ⟨rfl, rfl, rfl, rfl, rfl⟩, rfl, ?_, ?_, ?_⟩
      · intro hh
        rcases hh with hh | hh | hh <;> cases hh
      · intro hh; cases hh
      · intro hh; cases hh
    | some pp =>
      simp only []
      cases be32 m pp with
      | none => exact Or.inl ⟨rfl, rfl⟩
      | some w =>
        simp only []
        by_cases hz : w = 0
        · rw [if_pos hz, if_pos hz]
          refine Or.inr ⟨_, _, _, rfl, rfl, ⟨rfl, rfl, rfl, rfl, rfl⟩, rfl, ?_, ?_, ?_⟩
          · intro hh
            rcases hh with hh | hh | hh <;> cases hh
          · intro hh; cases hh
          · intro hh; cases hh
        · rw [if_neg hz, if_neg hz]
          cases dbm_get m w with
          | none => exact Or.inl ⟨rfl, rfl⟩
          | some a =>
            refine Or.inr ⟨_, _, _, rfl, rfl, ⟨rfl, rfl, rfl, rfl, rfl⟩, rfl, ?_, ?_, ?_⟩
            · intro hh
              rcases hh with hh | hh | hh <;> cases hh
            · intro hh
              cases hh
            · intro _; rfl

theorem page_next_cursor (MACRO_MAX : Nat) (g h : Globals) (hs : same_cursor g h) :
    (dbm_page_next MACRO_MAX g = none ∧ dbm_page_next MACRO_MAX h = none) ∨
    ∃ r g1 h1, dbm_page_next MACRO_MAX g = some (r, g1) ∧
      dbm_page_next MACRO_MAX h = some (r, h1) ∧ same_cursor g1 h1 := by
  have hit := hs.2.1
  cases hg : g.iteration with
  | ITER_NONE =>
    refine Or.inr ⟨res_none, g, h, ?_, ?_, hs⟩
    · unfold dbm_page_next; rw [hg]
    · unfold dbm_page_next; rw [← hit, hg]
  | ITER_NAME =>
    have := page_bytitle_cursor g h hs (Or.inl hg)
    rw [← hit, hg] at this
    unfold dbm_page_next
    rw [← hit, hg]
    exact this
  | ITER_SECT =>
    have := page_bytitle_cursor g h hs (Or.inr (Or.inl hg))
    rw [← hit, hg] at this
    unfold dbm_page_next
    rw [← hit, hg]
    exact this
  | ITER_DESC =>
    have := page_bytitle_cursor g h hs (Or.inr (Or.inr hg))
    rw [← hit, hg] at this
    unfold dbm_page_next
    rw [← hit, hg]
    exact this
  | ITER_ARCH =>
    have := page_byarch_cursor g h hs hg
    unfold dbm_page_next
    rw [← hit, hg]
    exact this
  | ITER_MACRO =>
    have := page_bymacro_cursor MACRO_MAX g h hs hg
    unfold dbm_page_next
    rw [← hit, hg]
    exact this

theorem page_nexts_cursor (MACRO_MAX : Nat) :
    ∀ (n : Nat) (g h : Globals), same_cursor g h →
      (page_nexts MACRO_MAX n g).map Prod.fst = (page_nexts MACRO_MAX n h).map Prod.fst := by
  intro n
  induction n with
  | zero => intro g h _; rfl
  | succ n ih =>
    intro g h hs
    rcases page_next_cursor MACRO_MAX g h hs with ⟨h1, h2⟩ | ⟨r, g1, h1, e1, e2, hs1⟩
    · rw [page_nexts, page_nexts, h1, h2]
    · rw [page_nexts, page_nexts, e1, e2]
      simp only []
      have := ih g1 h1 hs1
      cases hq1 : page_nexts MACRO_MAX n g1 <;> cases hq2 : page_nexts MACRO_MAX n h1 <;>
        rw [hq1, hq2] at this <;> simp only [Option.map] at this ⊢
      · cases this
      · cases this
      · simp only [Option.some.injEq] at this ⊢
        rw [this]

theorem arm_cursor (MACRO_MAX : Nat) (g h : Globals) (f : page_filter) (hs : same_file g h) :
    (arm MACRO_MAX g f = none ∧ arm MACRO_MAX h f = none) ∨
    ∃ a b, arm MACRO_MAX g f = some a ∧ arm MACRO_MAX h f = some b ∧ same_cursor a b := by
  obtain ⟨hm, hmac, hnv, hpg, hnp⟩ := hs
  have htitle : ∀ it mt, it = iter.ITER_NAME ∨ it = iter.ITER_DESC ∨ it = iter.ITER_SECT →
      ((page_bytitle g it (some mt)).map Prod.snd = none ∧
        (page_bytitle h it (some mt)).map Prod.snd = none) ∨
      ∃ a b, (page_bytitle g it (some mt)).map Prod.snd = some a ∧
        (page_bytitle h it (some mt)).map Prod.snd = some b ∧ same_cursor a b := by
    intro it mt hit
    have hpf : page_field h 0 (title_field it) = page_field g 0 (title_field it) := by
      simp only [page_field]
      rw [hm, hpg]
    unfold page_bytitle
    rw [if_neg (not_not.2 hit), if_neg (not_not.2 hit)]
    simp only []
    rw [hpf]
    cases page_field g 0 (title_field it) with
    | none => exact Or.inl ⟨rfl, rfl⟩
    | some w =>
      simp only [Option.map]
      rw [← hm]
      refine Or.inr ⟨_, _, rfl, rfl, ⟨rfl, hmac, hnv, hpg, hnp⟩, rfl, ?_, ?_, ?_⟩
      · intro _; exact ⟨rfl, rfl, rfl⟩
      · intro hh
        simp only [] at hh
        rcases hit with hit | hit | hit <;> rw [hit] at hh <;> cases hh
      · intro hh
        simp only [] at hh
        rcases hit with hit | hit | hit <;> rw [hit] at hh <;> cases hh
  cases f with
  | by_name mt => exact htitle _ mt (Or.inl rfl)
  | by_sect mt => exact htitle _ mt (Or.inr (Or.inr rfl))
  | by_desc mt => exact htitle _ mt (Or.inr (Or.inl rfl))
  | by_arch mt =>
    refine Or.inr ⟨_, _, rfl, rfl, ⟨hm, hmac, hnv, hpg, hnp⟩, rfl, ?_, ?_, ?_⟩
    · intro hh
      rcases hh with hh | hh | hh <;> cases hh
    · intro _; exact ⟨rfl, rfl⟩
    · intro hh; cases hh
  | by_macro im mt =>
    clear htitle
    simp only [arm, dbm_page_bymacro]
    unfold page_bymacro
    by_cases hmx : ¬ (0 ≤ im ∧ im < MACRO_MAX)
    · rw [if_pos hmx, if_pos hmx]
      exact Or.inl ⟨rfl, rfl⟩
    · rw [if_neg hmx, if_neg hmx]
      obtain ⟨m, mapped, errno, macros, nvals, pages, npages, it, btm, btcp, btip, bam, baip,
        bmpp, mppp, mpim, mpip, mpiv⟩ := g
      obtain ⟨m2, mapped2, errno2, macros2, nvals2, pages2, npages2, it2, btm2, btcp2, btip2,
        bam2, baip2, bmpp2, mppp2, mpim2, mpip2, mpiv2⟩ := h
      simp only [] at hm hmac hnv hpg hnp ⊢
      subst hm hmac hnv hpg hnp
      generalize (if nvals.getD im.toNat 0 ≠ 0 then
        Option.map (dbm_get m) (be32 m (macros.getD im.toNat 0)) else some none) = cp
      cases cp with
      | none => exact Or.inl ⟨rfl, rfl⟩
      | some c =>
        simp only []
        cases hsr : bymacro_search m mt (nvals.getD im.toNat 0) (nvals.getD im.toNat 0).toNat 0 c with
        | none => exact Or.inl ⟨rfl, rfl⟩
        | some iv =>
          simp only []
          by_cases hiv : iv = nvals.getD im.toNat 0
          · rw [if_pos hiv, if_pos hiv]
            refine Or.inr ⟨_, _, rfl, rfl, ⟨rfl, rfl, rfl, rfl, rfl⟩, rfl, ?_, ?_, ?_⟩
            · intro hh
              rcases hh with hh | hh | hh <;> cases hh
            · intro hh; cases hh
            · intro _; rfl
          · rw [if_neg hiv, if_neg hiv]
            cases be32 m (macros.getD im.toNat 0 + 8 * iv.toNat + 4) with
            | none => exact Or.inl ⟨rfl, rfl⟩
            | some w =>
              refine Or.inr ⟨_, _, rfl, rfl, ⟨rfl, rfl, rfl, rfl, rfl⟩, rfl, ?_, ?_, ?_⟩
              · intro hh
                rcases hh with hh | hh | hh <;> cases hh
              · intro hh; cases hh
              · intro _; rfl

theorem same_file_trans (g h k : Globals) (h1 : same_file g h) (h2 : same_file h k) :
    same_file g k := by
  obtain ⟨a1, a2, a3, a4, a5⟩ := h1
  obtain ⟨b1, b2, b3, b4, b5⟩ := h2
  exact ⟨a1.trans b1, a2.trans b2, a3.trans b3, a4.trans b4, a5.trans b5⟩

theorem run_calls_spec (MACRO_MAX : Nat) :
    ∀ (cs : List reader_call) (g k : Globals), reader_ok g →
      run_calls MACRO_MAX cs g = some k → reader_ok k ∧ same_file g k := by
  intro cs
  induction cs with
  | nil =>
    intro g k hok h
    simp only [run_calls, Option.some.injEq] at h
    subst h
    exact ⟨hok, rfl, rfl, rfl, rfl, rfl⟩
  | cons c cs ih =>
    intro g k hok h
    cases c with
    | by_filter f =>
      simp only [run_calls] at h
      cases ha : arm MACRO_MAX g f with
      | none => rw [ha] at h; cases h
      | some a =>
        rw [ha] at h
        obtain ⟨h1, h2⟩ := arm_spec MACRO_MAX g a f hok ha
        obtain ⟨h3, h4⟩ := ih a k h1 h
        exact ⟨h3, same_file_trans _ _ _ h2 h4⟩
    | next =>
      simp only [run_calls] at h
      cases ha : dbm_page_next MACRO_MAX g with
      | none => rw [ha] at h; cases h
      | some q =>
        obtain ⟨r, a⟩ := q
        rw [ha] at h
        obtain ⟨h1, h2, -⟩ := page_next_step MACRO_MAX g a r hok ha
        obtain ⟨h3, h4⟩ := ih a k h1 h
        exact ⟨h3, same_file_trans _ _ _ h2 h4⟩

/-- C27: let `g` be the state that a successfully opened reader is in after
any sequence of `dbm_page_by*` and `dbm_page_next` calls.  Arming a filter `f`
in `g` and calling `dbm_page_next` `n` times returns the same results, faults
included, as arming `f` right after `dbm_open` and calling `dbm_page_next` `n`
times. -/
theorem rearm_resets_cursor (MACRO_MAX : Nat) (m : Mem) (cs : List reader_call) (g : Globals)
    (f : page_filter) (n : Nat) (hopen : (dbm_open MACRO_MAX m).map Prod.fst = some 0)
    (hrun : run_calls MACRO_MAX cs (dbm_opened MACRO_MAX m) = some g) :
    ((arm MACRO_MAX g f).bind (page_nexts MACRO_MAX n)).map Prod.fst =
      ((arm MACRO_MAX (dbm_opened MACRO_MAX m) f).bind (page_nexts MACRO_MAX n)).map Prod.fst := by
  obtain ⟨-, hs⟩ := run_calls_spec MACRO_MAX cs _ g (reader_ok_open MACRO_MAX m hopen) hrun
  obtain ⟨a1, a2, a3, a4, a5⟩ := hs
  rcases arm_cursor MACRO_MAX g (dbm_opened MACRO_MAX m) f
      ⟨a1.symm, a2.symm, a3.symm, a4.symm, a5.symm⟩ with ⟨h1, h2⟩ | ⟨a, b, h1, h2, hc⟩
  · rw [h1, h2]
  · rw [h1, h2]
    exact page_nexts_cursor MACRO_MAX n a b hc

set_option maxRecDepth 100000 in
/-- Witness for `rearm_resets_cursor`: on `db_macros`, arm macro 0 for the
value x and take one page; arming macro 0 for the value y then gives the same
results as right after the open. -/
theorem rearm_resets_cursor_witness :
    (dbm_open 4 db_macros).map Prod.fst = some 0 ∧
    run_calls 4 [reader_call.by_filter (page_filter.by_macro 0 (match_is [120])),
        reader_call.next] (dbm_opened 4 db_macros) =
      some ((run_calls 4 [reader_call.by_filter (page_filter.by_macro 0 (match_is [120])),
        reader_call.next] (dbm_opened 4 db_macros)).getD (dbm_opened 4 db_macros)) ∧
    ((arm 4 ((run_calls 4 [reader_call.by_filter (page_filter.by_macro 0 (match_is [120])),
        reader_call.next] (dbm_opened 4 db_macros)).getD (dbm_opened 4 db_macros))
        (page_filter.by_macro 0 (match_is [121]))).bind (page_nexts 4 3)).map Prod.fst =
      ((arm 4 (dbm_opened 4 db_macros) (page_filter.by_macro 0 (match_is [121]))).bind
        (page_nexts 4 3)).map Prod.fst :=
  ⟨by decide, rfl, rearm_resets_cursor 4 db_macros
    [reader_call.by_filter (page_filter.by_macro 0 (match_is [120])), reader_call.next] _
    (page_filter.by_macro 0 (match_is [121])) 3 (by decide) rfl⟩

/-! ## Quality bits -/

theorem names_lt_enc_names (p : List (Fin 256 × List (Fin 256))) :
    p.length + 1 ≤ (enc_names p).length := by
  induction p with
  | nil => simp [enc_names]
  | cons e r ih => simp [enc_names]; omega

theorem block_quality_enc (mt : Match) :
    ∀ (p : List (Fin 256 × List (Fin 256))) (m A T : Mem) (fuel : Nat),
      (∀ e ∈ p, e.1 ≠ 0 ∧ ∀ b ∈ e.2, b ≠ 0) → m = A ++ (enc_names p ++ T) →
      p.length + 1 ≤ fuel →
      block_quality m mt fuel A.length = (p.find? (fun e => mt e.2)).map (fun e => e.1) := by
  intro p
  induction p with
  | nil =>
    intro m A T fuel _ hm hf
    obtain ⟨f, rfl⟩ : ∃ f, fuel = f + 1 := ⟨fuel - 1, by simp at hf; omega⟩
    have hb : byte m A.length = some 0 :=
      byte_at m A T 0 _ (by rw [hm]; simp [enc_names]) rfl
    simp [block_quality, hb]
  | cons e r ih =>
    intro m A T fuel hwf hm hf
    obtain ⟨f, rfl⟩ : ∃ f, fuel = f + 1 := ⟨fuel - 1, by simp at hf; omega⟩
    have he := hwf e (by simp)
    have hb : byte m A.length = some e.1 :=
      byte_at m A (e.2 ++ 0 :: (enc_names r ++ T)) e.1 _ (by rw [hm]; simp [enc_names]) rfl
    have hc : cstr m (A.length + 1) = some e.2 := by
      rw [hm, show A ++ (enc_names (e :: r) ++ T) = (A ++ [e.1]) ++ (e.2 ++ 0 :: (enc_names r ++ T))
        by simp [enc_names]]
      exact cstr_append _ _ _ he.2 _ (by simp)
    rw [block_quality, hb]
    simp only []
    rw [if_neg he.1, hc]
    simp only []
    by_cases hmt : mt e.2 = true
    · rw [if_pos hmt]
      simp [List.find?, hmt]
    · rw [if_neg hmt]
      have hmf : mt e.2 = false := by simpa using hmt
      have hm2 : m = (A ++ e.1 :: (e.2 ++ [0])) ++ (enc_names r ++ T) := by
        rw [hm]; simp [enc_names]
      have := ih m (A ++ e.1 :: (e.2 ++ [0])) T f (fun x hx => hwf x (by simp [hx])) hm2
        (by simp at hf; omega)
      have hl : (A ++ e.1 :: (e.2 ++ [0])).length = A.length + 1 + e.2.length + 1 := by
        simp; omega
      rw [hl] at this
      rw [this]
      simp [List.find?, hmf]

theorem name_hits_mem (mt : Match) :
    ∀ (db : List (List (Fin 256 × List (Fin 256)))) (i : Nat) (r : dbm_res),
      r ∈ name_hits mt i db →
      ∃ k, k < db.length ∧ r.page = ((i + k : Nat) : Int) ∧
        ((db.getD k []).find? (fun e => mt e.2)).map (fun e => schar e.1) = some r.bits := by
  intro db
  induction db with
  | nil => intro i r h; simp [name_hits] at h
  | cons p rest ih =>
    intro i r h
    have hrest : r ∈ name_hits mt (i + 1) rest →
        ∃ k, k < (p :: rest).length ∧ r.page = ((i + k : Nat) : Int) ∧
          (((p :: rest).getD k []).find? (fun e => mt e.2)).map (fun e => schar e.1) =
            some r.bits := by
      intro hr
      obtain ⟨k, h1, h2, h3⟩ := ih (i + 1) r hr
      refine ⟨k + 1, by simp; omega, ?_, ?_⟩
      · rw [h2]; congr 1; omega
      · simpa using h3
    unfold name_hits at h
    cases hf : p.find? (fun e => mt e.2) with
    | none =>
      rw [hf] at h
      exact hrest h
    | some e =>
      rw [hf] at h
      simp only [List.mem_cons] at h
      rcases h with rfl | h
      · exact ⟨0, by simp, by simp, by simp [hf]⟩
      · exact hrest h

theorem enc_name_blocks_split (db : List (List (Fin 256 × List (Fin 256)))) (k : Nat)
    (hk : k < db.length) :
    enc_name_blocks db = enc_name_blocks (db.take k) ++
      (enc_names (db.getD k []) ++ enc_name_blocks (db.drop (k + 1))) := by
  induction db generalizing k with
  | nil => simp at hk
  | cons p rest ih =>
    cases k with
    | zero => simp [enc_name_blocks]
    | succ k =>
      simp only [List.length_cons, Nat.add_lt_add_iff_right] at hk
      simp only [List.take_succ_cons, enc_name_blocks, List.drop_succ_cons, List.append_assoc]
      rw [ih k hk]
      simp

set_option maxRecDepth 100000 in
/-- C24, as stated, fails for name iterations: `db_shuffled` opens
successfully, and the name iteration for foo returns page 1 with the quality 4,
the byte before the name foo in the name block of page 2, although the name
block that the record of page 1 points to holds foo with the quality 2. -/
theorem name_hit_carries_foreign_quality :
    (dbm_open 1 db_shuffled).map Prod.fst = some 0 ∧
    ((arm 1 (dbm_opened 1 db_shuffled) (page_filter.by_name (match_is [102, 111, 111]))).bind
      (page_nexts 1 1)).map Prod.fst = some [{ page := 1, bits := 4 }] ∧
    page_quality (dbm_opened 1 db_shuffled) (match_is [102, 111, 111]) 1 = some 2 := by
  decide

/-- C24, amended: for a successfully opened database whose name blocks are
stored one after the other in page order, each with at least one name, no zero
quality byte and no NUL inside a name (when there is no page, let the word
after the header, which arming reads all the same, lie inside the mapping),
every hit that the `dbm_page_next` calls after `dbm_page_byname` return
carries in `bits` the quality byte that stands before the first name
satisfying the match in the name block of the page of the hit, read as a
`char`: a byte from 128 on gives negative bits.  In every state that
the reader can be in after a successful open, a result of `dbm_page_next` in
an iteration other than a name iteration has `bits = 0`. -/
theorem quality_bits (MACRO_MAX : Nat) (m : Mem) (mt : Match)
    (db : List (List (Fin 256 × List (Fin 256)))) (A T : Mem)
    (hopen : (dbm_open MACRO_MAX m).map Prod.fst = some 0)
    (hn : dbm_page_count (dbm_opened MACRO_MAX m) = (db.length : Int))
    (hrec : db = [] → dbm_getint 6 ≤ m.length)
    (hwf : ∀ p ∈ db, wf_names p)
    (hlay : m = A ++ (enc_name_blocks db ++ T))
    (hptr : ∀ i, i < db.length →
      (dbm_page_get (dbm_opened MACRO_MAX m) (i : Int)).map (fun p => p.name) =
        some (some (A.length + (enc_name_blocks (db.take i)).length))) :
    (∃ g1 rs, dbm_page_byname (dbm_opened MACRO_MAX m) mt = some g1 ∧
      page_next_all MACRO_MAX (db.length + 1) g1 = some (rs, true) ∧
      ∀ r ∈ rs, 0 ≤ r.page ∧ r.page < (db.length : Int) ∧
        (page_quality (dbm_opened MACRO_MAX m) mt r.page.toNat).map schar = some r.bits) ∧
    (∀ g r g1, reader_ok g → g.iteration ≠ iter.ITER_NAME →
      dbm_page_next MACRO_MAX g = some (r, g1) → r.bits = 0) := by
  constructor
  · obtain ⟨g1, h1, h2⟩ := name_iteration_hits MACRO_MAX m mt db A T hopen hn hrec hwf hlay hptr
    refine ⟨g1, _, h1, h2, ?_⟩
    intro r hr
    obtain ⟨k, hk, hpage, hbits⟩ := name_hits_mem mt db 0 r hr
    simp only [Nat.zero_add] at hpage
    refine ⟨by omega, by omega, ?_⟩
    obtain ⟨hm, -, -, -⟩ := dbm_open_success MACRO_MAX m hopen
    have hp := page_get_name _ _ _ (hptr k hk)
    simp only [Int.toNat_ofNat] at hp
    rw [hpage, Int.toNat_ofNat]
    unfold page_quality
    rw [hp]
    simp only [Option.some_bind]
    have hlen : A.length + (enc_name_blocks (db.take k)).length =
        (A ++ enc_name_blocks (db.take k)).length := by simp
    rw [hlen, block_quality_enc mt (db.getD k []) (dbm_opened MACRO_MAX m).m
      (A ++ enc_name_blocks (db.take k)) (enc_name_blocks (db.drop (k + 1)) ++ T)
      (dbm_opened MACRO_MAX m).m.length]
    · rw [← hbits]
      cases (db.getD k []).find? (fun e => mt e.2) <;> rfl
    · have hmem : db.getD k [] ∈ db := by
        rw [List.getD_eq_getElem _ _ hk]
        exact List.getElem_mem _
      exact (hwf _ hmem).2
    · rw [hm, hlay, enc_name_blocks_split db k hk]
      simp
    · rw [hm, hlay, enc_name_blocks_split db k hk]
      have := names_lt_enc_names (db.getD k [])
      simp only [List.length_append]
      omega
  · intro g r g1 hok hit h
    exact (page_next_step MACRO_MAX g g1 r hok h).2.2.2.2 hit

set_option maxRecDepth 100000 in
/-- Witness for `quality_bits`: the name iteration for foo on `db_names`.  A
quality byte 200 would be returned as -56. -/
theorem quality_bits_witness :
    (∃ g1 rs, dbm_page_byname (dbm_opened 36 db_names) match_foo = some g1 ∧
      page_next_all 36 (names3.length + 1) g1 = some (rs, true) ∧
      ∀ r ∈ rs, 0 ≤ r.page ∧ r.page < (names3.length : Int) ∧
        (page_quality (dbm_opened 36 db_names) match_foo r.page.toNat).map schar =
          some r.bits) ∧
    schar 200 = -56 :=
  ⟨(quality_bits 36 db_names match_foo names3 (db_names.take 80) (db_names.drop 103)
    (by decide) (by decide) (by decide) (by decide) (by decide) (by decide)).1, by decide⟩

/-! ## Macro iteration -/

theorem bymacro_search_seq (m : Mem) (mt : Match) (c0 : Nat) (nv : Nat) :
    ∀ (n i : Nat), i + n = nv →
      bymacro_search m mt (nv : Int) n (i : Int) (seq_addr m c0 i) =
        (first_value m mt c0 n i).map (fun (k : Nat) => (k : Int)) := by
  intro n
  induction n with
  | zero => intro i _; rfl
  | succ n ih =>
    intro i hi
    have hlt : (i : Int) < (nv : Int) := by omega
    rw [bymacro_search.eq_def]
    simp only []
    rw [if_pos hlt, first_value, seq_str]
    cases ha : seq_addr m c0 i with
    | none => rfl
    | some a =>
      simp only [Option.some_bind]
      cases hs : cstr m a with
      | none => rfl
      | some s =>
        simp only []
        by_cases hmt : mt s = true
        · rw [if_pos hmt, if_pos hmt]; rfl
        · rw [if_neg hmt, if_neg hmt]
          have := ih (i + 1) (by omega)
          rw [seq_addr, ha] at this
          simp only [hs, Option.map_some'] at this
          push_cast at this
          exact this

theorem first_value_spec (m : Mem) (mt : Match) (c0 : Nat) :
    ∀ (n i : Nat), (∀ j, i ≤ j → j < i + n → (seq_str m c0 j).isSome) →
      ∃ iv, first_value m mt c0 n i = some iv ∧ i ≤ iv ∧ iv ≤ i + n ∧
        (∀ j, i ≤ j → j < iv → (seq_str m c0 j).map mt = some false) ∧
        (iv < i + n → (seq_str m c0 iv).map mt = some true) := by
  intro n
  induction n with
  | zero =>
    intro i _
    exact ⟨i, rfl, le_refl _, le_refl _, fun j h1 h2 => by omega, fun h => by omega⟩
  | succ n ih =>
    intro i hs
    rw [first_value]
    obtain ⟨s, hsi⟩ := Option.isSome_iff_exists.1 (hs i (le_refl _) (by omega))
    rw [hsi]
    simp only []
    by_cases hmt : mt s = true
    · rw [if_pos hmt]
      exact ⟨i, rfl, le_refl _, by omega, fun j h1 h2 => by omega,
        fun _ => by rw [hsi]; simp [hmt]⟩
    · rw [if_neg hmt]
      obtain ⟨iv, h0, h1, h2, h3, h4⟩ := ih (i + 1) (fun j h1 h2 => hs j (by omega) (by omega))
      refine ⟨iv, h0, by omega, by omega, ?_, fun h => h4 (by omega)⟩
      intro j hj1 hj2
      by_cases hji : j = i
      · subst hji
        rw [hsi]
        simp [hmt]
      · exact h3 j (by omega) hj2

theorem word_list_spec (m : Mem) :
    ∀ (fuel pp : Nat) (l : List Int), word_list m fuel pp = some l →
      words_at m pp l ∧ ∀ x ∈ l, x ≠ 0 ∧ x < 2147483648 := by
  intro fuel
  induction fuel with
  | zero => intro pp l h; simp [word_list] at h
  | succ f ih =>
    intro pp l h
    rw [word_list] at h
    cases hw : be32 m pp with
    | none => rw [hw] at h; cases h
    | some w =>
      rw [hw] at h
      simp only [] at h
      by_cases hz : w = 0
      · rw [if_pos hz] at h
        simp only [Option.some.injEq] at h
        subst h
        exact ⟨by rw [words_at, hw, hz], fun x hx => by cases hx⟩
      · rw [if_neg hz] at h
        cases hq : word_list m f (pp + 4) with
        | none => rw [hq] at h; cases h
        | some l1 =>
          rw [hq] at h
          simp only [Option.map, Option.some.injEq] at h
          subst h
          obtain ⟨h1, h2⟩ := ih _ _ hq
          refine ⟨⟨hz, hw, h1⟩, ?_⟩
          intro x hx
          rcases List.mem_cons.1 hx with rfl | hx
          · exact ⟨hz, (be32_range m pp _ hw).2⟩
          · exact h2 x hx

theorem macro_next_sentinel (MACRO_MAX : Nat) (g : Globals) (hM : 0 < MACRO_MAX)
    (hit : g.iteration = iter.ITER_MACRO)
    (h : g.bm_pp = none ∨ ∃ pp, g.bm_pp = some pp ∧ be32 g.m pp = some 0) :
    dbm_page_next MACRO_MAX g =
      some (res_none, { g with iteration := iter.ITER_NONE, bm_pp := none }) := by
  have e : dbm_page_next MACRO_MAX g = page_bymacro MACRO_MAX g 0 none := by
    unfold dbm_page_next
    rw [hit]
  rw [e]
  unfold page_bymacro
  rw [if_neg (by simp; omega)]
  simp only []
  rw [if_neg (by rw [hit]; simp)]
  rcases h with h | ⟨pp, h, hz⟩
  · rw [h]
  · rw [h]
    simp only [hz, if_true]

theorem macro_next_word (MACRO_MAX : Nat) (g : Globals) (pp : Nat) (x : Int) (hM : 0 < MACRO_MAX)
    (hok : reader_ok g) (hit : g.iteration = iter.ITER_MACRO) (hpp : g.bm_pp = some pp)
    (hw : be32 g.m pp = some x) (hz : x ≠ 0) (hx : 0 ≤ x ∧ x < g.m.length) :
    dbm_page_next MACRO_MAX g =
      some ({ page := page_diff (x - 20), bits := 0 }, { g with bm_pp := some (pp + 4) }) := by
  have e : dbm_page_next MACRO_MAX g = page_bymacro MACRO_MAX g 0 none := by
    unfold dbm_page_next
    rw [hit]
  have hget : dbm_get g.m x = some x.toNat := by
    unfold dbm_get
    rw [if_neg (by omega)]
  have hpg : (g.pages : Int) = 20 := by rw [hok.1]; rfl
  rw [e]
  unfold page_bymacro
  rw [if_neg (by simp; omega)]
  simp only []
  rw [if_neg (by rw [hit]; simp), hpp]
  simp only [hw]
  rw [if_neg hz, hget]
  simp only []
  rw [hpg, Int.toNat_of_nonneg hx.1]

theorem macro_nexts_words (MACRO_MAX : Nat) :
    ∀ (l : List Int) (g : Globals) (pp : Nat), 0 < MACRO_MAX → reader_ok g →
      g.iteration = iter.ITER_MACRO → g.bm_pp = some pp → words_at g.m pp l →
      (∀ x ∈ l, 0 ≤ x ∧ x < g.m.length) →
      ∀ n, (page_nexts MACRO_MAX (l.length + n) g).map Prod.fst =
        some (l.map (fun x => ({ page := page_diff (x - 20), bits := 0 } : dbm_res)) ++
          List.replicate n res_none) := by
  intro l
  induction l with
  | nil =>
    intro g pp hM hok hit hpp hw _ n
    cases n with
    | zero => rfl
    | succ n =>
      have hnext := macro_next_sentinel MACRO_MAX g hM hit (Or.inr ⟨pp, hpp, hw⟩)
      simp only [List.length_nil, Nat.zero_add, List.map_nil, List.nil_append]
      rw [page_nexts, hnext]
      simp only []
      rw [page_nexts_none MACRO_MAX _ rfl n]
      rfl
  | cons x l ih =>
    intro g pp hM hok hit hpp hw hx n
    obtain ⟨hz, hx1, hrest⟩ := hw
    have hnext := macro_next_word MACRO_MAX g pp x hM hok hit hpp hx1 hz (hx x (by simp))
    have := ih { g with bm_pp := some (pp + 4) } (pp + 4) hM hok hit rfl hrest
      (fun y hy => hx y (by simp [hy])) n
    rw [show (x :: l).length + n = (l.length + n) + 1 by simp; omega, page_nexts, hnext]
    simp only []
    cases hq2 : page_nexts MACRO_MAX (l.length + n) { g with bm_pp := some (pp + 4) } with
    | none => rw [hq2] at this; simp at this
    | some q =>
      rw [hq2] at this
      simp only [Option.map, Option.some.injEq] at this ⊢
      rw [this]
      rfl

set_option maxRecDepth 100000 in
/-- C25, as stated, fails: `db_macros` opens successfully, value 0 of its
macro 1 is b and value 1 is a, with the pages list 40 (page 1), yet the
iteration over macro 1 for the value a returns the sentinel at once, because
the search walks on from the string of value 0 through the strings that follow
it in the file instead of following the value offset of value 1. -/
theorem macro_iteration_misses_value :
    (dbm_open 4 db_macros).map Prod.fst = some 0 ∧
    (dbm_macro_get 4 (dbm_opened 4 db_macros) 1 0).map
      (fun e => (e.value.bind (cstr db_macros)).map (match_is [97])) = some (some false) ∧
    (dbm_macro_get 4 (dbm_opened 4 db_macros) 1 1).map
      (fun e => ((e.value.bind (cstr db_macros)).map (match_is [97]),
        e.pp.bind (word_list db_macros 8))) = some (some true, some [40]) ∧
    ((arm 4 (dbm_opened 4 db_macros) (page_filter.by_macro 1 (match_is [97]))).bind
      (page_nexts 4 1)).map Prod.fst = some [res_none] := by
  decide

/-- C25, amended: let macro `im` of a reader state have `nv` values whose
strings are stored one after the other in value order from `c0` on, each
ending inside the mapping, so that the value offset of value `i` resolves to
the `i`-th string.  Let `iv` be the first value whose string satisfies the
match.  When there is none, `dbm_page_bymacro(im, match)` returns and every
following `dbm_page_next` returns the sentinel.  Otherwise, when the pages
offset of value `iv` resolves to `pp`, the words from `pp` up to the first
zero word are `l` and each of them is an offset inside the mapping,
`dbm_page_bymacro(im, match)` returns and the following `dbm_page_next` calls
return for each word `x` of `l`, in stored order and with bits 0, the pointer
difference between the address `x` and the page array at 20, and then the
sentinel; for words that are offsets `20 + 20 * k` of page records the
results are the page indices `(x - 20) / 20`. -/
theorem page_bymacro_spec (MACRO_MAX : Nat) (g : Globals) (im nv mac c0 fuel : Nat) (mt : Match)
    (hok : reader_ok g) (him : im < MACRO_MAX)
    (hnv : g.nvals.getD im 0 = (nv : Int)) (hmac : g.macros.getD im 0 = mac)
    (hlay : ∀ i, i < nv →
      (seq_str g.m c0 i).isSome ∧ ptr_at g.m (mac + 8 * i) = seq_addr g.m c0 i) :
    ∃ iv, first_value g.m mt c0 nv 0 = some iv ∧ iv ≤ nv ∧
      (∀ j, j < iv → ((ptr_at g.m (mac + 8 * j)).bind (cstr g.m)).map mt = some false) ∧
      (iv < nv → ((ptr_at g.m (mac + 8 * iv)).bind (cstr g.m)).map mt = some true) ∧
      (iv = nv → ∃ a, arm MACRO_MAX g (page_filter.by_macro im mt) = some a ∧
        ∀ n, (page_nexts MACRO_MAX n a).map Prod.fst = some (List.replicate n res_none)) ∧
      (iv < nv → ∀ pp l, ptr_at g.m (mac + 8 * iv + 4) = some pp →
        word_list g.m fuel pp = some l → (∀ x ∈ l, 0 ≤ x ∧ x < g.m.length) →
        ∃ a, arm MACRO_MAX g (page_filter.by_macro im mt) = some a ∧
          (∀ n, (page_nexts MACRO_MAX (l.length + n) a).map Prod.fst =
            some (l.map (fun x => ({ page := page_diff (x - 20), bits := 0 } : dbm_res)) ++
              List.replicate n res_none)) ∧
          ((∀ x ∈ l, ∃ k : Int, x = 20 + 20 * k) →
            l.map (fun x => page_diff (x - 20)) = l.map (fun x => (x - 20) / 20))) := by
  obtain ⟨iv, hfv, -, h2, h3, h4⟩ := first_value_spec g.m mt c0 nv 0
    (fun j _ hj => (hlay j (by omega)).1)
  simp only [Nat.zero_add] at h2 h4
  have hM : 0 < MACRO_MAX := by omega
  have hstr : ∀ j, j < nv → (ptr_at g.m (mac + 8 * j)).bind (cstr g.m) = seq_str g.m c0 j := by
    intro j hj
    rw [(hlay j hj).2]
    rfl
  -- the search of the arming call
  have hsearch : ∀ cp, (0 < nv → cp = seq_addr g.m c0 0) →
      bymacro_search g.m mt (nv : Int) nv 0 cp = some (iv : Int) := by
    intro cp hcp
    by_cases hz : 0 < nv
    · have := bymacro_search_seq g.m mt c0 nv nv 0 (by omega)
      simp only [Nat.cast_zero] at this
      rw [hcp hz, this, hfv]
      rfl
    · have hz0 : nv = 0 := by omega
      subst hz0
      simp only [first_value, Option.some.injEq] at hfv
      subst hfv
      rfl
  have hcp : ∃ cp, (if (nv : Int) ≠ 0 then (be32 g.m mac).map (dbm_get g.m) else some none) =
      some cp ∧ (0 < nv → cp = seq_addr g.m c0 0) := by
    by_cases hz : 0 < nv
    · have h0 := (hlay 0 hz).2
      simp only [Nat.mul_zero, Nat.add_zero] at h0
      obtain ⟨c, hc⟩ := Option.isSome_iff_exists.1 (show (seq_addr g.m c0 0).isSome from rfl)
      rw [hc] at h0
      obtain ⟨w, hw, hg⟩ := ptr_at_some _ _ _ h0
      rw [if_pos (by omega), hw]
      exact ⟨some c, by simp [hg], fun _ => hc.symm⟩
    · have hz0 : nv = 0 := by omega
      subst hz0
      exact ⟨none, by simp, fun h => by omega⟩
  obtain ⟨cp, hcp1, hcp2⟩ := hcp
  have harm : ∀ bm, (if (iv : Int) = (nv : Int) then
        some (res_none, { g with iteration := iter.ITER_MACRO, bm_pp := none })
      else
        match be32 g.m (mac + 8 * iv + 4) with
        | none => none
        | some w => some (res_none, { g with iteration := iter.ITER_MACRO,
                                               bm_pp := dbm_get g.m w })) =
        some (res_none, { g with iteration := iter.ITER_MACRO, bm_pp := bm }) →
      arm MACRO_MAX g (page_filter.by_macro im mt) =
        some { g with iteration := iter.ITER_MACRO, bm_pp := bm } := by
    intro bm hbm
    simp only [arm, dbm_page_bymacro]
    unfold page_bymacro
    rw [if_neg (by simp; omega)]
    simp only [Int.toNat_ofNat, hnv, hmac, hcp1, hsearch cp hcp2]
    exact congrArg (Option.map Prod.snd) hbm
  refine ⟨iv, hfv, h2, ?_, ?_, ?_, ?_⟩
  · intro j hj
    rw [hstr j (by omega)]
    exact h3 j (Nat.zero_le _) hj
  · intro hlt
    rw [hstr iv hlt]
    exact h4 hlt
  · intro heq
    refine ⟨_, harm none (by rw [if_pos (show (iv : Int) = (nv : Int) by rw [heq])]), ?_⟩
    intro n
    cases n with
    | zero => rfl
    | succ n =>
      have hnext := macro_next_sentinel MACRO_MAX
        { g with iteration := iter.ITER_MACRO, bm_pp := none } hM rfl (Or.inl rfl)
      rw [page_nexts, hnext]
      simp only []
      rw [page_nexts_none MACRO_MAX _ rfl n]
      rfl
  · intro hlt pp l hpp hw hx
    obtain ⟨w, hbe, hg⟩ := ptr_at_some _ _ _ hpp
    obtain ⟨hwa, hrange⟩ := word_list_spec g.m fuel pp l hw
    refine ⟨_, harm (some pp) (by
      rw [if_neg (show ¬ ((iv : Int) = (nv : Int)) by omega), hbe]; simp only [hg]), ?_, ?_⟩
    · exact macro_nexts_words MACRO_MAX l { g with iteration := iter.ITER_MACRO, bm_pp := some pp }
        pp hM hok rfl rfl hwa hx
    · intro hk
      apply List.map_congr_left
      intro x hxl
      obtain ⟨k, hk1⟩ := hk x hxl
      have h0 := (hx x hxl).1
      obtain ⟨hne, h1⟩ := hrange x hxl
      have e1 : x - 20 = 20 * k := by omega
      have e2 : (x - 20) / 20 = k := by omega
      rw [e2, e1]
      exact page_diff_record k (by omega) (by omega)

set_option maxRecDepth 100000 in
/-- Witness for `page_bymacro_spec`: macro 0 of `db_macros` and the value y,
whose pages list holds the offset 40 of page 1. -/
theorem page_bymacro_spec_witness :
    first_value (dbm_opened 4 db_macros).m (match_is [121]) 76 2 0 = some 1 ∧
    ∃ a, arm 4 (dbm_opened 4 db_macros) (page_filter.by_macro 0 (match_is [121])) = some a ∧
      (page_nexts 4 3 a).map Prod.fst = some [{ page := 1, bits := 0 }, res_none, res_none] := by
  obtain ⟨iv, h1, -, -, -, -, h6⟩ :=
    page_bymacro_spec 4 (dbm_opened 4 db_macros) 0 2 156 76 8 (match_is [121])
      (by decide) (by decide) (by decide) (by decide) (by decide)
  have hiv : iv = 1 := by
    have e : first_value (dbm_opened 4 db_macros).m (match_is [121]) 76 2 0 = some 1 := by decide
    rw [e] at h1
    exact (Option.some.inj h1).symm
  subst hiv
  obtain ⟨a, ha, hn, -⟩ := h6 (by decide) 104 [40] (by decide) (by decide) (by decide)
  exact ⟨by decide, a, ha, hn 2⟩

/-! ## Macros by page -/

theorem words_at_length (m : Mem) :
    ∀ (l : List Int) (pp : Nat), words_at m pp l → l.length ≤ m.length - pp := by
  intro l
  induction l with
  | nil => intro pp _; simp
  | cons x l ih =>
    intro pp h
    obtain ⟨hx, hb, hr⟩ := h
    have := ih _ hr
    have hlt := be32_lt m pp x hb
    simp only [List.length_cons]
    omega

theorem lists_at_total (m : Mem) (mac : Nat) :
    ∀ (ls : List (List Int)) (i pp : Nat), lists_at m mac i pp ls →
      (ls.map List.length).sum ≤ m.length - pp := by
  intro ls
  induction ls with
  | nil => intro i pp _; simp
  | cons l rest ih =>
    intro i pp h
    obtain ⟨-, hw, hr⟩ := h
    have h1 := words_at_length m l pp hw
    have h2 := ih _ _ hr
    simp only [List.map_cons, List.sum_cons]
    omega

theorem words_at_suffix (m : Mem) :
    ∀ (s1 s2 : List Int) (pp : Nat), words_at m pp (s1 ++ s2) →
      words_at m (pp + 4 * s1.length) s2 := by
  intro s1
  induction s1 with
  | nil => intro s2 pp h; simpa using h
  | cons x s1 ih =>
    intro s2 pp h
    obtain ⟨-, -, hr⟩ := h
    have := ih s2 _ hr
    simp only [List.length_cons]
    rw [show pp + 4 * (s1.length + 1) = pp + 4 + 4 * s1.length by ring]
    exact this

theorem bypage_search_step (m : Mem) (ip nv : Int) (f : Nat) (iv : Int) (pp : Nat) (w : Int)
    (hlt : iv < nv) (hw : be32 m pp = some w) :
    bypage_search m ip nv (f + 1) iv pp =
      if w = ip then some (iv, pp)
      else if w = 0 then bypage_search m ip nv f (iv + 1) (pp + 4)
      else bypage_search m ip nv f iv (pp + 4) := by
  rw [bypage_search, if_pos hlt, hw]

theorem bypage_search_words (m : Mem) (ip nv : Int) (hip : ip ≠ 0) :
    ∀ (s : List Int) (pp : Nat) (iv : Int) (f : Nat), words_at m pp s → iv < nv → ip ∉ s →
      bypage_search m ip nv (s.length + 1 + f) iv pp =
        bypage_search m ip nv f (iv + 1) (pp + 4 * s.length + 4) := by
  intro s
  induction s with
  | nil =>
    intro pp iv f h hlt _
    have h0 : be32 m pp = some 0 := h
    rw [show ([] : List Int).length + 1 + f = f + 1 by simp; omega,
      bypage_search_step m ip nv f iv pp 0 hlt h0,
      if_neg (fun h => hip h.symm), if_pos rfl]
    rfl
  | cons x s ih =>
    intro pp iv f h hlt hmem
    obtain ⟨hx, hb, hr⟩ := h
    rw [show (x :: s).length + 1 + f = (s.length + 1 + f) + 1 by simp; omega,
      bypage_search_step m ip nv _ iv pp x hlt hb,
      if_neg (by intro h; exact hmem (by simp [h])),
      if_neg hx, ih _ _ _ hr hlt (fun h => hmem (by simp [h]))]
    congr 1
    simp only [List.length_cons]
    ring

theorem bypage_search_found (m : Mem) (ip nv : Int) :
    ∀ (s1 s2 : List Int) (pp : Nat) (iv : Int) (f : Nat), words_at m pp (s1 ++ ip :: s2) →
      iv < nv → ip ∉ s1 →
      bypage_search m ip nv (s1.length + 1 + f) iv pp = some (iv, pp + 4 * s1.length) := by
  intro s1
  induction s1 with
  | nil =>
    intro s2 pp iv f h hlt _
    obtain ⟨-, hb, -⟩ := h
    rw [show ([] : List Int).length + 1 + f = f + 1 by simp; omega,
      bypage_search_step m ip nv f iv pp ip hlt hb, if_pos rfl]
    rfl
  | cons x s1 ih =>
    intro s2 pp iv f h hlt hmem
    obtain ⟨hx, hb, hr⟩ := h
    rw [show (x :: s1).length + 1 + f = (s1.length + 1 + f) + 1 by simp; omega,
      bypage_search_step m ip nv _ iv pp x hlt hb,
      if_neg (by intro h; exact hmem (by simp [h])),
      if_neg hx, ih _ _ _ _ hr hlt (fun h => hmem (by simp [h]))]
    congr 2
    simp only [List.length_cons]
    ring

theorem bypage_skip_words (m : Mem) :
    ∀ (s : List Int) (pp f : Nat), words_at m pp s →
      bypage_skip m (s.length + 1 + f) pp = some (pp + 4 * s.length + 4) := by
  intro s
  induction s with
  | nil =>
    intro pp f h
    have h0 : be32 m pp = some 0 := h
    rw [show ([] : List Int).length + 1 + f = f + 1 by simp; omega, bypage_skip, h0]
    rfl
  | cons x s ih =>
    intro pp f h
    obtain ⟨hx, hb, hr⟩ := h
    rw [show (x :: s).length + 1 + f = (s.length + 1 + f) + 1 by simp; omega, bypage_skip, hb]
    simp only []
    rw [if_pos hx, ih _ _ hr]
    congr 1
    simp only [List.length_cons]
    ring

theorem bypage_search_lists (m : Mem) (mac : Nat) (ip nv : Int) (hip : ip ≠ 0) :
    ∀ (ls1 rest : List (List Int)) (i pp f : Nat), lists_at m mac i pp (ls1 ++ rest) →
      (∀ l ∈ ls1, ip ∉ l) → ((i + ls1.length : Nat) : Int) ≤ nv →
      ∃ pp1, lists_at m mac (i + ls1.length) pp1 rest ∧ pp ≤ pp1 ∧
        bypage_search m ip nv ((ls1.map List.length).sum + ls1.length + f) (i : Int) pp =
          bypage_search m ip nv f ((i + ls1.length : Nat) : Int) pp1 := by
  intro ls1
  induction ls1 with
  | nil =>
    intro rest i pp f h _ _
    exact ⟨pp, by simpa using h, le_refl _, by simp⟩
  | cons l ls1 ih =>
    intro rest i pp f h hno hle
    obtain ⟨-, hw, hr⟩ := h
    simp only [List.length_cons] at hle
    obtain ⟨pp1, h1, h2, h3⟩ := ih rest (i + 1) _ f hr (fun l hl => hno l (by simp [hl]))
      (by rw [show i + 1 + ls1.length = i + (ls1.length + 1) by omega]; exact hle)
    refine ⟨pp1, ?_, by omega, ?_⟩
    · rw [show i + (l :: ls1).length = i + 1 + ls1.length by simp; omega]
      exact h1
    · rw [show ((l :: ls1).map List.length).sum + (l :: ls1).length + f =
          l.length + 1 + ((ls1.map List.length).sum + ls1.length + f) by
        simp only [List.map_cons, List.sum_cons, List.length_cons]; omega]
      rw [bypage_search_words m ip nv hip l pp i _ hw (by push_cast at hle ⊢; omega)
        (hno l (by simp))]
      rw [show ((i : Int) + 1) = ((i + 1 : Nat) : Int) by push_cast; rfl, h3]
      rw [show i + (l :: ls1).length = i + 1 + ls1.length by simp; omega]

theorem first_occurrence (ip : Int) :
    ∀ (l : List Int), ip ∈ l → ∃ s1 s2, l = s1 ++ ip :: s2 ∧ ip ∉ s1 := by
  intro l
  induction l with
  | nil => intro h; simp at h
  | cons x l ih =>
    intro h
    by_cases hx : x = ip
    · exact ⟨[], l, by simp [hx], by simp⟩
    · have hl : ip ∈ l := by
        rcases List.mem_cons.1 h with h | h
        · exact absurd h.symm hx
        · exact h
      obtain ⟨s1, s2, h1, h2⟩ := ih hl
      refine ⟨x :: s1, s2, by simp [h1], ?_⟩
      intro hmem
      rcases List.mem_cons.1 hmem with h | h
      · exact hx h.symm
      · exact h2 h

theorem first_list (ip : Int) :
    ∀ (ls : List (List Int)), (∀ l ∈ ls, ip ∉ l) ∨
      ∃ ls1 l ls2, ls = ls1 ++ l :: ls2 ∧ (∀ l1 ∈ ls1, ip ∉ l1) ∧ ip ∈ l := by
  intro ls
  induction ls with
  | nil => left; simp
  | cons l ls ih =>
    by_cases hl : ip ∈ l
    · exact Or.inr ⟨[], l, ls, rfl, by simp, hl⟩
    · rcases ih with h | ⟨ls1, l1, ls2, h1, h2, h3⟩
      · left
        intro x hx
        rcases List.mem_cons.1 hx with rfl | hx
        · exact hl
        · exact h x hx
      · refine Or.inr ⟨l :: ls1, l1, ls2, by simp [h1], ?_, h3⟩
        intro x hx
        rcases List.mem_cons.1 hx with rfl | hx
        · exact hl
        · exact h2 x hx

theorem bypage_values_none (m : Mem) (mac : Nat) (ip : Int) :
    ∀ (ls : List (List Int)) (i : Nat), (∀ l ∈ ls, ip ∉ l) → bypage_values m mac ip i ls = [] := by
  intro ls
  induction ls with
  | nil => intro i _; rfl
  | cons l ls ih =>
    intro i h
    rw [bypage_values, if_neg (h l (by simp))]
    exact ih _ (fun x hx => h x (by simp [hx]))

theorem bypage_values_first (m : Mem) (mac : Nat) (ip : Int) :
    ∀ (ls1 : List (List Int)) (l : List Int) (ls2 : List (List Int)) (i : Nat),
      (∀ l1 ∈ ls1, ip ∉ l1) → ip ∈ l →
      bypage_values m mac ip i (ls1 ++ l :: ls2) =
        ptr_at m (mac + 8 * (i + ls1.length)) ::
          bypage_values m mac ip (i + ls1.length + 1) ls2 := by
  intro ls1
  induction ls1 with
  | nil =>
    intro l ls2 i _ hin
    simp only [List.nil_append, List.length_nil, Nat.add_zero]
    rw [bypage_values, if_pos hin]
  | cons x ls1 ih =>
    intro l ls2 i hno hin
    simp only [List.cons_append, List.length_cons]
    rw [bypage_values, if_neg (hno x (by simp)),
      ih l ls2 (i + 1) (fun y hy => hno y (by simp [hy])) hin]
    rw [show i + 1 + ls1.length = i + (ls1.length + 1) by omega]

theorem macro_next_eq (MACRO_MAX : Nat) (a : Globals) (im : Nat) (nv mac : Nat)
    (him : im < MACRO_MAX)
    (hnv : a.nvals.getD im 0 = (nv : Int)) (hmac : a.macros.getD im 0 = mac)
    (hmim : a.mp_im = (im : Int)) :
    dbm_macro_next MACRO_MAX a =
      match (if a.mp_iv < (nv : Int) then
          match a.mp_pp with
          | none => none
          | some pp =>
            (bypage_search a.m a.mp_ip (nv : Int) (a.m.length + nv + 1) a.mp_iv pp).map
              (fun r => (r.1, some r.2))
        else some (a.mp_iv, a.mp_pp) : Option (Int × Option Nat)) with
      | none => none
      | some (iv, pp) =>
        if iv = (nv : Int) then
          some (none, { a with mp_im := MACRO_MAX, mp_ip := 0, mp_pp := none, mp_iv := iv })
        else
          match (if iv + 1 < (nv : Int) then
              match pp with
              | none => none
              | some p => (bypage_skip a.m (a.m.length + 1) p).map some
            else some pp : Option (Option Nat)) with
          | none => none
          | some pp1 =>
            match be32 a.m (mac + 8 * iv.toNat) with
            | none => none
            | some v => some (dbm_get a.m v, { a with mp_iv := iv + 1, mp_pp := pp1 }) := by
  obtain ⟨m, mapped, errno, macros, nvals, pages, npages, it, btm, btcp, btip, bam, baip, bmpp,
    mppp, mpim, mpip, mpiv⟩ := a
  simp only [] at hnv hmac hmim
  subst hmim
  unfold dbm_macro_next macro_bypage
  rw [if_neg (by simp), if_neg (by push_cast; omega), if_neg (by simp only []; omega)]
  simp only [Int.toNat_ofNat, hnv, hmac]
  try rfl

/-- The words of entry `j` of a macro record whose pages word resolves lie
inside the mapping, so that the value word can be read. -/
theorem value_word_readable (m : Mem) (mac j pp : Nat) (h : ptr_at m (mac + 8 * j + 4) = some pp) :
    ∃ v, be32 m (mac + 8 * j) = some v ∧ ptr_at m (mac + 8 * j) = dbm_get m v := by
  obtain ⟨w, hw, -⟩ := ptr_at_some _ _ _ h
  have := be32_lt m _ _ hw
  obtain ⟨v, hv⟩ := be32_of_le m (mac + 8 * j) (by omega)
  exact ⟨v, hv, ptr_at_eq m _ v hv⟩

theorem macro_next_hit (MACRO_MAX : Nat) (a : Globals) (im : Nat) (ip : Int) (nv mac : Nat)
    (ls1 : List (List Int)) (l : List Int) (ls2 : List (List Int)) (i pp : Nat)
    (him : im < MACRO_MAX) (hip : ip ≠ 0)
    (hnv : a.nvals.getD im 0 = (nv : Int)) (hmac : a.macros.getD im 0 = mac)
    (hmim : a.mp_im = (im : Int)) (hmip : a.mp_ip = ip) (hmiv : a.mp_iv = (i : Int))
    (hmpp : a.mp_pp = some pp)
    (hlen : i + (ls1 ++ l :: ls2).length = nv)
    (hlay : lists_at a.m mac i pp (ls1 ++ l :: ls2))
    (hno : ∀ l1 ∈ ls1, ip ∉ l1) (hin : ip ∈ l) :
    ∃ a1 pp1, dbm_macro_next MACRO_MAX a =
        some (ptr_at a.m (mac + 8 * (i + ls1.length)), a1) ∧
      a1.m = a.m ∧ a1.nvals = a.nvals ∧ a1.macros = a.macros ∧ a1.mp_im = a.mp_im ∧
      a1.mp_ip = a.mp_ip ∧ a1.mp_iv = ((i + ls1.length + 1 : Nat) : Int) ∧
      a1.mp_pp = some pp1 ∧ lists_at a.m mac (i + ls1.length + 1) pp1 ls2 := by
  rw [macro_next_eq MACRO_MAX a im nv mac him hnv hmac hmim]
  obtain ⟨m, mapped, errno, macros, nvals, pages, npages, it, btm, btcp, btip, bam, baip, bmpp,
    mppp, mpim, mpip, mpiv⟩ := a
  simp only [] at hnv hmac hmim hmip hmiv hmpp hlay ⊢
  subst hmim hmip hmiv hmpp
  simp only [List.length_append, List.length_cons] at hlen
  obtain ⟨s1, s2, hl, hs1⟩ := first_occurrence mpip l hin
  have htot := lists_at_total m mac _ _ _ hlay
  simp only [List.map_append, List.map_cons, List.sum_append, List.sum_cons] at htot
  have hll : l.length = s1.length + (s2.length + 1) := by rw [hl]; simp
  obtain ⟨pp1, hl1, -, hs⟩ := bypage_search_lists m mac mpip nv hip ls1 (l :: ls2) i pp
    (s1.length + 1 + (m.length + nv + 1 - ((ls1.map List.length).sum + ls1.length +
      (s1.length + 1)))) hlay hno (by push_cast; omega)
  obtain ⟨hptr, hw, hrest⟩ := hl1
  obtain ⟨v, hv, hpv⟩ := value_word_readable m mac _ _ hptr
  have hfuel : (ls1.map List.length).sum + ls1.length + (s1.length + 1 + (m.length + nv + 1 -
      ((ls1.map List.length).sum + ls1.length + (s1.length + 1)))) = m.length + nv + 1 := by
    omega
  rw [hfuel] at hs
  have hw2 : words_at m pp1 (s1 ++ mpip :: s2) := by rw [← hl]; exact hw
  rw [bypage_search_found m mpip nv s1 s2 pp1 _ _ hw2 (by push_cast; omega) hs1] at hs
  rw [if_pos (by omega)]
  simp only []
  rw [hs]
  simp only [Option.map]
  rw [if_neg (by push_cast; omega), Int.toNat_ofNat, hv, hpv]
  by_cases hlast : ((i + ls1.length : Nat) : Int) + 1 < (nv : Int)
  · rw [if_pos hlast]
    have hw3 := words_at_suffix m s1 (mpip :: s2) pp1 hw2
    have hlen3 := words_at_length m _ _ hw3
    simp only [List.length_cons] at hlen3
    have hsk := bypage_skip_words m (mpip :: s2) (pp1 + 4 * s1.length)
      (m.length + 1 - ((mpip :: s2).length + 1)) hw3
    rw [show (mpip :: s2).length + 1 + (m.length + 1 - ((mpip :: s2).length + 1)) = m.length + 1
      by simp only [List.length_cons]; omega] at hsk
    rw [hsk]
    simp only []
    refine ⟨_, pp1 + 4 * l.length + 4, rfl, rfl, rfl, rfl, rfl, rfl, ?_, ?_, hrest⟩
    · show ((i + ls1.length : Nat) : Int) + 1 = _
      push_cast
      rfl
    · show some (pp1 + 4 * s1.length + 4 * (mpip :: s2).length + 4) = _
      rw [hll]
      simp only [List.length_cons]
      congr 1
      ring
  · rw [if_neg hlast]
    have hls2 : ls2 = [] := by
      apply List.length_eq_zero.1
      push_cast at hlast
      omega
    subst hls2
    refine ⟨_, pp1 + 4 * s1.length, rfl, rfl, rfl, rfl, rfl, rfl, ?_, rfl, trivial⟩
    show ((i + ls1.length : Nat) : Int) + 1 = _
    push_cast
    rfl

theorem macro_next_exhaust (MACRO_MAX : Nat) (a : Globals) (im : Nat) (ip : Int) (nv mac : Nat)
    (ls : List (List Int)) (i pp : Nat)
    (him : im < MACRO_MAX) (hip : ip ≠ 0)
    (hnv : a.nvals.getD im 0 = (nv : Int)) (hmac : a.macros.getD im 0 = mac)
    (hmim : a.mp_im = (im : Int)) (hmip : a.mp_ip = ip) (hmiv : a.mp_iv = (i : Int))
    (hlen : i + ls.length = nv)
    (hlay : ls ≠ [] → a.mp_pp = some pp ∧ lists_at a.m mac i pp ls)
    (hno : ∀ l ∈ ls, ip ∉ l) :
    ∃ a1, dbm_macro_next MACRO_MAX a = some (none, a1) ∧ a1.mp_im = (MACRO_MAX : Int) := by
  rw [macro_next_eq MACRO_MAX a im nv mac him hnv hmac hmim]
  obtain ⟨m, mapped, errno, macros, nvals, pages, npages, it, btm, btcp, btip, bam, baip, bmpp,
    mppp, mpim, mpip, mpiv⟩ := a
  simp only [] at hnv hmac hmim hmip hmiv hlay ⊢
  subst hmim hmip hmiv
  by_cases hemp : ls = []
  · subst hemp
    simp only [List.length_nil, Nat.add_zero] at hlen
    subst hlen
    rw [if_neg (by simp)]
    simp only []
    rw [if_pos trivial]
    exact ⟨_, rfl, rfl⟩
  · obtain ⟨hmpp, hl⟩ := hlay hemp
    subst hmpp
    have hpos : 0 < ls.length := List.length_pos.2 hemp
    have htot := lists_at_total m mac _ _ _ hl
    obtain ⟨pp1, -, -, hs⟩ := bypage_search_lists m mac mpip nv hip ls [] i pp
      (m.length + nv + 1 - ((ls.map List.length).sum + ls.length)) (by simpa using hl) hno
      (by push_cast; omega)
    have hfuel : (ls.map List.length).sum + ls.length + (m.length + nv + 1 -
        ((ls.map List.length).sum + ls.length)) = m.length + nv + 1 := by omega
    rw [hfuel] at hs
    obtain ⟨f, hf⟩ : ∃ f, m.length + nv + 1 - ((ls.map List.length).sum + ls.length) = f + 1 :=
      ⟨m.length + nv - ((ls.map List.length).sum + ls.length), by omega⟩
    have hstop : bypage_search m mpip (nv : Int) (f + 1) ((i + ls.length : Nat) : Int) pp1 =
        some (((i + ls.length : Nat) : Int), pp1) := by
      rw [bypage_search, if_neg (by push_cast; omega)]
    rw [hf, hstop] at hs
    rw [if_pos (by omega)]
    simp only []
    rw [hs]
    simp only [Option.map]
    rw [if_pos (by push_cast; omega)]
    exact ⟨_, rfl, rfl⟩

theorem macro_nexts_done (MACRO_MAX : Nat) (a : Globals) (h : a.mp_im = (MACRO_MAX : Int)) :
    ∀ n, macro_nexts MACRO_MAX n a = some (List.replicate n none, a) := by
  intro n
  induction n with
  | zero => rfl
  | succ n ih =>
    have h1 : dbm_macro_next MACRO_MAX a = some (none, a) := by
      unfold dbm_macro_next macro_bypage
      rw [if_neg (by simp), if_pos (by rw [h])]
    rw [macro_nexts, h1]
    simp only []
    rw [ih]
    rfl

theorem macro_nexts_values (MACRO_MAX : Nat) (m : Mem) (im : Nat) (ip : Int) (nv mac : Nat)
    (him : im < MACRO_MAX) (hip : ip ≠ 0) :
    ∀ (k : Nat) (ls : List (List Int)) (a : Globals) (i pp : Nat), ls.length ≤ k →
      a.m = m → a.nvals.getD im 0 = (nv : Int) → a.macros.getD im 0 = mac →
      a.mp_im = (im : Int) → a.mp_ip = ip → a.mp_iv = (i : Int) → i + ls.length = nv →
      (ls ≠ [] → a.mp_pp = some pp ∧ lists_at m mac i pp ls) →
      ∀ n, (macro_nexts MACRO_MAX ((bypage_values m mac ip i ls).length + n) a).map Prod.fst =
        some (bypage_values m mac ip i ls ++ List.replicate n none) := by
  intro k
  induction k with
  | zero =>
    intro ls a i pp hk hm hnv hmac hmim hmip hmiv hlen hlay n
    have hls : ls = [] := List.length_eq_zero.1 (by omega)
    subst hls
    simp only [bypage_values, List.length_nil, Nat.zero_add, List.nil_append]
    cases n with
    | zero => rfl
    | succ n =>
      obtain ⟨a1, h1, h2⟩ := macro_next_exhaust MACRO_MAX a im ip nv mac [] i pp him hip hnv hmac
        hmim hmip hmiv hlen (fun h => absurd rfl h) (by simp)
      rw [macro_nexts, h1]
      simp only []
      rw [macro_nexts_done MACRO_MAX a1 h2 n]
      rfl
  | succ k ih =>
    intro ls a i pp hk hm hnv hmac hmim hmip hmiv hlen hlay n
    subst hm
    rcases first_list ip ls with hno | ⟨ls1, l, ls2, rfl, hno, hin⟩
    · rw [bypage_values_none a.m mac ip ls i hno]
      simp only [List.length_nil, Nat.zero_add, List.nil_append]
      cases n with
      | zero => rfl
      | succ n =>
        obtain ⟨a1, h1, h2⟩ := macro_next_exhaust MACRO_MAX a im ip nv mac ls i pp him hip hnv hmac
          hmim hmip hmiv hlen hlay hno
        rw [macro_nexts, h1]
        simp only []
        rw [macro_nexts_done MACRO_MAX a1 h2 n]
        rfl
    · obtain ⟨hmpp, hl⟩ := hlay (by simp)
      obtain ⟨a1, pp1, h1, e1, e2, e3, e4, e5, e6, e7, e8⟩ :=
        macro_next_hit MACRO_MAX a im ip nv mac ls1 l ls2 i pp him hip hnv hmac hmim hmip hmiv
          hmpp hlen hl hno hin
      rw [bypage_values_first a.m mac ip ls1 l ls2 i hno hin]
      simp only [List.length_cons, List.cons_append]
      rw [show (bypage_values a.m mac ip (i + ls1.length + 1) ls2).length + 1 + n =
        ((bypage_values a.m mac ip (i + ls1.length + 1) ls2).length + n) + 1 by omega,
        macro_nexts, h1]
      simp only []
      have := ih ls2 a1 (i + ls1.length + 1) pp1
        (by simp only [List.length_append, List.length_cons] at hk; omega) e1
        (by rw [e2]; exact hnv) (by rw [e3]; exact hmac) (by rw [e4]; exact hmim)
        (by rw [e5]; exact hmip) e6
        (by simp only [List.length_append, List.length_cons] at hlen; omega)
        (fun _ => ⟨e7, e8⟩) n
      cases hq : macro_nexts MACRO_MAX
          ((bypage_values a.m mac ip (i + ls1.length + 1) ls2).length + n) a1 with
      | none => rw [hq] at this; simp at this
      | some q =>
        rw [hq] at this
        simp only [Option.map, Option.some.injEq] at this ⊢
        rw [this]

set_option maxRecDepth 100000 in
/-- C26, as stated, fails: `db_macros` opens successfully, value 1 of its
macro 2 is the string at 86 and its pages list holds the page offset 40, yet
after `dbm_macro_bypage(2, 40)` the first `dbm_macro_next` returns `NULL`,
because the walk starts at the pages list of value 0 and goes on through the
words that follow it in the file instead of following the pages offset of
value 1. -/
theorem macro_bypage_misses_value :
    (dbm_open 4 db_macros).map Prod.fst = some 0 ∧
    (dbm_macro_get 4 (dbm_opened 4 db_macros) 2 0).map
      (fun e => (e.value, e.pp.bind (word_list db_macros 8))) = some (some 84, some [20]) ∧
    (dbm_macro_get 4 (dbm_opened 4 db_macros) 2 1).map
      (fun e => (e.value, e.pp.bind (word_list db_macros 8))) = some (some 86, some [40]) ∧
    ((dbm_macro_bypage 4 (dbm_opened 4 db_macros) 2 40).bind (macro_nexts 4 1)).map Prod.fst =
      some [none] := by
  decide

/-- C26, amended: let macro `im` of a reader state have `nv` values whose
pages lists `ls` are stored one after the other in value order, each followed
by its zero word, so that the pages offset of each value resolves to the first
word of its list.  Arming reads the pages word of entry 0 even when the macro
has no value.  If that word lies inside the mapping (as it does whenever the
macro has a value), `dbm_macro_bypage(im, ip)` with `ip ≠ 0` returns, and the
following `dbm_macro_next` calls return, in value order and once each, the
pointers to the value strings of the values whose list holds `ip`, and then
`NULL` on each of any number of further calls.  If the macro has no value and
that word lies outside the mapping, the arming call itself reads outside the
mapping. -/
theorem macro_bypage_spec (MACRO_MAX : Nat) (g : Globals) (im : Nat) (ip : Int) (nv mac pp0 : Nat)
    (ls : List (List Int)) (him : im < MACRO_MAX) (hip : ip ≠ 0)
    (hnv : g.nvals.getD im 0 = (nv : Int)) (hmac : g.macros.getD im 0 = mac)
    (hlen : ls.length = nv) (hlay : lists_at g.m mac 0 pp0 ls) :
    ((ls = [] → mac + 8 ≤ g.m.length) →
      ∃ a, dbm_macro_bypage MACRO_MAX g im ip = some a ∧
        ∀ n, (macro_nexts MACRO_MAX ((bypage_values g.m mac ip 0 ls).length + n) a).map Prod.fst =
          some (bypage_values g.m mac ip 0 ls ++ List.replicate n none)) ∧
    (ls = [] → g.m.length < mac + 8 → dbm_macro_bypage MACRO_MAX g im ip = none) := by
  refine ⟨?_, ?_⟩
  · intro hword
    obtain ⟨w, hw⟩ : ∃ w, be32 g.m (mac + 4) = some w := by
      cases ls with
      | nil => exact be32_of_le g.m (mac + 4) (by have := hword rfl; omega)
      | cons l rest =>
        obtain ⟨h1, -, -⟩ := hlay
        simp only [Nat.mul_zero, Nat.add_zero] at h1
        obtain ⟨w, hw, -⟩ := ptr_at_some _ _ _ h1
        exact ⟨w, hw⟩
    have harm : dbm_macro_bypage MACRO_MAX g im ip =
        some { g with mp_im := (im : Int), mp_ip := ip, mp_pp := dbm_get g.m w, mp_iv := 0 } := by
      unfold dbm_macro_bypage macro_bypage
      rw [if_pos ⟨by omega, by omega, hip⟩, if_pos ⟨by omega, hip⟩, if_neg (by omega)]
      simp only [Int.toNat_ofNat, hmac, hw, Option.map]
    refine ⟨_, harm, ?_⟩
    apply macro_nexts_values MACRO_MAX g.m im ip nv mac him hip ls.length ls
      { g with mp_im := (im : Int), mp_ip := ip, mp_pp := dbm_get g.m w, mp_iv := 0 } 0 pp0
      (le_refl _) rfl hnv hmac rfl rfl rfl (by omega)
    intro hne
    refine ⟨?_, hlay⟩
    show dbm_get g.m w = some pp0
    cases ls with
    | nil => exact absurd rfl hne
    | cons l rest =>
      obtain ⟨h1, -, -⟩ := hlay
      simp only [Nat.mul_zero, Nat.add_zero] at h1
      rw [ptr_at_eq g.m _ w hw] at h1
      exact h1
  · intro _ hout
    unfold dbm_macro_bypage macro_bypage
    rw [if_pos ⟨by omega, by omega, hip⟩, if_pos ⟨by omega, hip⟩, if_neg (by omega)]
    simp only [Int.toNat_ofNat, hmac, be32_none g.m (mac + 4) (by omega), Option.map]

set_option maxRecDepth 100000 in
/-- Witness for `macro_bypage_spec`: macro 0 of `db_macros` and the page
offset 40, which the pages lists of both values hold. -/
theorem macro_bypage_spec_witness :
    ∃ a, dbm_macro_bypage 4 (dbm_opened 4 db_macros) 0 40 = some a ∧
      (macro_nexts 4 4 a).map Prod.fst = some [some 76, some 78, none, none] := by
  obtain ⟨a, h1, h2⟩ := (macro_bypage_spec 4 (dbm_opened 4 db_macros) 0 40 2 156 92 [[20, 40], [40]]
    (by decide) (by decide) (by decide) (by decide) (by decide) (by decide)).1 (by decide)
  exact ⟨a, h1, h2 2⟩

/-! ## The order of the hits -/

theorem cstr_of_length : ∀ (l s : List (Fin 256)), cstr_of l = some s → s.length < l.length := by
  intro l
  induction l with
  | nil => intro s h; cases h
  | cons b rest ih =>
    intro s h
    rw [cstr_of] at h
    by_cases hb : b = 0
    · rw [if_pos hb] at h
      simp only [Option.some.injEq] at h
      subst h
      simp
    · rw [if_neg hb] at h
      cases hr : cstr_of rest with
      | none => rw [hr] at h; cases h
      | some s1 =>
        rw [hr] at h
        simp only [Option.map, Option.some.injEq] at h
        subst h
        have := ih s1 hr
        simp only [List.length_cons]
        omega

theorem cstr_some_lt (m : Mem) (a : Nat) (s : List (Fin 256)) (h : cstr m a = some s) :
    a + s.length < m.length := by
  unfold cstr at h
  have := cstr_of_length _ _ h
  simp only [List.length_drop] at this
  omega

/-- The fuel of the search loop of `page_bytitle` is enough: with more fuel
the loop gives the same result, so that it has no result only when it reads
outside the mapping.  A turn that does not go to the next page moves the
cursor forward over a string that ends inside the mapping. -/
theorem bytitle_search_fuel (m : Mem) (it : iter) (mt : Match) (npages : Int) :
    ∀ (fuel cp : Nat) (ip : Int), (m.length - cp) + (npages - ip).toNat + 1 ≤ fuel →
      bytitle_search m it mt npages (fuel + 1) cp ip =
        bytitle_search m it mt npages fuel cp ip := by
  intro fuel
  induction fuel with
  | zero => intro cp ip h; omega
  | succ f ih =>
    intro cp ip h
    rw [bytitle_search, bytitle_search.eq_def m it mt npages (f + 1)]
    simp only []
    by_cases h1 : ip < npages
    · rw [if_pos h1, if_pos h1]
      generalize hcp1 : (if it = iter.ITER_NAME then cp + 1 else cp) = cp1
      have hle : cp ≤ cp1 := by
        rw [← hcp1]
        split_ifs <;> omega
      cases hs : cstr m cp1 with
      | none => rfl
      | some s =>
        simp only []
        have hlt := cstr_some_lt m cp1 s hs
        by_cases h2 : mt s = true
        · rw [if_pos h2, if_pos h2]
        · rw [if_neg h2, if_neg h2]
          by_cases h3 : it = iter.ITER_DESC
          · rw [if_pos h3, if_pos h3]
            exact ih _ _ (by omega)
          · rw [if_neg h3, if_neg h3]
            cases hb : byte m (cp1 + s.length + 1) with
            | none => rfl
            | some b =>
              simp only []
              by_cases h4 : b = 0
              · rw [if_pos h4, if_pos h4]
                exact ih _ _ (by omega)
              · rw [if_neg h4, if_neg h4]
                exact ih _ _ (by omega)
    · rw [if_neg h1, if_neg h1]

theorem page_bytitle_advance (g g1 : Globals) (r : dbm_res) (it : iter)
    (h : page_bytitle g it none = some (r, g1)) (hn : r ≠ res_none) :
    g.bt_ip ≤ r.page ∧ g1.bt_ip = r.page + 1 := by
  have key : ∀ (cp : Option Nat) (ip : Int), g.bt_ip ≤ ip →
      bytitle_finish g cp ip = some (r, g1) → g.bt_ip ≤ r.page ∧ g1.bt_ip = r.page + 1 := by
    intro cp ip hle hf
    obtain ⟨-, -, -, -, -, hc⟩ := bytitle_finish_spec g cp ip r g1 hf
    rcases hc with ⟨-, hr, -, -⟩ | ⟨-, hpage, hbt, -, -⟩
    · exact absurd hr hn
    · rw [hpage, hbt]
      exact ⟨hle, rfl⟩
  unfold page_bytitle at h
  by_cases hk : ¬ (it = iter.ITER_NAME ∨ it = iter.ITER_DESC ∨ it = iter.ITER_SECT)
  · rw [if_pos hk] at h
    cases h
  · rw [if_neg hk] at h
    simp only [] at h
    by_cases hlt : g.bt_ip < g.npages
    · rw [if_pos hlt] at h
      cases hcp : g.bt_cp with
      | none => rw [hcp] at h; simp at h
      | some cp =>
        cases hmt : g.bt_match with
        | none => rw [hcp, hmt] at h; simp at h
        | some mt =>
          rw [hcp, hmt] at h
          simp only [] at h
          cases hs : bytitle_search g.m g.iteration mt g.npages
              (g.m.length + g.npages.toNat + 1) cp g.bt_ip with
          | none => rw [hs] at h; simp at h
          | some p =>
            obtain ⟨cp1, ip1⟩ := p
            rw [hs] at h
            simp only [] at h
            obtain ⟨hle, -⟩ := bytitle_search_ip _ _ _ _ _ _ _ _ _ hs
            exact key _ _ hle h
    · rw [if_neg hlt] at h
      exact key _ _ (le_refl _) h

theorem page_byarch_advance (g g1 : Globals) (r : dbm_res)
    (h : page_byarch g none = some (r, g1)) (hn : r ≠ res_none) :
    g.ba_ip ≤ r.page ∧ g1.ba_ip = r.page + 1 := by
  unfold page_byarch at h
  simp only [] at h
  by_cases hlt : g.ba_ip < g.npages
  · rw [if_pos hlt] at h
    cases hm : g.ba_match with
    | none => rw [hm] at h; simp at h
    | some mt =>
      rw [hm] at h
      simp only [] at h
      cases hs : byarch_search g mt (g.npages - g.ba_ip).toNat g.ba_ip with
      | none => rw [hs] at h; simp at h
      | some p =>
        obtain ⟨ip, b⟩ := p
        rw [hs] at h
        obtain ⟨h1, -, -⟩ := byarch_search_ip g mt _ _ _ _ hs
        cases b with
        | true =>
          simp only [Option.some.injEq, Prod.mk.injEq] at h
          obtain ⟨rfl, rfl⟩ := h
          exact ⟨h1, rfl⟩
        | false =>
          simp only [Option.some.injEq, Prod.mk.injEq] at h
          exact absurd h.1.symm hn
  · rw [if_neg hlt] at h
    simp only [Option.some.injEq, Prod.mk.injEq] at h
    exact absurd h.1.symm hn

/-- A hit of `dbm_page_next` in an iteration over titles or architectures is
not before the page cursor of that iteration, and leaves the cursor right
after the hit. -/
theorem page_next_advance (MACRO_MAX : Nat) (g g1 : Globals) (r : dbm_res)
    (hm : g.iteration ≠ iter.ITER_MACRO)
    (h : dbm_page_next MACRO_MAX g = some (r, g1)) (hn : r ≠ res_none) :
    (if g.iteration = iter.ITER_ARCH then g.ba_ip else g.bt_ip) ≤ r.page ∧
    (if g.iteration = iter.ITER_ARCH then g1.ba_ip else g1.bt_ip) = r.page + 1 := by
  unfold dbm_page_next at h
  cases hit : g.iteration <;> rw [hit] at h <;> simp only [] at h
  · simp only [Option.some.injEq, Prod.mk.injEq] at h
    exact absurd h.1.symm hn
  · rw [if_neg (by simp), if_neg (by simp)]
    exact page_bytitle_advance g g1 r _ h hn
  · rw [if_neg (by simp), if_neg (by simp)]
    exact page_bytitle_advance g g1 r _ h hn
  · rw [if_pos rfl, if_pos rfl]
    exact page_byarch_advance g g1 r h hn
  · rw [if_neg (by simp), if_neg (by simp)]
    exact page_bytitle_advance g g1 r _ h hn
  · exact absurd hit hm

theorem page_nexts_order (MACRO_MAX : Nat) :
    ∀ (n : Nat) (g g2 : Globals) (rs : List dbm_res), reader_ok g →
      g.iteration ≠ iter.ITER_MACRO → page_nexts MACRO_MAX n g = some (rs, g2) →
      (∀ r ∈ rs, r ≠ res_none →
        (if g.iteration = iter.ITER_ARCH then g.ba_ip else g.bt_ip) ≤ r.page ∧
        r.page < g.npages) ∧
      ((rs.filter (fun r => decide (r ≠ res_none))).map (fun r => r.page)).Pairwise
        (fun a b => a < b) := by
  intro n
  induction n with
  | zero =>
    intro g g2 rs _ _ h
    simp only [page_nexts, Option.some.injEq, Prod.mk.injEq] at h
    obtain ⟨rfl, -⟩ := h
    simp
  | succ n ih =>
    intro g g2 rs hok hm h
    rw [page_nexts] at h
    cases hq : dbm_page_next MACRO_MAX g with
    | none => rw [hq] at h; cases h
    | some q =>
      obtain ⟨r, g1⟩ := q
      rw [hq] at h
      simp only [] at h
      cases hp : page_nexts MACRO_MAX n g1 with
      | none => rw [hp] at h; cases h
      | some p =>
        obtain ⟨rs1, g3⟩ := p
        rw [hp] at h
        simp only [Option.map, Option.some.injEq, Prod.mk.injEq] at h
        obtain ⟨rfl, -⟩ := h
        obtain ⟨hok1, hsf, -, hstep, -⟩ := page_next_step MACRO_MAX g g1 r hok hq
        obtain ⟨hnone, hhit⟩ := hstep hm
        by_cases hr : r = res_none
        · have h1 := page_nexts_none MACRO_MAX g1 (hnone hr) n
          rw [hp] at h1
          simp only [Option.some.injEq, Prod.mk.injEq] at h1
          obtain ⟨h1, -⟩ := h1
          have hall : ∀ x ∈ r :: rs1, x = res_none := by
            intro x hx
            rcases List.mem_cons.1 hx with rfl | hx
            · exact hr
            · rw [h1] at hx
              exact (List.mem_replicate.1 hx).2
          constructor
          · intro x hx hne
            exact absurd (hall x hx) hne
          · have : (r :: rs1).filter (fun r => decide (r ≠ res_none)) = [] := by
              rw [List.filter_eq_nil_iff]
              intro x hx
              simp [hall x hx]
            rw [this]
            simp
        · obtain ⟨hi, h0, hlt⟩ := hhit hr
          obtain ⟨ha, hb⟩ := page_next_advance MACRO_MAX g g1 r hm hq hr
          have hm1 : g1.iteration ≠ iter.ITER_MACRO := by rw [hi]; exact hm
          obtain ⟨i1, i2⟩ := ih g1 g3 rs1 hok1 hm1 hp
          rw [hi, hb] at i1
          have hnp : g1.npages = g.npages := hsf.2.2.2.2.symm
          constructor
          · intro x hx hne
            rcases List.mem_cons.1 hx with rfl | hx
            · exact ⟨ha, hlt⟩
            · obtain ⟨j1, j2⟩ := i1 x hx hne
              exact ⟨by omega, by rw [← hnp]; exact j2⟩
          · rw [List.filter_cons, if_pos (by simpa using hr), List.map_cons, List.pairwise_cons]
            refine ⟨?_, i2⟩
            intro b hb1
            obtain ⟨x, hx, rfl⟩ := List.mem_map.1 hb1
            obtain ⟨hx1, hx2⟩ := List.mem_filter.1 hx
            have := (i1 x hx1 (by simpa using hx2)).1
            omega

theorem arm_iteration (MACRO_MAX : Nat) (g a : Globals) (f : page_filter)
    (hf : ∀ im mt, f ≠ page_filter.by_macro im mt) (h : arm MACRO_MAX g f = some a) :
    a.iteration ≠ iter.ITER_MACRO := by
  have htitle : ∀ (mt : Match) (it : iter), it ≠ iter.ITER_MACRO →
      (page_bytitle g it (some mt)).map Prod.snd = some a → a.iteration ≠ iter.ITER_MACRO := by
    intro mt it hit h
    cases hq : page_bytitle g it (some mt) with
    | none => rw [hq] at h; cases h
    | some q =>
      obtain ⟨r, a1⟩ := q
      rw [hq] at h
      simp only [Option.map, Option.some.injEq] at h
      subst h
      obtain ⟨-, -, w, -, rfl⟩ := page_bytitle_armed g _ it mt r hq
      exact hit
  cases f with
  | by_name mt => exact htitle mt _ (by decide) h
  | by_sect mt => exact htitle mt _ (by decide) h
  | by_desc mt => exact htitle mt _ (by decide) h
  | by_arch mt =>
    simp only [arm, dbm_page_byarch, page_byarch, Option.map, Option.some.injEq] at h
    subst h
    simp
  | by_macro im mt => exact absurd rfl (hf im mt)

/-- C40: hits come in page order.  In a state that the reader can be in after
a successful open, arm a name, section, description or architecture iteration
with any match predicate and call `dbm_page_next` any number of times: the
page indices of the results other than the sentinel are strictly increasing in
the order of the calls, and each lies in `0 ≤ page < npages`.  No hypothesis
is made on how the strings are laid out in the file. -/
theorem hits_in_page_order (MACRO_MAX : Nat) (g : Globals) (f : page_filter) (n : Nat)
    (rs : List dbm_res) (hok : reader_ok g)
    (hf : ∀ im mt, f ≠ page_filter.by_macro im mt)
    (h : ((arm MACRO_MAX g f).bind (page_nexts MACRO_MAX n)).map Prod.fst = some rs) :
    ((rs.filter (fun r => decide (r ≠ res_none))).map (fun r => r.page)).Pairwise
      (fun a b => a < b) ∧
    (∀ r ∈ rs, r ≠ res_none → 0 ≤ r.page ∧ r.page < g.npages) := by
  refine ⟨?_, ?_⟩
  all_goals
    cases ha : arm MACRO_MAX g f with
    | none => rw [ha] at h; cases h
    | some a =>
      rw [ha] at h
      simp only [Option.bind] at h
      cases hp : page_nexts MACRO_MAX n a with
      | none => rw [hp] at h; cases h
      | some p =>
        obtain ⟨rs1, g2⟩ := p
        rw [hp] at h
        simp only [Option.map, Option.some.injEq] at h
        subst h
        obtain ⟨hoka, hsf⟩ := arm_spec MACRO_MAX g a f hok ha
        obtain ⟨i1, i2⟩ := page_nexts_order MACRO_MAX n a g2 rs1 hoka
          (arm_iteration MACRO_MAX g a f hf ha) hp
        first
          | exact i2
          | (intro r hr hne
             obtain ⟨j1, j2⟩ := i1 r hr hne
             have hnp : a.npages = g.npages := hsf.2.2.2.2.symm
             have hc : 0 ≤ (if a.iteration = iter.ITER_ARCH then a.ba_ip else a.bt_ip) := by
               obtain ⟨-, b0, -, a0, -⟩ := hoka
               split_ifs
               · exact a0
               · exact b0
             exact ⟨by omega, by rw [← hnp]; exact j2⟩)

set_option maxRecDepth 100000 in
/-- On `db_shuffled`, whose name blocks are not stored in page order, the
iteration over the names "foo" returns page 1, page 2 and then the sentinel. -/
theorem hits_in_page_order_witness :
    reader_ok (dbm_opened 1 db_shuffled) ∧
    ((arm 1 (dbm_opened 1 db_shuffled) (page_filter.by_name (match_is [102, 111, 111]))).bind
      (page_nexts 1 4)).map Prod.fst =
      some [⟨1, 4⟩, ⟨2, 2⟩, res_none, res_none] ∧
    ((([⟨1, 4⟩, ⟨2, 2⟩, res_none, res_none] : List dbm_res).filter
        (fun r => decide (r ≠ res_none))).map (fun r => r.page)).Pairwise (fun a b => a < b) :=
  ⟨by decide, by decide,
    (hits_in_page_order 1 (dbm_opened 1 db_shuffled)
      (page_filter.by_name (match_is [102, 111, 111])) 4 _ (by decide)
      (fun _ _ h => (by cases h)) (by decide)).1⟩

set_option maxRecDepth 100000 in
/-- C36, a fault of the code: arming reads the first page record whether or
not there is one.  `page_bytitle` sets its string cursor from `pages[0].name`
(`.sect`, `.desc`) without looking at `npages`.  The file `db_empty` is
accepted by `dbm_open` with `npages = 0` and the page array at 20; the words
at 20, 24 and 32 that arming reads there are the count and two entries of the
macros table, and the cursor is left at the addresses 36 and 168 that these
words name.  The call of `dbm_page_next` that follows returns the sentinel,
as claimed. -/
theorem arming_reads_missing_page :
    (dbm_open 36 db_empty).map Prod.fst = some 0 ∧ (dbm_opened 36 db_empty).npages = 0 ∧
    (dbm_opened 36 db_empty).pages = 20 ∧
    (be32 db_empty 20 = some 36 ∧ be32 db_empty 24 = some 168 ∧ be32 db_empty 32 = some 168) ∧
    (∀ mt : Match,
      (dbm_page_byname (dbm_opened 36 db_empty) mt).map (fun g => g.bt_cp) =
        some (ptr_at db_empty 20) ∧
      (dbm_page_bysect (dbm_opened 36 db_empty) mt).map (fun g => g.bt_cp) =
        some (ptr_at db_empty 24) ∧
      (dbm_page_bydesc (dbm_opened 36 db_empty) mt).map (fun g => g.bt_cp) =
        some (ptr_at db_empty 32)) ∧
    (∀ mt : Match,
      (dbm_page_byname (dbm_opened 36 db_empty) mt).map (fun g => g.bt_cp) = some (some 36) ∧
      (dbm_page_bysect (dbm_opened 36 db_empty) mt).map (fun g => g.bt_cp) = some (some 168) ∧
      (dbm_page_bydesc (dbm_opened 36 db_empty) mt).map (fun g => g.bt_cp) = some (some 168)) ∧
    (∀ mt : Match,
      ((dbm_page_byname (dbm_opened 36 db_empty) mt).bind (dbm_page_next 36)).map Prod.fst =
        some res_none ∧
      ((dbm_page_bysect (dbm_opened 36 db_empty) mt).bind (dbm_page_next 36)).map Prod.fst =
        some res_none ∧
      ((dbm_page_bydesc (dbm_opened 36 db_empty) mt).bind (dbm_page_next 36)).map Prod.fst =
        some res_none) :=
  ⟨by decide, by decide, by decide, by decide, fun _ => ⟨rfl, rfl, rfl⟩,
    fun _ => ⟨rfl, rfl, rfl⟩, fun _ => ⟨rfl, rfl, rfl⟩⟩

theorem macro_next_null_cursor (MACRO_MAX : Nat) (g : Globals) (hM : 0 < MACRO_MAX)
    (him : g.mp_im = 0) (hiv : g.mp_iv = 0) (hpp : g.mp_pp = none)
    (hnv : 0 < g.nvals.getD 0 0) : (dbm_macro_next MACRO_MAX g).isNone = true := by
  unfold dbm_macro_next macro_bypage
  rw [if_neg (by simp), him, if_neg (by simp; omega), if_neg (by simp)]
  simp only [hiv, hpp, Int.toNat_zero, hnv, if_true]
  rfl

set_option maxRecDepth 100000 in
/-- C37, a fault of the code: `dbm_macro_next` before any `dbm_macro_bypage`
uses the pages cursor while it is `NULL`.  The statics of `macro_bypage`
start as `im = 0`, `iv = 0`, `pp = NULL`, so the first test `im >= MACRO_MAX`
does not hold and, when macro 0 has a value, the search loop evaluates `*pp`.
This happens in every such state, and on `db_macros` (macro 0 has two values)
right after `dbm_open`.  Likewise `dbm_macro_bypage` on a macro without values
reads the `pages` word of its entry 0, which does not exist.  On `db_empty`
that word starts at 176, the end of the file: the read is outside the mapping.
On `db_sparse` it is the word at 28, a word of the macros table, and the
pages cursor is set from it; the `dbm_macro_next` that follows returns `NULL`,
as claimed. -/
theorem macro_next_unarmed_faults :
    (∀ (MACRO_MAX : Nat) (g : Globals), 0 < MACRO_MAX → g.mp_im = 0 → g.mp_iv = 0 →
      g.mp_pp = none → 0 < g.nvals.getD 0 0 → (dbm_macro_next MACRO_MAX g).isNone = true) ∧
    ((dbm_open 4 db_macros).map Prod.fst = some 0 ∧ (dbm_opened 4 db_macros).mp_im = 0 ∧
      (dbm_opened 4 db_macros).mp_iv = 0 ∧ (dbm_opened 4 db_macros).mp_pp = none ∧
      (dbm_opened 4 db_macros).nvals.getD 0 0 = 2 ∧
      (dbm_macro_next 4 (dbm_opened 4 db_macros)).isNone = true) ∧
    ((dbm_open 36 db_empty).map Prod.fst = some 0 ∧ (dbm_opened 36 db_empty).nvals.getD 0 0 = 0 ∧
      (dbm_opened 36 db_empty).macros.getD 0 0 + 4 = 176 ∧ db_empty.length = 176 ∧
      be32 db_empty ((dbm_opened 36 db_empty).macros.getD 0 0 + 4) = none ∧
      (dbm_macro_bypage 36 (dbm_opened 36 db_empty) 0 20).isNone = true) ∧
    ((dbm_open 1 db_sparse).map Prod.fst = some 0 ∧ (dbm_opened 1 db_sparse).nvals.getD 0 0 = 0 ∧
      (dbm_opened 1 db_sparse).macros.getD 0 0 + 4 = 28 ∧ db_sparse.length = 36 ∧
      (dbm_macro_bypage 1 (dbm_opened 1 db_sparse) 0 20).map (fun g => g.mp_pp) =
        some (ptr_at db_sparse ((dbm_opened 1 db_sparse).macros.getD 0 0 + 4)) ∧
      ((dbm_macro_bypage 1 (dbm_opened 1 db_sparse) 0 20).bind (dbm_macro_next 1)).map
        Prod.fst = some none) :=
  ⟨macro_next_null_cursor, by decide, by decide, by decide⟩

/-! ## The fuel of the other loops

Each loop gives the same result with more fuel than its caller passes: a turn
moves the cursor forward past a byte or word that was read inside the mapping.
So a loop has no result only when it reads outside the mapping. -/

theorem bytitle_skip_fuel (m : Mem) (it : iter) :
    ∀ (fuel cp : Nat), (m.length - cp) + 1 ≤ fuel →
      bytitle_skip m it (fuel + 1) cp = bytitle_skip m it fuel cp := by
  intro fuel
  induction fuel with
  | zero => intro cp h; omega
  | succ f ih =>
    intro cp h
    conv_lhs => rw [bytitle_skip.eq_def]
    conv_rhs => rw [bytitle_skip.eq_def]
    simp only [Nat.add_sub_cancel]
    cases hb : byte m cp with
    | none => rfl
    | some b1 =>
      have hlt := byte_lt m cp b1 hb
      simp only []
      by_cases h1 : b1 ≠ 0
      · rw [if_pos h1, if_pos h1]
        exact ih _ (by omega)
      · rw [if_neg h1, if_neg h1]
        by_cases h2 : it = iter.ITER_DESC
        · rw [if_pos h2, if_pos h2]
        · rw [if_neg h2, if_neg h2]
          by_cases h3 : cp + 1 < 2
          · rw [if_pos h3, if_pos h3]
          · rw [if_neg h3, if_neg h3]
            cases byte m (cp + 1 - 2) with
            | none => rfl
            | some b2 =>
              simp only []
              by_cases h4 : b2 ≠ 0
              · rw [if_pos h4, if_pos h4]
                exact ih _ (by omega)
              · rw [if_neg h4, if_neg h4]

theorem byarch_block_fuel (m : Mem) (mt : Match) :
    ∀ (fuel cp : Nat), (m.length - cp) + 1 ≤ fuel →
      byarch_block m mt (fuel + 1) cp = byarch_block m mt fuel cp := by
  intro fuel
  induction fuel with
  | zero => intro cp h; omega
  | succ f ih =>
    intro cp h
    conv_lhs => rw [byarch_block.eq_def]
    conv_rhs => rw [byarch_block.eq_def]
    simp only []
    cases hb : byte m cp with
    | none => rfl
    | some b =>
      have hlt := byte_lt m cp b hb
      simp only []
      by_cases h1 : b = 0
      · rw [if_pos h1, if_pos h1]
      · rw [if_neg h1, if_neg h1]
        cases cstr m cp with
        | none => rfl
        | some s =>
          simp only []
          by_cases h2 : mt s = true
          · rw [if_pos h2, if_pos h2]
          · rw [if_neg h2, if_neg h2]
            exact ih _ (by omega)

theorem bypage_search_fuel (m : Mem) (ip nv : Int) :
    ∀ (fuel pp : Nat) (iv : Int), (m.length - pp) + (nv - iv).toNat + 1 ≤ fuel →
      bypage_search m ip nv (fuel + 1) iv pp = bypage_search m ip nv fuel iv pp := by
  intro fuel
  induction fuel with
  | zero => intro pp iv h; omega
  | succ f ih =>
    intro pp iv h
    conv_lhs => rw [bypage_search.eq_def]
    conv_rhs => rw [bypage_search.eq_def]
    simp only []
    by_cases h1 : iv < nv
    · rw [if_pos h1, if_pos h1]
      cases hw : be32 m pp with
      | none => rfl
      | some w =>
        have hlt := be32_lt m pp w hw
        simp only []
        by_cases h2 : w = ip
        · rw [if_pos h2, if_pos h2]
        · rw [if_neg h2, if_neg h2]
          by_cases h3 : w = 0
          · rw [if_pos h3, if_pos h3]
            exact ih _ _ (by omega)
          · rw [if_neg h3, if_neg h3]
            exact ih _ _ (by omega)
    · rw [if_neg h1, if_neg h1]

theorem bypage_skip_fuel (m : Mem) :
    ∀ (fuel pp : Nat), (m.length - pp) + 1 ≤ fuel →
      bypage_skip m (fuel + 1) pp = bypage_skip m fuel pp := by
  intro fuel
  induction fuel with
  | zero => intro pp h; omega
  | succ f ih =>
    intro pp h
    conv_lhs => rw [bypage_skip.eq_def]
    conv_rhs => rw [bypage_skip.eq_def]
    simp only []
    cases hw : be32 m pp with
    | none => rfl
    | some w =>
      have hlt := be32_lt m pp w hw
      simp only []
      by_cases h1 : w ≠ 0
      · rw [if_pos h1, if_pos h1]
        exact ih _ (by omega)
      · rw [if_neg h1, if_neg h1]

end Dbm

/-! # Properties of the table solver -/

namespace Out


/-- The integer arithmetic of `max_width` is the exact value of the C
expression: the integer part of `xwidth * necol / nxcol - ewidth + 0.4995`. -/
theorem max_width_eq_floor (xwidth necol nxcol ewidth : Nat) (hn : 0 < nxcol) :
    max_width xwidth necol nxcol ewidth =
      (⌊(xwidth : ℚ) * necol / nxcol - ewidth + 4995 / 10000⌋).toNat := by
  unfold max_width double_to_size
  congr 1
  have h1 : ((xwidth : ℚ) * necol / nxcol - ewidth + 4995 / 10000) =
      ((10000 * (xwidth : Int) * necol - 10000 * (nxcol : Int) * ewidth + 4995 * (nxcol : Int) : Int) : ℚ)
        / ((10000 * nxcol : Nat) : ℚ) := by
    have : (nxcol : ℚ) ≠ 0 := by exact_mod_cast hn.ne'
    push_cast
    field_simp
    ring
  rw [h1, Rat.floor_intCast_div_natCast]


theorem unused_beyond_tail (maxcol : Int) (icol : Nat) (c : roffcol) (rest : List roffcol)
    (h : unused_beyond maxcol icol (c :: rest)) : unused_beyond maxcol (icol + 1) rest := by
  intro j d hj hm
  exact h (j + 1) d (by simpa using hj) (by rw [show icol + (j + 1) = icol + 1 + j by ring]; exact hm)

theorem unused_beyond_all (maxcol : Int) (icol : Nat) (cols : List roffcol)
    (h : unused_beyond maxcol icol cols) (hm : maxcol < (icol : Int)) : ∀ c ∈ cols, c = {} := by
  intro c hc
  obtain ⟨j, hj⟩ := List.getElem?_of_mem hc
  exact h j c hj (by push_cast; omega)

theorem wmax_widths_unused (cols : List roffcol) (h : ∀ c ∈ cols, c = {}) :
    wmax_widths cols = [] := by
  unfold wmax_widths
  rw [List.map_eq_nil_iff, List.filter_eq_nil_iff]
  intro c hc
  rw [h c hc]; decide

theorem rounded_share_mono (A n k : Nat) : rounded_share A n k ≤ rounded_share A n (k + 1) := by
  unfold rounded_share
  apply Nat.div_le_div_right
  have : 10000 * A * k ≤ 10000 * A * (k + 1) := Nat.mul_le_mul_left _ (by omega)
  omega

theorem rounded_share_zero (A n : Nat) : rounded_share A n 0 = 0 := by
  unfold rounded_share
  rcases Nat.eq_zero_or_pos n with rfl | hn
  · simp
  · exact Nat.div_eq_of_lt (by omega)

theorem rounded_share_all (A n : Nat) (hn : 0 < n) : rounded_share A n n = A := by
  unfold rounded_share
  have : 10000 * A * n + 4995 * n = 4995 * n + A * (10000 * n) := by ring
  rw [this, Nat.add_mul_div_right _ _ (by omega)]
  have : 4995 * n / (10000 * n) = 0 := Nat.div_eq_of_lt (by omega)
  omega

theorem max_width_step (A n k e : Nat) (hn : 0 < n) (he : e ≤ rounded_share A n k) :
    max_width A k n e = rounded_share A n k - e := by
  unfold max_width double_to_size rounded_share at *
  have h1 : (10000 * (A : Int) * k - 10000 * (n : Int) * e + 4995 * (n : Int)) =
      ((10000 * A * k + 4995 * n : Nat) : Int) + (-(e : Int)) * ((10000 * n : Nat) : Int) := by
    push_cast; ring
  rw [h1, Int.add_mul_ediv_right _ _ (by exact_mod_cast (by omega : 10000 * n ≠ 0))]
  rw [← Int.natCast_div]
  omega

/-- In the two cases in which the quirk fires, the quirk column is at least
one unit wide before it is decremented. -/
theorem quirk_col_cases (A n : Nat) (q : Int) (hq : quirk_col A n = q) : quirk_ok A n q := by
  unfold quirk_col at hq
  split at hq
  · rename_i h5
    subst h5
    split at hq
    · left; exact hq.symm
    · right
      rename_i hne
      refine ⟨rfl, by omega, ?_⟩
      intro k hk
      unfold rounded_share
      have hk' : k = 2 ∨ k = 3 := by omega
      rcases hk' with rfl | rfl <;> omega
  · left; exact hq.symm


theorem size_dec_pos (w : Nat) (h1 : 1 ≤ w) (h2 : w ≤ SIZE_MAX + 1) : size_dec w = w - 1 := by
  unfold size_dec SIZE_MAX at *
  omega

theorem quirk_share_le (A n : Nat) (q : Int) (k : Nat) :
    quirk_share A n q k ≤ rounded_share A n k := by
  unfold quirk_share; omega

/-- One step of the maximize loop keeps `ewidth` equal to the quirk share. -/
theorem quirk_step (A n : Nat) (q : Int) (k : Nat) (hn : 0 < n) (hq : quirk_ok A n q)
    (hA : A ≤ SIZE_MAX) :
    quirk_share A n q k +
      (if ((k + 1 : Nat) : Int) = q then size_dec (max_width A (k + 1) n (quirk_share A n q k))
        else max_width A (k + 1) n (quirk_share A n q k)) = quirk_share A n q (k + 1) := by
  have hle : quirk_share A n q k ≤ rounded_share A n (k + 1) :=
    le_trans (quirk_share_le A n q k) (rounded_share_mono A n k)
  rw [max_width_step A n (k + 1) _ hn hle]
  rcases hq with h | ⟨h5, hq34, hlt⟩
  · have h1 : ¬ ((k + 1 : Nat) : Int) = q := by omega
    have h2 : ¬ ((k : Nat) : Int) = q := by omega
    rw [if_neg h1]
    unfold quirk_share at *
    rw [if_neg h1]
    rw [if_neg h2] at hle ⊢
    omega
  · subst h5
    by_cases hk : ((k + 1 : Nat) : Int) = q
    · have h2 : ¬ ((k : Nat) : Int) = q := by omega
      have hstep := hlt k hk
      rw [if_pos hk]
      unfold quirk_share at *
      rw [if_neg h2] at hle ⊢
      rw [if_pos hk]
      have hb : rounded_share A 5 (k + 1) ≤ A + 1 := by
        have hk' : k = 2 ∨ k = 3 := by omega
        unfold rounded_share
        rcases hk' with rfl | rfl <;> omega
      rw [size_dec_pos _ (by omega) (by omega)]
      omega
    · rw [if_neg hk]
      by_cases h2 : ((k : Nat) : Int) = q
      · have hstep := hlt (k - 1) (by omega)
        have hk1 : k - 1 + 1 = k := by omega
        rw [hk1] at hstep
        unfold quirk_share at *
        rw [if_pos h2] at hle ⊢
        rw [if_neg hk]
        have := rounded_share_mono A 5 k
        omega
      · unfold quirk_share at *
        rw [if_neg h2] at hle ⊢
        rw [if_neg hk]
        omega

theorem quirk_share_mono (A n : Nat) (q : Int) (k : Nat) (hn : 0 < n) (hq : quirk_ok A n q)
    (hA : A ≤ SIZE_MAX) : quirk_share A n q k ≤ quirk_share A n q (k + 1) := by
  have := quirk_step A n q k hn hq hA
  omega

theorem quirk_share_zero (A n : Nat) (q : Int) : quirk_share A n q 0 = 0 := by
  unfold quirk_share; rw [rounded_share_zero]; simp

theorem quirk_share_all (A n : Nat) (q : Int) (hn : 0 < n) (hq : quirk_ok A n q) :
    quirk_share A n q n = A := by
  unfold quirk_share
  rw [rounded_share_all A n hn]
  rcases hq with h | ⟨h5, hq34, -⟩
  · rw [if_neg (by omega)]; rfl
  · rw [if_neg (by omega)]; rfl

/-- The maximize loop: the columns to maximize get the differences of
consecutive quirk shares, the other columns are left as they are. -/
theorem maximize_loop_spec (maxcol : Int) (A n : Nat) (q : Int) (hn : 0 < n)
    (hq : quirk_ok A n q) (hA : A ≤ SIZE_MAX) (cols : List roffcol) :
    ∀ (icol k : Nat), unused_beyond maxcol icol cols →
      wmax_widths (maximize_loop maxcol A n q icol cols k (quirk_share A n q k)) =
        (List.range (wmax_widths cols).length).map
          (fun j => quirk_share A n q (k + j + 1) - quirk_share A n q (k + j)) ∧
      (maximize_loop maxcol A n q icol cols k (quirk_share A n q k)).filter
          (fun c => !c.flags.WMAX) = cols.filter (fun c => !c.flags.WMAX) ∧
      (maximize_loop maxcol A n q icol cols k (quirk_share A n q k)).map (fun c => c.flags) =
        cols.map (fun c => c.flags) := by
  induction cols with
  | nil => intro icol k _; simp [maximize_loop, wmax_widths]
  | cons c rest ih =>
    intro icol k hu
    by_cases hin : (icol : Int) ≤ maxcol
    · have hu1 := unused_beyond_tail maxcol icol c rest hu
      by_cases hw : c.flags.WMAX = true
      · have hstep := quirk_step A n q k hn hq hA
        rw [maximize_loop, if_pos hin, if_neg (by simp [hw])]
        simp only []
        rw [hstep]
        obtain ⟨i1, i2, i3⟩ := ih (icol + 1) (k + 1) hu1
        refine ⟨?_, ?_, ?_⟩
        · simp only [wmax_widths, List.filter_cons, hw, if_true, List.map_cons, List.length_cons]
          simp only [wmax_widths] at i1
          rw [i1, List.range_succ_eq_map, List.map_cons, List.map_map]
          congr 1
          · simp only [Nat.add_zero]; omega
          · apply List.map_congr_left
            intro j _
            simp only [Function.comp, Nat.succ_eq_add_one]
            rw [show k + 1 + j = k + (j + 1) by ring]
        · simp only [List.filter_cons, hw, Bool.not_true, Bool.false_eq_true, if_false]
          exact i2
        · simp only [List.map_cons, i3]
      · rw [maximize_loop, if_pos hin, if_pos (by simpa using hw)]
        obtain ⟨i1, i2, i3⟩ := ih (icol + 1) k hu1
        have hw' : c.flags.WMAX = false := by simpa using hw
        refine ⟨?_, ?_, ?_⟩
        · simp only [wmax_widths, List.filter_cons, hw', Bool.false_eq_true, if_false]
          exact i1
        · simp only [List.filter_cons, hw', Bool.not_false, if_true, i2]
        · simp only [List.map_cons, i3]
    · rw [maximize_loop, if_neg hin]
      have hall := unused_beyond_all maxcol icol (c :: rest) hu (by omega)
      rw [wmax_widths_unused _ hall]
      simp

theorem sum_quirk_shares (A n : Nat) (q : Int) (hn : 0 < n) (hq : quirk_ok A n q)
    (hA : A ≤ SIZE_MAX) (c : Nat) :
    ∀ k, ((List.range c).map
      (fun j => quirk_share A n q (k + j + 1) - quirk_share A n q (k + j))).sum +
        quirk_share A n q k = quirk_share A n q (k + c) := by
  induction c with
  | zero => intro k; simp
  | succ c ih =>
    intro k
    rw [List.range_succ, List.map_append, List.sum_append]
    have := ih k
    have hm := quirk_share_mono A n q (k + c) hn hq hA
    simp only [List.map_cons, List.map_nil, List.sum_cons, List.sum_nil, Nat.add_zero]
    rw [show k + (c + 1) = k + c + 1 by ring]
    omega


theorem wmax_count_flags (cols : List roffcol) :
    (wmax_widths cols).length = ((cols.map (fun c => c.flags)).filter (fun f => f.WMAX)).length := by
  unfold wmax_widths
  rw [List.length_map, List.filter_map, List.length_map]
  rfl

theorem fixed_sum_unused (cols : List roffcol) (h : ∀ c ∈ cols, c = {}) : fixed_sum cols = 0 := by
  induction cols with
  | nil => rfl
  | cons c rest ih =>
    have hc := h c (by simp)
    subst hc
    have := ih (fun d hd => h d (by simp [hd]))
    simp only [fixed_sum, List.filter_cons] at this ⊢
    simpa using this

theorem equal_max_unused (cols : List roffcol) (h : ∀ c ∈ cols, c = {}) : equal_max cols = 0 := by
  unfold equal_max
  have : cols.filter (fun c => c.flags.EQUAL) = [] := by
    rw [List.filter_eq_nil_iff]
    intro c hc
    rw [h c hc]; decide
  rw [this]; rfl

theorem fixed_sum_cons (c : roffcol) (rest : List roffcol) :
    fixed_sum (c :: rest) = (if c.flags.WMAX then 0 else c.width) + fixed_sum rest := by
  unfold fixed_sum
  cases h : c.flags.WMAX <;> simp [List.filter_cons, h]

theorem wmax_widths_cons (c : roffcol) (rest : List roffcol) :
    wmax_widths (c :: rest) = (if c.flags.WMAX then [c.width] else []) ++ wmax_widths rest := by
  unfold wmax_widths
  cases h : c.flags.WMAX <;> simp [List.filter_cons, h]

theorem equal_max_cons (c : roffcol) (rest : List roffcol) :
    equal_max (c :: rest) = if c.flags.EQUAL then max c.width (equal_max rest) else equal_max rest := by
  unfold equal_max
  cases h : c.flags.EQUAL <;> simp [List.filter_cons, h]

theorem align_col_flags (maxcol : Int) (icol : Nat) (c : roffcol) (a : counters) :
    (align_col maxcol icol c a).1.flags = c.flags := by
  unfold align_col
  simp only []
  split <;> split <;> rfl

theorem align_col_counters (maxcol : Int) (icol : Nat) (c : roffcol) (a : counters) :
    (align_col maxcol icol c a).2.nxcol = a.nxcol + (if c.flags.WMAX then 1 else 0) ∧
    (align_col maxcol icol c a).2.xwidth =
      a.xwidth + (if c.flags.WMAX then 0 else (align_col maxcol icol c a).1.width) ∧
    (align_col maxcol icol c a).2.ewidth =
      (if c.flags.EQUAL then max a.ewidth (align_col maxcol icol c a).1.width else a.ewidth) ∧
    (align_col maxcol icol c a).2.necol = a.necol + (if c.flags.EQUAL then 1 else 0) := by
  unfold align_col
  simp only []
  by_cases h1 : c.width > c.nwidth <;> by_cases h2 : c.spacing = SIZE_MAX ∨ (icol : Int) = maxcol <;>
    cases h3 : c.flags.EQUAL <;> cases h4 : c.flags.WMAX <;>
    simp only [h1, h2, h3, h4, if_true, if_false, Bool.false_eq_true, and_self, true_and,
      Nat.add_zero] <;>
    (try split) <;> (try simp) <;> (try omega)

/-- The loop that aligns numbers with text: what it counts. -/
theorem align_loop_spec (maxcol : Int) (cols : List roffcol) :
    ∀ (icol : Nat) (a : counters), unused_beyond maxcol icol cols →
      (align_loop maxcol icol cols a).1.map (fun c => c.flags) = cols.map (fun c => c.flags) ∧
      (align_loop maxcol icol cols a).2.nxcol = a.nxcol + (wmax_widths cols).length ∧
      (align_loop maxcol icol cols a).2.xwidth =
        a.xwidth + fixed_sum (align_loop maxcol icol cols a).1 ∧
      (align_loop maxcol icol cols a).2.ewidth =
        max a.ewidth (equal_max (align_loop maxcol icol cols a).1) ∧
      unused_beyond maxcol icol (align_loop maxcol icol cols a).1 ∧
      (a.necol ≤ (align_loop maxcol icol cols a).2.necol) ∧
      ((align_loop maxcol icol cols a).2.necol = 0 →
        ∀ c ∈ (align_loop maxcol icol cols a).1, c.flags.EQUAL = false) := by
  induction cols with
  | nil =>
    intro icol a _
    simp [align_loop, wmax_widths, fixed_sum, equal_max, unused_beyond]
  | cons c rest ih =>
    intro icol a hu
    by_cases hin : (icol : Int) ≤ maxcol
    · have hu1 := unused_beyond_tail maxcol icol c rest hu
      obtain ⟨i1, i2, i3, i4, i5, i6, i7⟩ := ih (icol + 1) (align_col maxcol icol c a).2 hu1
      obtain ⟨c1, c2, c3, c4⟩ := align_col_counters maxcol icol c a
      have hf := align_col_flags maxcol icol c a
      rw [align_loop, if_pos hin]
      simp only []
      refine ⟨?_, ?_, ?_, ?_, ?_, ?_, ?_⟩
      · simp only [List.map_cons, i1, hf]
      · rw [i2, c1, wmax_widths_cons]
        cases c.flags.WMAX
        · simp
        · simp; omega
      · rw [i3, c2, fixed_sum_cons, hf]
        omega
      · rw [i4, c3, equal_max_cons, hf]
        cases c.flags.EQUAL
        · simp
        · simp; omega
      · intro j d hj hm
        cases j with
        | zero => exact absurd hm (by push_cast; omega)
        | succ j =>
          exact i5 j d (by simpa using hj)
            (by rw [show icol + 1 + j = icol + (j + 1) by ring]; exact hm)
      · rw [c4] at i6; omega
      · intro h0 d hd
        rw [c4] at i6
        rcases List.mem_cons.1 hd with rfl | hd
        · rw [hf]
          cases hE : c.flags.EQUAL
          · rfl
          · rw [hE] at i6; simp at i6; omega
        · exact i7 h0 d hd
    · rw [align_loop, if_neg hin]
      have hall := unused_beyond_all maxcol icol (c :: rest) hu (by omega)
      rw [wmax_widths_unused _ hall, fixed_sum_unused _ hall, equal_max_unused _ hall]
      refine ⟨rfl, by simp, by simp, by simp, hu, le_refl _, ?_⟩
      intro _ d hd
      rw [hall d hd]


/-- The equalize loop: every column to equalize ends `ewidth` wide, flags are
kept, and `xwidth` grows at least as much as the columns not to maximize. -/
theorem equalize_loop_spec (maxcol : Int) (ew : Nat) (gate : Bool) (cols : List roffcol) :
    ∀ (icol xw : Nat), unused_beyond maxcol icol cols →
      (equalize_loop maxcol ew gate icol cols xw).1.map (fun c => c.flags) =
        cols.map (fun c => c.flags) ∧
      unused_beyond maxcol icol (equalize_loop maxcol ew gate icol cols xw).1 ∧
      (∀ c ∈ (equalize_loop maxcol ew gate icol cols xw).1, c.flags.EQUAL = true → c.width = ew) ∧
      (gate = true →
        fixed_sum (equalize_loop maxcol ew gate icol cols xw).1 + xw ≤
          (equalize_loop maxcol ew gate icol cols xw).2 + fixed_sum cols) := by
  induction cols with
  | nil => intro icol xw _; simp [equalize_loop, unused_beyond, fixed_sum]
  | cons c rest ih =>
    intro icol xw hu
    have hcons : ∀ (d : roffcol) (t : List roffcol), unused_beyond maxcol (icol + 1) t →
        (icol : Int) ≤ maxcol → unused_beyond maxcol icol (d :: t) := by
      intro d t ht hin j e hj hm
      cases j with
      | zero => exact absurd hm (by push_cast; omega)
      | succ j =>
        exact ht j e (by simpa using hj)
          (by rw [show icol + 1 + j = icol + (j + 1) by ring]; exact hm)
    by_cases hin : (icol : Int) ≤ maxcol
    · have hu1 := unused_beyond_tail maxcol icol c rest hu
      rw [equalize_loop, if_pos hin]
      by_cases hE : c.flags.EQUAL = true
      · rw [if_neg (by simp [hE])]
        by_cases hw : c.width = ew
        · rw [if_pos hw]
          obtain ⟨i1, i2, i3, i4⟩ := ih (icol + 1) xw hu1
          refine ⟨by simp only [List.map_cons, i1], hcons _ _ i2 hin, ?_, ?_⟩
          · intro d hd hdE
            rcases List.mem_cons.1 hd with rfl | hd
            · exact hw
            · exact i3 d hd hdE
          · intro hg
            have := i4 hg
            simp only [fixed_sum_cons]
            omega
        · rw [if_neg hw]
          simp only []
          obtain ⟨i1, i2, i3, i4⟩ :=
            ih (icol + 1) (if gate = true then xw + (ew - c.width) else xw) hu1
          refine ⟨by simp only [List.map_cons, i1], hcons _ _ i2 hin, ?_, ?_⟩
          · intro d hd hdE
            rcases List.mem_cons.1 hd with rfl | hd
            · rfl
            · exact i3 d hd hdE
          · intro hg
            have := i4 hg
            rw [if_pos hg] at this ⊢
            simp only [fixed_sum_cons]
            split <;> omega
      · rw [if_pos (by simpa using hE)]
        obtain ⟨i1, i2, i3, i4⟩ := ih (icol + 1) xw hu1
        refine ⟨by simp only [List.map_cons, i1], hcons _ _ i2 hin, ?_, ?_⟩
        · intro d hd hdE
          rcases List.mem_cons.1 hd with rfl | hd
          · exact absurd hdE hE
          · exact i3 d hd hdE
        · intro hg
          have := i4 hg
          simp only [fixed_sum_cons]
          omega
    · rw [equalize_loop, if_neg hin]
      have hall := unused_beyond_all maxcol icol (c :: rest) hu (by omega)
      refine ⟨rfl, hu, ?_, fun _ => by simp only []; omega⟩
      intro d hd hdE
      rw [hall d hd] at hdE
      exact absurd hdE (by decide)

/-- The state before the maximize step. -/
theorem tblcalc_equalized_spec (cols : List roffcol) (maxcol : Int) (rmargin : Nat)
    (hu : unused_beyond maxcol 0 cols) :
    (tblcalc_equalized cols maxcol rmargin).1.map (fun c => c.flags) = cols.map (fun c => c.flags) ∧
    unused_beyond maxcol 0 (tblcalc_equalized cols maxcol rmargin).1 ∧
    (tblcalc_equalized cols maxcol rmargin).2.nxcol = (wmax_widths cols).length ∧
    ((tblcalc_equalized cols maxcol rmargin).2.nxcol ≠ 0 ∧ rmargin ≠ 0 →
      fixed_sum (tblcalc_equalized cols maxcol rmargin).1 ≤
        (tblcalc_equalized cols maxcol rmargin).2.xwidth) ∧
    (∀ c ∈ (tblcalc_equalized cols maxcol rmargin).1, c.flags.EQUAL = true →
      c.width = equal_max (align_loop maxcol 0 cols {}).1) := by
  obtain ⟨a1, a2, a3, a4, a5, -, a7⟩ := align_loop_spec maxcol cols 0 {} hu
  unfold tblcalc_equalized
  simp only []
  have hz : ({} : counters).nxcol = 0 ∧ ({} : counters).xwidth = 0 ∧ ({} : counters).ewidth = 0 :=
    ⟨rfl, rfl, rfl⟩
  rw [hz.1, Nat.zero_add] at a2
  rw [hz.2.1, Nat.zero_add] at a3
  rw [hz.2.2, Nat.zero_max] at a4
  by_cases hne : (align_loop maxcol 0 cols {}).2.necol ≠ 0
  · rw [if_pos hne]
    obtain ⟨e1, e2, e3, e4⟩ := equalize_loop_spec maxcol (align_loop maxcol 0 cols {}).2.ewidth
      (decide ((align_loop maxcol 0 cols {}).2.nxcol ≠ 0 ∧ rmargin ≠ 0))
      (align_loop maxcol 0 cols {}).1 0 (align_loop maxcol 0 cols {}).2.xwidth a5
    refine ⟨by rw [e1, a1], e2, a2, ?_, ?_⟩
    · intro hg
      have := e4 (by simpa using hg)
      simp only [] at this ⊢
      omega
    · intro c hc hE
      rw [← a4]
      exact e3 c hc hE
  · rw [if_neg hne]
    refine ⟨a1, a5, a2, fun _ => by omega, ?_⟩
    intro c hc hE
    have := a7 (by simpa using hne) c hc
    rw [this] at hE
    exact absurd hE (by decide)


theorem unused_beyond_set (m : Int) (cols : List roffcol) (k : Nat) (x : roffcol)
    (h : unused_beyond m 0 cols) (hk : (k : Int) ≤ m) : unused_beyond m 0 (cols.set k x) := by
  intro j c hj hm
  have hne : k ≠ j := by
    intro e; subst e
    simp only [Nat.zero_add] at hm
    omega
  rw [List.getElem?_set_ne hne] at hj
  exact h j c hj hm

theorem unused_beyond_mono (m m1 : Int) (cols : List roffcol) (h : unused_beyond m 0 cols)
    (hm : m ≤ m1) : unused_beyond m1 0 cols := by
  intro j c hj hj1
  exact h j c hj (by omega)

theorem grow_maxcol_spec (icol : Nat) :
    ∀ (fuel : Nat) (cols : List roffcol) (m : Int), -1 ≤ m → (icol : Int) - m ≤ fuel →
      unused_beyond m 0 cols →
      (grow_maxcol icol fuel cols m).2 = max m icol ∧
      unused_beyond (max m icol) 0 (grow_maxcol icol fuel cols m).1 ∧
      (grow_maxcol icol fuel cols m).1.length = cols.length := by
  intro fuel
  induction fuel with
  | zero =>
    intro cols m _ hf hu
    have : max m (icol : Int) = m := max_eq_left (by push_cast at hf; omega)
    rw [grow_maxcol, this]
    exact ⟨rfl, hu, rfl⟩
  | succ fuel ih =>
    intro cols m hm hf hu
    rw [grow_maxcol]
    by_cases hlt : m < (icol : Int)
    · rw [if_pos hlt]
      simp only []
      have hu1 : unused_beyond (m + 1) 0
          (cols.set (m + 1).toNat { cols.getD (m + 1).toNat {} with spacing := SIZE_MAX }) :=
        unused_beyond_set (m + 1) cols _ _ (unused_beyond_mono m (m + 1) cols hu (by omega))
          (by omega)
      obtain ⟨i1, i2, i3⟩ := ih _ (m + 1) (by omega) (by push_cast at hf ⊢; omega) hu1
      have hmax : max (m + 1) (icol : Int) = max m (icol : Int) := by
        rw [max_eq_right (by omega), max_eq_right (by omega)]
      rw [hmax] at i1 i2
      exact ⟨i1, i2, by rw [i3, List.length_set]⟩
    · rw [if_neg hlt]
      have : max m (icol : Int) = m := max_eq_left (by omega)
      rw [this]
      exact ⟨rfl, hu, rfl⟩

/-- What the first pass keeps true of the column array. -/
theorem tblcalc_cell_inv (tbl : rofftbl) (opts : tbl_opts) (rmargin : Nat) (st st1 : pass1)
    (dp : tbl_dat) (h : tblcalc_cell tbl opts rmargin st dp = some st1)
    (hm : -1 ≤ st.maxcol) (hb : st.maxcol < opts.cols)
    (hu : unused_beyond st.maxcol 0 st.cols) :
    -1 ≤ st1.maxcol ∧ st1.maxcol < opts.cols ∧ unused_beyond st1.maxcol 0 st1.cols ∧
      st1.cols.length = st.cols.length := by
  unfold tblcalc_cell at h
  split at h
  · cases h; exact ⟨hm, hb, hu, rfl⟩
  · split at h
    · cases h; exact ⟨hm, hb, hu, rfl⟩
    · simp only [] at h
      split at h
      · cases h
      · rename_i hcol
        obtain ⟨g1, g2, g3⟩ := grow_maxcol_spec dp.layout.col (dp.layout.col + 1) st.cols
          st.maxcol hm (by push_cast; omega) hu
        split at h
        · cases h
          refine ⟨?_, ?_, ?_, ?_⟩
          · show -1 ≤ (grow_maxcol _ _ _ _).2
            rw [g1]; omega
          · show (grow_maxcol _ _ _ _).2 < _
            rw [g1]; omega
          · show unused_beyond (grow_maxcol _ _ _ _).2 0 (List.set _ _ _)
            rw [g1]
            exact unused_beyond_set _ _ _ _ g2 (by omega)
          · show (List.set _ _ _).length = _
            rw [List.length_set, g3]
        · cases h
          refine ⟨?_, ?_, ?_, ?_⟩
          · show -1 ≤ (grow_maxcol _ _ _ _).2
            rw [g1]; omega
          · show (grow_maxcol _ _ _ _).2 < _
            rw [g1]; omega
          · show unused_beyond (grow_maxcol _ _ _ _).2 0 (List.set _ _ _)
            rw [g1]
            exact unused_beyond_set _ _ _ _ g2 (by omega)
          · show (List.set _ _ _).length = _
            rw [List.length_set, g3]

theorem tblcalc_cells_inv (tbl : rofftbl) (opts : tbl_opts) (rmargin : Nat) (cells : List tbl_dat) :
    ∀ (st st1 : pass1), tblcalc_cells tbl opts rmargin st cells = some st1 →
      -1 ≤ st.maxcol → st.maxcol < opts.cols → unused_beyond st.maxcol 0 st.cols →
      -1 ≤ st1.maxcol ∧ st1.maxcol < opts.cols ∧ unused_beyond st1.maxcol 0 st1.cols ∧
        st1.cols.length = st.cols.length := by
  induction cells with
  | nil =>
    intro st st1 h hm hb hu
    simp only [tblcalc_cells] at h; cases h; exact ⟨hm, hb, hu, rfl⟩
  | cons dp rest ih =>
    intro st st1 h hm hb hu
    rw [tblcalc_cells] at h
    cases hc : tblcalc_cell tbl opts rmargin st dp with
    | none => rw [hc] at h; cases h
    | some st2 =>
      rw [hc] at h
      obtain ⟨a, a1, b, c⟩ := tblcalc_cell_inv tbl opts rmargin st st2 dp hc hm hb hu
      obtain ⟨d, d1, e, f⟩ := ih st2 st1 h a a1 b
      exact ⟨d, d1, e, by rw [f, c]⟩

theorem tblcalc_spans_inv (tbl : rofftbl) (opts : tbl_opts) (rmargin : Nat)
    (spans : List tbl_span) :
    ∀ (cols cols1 : List roffcol) (m m1 : Int),
      tblcalc_spans tbl opts rmargin cols m spans = some (cols1, m1) →
      -1 ≤ m → m < opts.cols → unused_beyond m 0 cols →
      -1 ≤ m1 ∧ m1 < opts.cols ∧ unused_beyond m1 0 cols1 ∧ cols1.length = cols.length := by
  induction spans with
  | nil =>
    intro cols cols1 m m1 h hm hb hu
    simp only [tblcalc_spans, Option.some.injEq, Prod.mk.injEq] at h
    obtain ⟨rfl, rfl⟩ := h
    exact ⟨hm, hb, hu, rfl⟩
  | cons sp rest ih =>
    intro cols cols1 m m1 h hm hb hu
    rw [tblcalc_spans] at h
    split at h
    · exact ih cols cols1 m m1 h hm hb hu
    · cases hc : tblcalc_cells tbl opts rmargin { cols := cols, maxcol := m, hspans := 1 }
          sp.first with
      | none => rw [hc] at h; cases h
      | some st =>
        rw [hc] at h
        obtain ⟨a, a1, b, c⟩ := tblcalc_cells_inv tbl opts rmargin sp.first _ st hc hm hb hu
        obtain ⟨d, d1, e, f⟩ := ih st.cols cols1 st.maxcol m1 h a a1 b
        exact ⟨d, d1, e, by rw [f, c]⟩

/-- After the first pass the columns after `maxcol` are untouched. -/
theorem tblcalc_pass1_inv (tbl : rofftbl) (opts : tbl_opts) (rmargin : Nat)
    (spans : List tbl_span) (cols : List roffcol) (maxcol : Int)
    (h : tblcalc_spans tbl opts rmargin (List.replicate opts.cols {}) (-1) spans =
      some (cols, maxcol)) :
    -1 ≤ maxcol ∧ maxcol < opts.cols ∧ unused_beyond maxcol 0 cols ∧
      cols.length = opts.cols := by
  have hu : unused_beyond (-1) 0 (List.replicate opts.cols ({} : roffcol)) := by
    intro j c hj _
    have := List.mem_iff_getElem?.2 ⟨j, hj⟩
    exact (List.mem_replicate.1 this).2
  obtain ⟨a, a1, b, c⟩ :=
    tblcalc_spans_inv tbl opts rmargin spans _ cols (-1) maxcol h (le_refl _) (by omega) hu
  exact ⟨a, a1, b, by rw [c, List.length_replicate]⟩

/-- The maximize step as `tblcalc_solve` runs it: the state it starts from and
the widths it leaves. -/
theorem tblcalc_solve_maximized (opts : tbl_opts) (c0 : List roffcol) (maxcol : Int)
    (offset rmargin : Nat) (hm : -1 ≤ maxcol) (hu : unused_beyond maxcol 0 c0)
    (hx : (tblcalc_equalized c0 maxcol rmargin).2.nxcol ≠ 0) (hr : rmargin ≠ 0)
    (hsz : rmargin ≤ SIZE_MAX)
    (hfit : (offset : Int) + fixed_width opts maxcol (tblcalc_equalized c0 maxcol rmargin).2
      < rmargin) :
    ∃ A : Nat, (A : Int) = (rmargin : Int) - offset -
        fixed_width opts maxcol (tblcalc_equalized c0 maxcol rmargin).2 ∧
      0 ≤ maxcol ∧
      wmax_widths (tblcalc_solve opts c0 maxcol offset rmargin) =
        (List.range (tblcalc_equalized c0 maxcol rmargin).2.nxcol).map
          (fun j =>
            quirk_share A (tblcalc_equalized c0 maxcol rmargin).2.nxcol
              (quirk_col A (tblcalc_equalized c0 maxcol rmargin).2.nxcol) (j + 1) -
            quirk_share A (tblcalc_equalized c0 maxcol rmargin).2.nxcol
              (quirk_col A (tblcalc_equalized c0 maxcol rmargin).2.nxcol) j) ∧
      (wmax_widths (tblcalc_solve opts c0 maxcol offset rmargin)).sum = A ∧
      (tblcalc_solve opts c0 maxcol offset rmargin).filter (fun c => !c.flags.WMAX) =
        (tblcalc_equalized c0 maxcol rmargin).1.filter (fun c => !c.flags.WMAX) := by
  obtain ⟨e1, e2, e3, e4, -⟩ := tblcalc_equalized_spec c0 maxcol rmargin hu
  have hm0 : 0 ≤ maxcol := by
    by_contra hneg
    have hall := unused_beyond_all maxcol 0 c0 hu (by push_cast; omega)
    rw [e3, wmax_widths_unused _ hall] at hx
    exact hx rfl
  have hfw : 0 ≤ fixed_width opts maxcol (tblcalc_equalized c0 maxcol rmargin).2 := by
    unfold fixed_width; omega
  refine ⟨((rmargin : Int) - offset -
    fixed_width opts maxcol (tblcalc_equalized c0 maxcol rmargin).2).toNat, by omega, hm0, ?_⟩
  generalize hA : ((rmargin : Int) - offset -
    fixed_width opts maxcol (tblcalc_equalized c0 maxcol rmargin).2).toNat = A
  have hAle : A ≤ SIZE_MAX := by omega
  have hn : 0 < (tblcalc_equalized c0 maxcol rmargin).2.nxcol := Nat.pos_of_ne_zero hx
  have hq := quirk_col_cases A _ _ (rfl : quirk_col A (tblcalc_equalized c0 maxcol rmargin).2.nxcol = _)
  have hsolve : tblcalc_solve opts c0 maxcol offset rmargin =
      maximize_loop maxcol A (tblcalc_equalized c0 maxcol rmargin).2.nxcol
        (quirk_col A (tblcalc_equalized c0 maxcol rmargin).2.nxcol) 0
        (tblcalc_equalized c0 maxcol rmargin).1 0
        (quirk_share A (tblcalc_equalized c0 maxcol rmargin).2.nxcol
          (quirk_col A (tblcalc_equalized c0 maxcol rmargin).2.nxcol) 0) := by
    rw [quirk_share_zero]
    unfold tblcalc_solve
    simp only []
    rw [if_pos ⟨hx, hr⟩, if_neg (by omega), hA]
  obtain ⟨m1, m2, -⟩ := maximize_loop_spec maxcol A _ _ hn hq hAle
    (tblcalc_equalized c0 maxcol rmargin).1 0 0 e2
  have hcount : (wmax_widths (tblcalc_equalized c0 maxcol rmargin).1).length =
      (tblcalc_equalized c0 maxcol rmargin).2.nxcol := by
    rw [e3, wmax_count_flags, wmax_count_flags, e1]
  rw [hcount] at m1
  simp only [Nat.zero_add] at m1
  rw [hsolve]
  refine ⟨m1, ?_, m2⟩
  rw [m1]
  have hs := sum_quirk_shares A _ _ hn hq hAle (tblcalc_equalized c0 maxcol rmargin).2.nxcol 0
  simp only [Nat.zero_add] at hs
  rw [quirk_share_zero, quirk_share_all A _ _ hn hq] at hs
  exact hs


/-- C4: whenever `tblcalc` maximizes (at least one WMAX column, `rmargin > 0`
and `rmargin > offset + xwidth`), the widths of the WMAX columns after the
solve sum to `avail = rmargin - offset - xwidth`, for every number of WMAX
columns, also for five of them with the quirk firing; the `double` arithmetic
is taken as exact. -/
theorem tblcalc_wmax_sum (tbl : rofftbl) (opts : tbl_opts) (spans : List tbl_span)
    (offset rmargin : Nat) (c0 : List roffcol) (maxcol : Int)
    (h1 : tblcalc_spans tbl opts rmargin (List.replicate opts.cols {}) (-1) spans =
      some (c0, maxcol))
    (hx : (tblcalc_equalized c0 maxcol rmargin).2.nxcol ≠ 0) (hr : rmargin ≠ 0)
    (hsz : rmargin ≤ SIZE_MAX)
    (hfit : (offset : Int) + fixed_width opts maxcol (tblcalc_equalized c0 maxcol rmargin).2
      < rmargin) :
    ∃ cols, tblcalc tbl opts spans offset rmargin = some cols ∧
      (((wmax_widths cols).sum : Nat) : Int) = (rmargin : Int) - offset -
        fixed_width opts maxcol (tblcalc_equalized c0 maxcol rmargin).2 := by
  obtain ⟨hm, -, hu, -⟩ := tblcalc_pass1_inv tbl opts rmargin spans c0 maxcol h1
  obtain ⟨A, hA, -, -, hsum, -⟩ :=
    tblcalc_solve_maximized opts c0 maxcol offset rmargin hm hu hx hr hsz hfit
  refine ⟨tblcalc_solve opts c0 maxcol offset rmargin, ?_, ?_⟩
  · simp only [tblcalc, h1]
  · rw [hsum, hA]

set_option maxRecDepth 100000 in
/-- Witness for `tblcalc_wmax_sum`: five empty WMAX columns, offset 0 and right
margin 84, where the quirk fires; the widths sum to 72. -/
theorem tblcalc_wmax_sum_witness :
    ∃ cols, tblcalc tbl_unit { cols := 5 } spans_five 0 84 = some cols ∧
      (((wmax_widths cols).sum : Nat) : Int) = 72 :=
  tblcalc_wmax_sum tbl_unit { cols := 5 } spans_five 0 84
    (List.replicate 5 { spacing := SIZE_MAX, flags := { WMAX := true } }) 4
    (by decide) (by decide) (by decide) (by decide) (by decide)

set_option maxRecDepth 100000 in
/-- C6, as stated, fails: for five WMAX columns with offset 0, right margin 84,
no frame and zero measured widths the final widths are 14, 15, 14, 14, 15 and
sum to 72; the column after the quirk column gets the unit back. -/
theorem tblcalc_quirk_example :
    ∃ cols, tblcalc tbl_unit { cols := 5 } spans_five 0 84 = some cols ∧
      cols.map (fun c => c.width) = [14, 15, 14, 14, 15] ∧
      cols.map (fun c => c.width) ≠ [14, 15, 14, 14, 14] ∧
      total_width cols = 72 :=
  ⟨_, rfl, by decide, by decide, by decide⟩

/-- C6, amended: when exactly five columns are WMAX and maximize runs with
available width `A`, let `w1..w5` be the plain rounded distribution (what the
loop computes without the quirk) and `q = A mod 5 + 2`; if `q` is 3 or 4 the
final widths are `w1..w5` with 1 subtracted from the `q`-th maximized column
and 1 added to the one after it, the other three unchanged. -/
theorem tblcalc_quirk_widths (tbl : rofftbl) (opts : tbl_opts) (spans : List tbl_span)
    (offset rmargin A : Nat) (c0 : List roffcol) (maxcol : Int)
    (h1 : tblcalc_spans tbl opts rmargin (List.replicate opts.cols {}) (-1) spans =
      some (c0, maxcol))
    (h5 : (tblcalc_equalized c0 maxcol rmargin).2.nxcol = 5) (hr : rmargin ≠ 0)
    (hsz : rmargin ≤ SIZE_MAX)
    (hfit : (offset : Int) + fixed_width opts maxcol (tblcalc_equalized c0 maxcol rmargin).2
      < rmargin)
    (hA : (A : Int) = (rmargin : Int) - offset -
      fixed_width opts maxcol (tblcalc_equalized c0 maxcol rmargin).2)
    (hq : A % 5 + 2 = 3 ∨ A % 5 + 2 = 4) :
    ∃ cols, tblcalc tbl opts spans offset rmargin = some cols ∧
      wmax_widths (maximize_loop maxcol A 5 (-1) 0 (tblcalc_equalized c0 maxcol rmargin).1 0 0) =
        plain_widths A 5 ∧
      wmax_widths cols = (List.range 5).map (fun j =>
        (plain_widths A 5).getD j 0 - (if j + 1 = A % 5 + 2 then 1 else 0) +
          (if j = A % 5 + 2 then 1 else 0)) := by
  obtain ⟨hm, -, hu, -⟩ := tblcalc_pass1_inv tbl opts rmargin spans c0 maxcol h1
  have hx : (tblcalc_equalized c0 maxcol rmargin).2.nxcol ≠ 0 := by omega
  obtain ⟨A1, hA1, hm0, hw, -, -⟩ :=
    tblcalc_solve_maximized opts c0 maxcol offset rmargin hm hu hx hr hsz hfit
  have hAA : A1 = A := by omega
  have hAle : A1 ≤ SIZE_MAX := by
    unfold fixed_width at hA1
    omega
  subst hAA
  obtain ⟨e1, e2, e3, -, -⟩ := tblcalc_equalized_spec c0 maxcol rmargin hu
  have hcount : (wmax_widths (tblcalc_equalized c0 maxcol rmargin).1).length = 5 := by
    rw [← h5, e3, wmax_count_flags, wmax_count_flags, e1]
  refine ⟨tblcalc_solve opts c0 maxcol offset rmargin, ?_, ?_, ?_⟩
  · simp only [tblcalc, h1]
  · have hplain := (maximize_loop_spec maxcol A1 5 (-1) (by omega) (Or.inl rfl) hAle
      (tblcalc_equalized c0 maxcol rmargin).1 0 0 e2).1
    rw [quirk_share_zero] at hplain
    rw [hplain, hcount]
    unfold plain_widths
    apply List.map_congr_left
    intro j _
    unfold quirk_share
    rw [if_neg (by omega), if_neg (by omega)]
    simp
  · rw [hw, h5]
    have hqc : quirk_col A1 5 = ((A1 % 5 + 2 : Nat) : Int) := by
      unfold quirk_col
      rw [if_pos rfl, if_neg (by omega)]
    rw [hqc]
    apply List.map_congr_left
    intro j hj
    have hj5 : j < 5 := List.mem_range.1 hj
    have hget : (plain_widths A1 5).getD j 0 =
        rounded_share A1 5 (j + 1) - rounded_share A1 5 j := by
      unfold plain_widths
      rw [List.getD_eq_getElem?_getD, List.getElem?_map, List.getElem?_range hj5]
      rfl
    rw [hget]
    unfold quirk_share rounded_share
    interval_cases j <;> rcases hq with hq | hq <;> simp only [hq] <;> norm_num <;> omega

set_option maxRecDepth 100000 in
/-- Witness for `tblcalc_quirk_widths`: the five empty WMAX columns with
available width 72, where `q = 4`. -/
theorem tblcalc_quirk_widths_witness :
    ∃ cols, tblcalc tbl_unit { cols := 5 } spans_five 0 84 = some cols ∧
      wmax_widths (maximize_loop 4 72 5 (-1) 0
        (tblcalc_equalized (List.replicate 5 { spacing := SIZE_MAX, flags := { WMAX := true } })
          4 84).1 0 0) = plain_widths 72 5 ∧
      wmax_widths cols = (List.range 5).map (fun j =>
        (plain_widths 72 5).getD j 0 - (if j + 1 = 72 % 5 + 2 then 1 else 0) +
          (if j = 72 % 5 + 2 then 1 else 0)) :=
  tblcalc_quirk_widths tbl_unit { cols := 5 } spans_five 0 84 72
    (List.replicate 5 { spacing := SIZE_MAX, flags := { WMAX := true } }) 4
    (by decide) (by decide) (by decide) (by decide) (by decide) (by decide) (by decide)


theorem maximize_loop_fixed (maxcol : Int) (A n : Nat) (q : Int) (cols : List roffcol) :
    ∀ (icol k e : Nat),
      (maximize_loop maxcol A n q icol cols k e).filter (fun c => !c.flags.WMAX) =
        cols.filter (fun c => !c.flags.WMAX) := by
  induction cols with
  | nil => intro icol k e; rfl
  | cons c rest ih =>
    intro icol k e
    rw [maximize_loop]
    split
    · split
      · rw [List.filter_cons, List.filter_cons, ih]
      · rename_i hw
        have hw' : c.flags.WMAX = true := by simpa using hw
        simp only [List.filter_cons, hw', Bool.not_true, Bool.false_eq_true, if_false]
        exact ih _ _ _
    · rfl

set_option maxRecDepth 100000 in
/-- C7, as stated, fails: of two EQUAL columns measured 4 and 7 the first is
also WMAX; with right margin 40 the maximize step, which runs after the
equalize step, leaves it 27 wide, not 7. -/
theorem tblcalc_equal_then_maximized :
    ∃ c0 cols,
      tblcalc_spans tbl_unit { cols := 2 } 40 (List.replicate 2 {}) (-1) spans_equal_wmax =
        some (c0, 1) ∧
      tblcalc tbl_unit { cols := 2 } spans_equal_wmax 0 40 = some cols ∧
      (align_loop 1 0 c0 {}).1.map (fun c => c.width) = [4, 7] ∧
      cols.map (fun c => c.flags.EQUAL) = [true, true] ∧
      cols.map (fun c => c.width) = [27, 7] :=
  ⟨_, _, rfl, rfl, by decide, by decide, by decide⟩

/-- C7, amended: after `tblcalc`, every column carrying the EQUAL flag has
width equal to the maximum, over all EQUAL columns, of the width each had just
before the equalize step, unless the maximize step runs and the column also
carries WMAX (its width is then the one the maximize step gives it). -/
theorem tblcalc_equal_widths (tbl : rofftbl) (opts : tbl_opts) (spans : List tbl_span)
    (offset rmargin : Nat) (c0 : List roffcol) (maxcol : Int)
    (h1 : tblcalc_spans tbl opts rmargin (List.replicate opts.cols {}) (-1) spans =
      some (c0, maxcol)) :
    ∃ cols, tblcalc tbl opts spans offset rmargin = some cols ∧
      ∀ c ∈ cols, c.flags.EQUAL = true →
        (¬ ((tblcalc_equalized c0 maxcol rmargin).2.nxcol ≠ 0 ∧ rmargin ≠ 0 ∧
            (offset : Int) + fixed_width opts maxcol (tblcalc_equalized c0 maxcol rmargin).2
              < rmargin) ∨
          c.flags.WMAX = false) →
        c.width = equal_max (align_loop maxcol 0 c0 {}).1 := by
  obtain ⟨-, -, hu, -⟩ := tblcalc_pass1_inv tbl opts rmargin spans c0 maxcol h1
  obtain ⟨-, -, -, -, e5⟩ := tblcalc_equalized_spec c0 maxcol rmargin hu
  refine ⟨tblcalc_solve opts c0 maxcol offset rmargin, by simp only [tblcalc, h1], ?_⟩
  intro c hc hE hcase
  unfold tblcalc_solve at hc
  simp only [] at hc
  split at hc
  · rename_i hgate
    split at hc
    · exact e5 c hc hE
    · rename_i hfit
      rcases hcase with hno | hw
      · exact absurd ⟨hgate.1, hgate.2, by omega⟩ hno
      · have hmem : c ∈ (maximize_loop maxcol
            ((rmargin : Int) - offset -
              fixed_width opts maxcol (tblcalc_equalized c0 maxcol rmargin).2).toNat
            (tblcalc_equalized c0 maxcol rmargin).2.nxcol
            (quirk_col ((rmargin : Int) - offset -
              fixed_width opts maxcol (tblcalc_equalized c0 maxcol rmargin).2).toNat
              (tblcalc_equalized c0 maxcol rmargin).2.nxcol) 0
            (tblcalc_equalized c0 maxcol rmargin).1 0 0).filter (fun c => !c.flags.WMAX) :=
          List.mem_filter.2 ⟨hc, by simp [hw]⟩
        rw [maximize_loop_fixed] at hmem
        exact e5 c (List.mem_filter.1 hmem).1 hE
  · exact e5 c hc hE

set_option maxRecDepth 100000 in
/-- Witness for `tblcalc_equal_widths`: three EQUAL columns measured 4, 7, 5
with right margin 0 all end 7 wide. -/
theorem tblcalc_equal_widths_witness :
    (∃ cols, tblcalc tbl_unit { cols := 3 } spans_equal 0 0 = some cols ∧
      ∀ c ∈ cols, c.flags.EQUAL = true →
        (¬ ((tblcalc_equalized
              [{ width := 4, spacing := SIZE_MAX, flags := { EQUAL := true } },
               { width := 7, spacing := SIZE_MAX, flags := { EQUAL := true } },
               { width := 5, spacing := SIZE_MAX, flags := { EQUAL := true } }] 2 0).2.nxcol ≠ 0 ∧
            0 ≠ 0 ∧
            ((0 : Nat) : Int) + fixed_width { cols := 3 } 2 (tblcalc_equalized
              [{ width := 4, spacing := SIZE_MAX, flags := { EQUAL := true } },
               { width := 7, spacing := SIZE_MAX, flags := { EQUAL := true } },
               { width := 5, spacing := SIZE_MAX, flags := { EQUAL := true } }] 2 0).2
              < (0 : Nat)) ∨
          c.flags.WMAX = false) →
        c.width = equal_max (align_loop 2 0
          [{ width := 4, spacing := SIZE_MAX, flags := { EQUAL := true } },
           { width := 7, spacing := SIZE_MAX, flags := { EQUAL := true } },
           { width := 5, spacing := SIZE_MAX, flags := { EQUAL := true } }] {}).1) ∧
    (tblcalc tbl_unit { cols := 3 } spans_equal 0 0).map (fun cs => cs.map (fun c => c.width)) =
      some [7, 7, 7] :=
  ⟨tblcalc_equal_widths tbl_unit { cols := 3 } spans_equal 0 0 _ 2 (by decide), by decide⟩


theorem or_some_left (a : Nat) (x : Option Nat) : (some a).or x = some a := rfl

theorem or_none_left (x : Option Nat) : (none : Option Nat).or x = x := by cases x <;> rfl

theorem or_some_left_char (a : Char) (x : Option Char) : (some a).or x = some a := rfl

theorem last_index_succ (P : Nat → Bool) (a n : Nat) (x : Option Nat) :
    (last_index P a (n + 1)).or x =
      (last_index P (a + 1) n).or ((if P a then some a else none).or x) := by
  unfold last_index
  rw [List.range'_succ, List.filter_cons]
  by_cases h : P a = true
  · simp only [h, if_true]
    cases hl : (List.range' (a + 1) n).filter P with
    | nil => simp [or_none_left, or_some_left]
    | cons y l =>
      rw [List.getLast?_cons_cons]
      cases hz : (y :: l).getLast? with
      | none => simp at hz
      | some z => simp [or_some_left]
  · simp only [h, if_false, Bool.false_eq_true]
    rw [or_none_left]

theorem last_index_zero (P : Nat → Bool) (a : Nat) : last_index P a 0 = none := rfl

/-- Without the alignment indicator, and with a decimal character that is no
digit, the scan finds the last digit and the last decimal point that has a
digit next to it. -/
theorem number_scan_spec (decimal : Char) (s : List Char) (hdec : decimal.isDigit = false)
    (rest : List Char) :
    ∀ (pre : List Char) (ld lp : Option Nat), s = pre ++ rest → has_indicator rest = false →
      number_scan decimal pre.getLast? pre.length rest ld lp =
        ((last_index (fun i => (s.getD i '\x00').isDigit) pre.length rest.length).or ld,
         (last_index (is_point decimal s) pre.length rest.length).or lp) := by
  induction rest with
  | nil =>
    intro pre ld lp _ _
    simp [number_scan, last_index_zero, or_none_left]
  | cons c r ih =>
    intro pre ld lp hs hind
    have hc : s.getD pre.length '\x00' = c := by
      rw [hs, List.getD_eq_getElem?_getD, List.getElem?_append_right (le_refl _)]
      simp
    have hnext : (s.getD (pre.length + 1) '\x00').isDigit = true ↔
        r.head?.map Char.isDigit = some true := by
      rw [hs, List.getD_eq_getElem?_getD, List.getElem?_append_right (by omega)]
      cases r with
      | nil => simp
      | cons d r1 => simp
    have hprev : (0 < pre.length ∧ (s.getD (pre.length - 1) '\x00').isDigit = true) ↔
        pre.getLast?.map Char.isDigit = some true := by
      rcases List.eq_nil_or_concat pre with rfl | ⟨p1, d, rfl⟩
      · simp
      · simp only [List.concat_eq_append] at hs ⊢
        have hd : s.getD p1.length '\x00' = d := by
          rw [hs, List.append_assoc, List.getD_eq_getElem?_getD,
            List.getElem?_append_right (le_refl _)]
          simp
        rw [List.getD_eq_getElem?_getD] at hd
        simp [hd]
    unfold has_indicator at hind
    have hno : ¬ (c = '\\' ∧ r.head? = some '&') := by
      intro h; rw [if_pos h] at hind; cases hind
    rw [if_neg hno] at hind
    have hs1 : s = (pre ++ [c]) ++ r := by rw [hs]; simp
    have hih := ih (pre ++ [c])
    simp only [List.getLast?_append, List.getLast?_singleton, or_some_left_char,
      List.length_append, List.length_singleton] at hih
    rw [number_scan, if_neg hno]
    rw [List.length_cons, last_index_succ, last_index_succ]
    by_cases hp : c = decimal ∧
        ((r.head?.map Char.isDigit) = some true ∨ (pre.getLast?.map Char.isDigit) = some true)
    · rw [if_pos hp, hih _ _ hs1 hind]
      have hP : is_point decimal s pre.length = true := by
        unfold is_point
        rw [decide_eq_true_iff, hc, hnext, hprev]
        exact hp
      have hD : (s.getD pre.length '\x00').isDigit = false := by rw [hc, hp.1]; exact hdec
      simp only [hP, hD, if_true, Bool.false_eq_true, if_false, or_none_left, or_some_left]
    · rw [if_neg hp]
      have hP : is_point decimal s pre.length = false := by
        unfold is_point
        rw [decide_eq_false_iff_not, hc, hnext, hprev]
        exact hp
      by_cases hd : c.isDigit = true
      · rw [if_pos hd, hih _ _ hs1 hind]
        simp only [hP, hc, hd, if_true, Bool.false_eq_true, if_false, or_none_left,
          or_some_left]
      · rw [if_neg hd, hih _ _ hs1 hind]
        simp only [hP, hc, hd, Bool.false_eq_true, if_false, or_none_left]


theorem last_index_isSome (P : Nat → Bool) (n i : Nat) (hi : i < n) (hP : P i = true) :
    ∃ d, last_index P 0 n = some d := by
  unfold last_index
  have hmem : i ∈ (List.range' 0 n).filter P := by
    rw [List.mem_filter]
    exact ⟨by rw [List.mem_range']; exact ⟨i, hi, by omega⟩, hP⟩
  cases hl : ((List.range' 0 n).filter P).getLast? with
  | none =>
    rw [List.getLast?_eq_none_iff] at hl
    rw [hl] at hmem
    cases hmem
  | some d => exact ⟨d, rfl⟩

theorem intsz_le_total (slen : List Char → Nat) (s : List Char) (k : Nat)
    (hadd : ∀ t, slen t = (t.map (fun c => slen [c])).sum) :
    number_intsz slen s k ≤ slen s := by
  unfold number_intsz
  rw [hadd s]
  conv_rhs => rw [← List.take_append_drop k s]
  rw [List.map_append, List.sum_append]
  omega

/-- What `tblcalc_number` does with one cell that holds a digit and no
alignment indicator. -/
theorem tblcalc_number_step (tbl : rofftbl) (opts : tbl_opts) (col : roffcol) (dp : tbl_dat)
    (s : List Char) (hadd : ∀ t, tbl.slen t = (t.map (fun c => tbl.slen [c])).sum)
    (hdec : opts.decimal.isDigit = false) (hs : dp.string = some s)
    (hdig : ∃ c ∈ s, c.isDigit = true) (hind : has_indicator s = false)
    (hcol : col.decimal ≤ col.nwidth) :
    (tblcalc_number tbl col opts dp).decimal =
      max col.decimal (claimed_intsz tbl.slen opts.decimal s) ∧
    (tblcalc_number tbl col opts dp).nwidth =
      (tblcalc_number tbl col opts dp).decimal +
        max (col.nwidth - col.decimal) (tbl.slen s - claimed_intsz tbl.slen opts.decimal s) ∧
    (tblcalc_number tbl col opts dp).width = col.width := by
  obtain ⟨c, hc, hcd⟩ := hdig
  obtain ⟨i, hi⟩ := List.getElem?_of_mem hc
  have hilt : i < s.length := by
    by_contra h
    rw [List.getElem?_eq_none (by omega)] at hi
    cases hi
  obtain ⟨d, hd⟩ := last_index_isSome (fun i => (s.getD i '\x00').isDigit) s.length i hilt
    (by simp [List.getD_eq_getElem?_getD, hi, hcd])
  have hscan := number_scan_spec opts.decimal s hdec s [] none none rfl hind
  simp only [List.getLast?_nil, List.length_nil, hd] at hscan
  have hne : s ≠ [] := by intro h; rw [h] at hc; cases hc
  obtain ⟨c0, r0, hcons⟩ : ∃ c0 r0, s = c0 :: r0 := by
    cases s with
    | nil => exact absurd rfl hne
    | cons c0 r0 => exact ⟨c0, r0, rfl⟩
  have hint := fun k => intsz_le_total tbl.slen s k hadd
  have hclaim : claimed_intsz tbl.slen opts.decimal s =
      number_intsz tbl.slen s (claimed_intlen opts.decimal s) := rfl
  have hfin : ∀ intsz totsz : Nat, intsz ≤ totsz →
      (if (if intsz > col.decimal then totsz else totsz + (col.decimal - intsz)) >
            (if intsz > col.decimal then
              { col with nwidth := col.nwidth + (intsz - col.decimal), decimal := intsz }
              else col).nwidth
        then { (if intsz > col.decimal then
              { col with nwidth := col.nwidth + (intsz - col.decimal), decimal := intsz }
              else col) with
            nwidth := if intsz > col.decimal then totsz else totsz + (col.decimal - intsz) }
        else (if intsz > col.decimal then
              { col with nwidth := col.nwidth + (intsz - col.decimal), decimal := intsz }
              else col)).decimal = max col.decimal intsz ∧
      (if (if intsz > col.decimal then totsz else totsz + (col.decimal - intsz)) >
            (if intsz > col.decimal then
              { col with nwidth := col.nwidth + (intsz - col.decimal), decimal := intsz }
              else col).nwidth
        then { (if intsz > col.decimal then
              { col with nwidth := col.nwidth + (intsz - col.decimal), decimal := intsz }
              else col) with
            nwidth := if intsz > col.decimal then totsz else totsz + (col.decimal - intsz) }
        else (if intsz > col.decimal then
              { col with nwidth := col.nwidth + (intsz - col.decimal), decimal := intsz }
              else col)).nwidth =
        max col.decimal intsz + max (col.nwidth - col.decimal) (totsz - intsz) ∧
      (if (if intsz > col.decimal then totsz else totsz + (col.decimal - intsz)) >
            (if intsz > col.decimal then
              { col with nwidth := col.nwidth + (intsz - col.decimal), decimal := intsz }
              else col).nwidth
        then { (if intsz > col.decimal then
              { col with nwidth := col.nwidth + (intsz - col.decimal), decimal := intsz }
              else col) with
            nwidth := if intsz > col.decimal then totsz else totsz + (col.decimal - intsz) }
        else (if intsz > col.decimal then
              { col with nwidth := col.nwidth + (intsz - col.decimal), decimal := intsz }
              else col)).width = col.width := by
    intro intsz totsz hle
    by_cases h1 : intsz > col.decimal
    · simp only [h1, if_true]
      refine ⟨?_, ?_, ?_⟩ <;> split <;> rename_i h <;> (try simp only [] at h ⊢) <;>
        (try simp only [max_def]) <;> (try split_ifs) <;> omega
    · simp only [h1, if_false]
      refine ⟨?_, ?_, ?_⟩ <;> split <;> rename_i h <;> (try simp only [] at h ⊢) <;>
        (try simp only [max_def]) <;> (try split_ifs) <;> omega
  cases hlp : last_index (is_point opts.decimal s) 0 s.length with
  | none =>
    have hlen : claimed_intlen opts.decimal s = d + 1 := by
      unfold claimed_intlen; rw [hlp, hd]
    rw [hlp] at hscan
    unfold tblcalc_number
    rw [hs, hcons]
    simp only []
    rw [← hcons, hscan]
    simp only [or_some_left, or_none_left]
    rw [← hlen, ← hclaim]
    have h3 := hfin (claimed_intsz tbl.slen opts.decimal s) (tbl.slen s) (hint _)
    refine ⟨h3.1, ?_, h3.2.2⟩
    rw [h3.2.1, h3.1]
  | some p =>
    have hlen : claimed_intlen opts.decimal s = p := by
      unfold claimed_intlen; rw [hlp]
    rw [hlp] at hscan
    unfold tblcalc_number
    rw [hs, hcons]
    simp only []
    rw [← hcons, hscan]
    simp only [or_some_left, or_none_left]
    rw [← hlen, ← hclaim]
    have h3 := hfin (claimed_intsz tbl.slen opts.decimal s) (tbl.slen s) (hint _)
    refine ⟨h3.1, ?_, h3.2.2⟩
    rw [h3.2.1, h3.1]


theorem number_fold (tbl : rofftbl) (opts : tbl_opts)
    (hadd : ∀ t, tbl.slen t = (t.map (fun c => tbl.slen [c])).sum)
    (hdec : opts.decimal.isDigit = false) (dps : List tbl_dat) :
    ∀ (col : roffcol), col.decimal ≤ col.nwidth →
      (∀ dp ∈ dps, ∃ s, dp.string = some s ∧ (∃ c ∈ s, c.isDigit = true) ∧
        has_indicator s = false) →
      (dps.foldl (fun col dp => tblcalc_number tbl col opts dp) col).decimal =
        max col.decimal ((dps.map (fun dp =>
          claimed_intsz tbl.slen opts.decimal (dp.string.getD []))).foldr max 0) ∧
      (dps.foldl (fun col dp => tblcalc_number tbl col opts dp) col).nwidth =
        (dps.foldl (fun col dp => tblcalc_number tbl col opts dp) col).decimal +
          max (col.nwidth - col.decimal) ((dps.map (fun dp =>
            tbl.slen (dp.string.getD []) -
              claimed_intsz tbl.slen opts.decimal (dp.string.getD []))).foldr max 0) := by
  induction dps with
  | nil => intro col hcol _; simp; omega
  | cons dp rest ih =>
    intro col hcol hall
    obtain ⟨s, hs, hdig, hind⟩ := hall dp (by simp)
    obtain ⟨s1, s2, -⟩ := tblcalc_number_step tbl opts col dp s hadd hdec hs hdig hind hcol
    obtain ⟨i1, i2⟩ := ih (tblcalc_number tbl col opts dp) (by rw [s2]; omega)
      (fun d hd => hall d (by simp [hd]))
    simp only [List.foldl_cons, List.map_cons, List.foldr_cons, hs, Option.getD_some]
    refine ⟨?_, ?_⟩
    · rw [i1, s1, max_assoc]
    · rw [i2]
      congr 1
      rw [s2, Nat.add_sub_cancel_left, max_assoc]

/-- C8, as stated, fails: the cell `1\&5` holds a digit and no decimal point,
so the claimed integer part runs through the last digit and is 4 wide; but the
alignment indicator overrides the scan, and `tblcalc_number` sets
`col.decimal` to 1, the width of the part before the indicator. -/
theorem number_indicator_overrides :
    (∃ c ∈ "1\\&5".toList, c.isDigit = true) ∧
    claimed_intsz tbl_unit.slen '.' "1\\&5".toList = 4 ∧
    (tblcalc_number tbl_unit {} { cols := 1 }
      (cell 0 tbl_cellt.TBL_CELL_NUMBER {} "1\\&5")).decimal = 1 ∧
    (tblcalc_number tbl_unit {} { cols := 1 }
      (cell 0 tbl_cellt.TBL_CELL_NUMBER {} "1\\&5")).nwidth = 4 := by
  refine ⟨⟨'1', by decide, by decide⟩, by decide, by decide, by decide⟩

/-- C8, amended: starting from a fresh column (`decimal = nwidth = 0`) and
measuring any sequence of NUMBER cells that each contain a digit and no
alignment indicator `\&`, with a decimal character that is not a digit and a
string width additive over characters, `col.decimal` ends equal to the maximum
integer-part width `intsz` over the cells and `col.nwidth` ends equal to
`col.decimal` plus the maximum of (total width - `intsz`) over the cells, where
`intsz` is the width of the part before the last decimal point adjacent to a
digit, or through the last digit when there is no such point. -/
theorem number_measurement (tbl : rofftbl) (opts : tbl_opts) (dps : List tbl_dat)
    (hadd : ∀ t, tbl.slen t = (t.map (fun c => tbl.slen [c])).sum)
    (hdec : opts.decimal.isDigit = false)
    (hcells : ∀ dp ∈ dps, ∃ s, dp.string = some s ∧ (∃ c ∈ s, c.isDigit = true) ∧
      has_indicator s = false) :
    (dps.foldl (fun col dp => tblcalc_number tbl col opts dp) {}).decimal =
      (dps.map (fun dp =>
        claimed_intsz tbl.slen opts.decimal (dp.string.getD []))).foldr max 0 ∧
    (dps.foldl (fun col dp => tblcalc_number tbl col opts dp) {}).nwidth =
      (dps.foldl (fun col dp => tblcalc_number tbl col opts dp) {}).decimal +
        (dps.map (fun dp =>
          tbl.slen (dp.string.getD []) -
            claimed_intsz tbl.slen opts.decimal (dp.string.getD []))).foldr max 0 := by
  obtain ⟨h1, h2⟩ := number_fold tbl opts hadd hdec dps {} (le_refl _) hcells
  refine ⟨?_, ?_⟩
  · rw [h1]; exact Nat.zero_max _
  · rw [h2]; congr 1; exact Nat.zero_max _

theorem length_additive (t : List Char) : t.length = (t.map (fun c => [c].length)).sum := by
  induction t with
  | nil => rfl
  | cons c r ih =>
    rw [List.length_cons, List.map_cons, List.sum_cons, ← ih]
    show r.length + 1 = 1 + r.length
    omega

set_option maxRecDepth 100000 in
/-- Witness for `number_measurement`: the cells 12.5 and 100.125 give decimal
2 and nwidth 4 after the first cell, decimal 3 and nwidth 7 after the second,
and `tblcalc` makes the column 7 wide. -/
theorem number_measurement_witness :
    ((([cell 0 tbl_cellt.TBL_CELL_NUMBER {} "12.5",
        cell 0 tbl_cellt.TBL_CELL_NUMBER {} "100.125"].foldl
        (fun col dp => tblcalc_number tbl_unit col { cols := 1 } dp) {}).decimal =
      ([cell 0 tbl_cellt.TBL_CELL_NUMBER {} "12.5",
        cell 0 tbl_cellt.TBL_CELL_NUMBER {} "100.125"].map (fun dp =>
          claimed_intsz tbl_unit.slen '.' (dp.string.getD []))).foldr max 0) ∧
     ([cell 0 tbl_cellt.TBL_CELL_NUMBER {} "12.5",
        cell 0 tbl_cellt.TBL_CELL_NUMBER {} "100.125"].foldl
        (fun col dp => tblcalc_number tbl_unit col { cols := 1 } dp) {}).nwidth =
      ([cell 0 tbl_cellt.TBL_CELL_NUMBER {} "12.5",
        cell 0 tbl_cellt.TBL_CELL_NUMBER {} "100.125"].foldl
        (fun col dp => tblcalc_number tbl_unit col { cols := 1 } dp) {}).decimal +
      ([cell 0 tbl_cellt.TBL_CELL_NUMBER {} "12.5",
        cell 0 tbl_cellt.TBL_CELL_NUMBER {} "100.125"].map (fun dp =>
          tbl_unit.slen (dp.string.getD []) -
            claimed_intsz tbl_unit.slen '.' (dp.string.getD []))).foldr max 0) ∧
    (tblcalc_number tbl_unit {} { cols := 1 }
      (cell 0 tbl_cellt.TBL_CELL_NUMBER {} "12.5")).decimal = 2 ∧
    (tblcalc_number tbl_unit {} { cols := 1 }
      (cell 0 tbl_cellt.TBL_CELL_NUMBER {} "12.5")).nwidth = 4 ∧
    (tblcalc tbl_unit { cols := 1 } spans_numbers 0 0).map
      (fun cs => cs.map (fun c => (c.decimal, c.nwidth, c.width))) = some [(3, 7, 7)] :=
  ⟨number_measurement tbl_unit { cols := 1 }
      [cell 0 tbl_cellt.TBL_CELL_NUMBER {} "12.5", cell 0 tbl_cellt.TBL_CELL_NUMBER {} "100.125"]
      length_additive (by decide)
      (by
        intro dp hdp
        simp only [List.mem_cons, List.mem_singleton, List.not_mem_nil, or_false] at hdp
        rcases hdp with rfl | rfl
        · exact ⟨"12.5".toList, rfl, ⟨'1', by decide, by decide⟩, by decide⟩
        · exact ⟨"100.125".toList, rfl, ⟨'1', by decide, by decide⟩, by decide⟩),
    by decide, by decide, by decide⟩


theorem unit_letter_none (c : Char) (h1 : c ≠ 'c') (h2 : c ≠ 'i') (h3 : c ≠ 'f') (h4 : c ≠ 'M')
    (h5 : c ≠ 'm') (h6 : c ≠ 'n') (h7 : c ≠ 'P') (h8 : c ≠ 'p') (h9 : c ≠ 'u')
    (h10 : c ≠ 'v') : unit_letter c = none := by
  unfold unit_letter
  split <;> first | rfl | contradiction

theorem a2roffsu_eq (strtod : List Char → ℚ × Nat) (src : List Char) (d : roffscale) :
    a2roffsu strtod src d =
      if (strtod src).2 = 0 then
        (none, { unit := if d = roffscale.SCALE_MAX then roffscale.SCALE_BU else d,
                 scale := (strtod src).1 })
      else
        match (src.drop (strtod src).2).head?.bind unit_letter with
        | some u => (some ((strtod src).2 + 1), { unit := u, scale := (strtod src).1 })
        | none =>
          if d = roffscale.SCALE_MAX then
            (none, { unit := roffscale.SCALE_BU, scale := (strtod src).1 })
          else (some (strtod src).2, { unit := d, scale := (strtod src).1 }) := by
  unfold a2roffsu
  by_cases hk : (strtod src).2 = 0
  · rw [if_pos hk, if_pos hk]
  · rw [if_neg hk, if_neg hk]
    generalize src.drop (strtod src).2 = l
    cases l with
    | nil =>
      by_cases hd : d = roffscale.SCALE_MAX
      · subst hd; rfl
      · show (if d = roffscale.SCALE_MAX then _ else _) = (if d = roffscale.SCALE_MAX then _ else _)
        rw [if_neg hd, if_neg hd]
    | cons c rest =>
      by_cases h1 : c = 'c'
      · subst h1; rfl
      by_cases h2 : c = 'i'
      · subst h2; rfl
      by_cases h3 : c = 'f'
      · subst h3; rfl
      by_cases h4 : c = 'M'
      · subst h4; rfl
      by_cases h5 : c = 'm'
      · subst h5; rfl
      by_cases h6 : c = 'n'
      · subst h6; rfl
      by_cases h7 : c = 'P'
      · subst h7; rfl
      by_cases h8 : c = 'p'
      · subst h8; rfl
      by_cases h9 : c = 'u'
      · subst h9; rfl
      by_cases h10 : c = 'v'
      · subst h10; rfl
      have hn := unit_letter_none c h1 h2 h3 h4 h5 h6 h7 h8 h9 h10
      rw [List.head?_cons, Option.some_bind, hn]
      unfold a2roffsu.match_1
      show (if h : c = 'c' then _ else _) = _
      rw [dif_neg h1, dif_neg h2, dif_neg h3, dif_neg h4, dif_neg h5, dif_neg h6, dif_neg h7,
        dif_neg h8, dif_neg h9, dif_neg h10]
      by_cases hd : d = roffscale.SCALE_MAX
      · subst hd; rfl
      · rw [if_neg hd, if_neg hd]

set_option maxRecDepth 100000 in
theorem unit_letter_table :
    ∀ p ∈ [('c', roffscale.SCALE_CM), ('i', roffscale.SCALE_IN), ('f', roffscale.SCALE_FS),
      ('M', roffscale.SCALE_MM), ('m', roffscale.SCALE_EM), ('n', roffscale.SCALE_EN),
      ('P', roffscale.SCALE_PC), ('p', roffscale.SCALE_PT), ('u', roffscale.SCALE_BU),
      ('v', roffscale.SCALE_VS)], unit_letter p.1 = some p.2 := by
  decide

/-- C28: the scaled-unit parser.  With `strtod src` giving the value `v` and
the number `k` of bytes used, `a2roffsu` returns the failure sentinel if and
only if `k = 0` (no number at the start of `src`), or the character after the
number is not one of the unit letters c, i, f, M, m, n, P, p, u, v and the
default is `SCALE_MAX`; otherwise it returns the position just past the number
and the unit letter, storing the unit that the letter names (c cm, i inch,
f fraction, M mm, m em, n en, P pica, p point, u basic unit, v vertical
span), or, when the letter is missing, the position just past the number,
storing the default.  The value stored is `v`. -/
theorem a2roffsu_spec (strtod : List Char → ℚ × Nat) (src : List Char) (d : roffscale) :
    ((a2roffsu strtod src d).1 = none ↔
      (strtod src).2 = 0 ∨
        ((src.drop (strtod src).2).head?.bind unit_letter = none ∧ d = roffscale.SCALE_MAX)) ∧
    (∀ u, (strtod src).2 ≠ 0 → (src.drop (strtod src).2).head?.bind unit_letter = some u →
      a2roffsu strtod src d =
        (some ((strtod src).2 + 1), { unit := u, scale := (strtod src).1 })) ∧
    ((strtod src).2 ≠ 0 → (src.drop (strtod src).2).head?.bind unit_letter = none →
      d ≠ roffscale.SCALE_MAX →
      a2roffsu strtod src d = (some (strtod src).2, { unit := d, scale := (strtod src).1 })) ∧
    (a2roffsu strtod src d).2.scale = (strtod src).1 ∧
    (∀ c u, unit_letter c = some u ↔
      (c, u) ∈ [('c', roffscale.SCALE_CM), ('i', roffscale.SCALE_IN), ('f', roffscale.SCALE_FS),
        ('M', roffscale.SCALE_MM), ('m', roffscale.SCALE_EM), ('n', roffscale.SCALE_EN),
        ('P', roffscale.SCALE_PC), ('p', roffscale.SCALE_PT), ('u', roffscale.SCALE_BU),
        ('v', roffscale.SCALE_VS)]) := by
  have heq := a2roffsu_eq strtod src d
  refine ⟨?_, ?_, ?_, ?_, ?_⟩
  · rw [heq]
    by_cases hk : (strtod src).2 = 0
    · rw [if_pos hk]
      exact ⟨fun _ => Or.inl hk, fun _ => rfl⟩
    · rw [if_neg hk]
      cases hu : (src.drop (strtod src).2).head?.bind unit_letter with
      | some u =>
        simp only []
        constructor
        · intro h
          cases h
        · rintro (h | ⟨h, _⟩)
          · exact absurd h hk
          · cases h
      | none =>
        simp only []
        by_cases hd : d = roffscale.SCALE_MAX
        · rw [if_pos hd]
          exact ⟨fun _ => Or.inr ⟨trivial, hd⟩, fun _ => rfl⟩
        · rw [if_neg hd]
          constructor
          · intro h
            cases h
          · rintro (h | ⟨_, h⟩)
            · exact absurd h hk
            · exact absurd h hd
  · intro u hk hu
    rw [heq, if_neg hk, hu]
  · intro hk hu hd
    rw [heq, if_neg hk, hu]
    simp only []
    rw [if_neg hd]
  · rw [heq]
    by_cases hk : (strtod src).2 = 0
    · rw [if_pos hk]
    · rw [if_neg hk]
      cases (src.drop (strtod src).2).head?.bind unit_letter with
      | some u => rfl
      | none =>
        simp only []
        by_cases hd : d = roffscale.SCALE_MAX
        · rw [if_pos hd]
        · rw [if_neg hd]
  · intro c u
    constructor
    · intro h
      unfold unit_letter at h
      split at h <;> first | (cases h; decide) | (cases h)
    · intro h
      exact unit_letter_table (c, u) h


theorem grow_maxcol_ord (icol : Nat) :
    ∀ (fuel : Nat) (cols : List roffcol) (m : Int), (∀ c ∈ cols, c.decimal ≤ c.nwidth) →
      ∀ c ∈ (grow_maxcol icol fuel cols m).1, c.decimal ≤ c.nwidth := by
  intro fuel
  induction fuel with
  | zero => intro cols m h; exact h
  | succ fuel ih =>
    intro cols m h
    rw [grow_maxcol]
    split
    · apply ih
      intro c hc
      rcases List.mem_or_eq_of_mem_set hc with hc | rfl
      · exact h c hc
      · show (cols.getD (m + 1).toNat {}).decimal ≤ (cols.getD (m + 1).toNat {}).nwidth
        rw [List.getD_eq_getElem?_getD]
        cases hq : cols[(m + 1).toNat]? with
        | none => exact le_refl _
        | some d => exact h d (List.mem_iff_getElem?.2 ⟨_, hq⟩)
    · exact h

theorem tblcalc_literal_ord (tbl : rofftbl) (col : roffcol) (dp : tbl_dat) (mw : Nat) :
    (tblcalc_literal tbl col dp mw).decimal = col.decimal ∧
    (tblcalc_literal tbl col dp mw).nwidth = col.nwidth := by
  unfold tblcalc_literal
  split <;> exact ⟨rfl, rfl⟩

theorem tblcalc_number_ord (tbl : rofftbl) (opts : tbl_opts) (col : roffcol) (dp : tbl_dat)
    (h : col.decimal ≤ col.nwidth) :
    (tblcalc_number tbl col opts dp).decimal ≤ (tblcalc_number tbl col opts dp).nwidth := by
  unfold tblcalc_number
  split
  · exact h
  · exact h
  · simp only []
    split
    · split <;> exact h
    · generalize number_intsz _ _ _ = intsz
      generalize tbl.slen _ = totsz
      by_cases h1 : intsz > col.decimal
      · simp only [h1, if_true]
        split
        · show intsz ≤ totsz
          rename_i h2
          have h3 : totsz > col.nwidth + (intsz - col.decimal) := h2
          omega
        · show intsz ≤ col.nwidth + (intsz - col.decimal)
          omega
      · simp only [h1, if_false]
        split
        · show col.decimal ≤ totsz + (col.decimal - intsz)
          omega
        · exact h

theorem tblcalc_data_ord (tbl : rofftbl) (opts : tbl_opts) (col : roffcol) (dp : tbl_dat)
    (mw : Nat) (h : col.decimal ≤ col.nwidth) :
    (tblcalc_data tbl col opts dp mw).decimal ≤ (tblcalc_data tbl col opts dp mw).nwidth := by
  unfold tblcalc_data
  split
  · split <;> exact h
  · split <;> exact h
  · rw [(tblcalc_literal_ord tbl col dp mw).1, (tblcalc_literal_ord tbl col dp mw).2]; exact h
  · rw [(tblcalc_literal_ord tbl col dp mw).1, (tblcalc_literal_ord tbl col dp mw).2]; exact h
  · rw [(tblcalc_literal_ord tbl col dp mw).1, (tblcalc_literal_ord tbl col dp mw).2]; exact h
  · rw [(tblcalc_literal_ord tbl col dp mw).1, (tblcalc_literal_ord tbl col dp mw).2]; exact h
  · exact tblcalc_number_ord tbl opts col dp h
  · exact h

theorem set_ord (cols : List roffcol) (k : Nat) (x : roffcol)
    (h : ∀ c ∈ cols, c.decimal ≤ c.nwidth) (hx : x.decimal ≤ x.nwidth) :
    ∀ c ∈ cols.set k x, c.decimal ≤ c.nwidth := by
  intro c hc
  rcases List.mem_or_eq_of_mem_set hc with hc | rfl
  · exact h c hc
  · exact hx

theorem getD_ord (cols : List roffcol) (k : Nat) (h : ∀ c ∈ cols, c.decimal ≤ c.nwidth) :
    (cols.getD k {}).decimal ≤ (cols.getD k {}).nwidth := by
  rw [List.getD_eq_getElem?_getD]
  cases hq : cols[k]? with
  | none => exact le_refl _
  | some d => exact h d (List.mem_iff_getElem?.2 ⟨_, hq⟩)

theorem tblcalc_cell_ord (tbl : rofftbl) (opts : tbl_opts) (rmargin : Nat) (st st1 : pass1)
    (dp : tbl_dat) (h : tblcalc_cell tbl opts rmargin st dp = some st1)
    (ho : ∀ c ∈ st.cols, c.decimal ≤ c.nwidth) : ∀ c ∈ st1.cols, c.decimal ≤ c.nwidth := by
  unfold tblcalc_cell at h
  split at h
  · cases h; exact ho
  · split at h
    · cases h; exact ho
    · simp only [] at h
      split at h
      · cases h
      · have hg := grow_maxcol_ord dp.layout.col (dp.layout.col + 1) st.cols st.maxcol ho
        have hd := getD_ord _ dp.layout.col hg
        split at h
        · cases h
          exact set_ord _ _ _ hg hd
        · cases h
          apply set_ord _ _ _ hg
          apply tblcalc_data_ord
          split <;> split <;> exact hd

theorem tblcalc_cells_ord (tbl : rofftbl) (opts : tbl_opts) (rmargin : Nat) (cells : List tbl_dat) :
    ∀ (st st1 : pass1), tblcalc_cells tbl opts rmargin st cells = some st1 →
      (∀ c ∈ st.cols, c.decimal ≤ c.nwidth) → ∀ c ∈ st1.cols, c.decimal ≤ c.nwidth := by
  induction cells with
  | nil =>
    intro st st1 h ho
    simp only [tblcalc_cells] at h; cases h; exact ho
  | cons dp rest ih =>
    intro st st1 h ho
    rw [tblcalc_cells] at h
    cases hc : tblcalc_cell tbl opts rmargin st dp with
    | none => rw [hc] at h; cases h
    | some st2 =>
      rw [hc] at h
      exact ih st2 st1 h (tblcalc_cell_ord tbl opts rmargin st st2 dp hc ho)

theorem tblcalc_spans_ord (tbl : rofftbl) (opts : tbl_opts) (rmargin : Nat)
    (spans : List tbl_span) :
    ∀ (cols cols1 : List roffcol) (m m1 : Int),
      tblcalc_spans tbl opts rmargin cols m spans = some (cols1, m1) →
      (∀ c ∈ cols, c.decimal ≤ c.nwidth) → ∀ c ∈ cols1, c.decimal ≤ c.nwidth := by
  induction spans with
  | nil =>
    intro cols cols1 m m1 h ho
    simp only [tblcalc_spans, Option.some.injEq, Prod.mk.injEq] at h
    obtain ⟨rfl, rfl⟩ := h
    exact ho
  | cons sp rest ih =>
    intro cols cols1 m m1 h ho
    rw [tblcalc_spans] at h
    split at h
    · exact ih cols cols1 m m1 h ho
    · cases hc : tblcalc_cells tbl opts rmargin { cols := cols, maxcol := m, hspans := 1 }
          sp.first with
      | none => rw [hc] at h; cases h
      | some st =>
        rw [hc] at h
        exact ih st.cols cols1 st.maxcol m1 h (tblcalc_cells_ord tbl opts rmargin sp.first _ st hc ho)

theorem align_col_ord (maxcol : Int) (icol : Nat) (c : roffcol) (a : counters)
    (h : c.decimal ≤ c.nwidth) :
    (align_col maxcol icol c a).1.nwidth ≤ (align_col maxcol icol c a).1.width ∧
    (align_col maxcol icol c a).1.decimal ≤ (align_col maxcol icol c a).1.width := by
  unfold align_col
  simp only []
  by_cases h1 : c.width > c.nwidth
  · simp only [h1, if_true]
    split
    · constructor
      · show c.nwidth ≤ c.width
        omega
      · show c.decimal + (c.width - c.nwidth) / 2 ≤ c.width
        omega
    · constructor
      · show c.nwidth ≤ c.width
        omega
      · show c.decimal + (c.width - c.nwidth) / 2 ≤ c.width
        omega
  · simp only [h1, if_false]
    split
    · exact ⟨le_refl _, h⟩
    · exact ⟨le_refl _, h⟩

theorem align_loop_ord (maxcol : Int) (cols : List roffcol) :
    ∀ (icol : Nat) (a : counters), (∀ c ∈ cols, c.decimal ≤ c.nwidth) →
      unused_beyond maxcol icol cols →
      ∀ c ∈ (align_loop maxcol icol cols a).1, c.nwidth ≤ c.width ∧ c.decimal ≤ c.width := by
  induction cols with
  | nil => intro icol a _ _ c hc; simp [align_loop] at hc
  | cons d rest ih =>
    intro icol a ho hu c hc
    rw [align_loop] at hc
    by_cases hm : (icol : Int) ≤ maxcol
    · rw [if_pos hm] at hc
      simp only [List.mem_cons] at hc
      rcases hc with rfl | hc
      · exact align_col_ord maxcol icol d a (ho d (by simp))
      · exact ih (icol + 1) _ (fun x hx => ho x (by simp [hx]))
          (unused_beyond_tail maxcol icol d rest hu) c hc
    · rw [if_neg hm] at hc
      have := unused_beyond_all maxcol icol (d :: rest) hu (by omega) c hc
      rw [this]
      exact ⟨le_refl _, le_refl _⟩

theorem equalize_loop_ord (maxcol : Int) (ew : Nat) (gate : Bool) (cols : List roffcol) :
    ∀ (icol xw : Nat), (∀ c ∈ cols, c.nwidth ≤ c.width ∧ c.decimal ≤ c.width) →
      (∀ c ∈ cols, c.flags.EQUAL = true → c.width ≤ ew) →
      ∀ c ∈ (equalize_loop maxcol ew gate icol cols xw).1,
        c.nwidth ≤ c.width ∧ c.decimal ≤ c.width := by
  induction cols with
  | nil => intro icol xw _ _ c hc; simp [equalize_loop] at hc
  | cons d rest ih =>
    intro icol xw ho he c hc
    have hrest := fun xw1 => ih (icol + 1) xw1 (fun x hx => ho x (by simp [hx]))
      (fun x hx => he x (by simp [hx]))
    rw [equalize_loop] at hc
    by_cases hm : (icol : Int) ≤ maxcol
    · rw [if_pos hm] at hc
      by_cases h1 : ¬ d.flags.EQUAL = true
      · rw [if_pos h1] at hc
        simp only [List.mem_cons] at hc
        rcases hc with rfl | hc
        · exact ho _ (by simp)
        · exact hrest _ c hc
      · rw [if_neg h1] at hc
        by_cases h2 : d.width = ew
        · rw [if_pos h2] at hc
          simp only [List.mem_cons] at hc
          rcases hc with rfl | hc
          · exact ho _ (by simp)
          · exact hrest _ c hc
        · rw [if_neg h2] at hc
          simp only [List.mem_cons] at hc
          rcases hc with rfl | hc
          · have h3 := ho d (by simp)
            have h4 := he d (by simp) (by simpa using h1)
            constructor
            · show d.nwidth ≤ ew
              omega
            · show d.decimal ≤ ew
              omega
          · exact hrest _ c hc
    · rw [if_neg hm] at hc
      exact ho c hc

theorem equal_max_ge (cols : List roffcol) :
    ∀ c ∈ cols, c.flags.EQUAL = true → c.width ≤ equal_max cols := by
  induction cols with
  | nil => intro c hc; simp at hc
  | cons d rest ih =>
    intro c hc he
    rw [equal_max_cons]
    simp only [List.mem_cons] at hc
    rcases hc with rfl | hc
    · rw [if_pos he]
      exact le_max_left _ _
    · have := ih c hc he
      split
      · exact le_trans this (le_max_right _ _)
      · exact this

theorem tblcalc_equalized_ord (cols : List roffcol) (maxcol : Int) (rmargin : Nat)
    (ho : ∀ c ∈ cols, c.decimal ≤ c.nwidth) (hu : unused_beyond maxcol 0 cols) :
    ∀ c ∈ (tblcalc_equalized cols maxcol rmargin).1, c.nwidth ≤ c.width ∧ c.decimal ≤ c.width := by
  have ha := align_loop_ord maxcol cols 0 {} ho hu
  obtain ⟨-, -, -, a4, -, -, -⟩ := align_loop_spec maxcol cols 0 {} hu
  unfold tblcalc_equalized
  simp only []
  split
  · apply equalize_loop_ord maxcol _ _ _ 0 _ ha
    intro c hc he
    rw [a4]
    exact le_trans (equal_max_ge _ c hc he) (le_max_right _ _)
  · exact ha

theorem tblcalc_solve_ord (opts : tbl_opts) (cols : List roffcol) (maxcol : Int)
    (offset rmargin : Nat) (ho : ∀ c ∈ cols, c.decimal ≤ c.nwidth)
    (hu : unused_beyond maxcol 0 cols) :
    ∀ c ∈ tblcalc_solve opts cols maxcol offset rmargin,
      (rmargin = 0 ∨ c.flags.WMAX = false) → c.nwidth ≤ c.width ∧ c.decimal ≤ c.width := by
  have he := tblcalc_equalized_ord cols maxcol rmargin ho hu
  intro c hc hcond
  unfold tblcalc_solve at hc
  simp only [] at hc
  split at hc
  · rename_i hgate
    split at hc
    · exact he c hc
    · rcases hcond with h0 | hw
      · exact absurd h0 hgate.2
      · have hmem : c ∈ (maximize_loop maxcol
            ((rmargin : Int) - offset -
              fixed_width opts maxcol (tblcalc_equalized cols maxcol rmargin).2).toNat
            (tblcalc_equalized cols maxcol rmargin).2.nxcol
            (quirk_col ((rmargin : Int) - offset -
              fixed_width opts maxcol (tblcalc_equalized cols maxcol rmargin).2).toNat
              (tblcalc_equalized cols maxcol rmargin).2.nxcol) 0
            (tblcalc_equalized cols maxcol rmargin).1 0 0).filter (fun c => !c.flags.WMAX) :=
          List.mem_filter.2 ⟨hc, by simp [hw]⟩
        rw [maximize_loop_fixed] at hmem
        exact he c (List.mem_filter.1 hmem).1
  · exact he c hc

set_option maxRecDepth 100000 in
/-- C29, as stated, fails in both halves: for one column that holds the
number 12.5 and a text 20 wide, `tblcalc` returns the decimal position 10 with
the numeric width 4; and for one column to maximize that holds the number
100.125, with the right margin 5, it returns the width 5 with the numeric
width 7. -/
theorem tblcalc_order_broken :
    tblcalc tbl_unit { cols := 1 } spans_mixed 0 0 =
      some [{ width := 20, decimal := 10, nwidth := 4, spacing := 3 }] ∧
    tblcalc tbl_unit { cols := 1 } spans_number_wmax 0 5 =
      some [{ width := 5, decimal := 3, nwidth := 7, spacing := 3, flags := { WMAX := true } }] := by
  decide

/-- C29, amended: after `tblcalc` has returned, every column that the maximize
step has not given a new width (the right margin is 0, or the column is not
to be maximized) satisfies `nwidth ≤ width` and `decimal ≤ width`. -/
theorem tblcalc_column_order (tbl : rofftbl) (opts : tbl_opts) (spans : List tbl_span)
    (offset rmargin : Nat) (cols : List roffcol)
    (h : tblcalc tbl opts spans offset rmargin = some cols) :
    ∀ c ∈ cols, (rmargin = 0 ∨ c.flags.WMAX = false) →
      c.nwidth ≤ c.width ∧ c.decimal ≤ c.width := by
  unfold tblcalc at h
  cases hp : tblcalc_spans tbl opts rmargin (List.replicate opts.cols {}) (-1) spans with
  | none => rw [hp] at h; cases h
  | some q =>
    obtain ⟨c1, maxcol⟩ := q
    rw [hp] at h
    simp only [Option.some.injEq] at h
    subst h
    obtain ⟨-, -, hu, -⟩ := tblcalc_pass1_inv tbl opts rmargin spans c1 maxcol hp
    have ho := tblcalc_spans_ord tbl opts rmargin spans _ c1 (-1) maxcol hp (by
      intro c hc
      rw [(List.mem_replicate.1 hc).2])
    exact tblcalc_solve_ord opts c1 maxcol offset rmargin ho hu

set_option maxRecDepth 100000 in
theorem tblcalc_column_order_witness :
    tblcalc tbl_unit { cols := 1 } spans_mixed 0 0 =
      some [{ width := 20, decimal := 10, nwidth := 4, spacing := 3 }] ∧
    ({ width := 20, decimal := 10, nwidth := 4, spacing := 3 } : roffcol).nwidth ≤
      ({ width := 20, decimal := 10, nwidth := 4, spacing := 3 } : roffcol).width ∧
    ({ width := 20, decimal := 10, nwidth := 4, spacing := 3 } : roffcol).decimal ≤
      ({ width := 20, decimal := 10, nwidth := 4, spacing := 3 } : roffcol).width :=
  ⟨by decide, tblcalc_column_order tbl_unit { cols := 1 } spans_mixed 0 0 _ (by decide)
    { width := 20, decimal := 10, nwidth := 4, spacing := 3 } (List.mem_singleton.2 rfl)
    (Or.inl rfl)⟩


theorem longest_cons (a : Nat) (l : List Nat) : longest (a :: l) = max a (longest l) := rfl

theorem greedy_ge_cur (mw : Nat) (ws : List Nat) :
    ∀ cur : Nat, cur ≤ longest (greedy_lines mw cur ws) := by
  induction ws with
  | nil => intro cur; simp [greedy_lines, longest]
  | cons w ws ih =>
    intro cur
    rw [greedy_lines]
    split
    · exact le_trans (by omega) (ih (cur + 1 + w))
    · rw [longest_cons]
      exact le_max_left _ _

theorem greedy_ge_word (mw : Nat) (ws : List Nat) :
    ∀ cur : Nat, ∀ x ∈ ws, x ≤ longest (greedy_lines mw cur ws) := by
  induction ws with
  | nil => intro cur x hx; simp at hx
  | cons w ws ih =>
    intro cur x hx
    rw [greedy_lines]
    rcases List.mem_cons.1 hx with rfl | hx
    · split
      · exact le_trans (by omega) (greedy_ge_cur mw ws (cur + 1 + x))
      · rw [longest_cons]
        exact le_trans (greedy_ge_cur mw ws x) (le_max_right _ _)
    · split
      · exact ih _ x hx
      · rw [longest_cons]
        exact le_trans (ih _ x hx) (le_max_right _ _)

theorem greedy_le (mw : Nat) (ws : List Nat) :
    ∀ cur : Nat, longest (greedy_lines mw cur ws) ≤ max (max cur mw) (longest ws) := by
  induction ws with
  | nil => intro cur; simp [greedy_lines, longest]
  | cons w ws ih =>
    intro cur
    rw [greedy_lines, longest_cons]
    split
    · rename_i h
      have := ih (cur + 1 + w)
      omega
    · rw [longest_cons]
      have := ih w
      omega

/-- With `mw = 0` the whole text is one line. -/
theorem literal_loop_zero (slen : List Char → Nat) (fuel : Nat) (s : List Char) (lsz w : Nat)
    (hs : s ≠ []) : literal_loop slen 0 (fuel + 1) s lsz w = max w (slen s) := by
  rw [literal_loop, if_neg hs]
  simp only [ne_eq, not_true_eq_false, if_false, false_and]
  have h : (if w < slen s then slen s else w) = max w (slen s) := by
    split_ifs <;> omega
  rw [h]
  cases fuel with
  | zero => rfl
  | succ f => rw [literal_loop, if_pos rfl]

/-- With `mw` not 0 the loop fills lines greedily, word by word. -/
theorem literal_loop_greedy (slen : List Char → Nat) (mw : Nat) (hmw : mw ≠ 0) :
    ∀ (fuel : Nat) (s : List Char) (lsz w : Nat), lsz ≤ w →
      literal_loop slen mw fuel s lsz w =
        max w (longest (greedy_lines mw lsz ((words_loop fuel s).map slen))) := by
  intro fuel
  induction fuel with
  | zero =>
    intro s lsz w h
    simp only [literal_loop, words_loop, List.map_nil, greedy_lines, longest, List.foldr]
    omega
  | succ f ih =>
    intro s lsz w h
    rw [literal_loop, words_loop]
    by_cases hs : s = []
    · rw [if_pos hs, if_pos hs]
      simp only [List.map_nil, greedy_lines, longest, List.foldr]
      omega
    · rw [if_neg hs, if_neg hs]
      simp only [hmw, ne_eq, not_false_eq_true, if_true, true_and, List.map_cons]
      rw [greedy_lines]
      by_cases hj : lsz ≠ 0 ∧ lsz + 1 + slen (s.takeWhile (fun c => c != ' ')) ≤ mw
      · rw [if_pos hj, if_pos hj, ih _ _ _ (by split_ifs <;> omega)]
        have := greedy_ge_cur mw ((words_loop f ((s.dropWhile (fun c => c != ' ')).dropWhile
          (fun c => c == ' '))).map slen) (lsz + 1 + slen (s.takeWhile (fun c => c != ' ')))
        split_ifs <;> omega
      · rw [if_neg hj, if_neg hj, ih _ _ _ (by split_ifs <;> omega), longest_cons]
        have := greedy_ge_cur mw ((words_loop f ((s.dropWhile (fun c => c != ' ')).dropWhile
          (fun c => c == ' '))).map slen) (slen (s.takeWhile (fun c => c != ' ')))
        split_ifs <;> omega

theorem dropWhile_length_le (p : Char → Bool) (s : List Char) :
    (s.dropWhile p).length ≤ s.length := by
  induction s with
  | nil => simp
  | cons c r ih =>
    rw [List.dropWhile_cons]
    split
    · simp only [List.length_cons]; omega
    · exact le_refl _

theorem rest_shorter (s : List Char) (hs : s ≠ []) :
    ((s.dropWhile (fun c => c != ' ')).dropWhile (fun c => c == ' ')).length < s.length := by
  cases s with
  | nil => exact absurd rfl hs
  | cons c r =>
    by_cases hc : c = ' '
    · subst hc
      have h1 : (' ' :: r).dropWhile (fun c => c != ' ') = ' ' :: r := by
        simp [List.dropWhile_cons]
      rw [h1]
      have h2 : (' ' :: r).dropWhile (fun c => c == ' ') = r.dropWhile (fun c => c == ' ') := by
        simp [List.dropWhile_cons]
      rw [h2]
      have := dropWhile_length_le (fun c => c == ' ') r
      simp only [List.length_cons]
      omega
    · have h1 : (c :: r).dropWhile (fun c => c != ' ') = r.dropWhile (fun c => c != ' ') := by
        simp [List.dropWhile_cons, hc]
      rw [h1]
      have := dropWhile_length_le (fun c => c == ' ') (r.dropWhile (fun c => c != ' '))
      have := dropWhile_length_le (fun c => c != ' ') r
      simp only [List.length_cons]
      omega

theorem filter_takeWhile_word (s : List Char) :
    (s.takeWhile (fun c => c != ' ')).filter (fun c => c != ' ') =
      s.takeWhile (fun c => c != ' ') := by
  rw [List.filter_eq_self]
  intro a ha
  have := List.mem_takeWhile_imp ha
  simpa using this

theorem filter_dropWhile_space (s : List Char) :
    (s.dropWhile (fun c => c == ' ')).filter (fun c => c != ' ') =
      s.filter (fun c => c != ' ') := by
  induction s with
  | nil => rfl
  | cons c r ih =>
    by_cases hc : c = ' '
    · subst hc
      simp only [List.dropWhile_cons, beq_self_eq_true, if_true, ih]
      simp [List.filter_cons]
    · simp [List.dropWhile_cons, hc]

/-- The words cover the text: put one after the other they are the text
without its spaces, and no word holds a space. -/
theorem words_loop_spec :
    ∀ (fuel : Nat) (s : List Char), s.length < fuel →
      (words_loop fuel s).flatten = s.filter (fun c => c != ' ') ∧
      ∀ w ∈ words_loop fuel s, ' ' ∉ w := by
  intro fuel
  induction fuel with
  | zero => intro s h; omega
  | succ f ih =>
    intro s h
    rw [words_loop]
    by_cases hs : s = []
    · subst hs
      simp
    · rw [if_neg hs]
      have hlt := rest_shorter s hs
      obtain ⟨i1, i2⟩ := ih ((s.dropWhile (fun c => c != ' ')).dropWhile (fun c => c == ' '))
        (by omega)
      constructor
      · rw [List.flatten_cons, i1, filter_dropWhile_space]
        conv_rhs => rw [← List.takeWhile_append_dropWhile (fun c => c != ' ') s]
        rw [List.filter_append, filter_takeWhile_word]
      · intro w hw
        rcases List.mem_cons.1 hw with rfl | hw
        · intro hmem
          have := List.mem_takeWhile_imp hmem
          simp at this
        · exact i2 w hw

/-- C33: greedy wrapping in the measurement of a literal cell.  A null or
empty string leaves the column as it is.  For a text `s` that is not empty:
with `mw = 0` the width of the column becomes the larger of its old width and
the width of the whole string; with `mw > 0` it becomes the larger of its old
width and the width of the longest line, where the lines are filled greedily
with the space-separated words of `s` (a word joins the current line, if that
is not empty, exactly when line + 1 + word is at most `mw`, and starts a new
line otherwise).  Hence the new width is at least the width of every word and
at most the largest of the old width, `mw` and the widest word.  The words
cover the text: joined they are the text without its spaces, and no word
holds a space. -/
theorem tblcalc_literal_spec (tbl : rofftbl) (col : roffcol) (dp : tbl_dat) (mw : Nat) :
    (dp.string = none ∨ dp.string = some [] → tblcalc_literal tbl col dp mw = col) ∧
    (∀ s, dp.string = some s → s ≠ [] →
      (mw = 0 →
        tblcalc_literal tbl col dp mw = { col with width := max col.width (tbl.slen s) }) ∧
      (mw ≠ 0 →
        tblcalc_literal tbl col dp mw = { col with
          width := max col.width (longest (greedy_lines mw 0 ((text_words s).map tbl.slen))) } ∧
        (∀ w ∈ text_words s, tbl.slen w ≤ (tblcalc_literal tbl col dp mw).width) ∧
        (tblcalc_literal tbl col dp mw).width ≤
          max (max col.width mw) (longest ((text_words s).map tbl.slen))) ∧
      (text_words s).flatten = s.filter (fun c => c != ' ') ∧
      (∀ w ∈ text_words s, ' ' ∉ w)) := by
  constructor
  · intro h
    unfold tblcalc_literal
    rcases h with h | h <;> rw [h]
  · intro s hs hne
    have hlit : tblcalc_literal tbl col dp mw =
        { col with width := literal_loop tbl.slen mw (s.length + 1) s 0 col.width } := by
      unfold tblcalc_literal
      rw [hs]
      cases s with
      | nil => exact absurd rfl hne
      | cons c r => rfl
    obtain ⟨w1, w2⟩ := words_loop_spec (s.length + 1) s (by omega)
    refine ⟨?_, ?_, w1, w2⟩
    · intro h0
      rw [hlit, h0, literal_loop_zero _ _ _ _ _ hne]
    · intro hmw
      have hg := literal_loop_greedy tbl.slen mw hmw (s.length + 1) s 0 col.width (by omega)
      have heq : tblcalc_literal tbl col dp mw = { col with
          width := max col.width (longest (greedy_lines mw 0 ((text_words s).map tbl.slen))) } := by
        rw [hlit, hg]
        rfl
      refine ⟨heq, ?_, ?_⟩
      · intro w hw
        rw [heq]
        have := greedy_ge_word mw ((text_words s).map tbl.slen) 0 (tbl.slen w)
          (List.mem_map.2 ⟨w, hw, rfl⟩)
        show tbl.slen w ≤ max col.width _
        omega
      · rw [heq]
        have := greedy_le mw ((text_words s).map tbl.slen) 0
        show max col.width _ ≤ _
        omega


/-- The quotient `(r + c / 2) / (c + 1)` is `r / (c + 1)` rounded to the
nearest integer, and lies between `r / (c + 1)` and `r / (c + 1) + 1`. -/
theorem rounded_quotient (r c : Nat) :
    2 * ((c + 1) * ((r + c / 2) / (c + 1))) ≤ 2 * r + c ∧
    2 * r ≤ 2 * ((c + 1) * ((r + c / 2) / (c + 1))) + c + 1 ∧
    r / (c + 1) ≤ (r + c / 2) / (c + 1) ∧ (r + c / 2) / (c + 1) ≤ r / (c + 1) + 1 := by
  have h1 := Nat.mul_div_le (r + c / 2) (c + 1)
  have h2 := Nat.lt_mul_div_succ (r + c / 2) (Nat.succ_pos c)
  have h3 : (c + 1) * ((r + c / 2) / (c + 1) + 1) =
      (c + 1) * ((r + c / 2) / (c + 1)) + (c + 1) := by ring
  rw [h3] at h2
  refine ⟨by omega, by omega, Nat.div_le_div_right (by omega), ?_⟩
  calc (r + c / 2) / (c + 1) ≤ (r + (c + 1)) / (c + 1) := Nat.div_le_div_right (by omega)
    _ = r / (c + 1) + 1 := Nat.add_div_right r (Nat.succ_pos c)

set_option maxRecDepth 100000 in
/-- C32, as stated, fails: for a text block "a b" in a table of three declared
columns with the right margin 11, `tblcalc` measures with the maximum line
width (11 + 3 / 2) / 4 = 3, so that both words fit on one line and the column
becomes 3 wide; with the claimed 11 / 4 = 2 the words would stand on two lines
and the column would be 1 wide. -/
theorem wrap_width_rounds :
    wrap_width tbl_unit { cols := 3 } 11 cell_block = 3 ∧
    claimed_wrap_width tbl_unit { cols := 3 } 11 cell_block = 2 ∧
    tblcalc tbl_unit { cols := 3 } spans_block 0 11 =
      some [{ width := 3, decimal := 1, spacing := 3 }, {}, {}] ∧
    tblcalc_literal tbl_unit {} cell_block 3 = { width := 3 } ∧
    tblcalc_literal tbl_unit {} cell_block 2 = { width := 1 } := by
  decide

/-- C32, amended: for a data cell that the first pass of `tblcalc` measures
(not skipped as part of a horizontal span, its column within the declared
columns, its layout without WIGN), the measurement is `tblcalc_data` with the
maximum line width `mw` that is 0 for a cell not in block mode and, for a
block cell, the layout width when that is not 0, otherwise
`(rmargin + ncols / 2) / (ncols + 1)` with `ncols` the declared column count:
the quotient of `rmargin` by `ncols + 1` rounded to the nearest integer, which
is the claimed `rmargin / (ncols + 1)` or one more, and 0 when `rmargin` is
0. -/
theorem wrap_width_spec (tbl : rofftbl) (opts : tbl_opts) (rmargin : Nat) (st : pass1)
    (dp : tbl_dat) (h1 : ¬ 0 < st.hspans - 1) (h2 : ¬ 1 < dp.hspans)
    (h3 : dp.layout.col < opts.cols) (h4 : dp.layout.flags.WIGN = false) :
    (∃ col, tblcalc_cell tbl opts rmargin st dp =
      some { cols := (grow_maxcol dp.layout.col (dp.layout.col + 1) st.cols st.maxcol).1.set
               dp.layout.col (tblcalc_data tbl col opts dp (wrap_width tbl opts rmargin dp)),
             maxcol := (grow_maxcol dp.layout.col (dp.layout.col + 1) st.cols st.maxcol).2,
             hspans := dp.hspans }) ∧
    (dp.block = 0 → wrap_width tbl opts rmargin dp = 0) ∧
    (dp.block ≠ 0 → layout_width tbl dp.layout ≠ 0 →
      wrap_width tbl opts rmargin dp = layout_width tbl dp.layout) ∧
    (dp.block ≠ 0 → layout_width tbl dp.layout = 0 →
      wrap_width tbl opts rmargin dp = (rmargin + opts.cols / 2) / (opts.cols + 1) ∧
      2 * ((opts.cols + 1) * wrap_width tbl opts rmargin dp) ≤ 2 * rmargin + opts.cols ∧
      2 * rmargin ≤ 2 * ((opts.cols + 1) * wrap_width tbl opts rmargin dp) + opts.cols + 1 ∧
      claimed_wrap_width tbl opts rmargin dp ≤ wrap_width tbl opts rmargin dp ∧
      wrap_width tbl opts rmargin dp ≤ claimed_wrap_width tbl opts rmargin dp + 1 ∧
      (rmargin = 0 → wrap_width tbl opts rmargin dp = 0)) := by
  refine ⟨?_, ?_, ?_, ?_⟩
  · unfold tblcalc_cell wrap_width
    rw [if_neg h1, if_neg h2]
    simp only []
    rw [if_neg (by omega), if_neg (by simp [h4])]
    exact ⟨_, rfl⟩
  · intro hb
    unfold wrap_width
    rw [if_pos hb]
  · intro hb hl
    unfold wrap_width
    rw [if_neg hb, if_pos hl]
  · intro hb hl
    obtain ⟨q1, q2, q3, q4⟩ := rounded_quotient rmargin opts.cols
    have hz : (0 + opts.cols / 2) / (opts.cols + 1) = 0 :=
      Nat.div_eq_of_lt (by omega)
    have hw : wrap_width tbl opts rmargin dp = (rmargin + opts.cols / 2) / (opts.cols + 1) := by
      unfold wrap_width
      rw [if_neg hb, if_neg (by simp [hl])]
      by_cases hr : rmargin = 0
      · rw [if_neg (by simp [hr]), hr, hz]
      · rw [if_pos hr]
    have hc : claimed_wrap_width tbl opts rmargin dp = rmargin / (opts.cols + 1) := by
      unfold claimed_wrap_width
      rw [if_neg hb, if_neg (by simp [hl])]
      by_cases hr : rmargin = 0
      · rw [if_neg (by omega), hr, Nat.zero_div]
      · rw [if_pos (by omega)]
    rw [hw, hc]
    refine ⟨rfl, q1, q2, q3, q4, ?_⟩
    intro hr
    rw [hr, hz]

set_option maxRecDepth 100000 in
/-- The text block "a b" in a table of three declared columns with the right
margin 11 is measured with the maximum line width 3. -/
theorem wrap_width_spec_witness :
    cell_block.block ≠ 0 ∧ layout_width tbl_unit cell_block.layout = 0 ∧
    wrap_width tbl_unit { cols := 3 } 11 cell_block = (11 + 3 / 2) / (3 + 1) :=
  ⟨by decide, by decide,
    ((wrap_width_spec tbl_unit { cols := 3 } 11
      { cols := List.replicate 3 {}, maxcol := -1, hspans := 1 } cell_block
      (by decide) (by decide) (by decide) (by decide)).2.2.2 (by decide) (by decide)).1⟩


/-- The value that the maximize step converts to `size_t` is not below 0. -/
theorem share_numerator_nonneg (A n : Nat) (q : Int) (k : Nat) :
    ¬ (10000 * (A : Int) * ((k + 1 : Nat) : Int) -
      10000 * (n : Int) * ((quirk_share A n q k : Nat) : Int) + 4995 * (n : Int) < 0) := by
  have h1 : quirk_share A n q k * (10000 * n) ≤ 10000 * A * k + 4995 * n :=
    le_trans (Nat.mul_le_mul_right _ (quirk_share_le A n q k))
      (Nat.div_mul_le_self _ _)
  have h2 : ((quirk_share A n q k : Nat) : Int) * (10000 * (n : Int)) ≤
      10000 * (A : Int) * (k : Int) + 4995 * (n : Int) := by exact_mod_cast h1
  have h3 : (0 : Int) ≤ 10000 * (A : Int) := by positivity
  push_cast
  nlinarith

/-- The width of the quirk column before it is decremented is at least 1 and
fits in a `size_t`. -/
theorem quirk_width_pos (A n : Nat) (q : Int) (k : Nat) (hn : 0 < n) (hq : quirk_ok A n q)
    (hA : A ≤ SIZE_MAX) (hk : ((k + 1 : Nat) : Int) = q) :
    n = 5 ∧ (k = 2 ∨ k = 3) ∧ 1 ≤ max_width A (k + 1) n (quirk_share A n q k) ∧
      max_width A (k + 1) n (quirk_share A n q k) ≤ SIZE_MAX + 1 := by
  have hle : quirk_share A n q k ≤ rounded_share A n (k + 1) :=
    le_trans (quirk_share_le A n q k) (rounded_share_mono A n k)
  rw [max_width_step A n (k + 1) _ hn hle]
  rcases hq with h | ⟨h5, hq34, hlt⟩
  · exfalso; omega
  · subst h5
    have h2 : ¬ ((k : Nat) : Int) = q := by omega
    have hstep := hlt k hk
    have hk' : k = 2 ∨ k = 3 := by omega
    have hb : rounded_share A 5 (k + 1) ≤ A + 1 := by
      unfold rounded_share
      rcases hk' with rfl | rfl <;> omega
    unfold quirk_share at *
    rw [if_neg h2] at hle ⊢
    refine ⟨rfl, hk', by omega, by omega⟩

theorem maximize_checked_eq (maxcol : Int) (A n : Nat) (q : Int) (hn : 0 < n)
    (hq : quirk_ok A n q) (hA : A ≤ SIZE_MAX) (cols : List roffcol) :
    ∀ (icol k : Nat),
      maximize_checked maxcol A n q icol cols k (quirk_share A n q k) =
        some (maximize_loop maxcol A n q icol cols k (quirk_share A n q k)) := by
  induction cols with
  | nil => intro icol k; rfl
  | cons c rest ih =>
    intro icol k
    rw [maximize_checked, maximize_loop]
    by_cases hin : (icol : Int) ≤ maxcol
    · rw [if_pos hin, if_pos hin]
      by_cases hw : ¬ c.flags.WMAX = true
      · rw [if_pos hw, if_pos hw, ih]
        rfl
      · rw [if_neg hw, if_neg hw]
        simp only []
        rw [if_neg (share_numerator_nonneg A n q k)]
        have hstep := quirk_step A n q k hn hq hA
        by_cases hk : ((k + 1 : Nat) : Int) = q
        · obtain ⟨-, -, h1, h2⟩ := quirk_width_pos A n q k hn hq hA hk
          rw [if_pos hk] at hstep
          rw [if_neg (by omega), if_pos hk, if_pos hk, ← size_dec_pos _ h1 h2, hstep, ih]
          rfl
        · rw [if_neg hk] at hstep
          rw [if_neg (fun h => hk h.1), if_neg hk, if_neg hk, hstep, ih]
          rfl
    · rw [if_neg hin, if_neg hin]

/-- C35: the quirk never underflows.  For every available width `A` that a
`size_t` holds and every number `n > 0` of columns to maximize, the maximize
loop of `tblcalc`, run on any column array, never converts a value below 0 to
`size_t` and never applies `col->width--` to the width 0: the loop with these
two conversions checked returns the same columns as the loop itself.  The
decrement is applied only to the third or fourth of five columns, whose width
is at least 1 before it.  In the maximize case `tblcalc_solve` is this loop,
run with the available width `rmargin - offset - xwidth`. -/
theorem quirk_never_underflows (maxcol : Int) (A n : Nat) (cols : List roffcol) (hn : 0 < n)
    (hA : A ≤ SIZE_MAX) :
    maximize_checked maxcol A n (quirk_col A n) 0 cols 0 0 =
      some (maximize_loop maxcol A n (quirk_col A n) 0 cols 0 0) ∧
    (∀ k : Nat, ((k + 1 : Nat) : Int) = quirk_col A n →
      n = 5 ∧ (k = 2 ∨ k = 3) ∧
      1 ≤ max_width A (k + 1) n (quirk_share A n (quirk_col A n) k)) ∧
    (∀ k : Nat, 0 ≤ 10000 * (A : Int) * ((k + 1 : Nat) : Int) -
      10000 * (n : Int) * ((quirk_share A n (quirk_col A n) k : Nat) : Int) +
      4995 * (n : Int)) ∧
    (∀ (opts : tbl_opts) (c0 : List roffcol) (offset rmargin : Nat),
      (tblcalc_equalized c0 maxcol rmargin).2.nxcol = n → rmargin ≠ 0 →
      ¬ ((rmargin : Int) ≤ (offset : Int) +
        fixed_width opts maxcol (tblcalc_equalized c0 maxcol rmargin).2) →
      A = ((rmargin : Int) - offset -
        fixed_width opts maxcol (tblcalc_equalized c0 maxcol rmargin).2).toNat →
      tblcalc_solve opts c0 maxcol offset rmargin =
        maximize_loop maxcol A n (quirk_col A n) 0 (tblcalc_equalized c0 maxcol rmargin).1 0 0) := by
  have hq := quirk_col_cases A n (quirk_col A n) rfl
  refine ⟨?_, ?_, ?_, ?_⟩
  · have h := maximize_checked_eq maxcol A n (quirk_col A n) hn hq hA cols 0 0
    rw [quirk_share_zero] at h
    exact h
  · intro k hk
    obtain ⟨a, b, c, -⟩ := quirk_width_pos A n (quirk_col A n) k hn hq hA hk
    exact ⟨a, b, c⟩
  · intro k
    exact not_lt.1 (share_numerator_nonneg A n (quirk_col A n) k)
  · intro opts c0 offset rmargin hnx hr hgive hAeq
    unfold tblcalc_solve
    simp only []
    rw [if_pos ⟨by omega, hr⟩, if_neg hgive, hnx, ← hAeq]

set_option maxRecDepth 100000 in
/-- Five columns to maximize and 72 units to distribute: the quirk column is
the fourth, its width 15 is decremented to 14, and the widths are 14, 15, 14,
14, 15. -/
theorem quirk_never_underflows_witness :
    0 < 5 ∧ 72 ≤ SIZE_MAX ∧ quirk_col 72 5 = 4 ∧
    (maximize_checked 4 72 5 (quirk_col 72 5) 0 cols_five 0 0).map
      (fun t => t.map (fun c => c.width)) = some [14, 15, 14, 14, 15] ∧
    maximize_checked 4 72 5 (quirk_col 72 5) 0 cols_five 0 0 =
      some (maximize_loop 4 72 5 (quirk_col 72 5) 0 cols_five 0 0) :=
  ⟨by decide, by decide, by decide, by decide,
    (quirk_never_underflows 4 72 5 cols_five (by decide) (by decide)).1⟩


theorem getD_set_cases (cols : List roffcol) (k : Nat) (x : roffcol) (j : Nat) :
    (cols.set k x).getD j {} = cols.getD j {} ∨
      (j = k ∧ k < cols.length ∧ (cols.set k x).getD j {} = x) := by
  by_cases hkj : k = j
  · subst hkj
    by_cases hk : k < cols.length
    · right
      exact ⟨rfl, hk, by simp [List.getD_eq_getElem?_getD, List.getElem?_set, hk]⟩
    · left
      have hn : cols[k]? = none := List.getElem?_eq_none (by omega)
      simp [List.getD_eq_getElem?_getD, List.getElem?_set, hk, hn]
  · left
    simp [List.getD_eq_getElem?_getD, List.getElem?_set, hkj]

theorem getD_set_self (cols : List roffcol) (k : Nat) (x : roffcol) (h : k < cols.length) :
    (cols.set k x).getD k {} = x := by
  simp [List.getD_eq_getElem?_getD, List.getElem?_set, h]

theorem set_width_ge (cols : List roffcol) (k : Nat) (x : roffcol)
    (hx : (cols.getD k {}).width ≤ x.width) (j : Nat) :
    (cols.getD j {}).width ≤ ((cols.set k x).getD j {}).width := by
  rcases getD_set_cases cols k x j with h | ⟨rfl, -, h⟩
  · rw [h]
  · rw [h]; exact hx

theorem grow_maxcol_width (icol : Nat) :
    ∀ (fuel : Nat) (cols : List roffcol) (m : Int),
      (∀ j : Nat, ((grow_maxcol icol fuel cols m).1.getD j {}).width = (cols.getD j {}).width) ∧
      (grow_maxcol icol fuel cols m).1.length = cols.length := by
  intro fuel
  induction fuel with
  | zero => intro cols m; exact ⟨fun _ => rfl, rfl⟩
  | succ f ih =>
    intro cols m
    rw [grow_maxcol]
    split
    · obtain ⟨a, b⟩ := ih (cols.set (m + 1).toNat
        { cols.getD (m + 1).toNat {} with spacing := SIZE_MAX }) (m + 1)
      refine ⟨?_, by rw [b, List.length_set]⟩
      intro j
      rw [a j]
      rcases getD_set_cases cols (m + 1).toNat
        { cols.getD (m + 1).toNat {} with spacing := SIZE_MAX } j with h | ⟨rfl, -, h⟩
      · rw [h]
      · rw [h]
    · exact ⟨fun _ => rfl, rfl⟩

theorem literal_loop_ge (slen : List Char → Nat) (mw : Nat) :
    ∀ (fuel : Nat) (s : List Char) (lsz w : Nat), w ≤ literal_loop slen mw fuel s lsz w := by
  intro fuel
  induction fuel with
  | zero => intro s lsz w; exact le_refl _
  | succ f ih =>
    intro s lsz w
    rw [literal_loop]
    split
    · exact le_refl _
    · simp only []
      exact le_trans (by split_ifs <;> omega) (ih _ _ _)

theorem tblcalc_literal_width_ge (tbl : rofftbl) (col : roffcol) (dp : tbl_dat) (mw : Nat) :
    col.width ≤ (tblcalc_literal tbl col dp mw).width := by
  unfold tblcalc_literal
  split
  · exact le_refl _
  · exact le_refl _
  · exact literal_loop_ge _ _ _ _ _ _

theorem tblcalc_number_width_ge (tbl : rofftbl) (opts : tbl_opts) (col : roffcol)
    (dp : tbl_dat) : col.width ≤ (tblcalc_number tbl col opts dp).width := by
  unfold tblcalc_number
  split
  · exact le_refl _
  · exact le_refl _
  · simp only []
    split
    · split
      · rename_i h
        exact le_of_lt h
      · exact le_refl _
    · split <;> split <;> exact le_refl _

theorem tblcalc_data_width_ge (tbl : rofftbl) (opts : tbl_opts) (col : roffcol) (dp : tbl_dat)
    (mw : Nat) : col.width ≤ (tblcalc_data tbl col opts dp mw).width := by
  unfold tblcalc_data
  split
  · split
    · rename_i h
      exact le_of_lt h
    · exact le_refl _
  · split
    · rename_i h
      exact le_of_lt h
    · exact le_refl _
  · exact tblcalc_literal_width_ge tbl col dp mw
  · exact tblcalc_literal_width_ge tbl col dp mw
  · exact tblcalc_literal_width_ge tbl col dp mw
  · exact tblcalc_literal_width_ge tbl col dp mw
  · exact tblcalc_number_width_ge tbl opts col dp
  · exact le_refl _

theorem cell_fits_mono (tbl : rofftbl) (dp : tbl_dat) (w w1 : Nat) (h : cell_fits tbl dp w)
    (hle : w ≤ w1) : cell_fits tbl dp w1 := by
  obtain ⟨h1, h2⟩ := h
  refine ⟨le_trans h1 hle, ?_⟩
  intro hb hp s hs
  rcases h2 hb hp s hs with h3 | h3
  · exact Or.inl (le_trans h3 hle)
  · exact Or.inr h3

/-- A literal cell that is not in block mode is measured as one line. -/
theorem tblcalc_data_fits (tbl : rofftbl) (opts : tbl_opts) (col : roffcol) (dp : tbl_dat)
    (mw : Nat) (hlw : layout_width tbl dp.layout ≤ col.width) (hmw : dp.block = 0 → mw = 0) :
    cell_fits tbl dp (tblcalc_data tbl col opts dp mw).width := by
  refine ⟨le_trans hlw (tblcalc_data_width_ge tbl opts col dp mw), ?_⟩
  intro hb hp s hs
  have hlit : tblcalc_data tbl col opts dp mw = tblcalc_literal tbl col dp 0 := by
    rw [hmw hb]
    unfold tblcalc_data
    revert hp
    cases dp.layout.pos <;> simp [is_literal_pos]
  rw [hlit]
  unfold tblcalc_literal
  rw [hs]
  cases s with
  | nil =>
    by_cases h0 : tbl.slen [] = 0
    · left; rw [h0]; exact Nat.zero_le _
    · right; exact ⟨rfl, h0⟩
  | cons c r =>
    left
    show tbl.slen (c :: r) ≤ literal_loop tbl.slen 0 ((c :: r).length + 1) (c :: r) 0 col.width
    rw [literal_loop_zero _ _ _ _ _ (by simp)]
    exact le_max_right _ _

theorem ite_spacing_width (c : Prop) [Decidable c] (a : roffcol) (s : Nat) :
    (if c then { a with spacing := s } else a).width = a.width := by
  split <;> rfl

theorem ite_width_max (a : roffcol) (lw : Nat) :
    (if a.width < lw then { a with width := lw } else a).width = max a.width lw := by
  split
  · show lw = max a.width lw
    omega
  · show a.width = max a.width lw
    omega

/-- The body of the first pass for a cell that is measured: the column is
first made as wide as the layout asks, then `tblcalc_data` measures the cell
with the maximum line width `wrap_width`. -/
theorem tblcalc_cell_measured (tbl : rofftbl) (opts : tbl_opts) (rmargin : Nat) (st : pass1)
    (dp : tbl_dat) (h1 : ¬ 0 < st.hspans - 1) (h2 : ¬ 1 < dp.hspans)
    (h3 : dp.layout.col < opts.cols) (h4 : dp.layout.flags.WIGN = false) :
    ∃ col : roffcol,
      col.width = max ((grow_maxcol dp.layout.col (dp.layout.col + 1) st.cols
        st.maxcol).1.getD dp.layout.col {}).width (layout_width tbl dp.layout) ∧
      tblcalc_cell tbl opts rmargin st dp =
        some ⟨(grow_maxcol dp.layout.col (dp.layout.col + 1) st.cols st.maxcol).1.set
            dp.layout.col (tblcalc_data tbl col opts dp (wrap_width tbl opts rmargin dp)),
          (grow_maxcol dp.layout.col (dp.layout.col + 1) st.cols st.maxcol).2, dp.hspans⟩ := by
  unfold tblcalc_cell wrap_width
  rw [if_neg h1, if_neg h2]
  simp only []
  rw [if_neg (by omega), if_neg (by simp [h4])]
  refine ⟨_, ?_, rfl⟩
  rw [ite_spacing_width]
  split <;> rename_i hlt <;> simp only [] <;> omega

/-- One data cell in the first pass: no column gets narrower, and a cell that
is measured fits in its column afterwards. -/
theorem tblcalc_cell_fit (tbl : rofftbl) (opts : tbl_opts) (rmargin : Nat) (st st1 : pass1)
    (dp : tbl_dat) (h : tblcalc_cell tbl opts rmargin st dp = some st1)
    (hlen : st.cols.length = opts.cols) :
    st1.cols.length = opts.cols ∧
    (∀ j : Nat, (st.cols.getD j {}).width ≤ (st1.cols.getD j {}).width) ∧
    st1.hspans = (if 0 < st.hspans - 1 then st.hspans - 1 else dp.hspans) ∧
    (¬ 0 < st.hspans - 1 → ¬ 1 < dp.hspans → dp.layout.flags.WIGN = false →
      cell_fits tbl dp (st1.cols.getD dp.layout.col {}).width) := by
  by_cases h1 : 0 < st.hspans - 1
  · unfold tblcalc_cell at h
    rw [if_pos h1] at h
    cases h
    exact ⟨hlen, fun _ => le_refl _, by simp [h1], fun hn => absurd h1 hn⟩
  · by_cases h2 : 1 < dp.hspans
    · unfold tblcalc_cell at h
      rw [if_neg h1, if_pos h2] at h
      cases h
      exact ⟨hlen, fun _ => le_refl _, by simp [h1], fun _ hn => absurd h2 hn⟩
    · by_cases h3 : opts.cols ≤ dp.layout.col
      · unfold tblcalc_cell at h
        rw [if_neg h1, if_neg h2] at h
        simp only [] at h
        rw [if_pos h3] at h
        cases h
      · obtain ⟨gw, gl⟩ := grow_maxcol_width dp.layout.col (dp.layout.col + 1) st.cols st.maxcol
        have hk : dp.layout.col <
            (grow_maxcol dp.layout.col (dp.layout.col + 1) st.cols st.maxcol).1.length := by
          rw [gl, hlen]; omega
        by_cases h4 : dp.layout.flags.WIGN = true
        · unfold tblcalc_cell at h
          rw [if_neg h1, if_neg h2] at h
          simp only [] at h
          rw [if_neg h3, if_pos h4] at h
          cases h
          refine ⟨by rw [List.length_set, gl, hlen], ?_, by simp [h1], ?_⟩
          · intro j
            rw [← gw j]
            apply set_width_ge
            exact le_refl _
          · intro _ _ hw
            rw [hw] at h4
            cases h4
        · have h4f : dp.layout.flags.WIGN = false := by simpa using h4
          obtain ⟨col, hcw, hc⟩ := tblcalc_cell_measured tbl opts rmargin st dp h1 h2
            (by omega) h4f
          rw [hc] at h
          cases h
          refine ⟨by rw [List.length_set, gl, hlen], ?_, by simp [h1], ?_⟩
          · intro j
            rw [← gw j]
            apply set_width_ge
            refine le_trans ?_ (tblcalc_data_width_ge _ _ _ _ _)
            rw [hcw]
            exact le_max_left _ _
          · intro _ _ _
            simp only []
            rw [getD_set_self _ _ _ hk]
            apply tblcalc_data_fits
            · rw [hcw]
              exact le_max_right _ _
            · intro hb
              unfold wrap_width
              rw [if_pos hb]

theorem tblcalc_cells_fit (tbl : rofftbl) (opts : tbl_opts) (rmargin : Nat)
    (cells : List tbl_dat) :
    ∀ (st st1 : pass1), tblcalc_cells tbl opts rmargin st cells = some st1 →
      st.cols.length = opts.cols →
      st1.cols.length = opts.cols ∧
      (∀ j : Nat, (st.cols.getD j {}).width ≤ (st1.cols.getD j {}).width) ∧
      (∀ dp ∈ measured_cells st.hspans cells, dp.layout.flags.WIGN = false →
        cell_fits tbl dp (st1.cols.getD dp.layout.col {}).width) := by
  induction cells with
  | nil =>
    intro st st1 h hlen
    simp only [tblcalc_cells, Option.some.injEq] at h
    subst h
    exact ⟨hlen, fun _ => le_refl _, fun dp hdp => by simp [measured_cells] at hdp⟩
  | cons d rest ih =>
    intro st st1 h hlen
    rw [tblcalc_cells] at h
    cases hc : tblcalc_cell tbl opts rmargin st d with
    | none => rw [hc] at h; cases h
    | some st2 =>
      rw [hc] at h
      simp only [] at h
      obtain ⟨a1, a2, a3, a4⟩ := tblcalc_cell_fit tbl opts rmargin st st2 d hc hlen
      obtain ⟨b1, b2, b3⟩ := ih st2 st1 h a1
      refine ⟨b1, fun j => le_trans (a2 j) (b2 j), ?_⟩
      intro dp hdp hw
      rw [measured_cells] at hdp
      by_cases h1 : 0 < st.hspans - 1
      · rw [if_pos h1] at hdp a3
        rw [← a3] at hdp
        exact b3 dp hdp hw
      · rw [if_neg h1] at hdp a3
        by_cases h2 : 1 < d.hspans
        · rw [if_pos h2, ← a3] at hdp
          exact b3 dp hdp hw
        · rw [if_neg h2, ← a3] at hdp
          rcases List.mem_cons.1 hdp with rfl | hdp
          · exact cell_fits_mono tbl dp _ _ (a4 h1 h2 hw) (b2 _)
          · exact b3 dp hdp hw

theorem tblcalc_spans_fit (tbl : rofftbl) (opts : tbl_opts) (rmargin : Nat)
    (spans : List tbl_span) :
    ∀ (cols cols1 : List roffcol) (m m1 : Int),
      tblcalc_spans tbl opts rmargin cols m spans = some (cols1, m1) →
      cols.length = opts.cols →
      cols1.length = opts.cols ∧
      (∀ j : Nat, (cols.getD j {}).width ≤ (cols1.getD j {}).width) ∧
      (∀ sp ∈ spans, sp.pos = tbl_spant.TBL_SPAN_DATA →
        ∀ dp ∈ measured_cells 1 sp.first, dp.layout.flags.WIGN = false →
          cell_fits tbl dp (cols1.getD dp.layout.col {}).width) := by
  induction spans with
  | nil =>
    intro cols cols1 m m1 h hlen
    simp only [tblcalc_spans, Option.some.injEq, Prod.mk.injEq] at h
    obtain ⟨rfl, rfl⟩ := h
    exact ⟨hlen, fun _ => le_refl _, fun sp hsp => by simp at hsp⟩
  | cons s rest ih =>
    intro cols cols1 m m1 h hlen
    rw [tblcalc_spans] at h
    by_cases hp : s.pos ≠ tbl_spant.TBL_SPAN_DATA
    · rw [if_pos hp] at h
      obtain ⟨a1, a2, a3⟩ := ih cols cols1 m m1 h hlen
      refine ⟨a1, a2, ?_⟩
      intro sp hsp hpos
      rcases List.mem_cons.1 hsp with rfl | hsp
      · exact absurd hpos hp
      · exact a3 sp hsp hpos
    · rw [if_neg hp] at h
      cases hc : tblcalc_cells tbl opts rmargin { cols := cols, maxcol := m, hspans := 1 }
          s.first with
      | none => rw [hc] at h; cases h
      | some st =>
        rw [hc] at h
        simp only [] at h
        obtain ⟨b1, b2, b3⟩ := tblcalc_cells_fit tbl opts rmargin s.first _ st hc hlen
        obtain ⟨a1, a2, a3⟩ := ih st.cols cols1 st.maxcol m1 h b1
        refine ⟨a1, fun j => le_trans (b2 j) (a2 j), ?_⟩
        intro sp hsp hpos
        rcases List.mem_cons.1 hsp with rfl | hsp
        · intro dp hdp hw
          exact cell_fits_mono tbl dp _ _ (b3 dp hdp hw) (a2 _)
        · exact a3 sp hsp hpos

theorem align_col_width_ge (maxcol : Int) (icol : Nat) (c : roffcol) (a : counters) :
    c.width ≤ (align_col maxcol icol c a).1.width := by
  unfold align_col
  simp only []
  by_cases h1 : c.width > c.nwidth
  · simp only [h1, if_true]
    split <;> exact le_refl _
  · simp only [h1, if_false]
    split
    · show c.width ≤ c.nwidth
      omega
    · show c.width ≤ c.nwidth
      omega

theorem align_loop_width_ge (maxcol : Int) (cols : List roffcol) :
    ∀ (icol : Nat) (a : counters) (j : Nat),
      (cols.getD j {}).width ≤ ((align_loop maxcol icol cols a).1.getD j {}).width := by
  induction cols with
  | nil => intro icol a j; exact le_refl _
  | cons c rest ih =>
    intro icol a j
    rw [align_loop]
    split
    · cases j with
      | zero => exact align_col_width_ge maxcol icol c a
      | succ j =>
        simp only [List.getD_cons_succ]
        exact ih _ _ j
    · exact le_refl _

theorem equalize_loop_width_ge (maxcol : Int) (ew : Nat) (gate : Bool) (cols : List roffcol) :
    ∀ (icol xw : Nat), (∀ c ∈ cols, c.flags.EQUAL = true → c.width ≤ ew) →
      ∀ j : Nat, (cols.getD j {}).width ≤
        ((equalize_loop maxcol ew gate icol cols xw).1.getD j {}).width := by
  induction cols with
  | nil => intro icol xw _ j; exact le_refl _
  | cons c rest ih =>
    intro icol xw he j
    have hrest := fun xw1 => ih (icol + 1) xw1 (fun x hx => he x (by simp [hx]))
    rw [equalize_loop]
    split
    · split
      · cases j with
        | zero => exact le_refl _
        | succ j =>
          simp only [List.getD_cons_succ]
          exact hrest _ j
      · rename_i hE
        split
        · cases j with
          | zero => exact le_refl _
          | succ j =>
            simp only [List.getD_cons_succ]
            exact hrest _ j
        · cases j with
          | zero => exact he c (by simp) (by simpa using hE)
          | succ j =>
            simp only [List.getD_cons_succ]
            exact hrest _ j
    · exact le_refl _

theorem tblcalc_equalized_width_ge (cols : List roffcol) (maxcol : Int) (rmargin : Nat)
    (hu : unused_beyond maxcol 0 cols) (j : Nat) :
    (cols.getD j {}).width ≤ ((tblcalc_equalized cols maxcol rmargin).1.getD j {}).width := by
  have ha := align_loop_width_ge maxcol cols 0 {} j
  obtain ⟨-, -, -, a4, -, -, -⟩ := align_loop_spec maxcol cols 0 {} hu
  unfold tblcalc_equalized
  simp only []
  split
  · refine le_trans ha (equalize_loop_width_ge maxcol _ _ _ 0 _ ?_ j)
    intro c hc he
    rw [a4]
    exact le_trans (equal_max_ge _ c hc he) (le_max_right _ _)
  · exact ha

theorem maximize_loop_getD (maxcol : Int) (A n : Nat) (q : Int) (cols : List roffcol) :
    ∀ (icol k e j : Nat),
      ((maximize_loop maxcol A n q icol cols k e).getD j {}).flags = (cols.getD j {}).flags ∧
      ((cols.getD j {}).flags.WMAX = false →
        (maximize_loop maxcol A n q icol cols k e).getD j {} = cols.getD j {}) := by
  induction cols with
  | nil => intro icol k e j; exact ⟨rfl, fun _ => rfl⟩
  | cons c rest ih =>
    intro icol k e j
    rw [maximize_loop]
    split
    · split
      · cases j with
        | zero => exact ⟨rfl, fun _ => rfl⟩
        | succ j =>
          simp only [List.getD_cons_succ]
          exact ih _ _ _ j
      · rename_i hw
        cases j with
        | zero =>
          refine ⟨rfl, ?_⟩
          intro hf
          simp only [List.getD_cons_zero] at hf
          rw [hf] at hw
          exact absurd hw (by simp)
        | succ j =>
          simp only [List.getD_cons_succ]
          exact ih _ _ _ j
    · exact ⟨rfl, fun _ => rfl⟩

theorem getD_mem_or_default (cols : List roffcol) (j : Nat) :
    cols.getD j {} ∈ cols ∨ cols.getD j {} = {} := by
  rw [List.getD_eq_getElem?_getD]
  cases hq : cols[j]? with
  | none => right; rfl
  | some d => left; exact List.mem_iff_getElem?.2 ⟨j, hq⟩

/-- The second half of `tblcalc` makes no column narrower that the maximize
step does not give a new width, and leaves such a column at least as wide as
its numbers. -/
theorem tblcalc_solve_width_ge (opts : tbl_opts) (c1 : List roffcol) (maxcol : Int)
    (offset rmargin : Nat) (ho : ∀ c ∈ c1, c.decimal ≤ c.nwidth)
    (hu : unused_beyond maxcol 0 c1) (j : Nat)
    (hno : rmargin = 0 ∨
      ((tblcalc_solve opts c1 maxcol offset rmargin).getD j {}).flags.WMAX = false ∨
      (rmargin : Int) ≤ (offset : Int) +
        fixed_width opts maxcol (tblcalc_equalized c1 maxcol rmargin).2) :
    (c1.getD j {}).width ≤ ((tblcalc_solve opts c1 maxcol offset rmargin).getD j {}).width ∧
    ((tblcalc_solve opts c1 maxcol offset rmargin).getD j {}).nwidth ≤
      ((tblcalc_solve opts c1 maxcol offset rmargin).getD j {}).width := by
  have he := tblcalc_equalized_width_ge c1 maxcol rmargin hu j
  have hord : ((tblcalc_equalized c1 maxcol rmargin).1.getD j {}).nwidth ≤
      ((tblcalc_equalized c1 maxcol rmargin).1.getD j {}).width := by
    rcases getD_mem_or_default (tblcalc_equalized c1 maxcol rmargin).1 j with hm | hd
    · exact (tblcalc_equalized_ord c1 maxcol rmargin ho hu _ hm).1
    · rw [hd]
  have hsame : (tblcalc_solve opts c1 maxcol offset rmargin).getD j {} =
      (tblcalc_equalized c1 maxcol rmargin).1.getD j {} := by
    unfold tblcalc_solve at hno ⊢
    simp only [] at hno ⊢
    by_cases hgate : (tblcalc_equalized c1 maxcol rmargin).2.nxcol ≠ 0 ∧ rmargin ≠ 0
    · rw [if_pos hgate] at hno ⊢
      by_cases hgive : (rmargin : Int) ≤ (offset : Int) +
          fixed_width opts maxcol (tblcalc_equalized c1 maxcol rmargin).2
      · rw [if_pos hgive]
      · rw [if_neg hgive] at hno ⊢
        rcases hno with h0 | hw | hg
        · exact absurd h0 hgate.2
        · obtain ⟨m1, m2⟩ := maximize_loop_getD maxcol
            ((rmargin : Int) - offset -
              fixed_width opts maxcol (tblcalc_equalized c1 maxcol rmargin).2).toNat
            (tblcalc_equalized c1 maxcol rmargin).2.nxcol
            (quirk_col ((rmargin : Int) - offset -
              fixed_width opts maxcol (tblcalc_equalized c1 maxcol rmargin).2).toNat
              (tblcalc_equalized c1 maxcol rmargin).2.nxcol)
            (tblcalc_equalized c1 maxcol rmargin).1 0 0 0 j
          rw [m1] at hw
          exact m2 hw
        · exact absurd hg hgive
    · rw [if_neg hgate]
  rw [hsame]
  exact ⟨he, hord⟩

/-- C34: content fits its column.  Let `tblcalc` return the columns `cols`,
and let `dp` be a data cell of a data span that the first pass measures: it is
not consumed by a horizontal span and its layout does not carry WIGN.  If the
maximize step does not give the column of `dp` a new width (the right margin
is 0, or the column is not to be maximized, as in a table without WMAX
columns, or `tblcalc` gives up because the fixed part already reaches the
right margin), then that column lies within the array and its width is at
least the layout width of `dp`, at least the width of the text of `dp` when
`dp` is not in block mode and is a LONG, CENTRE, LEFT or RIGHT cell (an empty
text is not measured, and the callback is expected to give it the width 0),
and at least the column's `nwidth`. -/
theorem content_fits_column (tbl : rofftbl) (opts : tbl_opts) (spans : List tbl_span)
    (offset rmargin : Nat) (cols : List roffcol) (sp : tbl_span) (dp : tbl_dat)
    (h : tblcalc tbl opts spans offset rmargin = some cols)
    (hsp : sp ∈ spans) (hpos : sp.pos = tbl_spant.TBL_SPAN_DATA)
    (hdp : dp ∈ measured_cells 1 sp.first) (hw : dp.layout.flags.WIGN = false)
    (hno : rmargin = 0 ∨ (cols.getD dp.layout.col {}).flags.WMAX = false ∨
      ∃ c1 maxcol,
        tblcalc_spans tbl opts rmargin (List.replicate opts.cols {}) (-1) spans =
          some (c1, maxcol) ∧
        (rmargin : Int) ≤ (offset : Int) +
          fixed_width opts maxcol (tblcalc_equalized c1 maxcol rmargin).2) :
    layout_width tbl dp.layout ≤ (cols.getD dp.layout.col {}).width ∧
    (dp.block = 0 → is_literal_pos dp.layout.pos = true → ∀ s, dp.string = some s →
      tbl.slen s ≤ (cols.getD dp.layout.col {}).width ∨ (s = [] ∧ tbl.slen [] ≠ 0)) ∧
    (cols.getD dp.layout.col {}).nwidth ≤ (cols.getD dp.layout.col {}).width := by
  unfold tblcalc at h
  cases hp : tblcalc_spans tbl opts rmargin (List.replicate opts.cols {}) (-1) spans with
  | none => rw [hp] at h; cases h
  | some q =>
    obtain ⟨c1, maxcol⟩ := q
    rw [hp] at h hno
    simp only [Option.some.injEq] at h
    subst h
    obtain ⟨-, -, hu, -⟩ := tblcalc_pass1_inv tbl opts rmargin spans c1 maxcol hp
    have ho := tblcalc_spans_ord tbl opts rmargin spans _ c1 (-1) maxcol hp (by
      intro c hc
      rw [(List.mem_replicate.1 hc).2])
    obtain ⟨-, -, f3⟩ := tblcalc_spans_fit tbl opts rmargin spans _ c1 (-1) maxcol hp
      (List.length_replicate _ _)
    have hfit := f3 sp hsp hpos dp hdp hw
    have hno1 : rmargin = 0 ∨
        ((tblcalc_solve opts c1 maxcol offset rmargin).getD dp.layout.col {}).flags.WMAX = false ∨
        (rmargin : Int) ≤ (offset : Int) +
          fixed_width opts maxcol (tblcalc_equalized c1 maxcol rmargin).2 := by
      rcases hno with h0 | hwm | ⟨c2, m2, heq, hg⟩
      · exact Or.inl h0
      · exact Or.inr (Or.inl hwm)
      · simp only [Option.some.injEq, Prod.mk.injEq] at heq
        obtain ⟨rfl, rfl⟩ := heq
        exact Or.inr (Or.inr hg)
    obtain ⟨s1, s2⟩ := tblcalc_solve_width_ge opts c1 maxcol offset rmargin ho hu
      dp.layout.col hno1
    obtain ⟨g1, g2⟩ := cell_fits_mono tbl dp _ _ hfit s1
    exact ⟨g1, g2, s2⟩

set_option maxRecDepth 100000 in
/-- Three columns to equalize that hold texts of 4, 7 and 5 characters: the
second column is 7 wide, as wide as its text. -/
theorem content_fits_column_witness :
    tblcalc tbl_unit { cols := 3 } spans_equal 0 0 =
      some ((tblcalc tbl_unit { cols := 3 } spans_equal 0 0).getD []) ∧
    (((tblcalc tbl_unit { cols := 3 } spans_equal 0 0).getD []).getD 1 {}).width = 7 ∧
    (layout_width tbl_unit (cell 1 tbl_cellt.TBL_CELL_LEFT { EQUAL := true } "bbbbbbb").layout ≤
      (((tblcalc tbl_unit { cols := 3 } spans_equal 0 0).getD []).getD
        (cell 1 tbl_cellt.TBL_CELL_LEFT { EQUAL := true } "bbbbbbb").layout.col {}).width ∧
    ((cell 1 tbl_cellt.TBL_CELL_LEFT { EQUAL := true } "bbbbbbb").block = 0 →
      is_literal_pos (cell 1 tbl_cellt.TBL_CELL_LEFT { EQUAL := true } "bbbbbbb").layout.pos
        = true →
      ∀ s, (cell 1 tbl_cellt.TBL_CELL_LEFT { EQUAL := true } "bbbbbbb").string = some s →
        tbl_unit.slen s ≤ (((tblcalc tbl_unit { cols := 3 } spans_equal 0 0).getD []).getD
          (cell 1 tbl_cellt.TBL_CELL_LEFT { EQUAL := true } "bbbbbbb").layout.col {}).width ∨
        (s = [] ∧ tbl_unit.slen [] ≠ 0)) ∧
    ((((tblcalc tbl_unit { cols := 3 } spans_equal 0 0).getD []).getD
        (cell 1 tbl_cellt.TBL_CELL_LEFT { EQUAL := true } "bbbbbbb").layout.col {}).nwidth ≤
      (((tblcalc tbl_unit { cols := 3 } spans_equal 0 0).getD []).getD
        (cell 1 tbl_cellt.TBL_CELL_LEFT { EQUAL := true } "bbbbbbb").layout.col {}).width)) :=
  ⟨by decide, by decide,
    content_fits_column tbl_unit { cols := 3 } spans_equal 0 0 _
      (spans_equal.getD 0 ⟨tbl_spant.TBL_SPAN_DATA, []⟩)
      (cell 1 tbl_cellt.TBL_CELL_LEFT { EQUAL := true } "bbbbbbb")
      (by decide) (by decide) (by decide) (by decide) (by decide) (Or.inl rfl)⟩

end Out

/-! # Properties of the table renderer -/

namespace TblTerm

open Out

open Out

set_option maxRecDepth 100000 in
/-- C9 (the code departs from the claim): in the column that `tblcalc` solves
for the cells 12.5 and 100.125 (decimal 3, width 7), `tbl_number` pads neither
cell on the left, so that the decimal points are written in the output columns
2 and 3 and do not line up; the first cell is padded on the right to the
column width. -/
theorem tbl_number_misaligned :
    tblcalc tbl_unit { cols := 1 } spans_numbers 0 0 =
      some [{ width := 7, decimal := 3, nwidth := 7, spacing := 3 }] ∧
    tbl_number tbl_unit.slen { cols := 1 } (cell 0 tbl_cellt.TBL_CELL_NUMBER {} "12.5")
        { width := 7, decimal := 3, nwidth := 7, spacing := 3 } =
      some [term_op.word "12.5".toList, term_op.fontpopq, term_op.word [ASCII_NBRSP],
        term_op.word [ASCII_NBRSP], term_op.word [ASCII_NBRSP]] ∧
    tbl_number tbl_unit.slen { cols := 1 } (cell 0 tbl_cellt.TBL_CELL_NUMBER {} "100.125")
        { width := 7, decimal := 3, nwidth := 7, spacing := 3 } =
      some [term_op.word "100.125".toList, term_op.fontpopq] ∧
    point_column tbl_unit.slen { cols := 1 } "12.5".toList
        { width := 7, decimal := 3, nwidth := 7, spacing := 3 } = some 2 ∧
    point_column tbl_unit.slen { cols := 1 } "100.125".toList
        { width := 7, decimal := 3, nwidth := 7, spacing := 3 } = some 3 := by
  decide


theorem span_width_eq (cols : List roffcol) :
    ∀ (spans ic width w : Nat), span_width cols spans ic width = some w →
      w = field_width cols spans ic width := by
  intro spans
  induction spans with
  | zero =>
    intro ic width w h
    simp only [span_width, Option.some.injEq] at h
    simp [field_width, h]
  | succ n ih =>
    intro ic width w h
    rw [span_width] at h
    cases hq : cols[ic + 1]? with
    | none => rw [hq] at h; cases h
    | some c =>
      rw [hq] at h
      have := ih _ _ _ h
      rw [this]
      unfold field_width
      rw [List.range_succ_eq_map, List.map_cons, List.sum_cons, List.map_map]
      have hc : (cols.getD (ic + 0 + 1) {}).width = c.width := by
        rw [List.getD_eq_getElem?_getD, Nat.add_zero, hq]
        rfl
      rw [hc]
      have hf : ((fun k => (cols.getD (ic + k + 1) {}).width + 3) ∘ Nat.succ) =
          (fun k => (cols.getD (ic + 1 + k + 1) {}).width + 3) := by
        funext k
        simp only [Function.comp, Nat.succ_eq_add_one]
        rw [show ic + (k + 1) + 1 = ic + 1 + k + 1 by omega]
      rw [hf]
      omega

theorem span_width_total (cols : List roffcol) :
    ∀ (spans ic width : Nat), ic + spans < cols.length →
      ∃ w, span_width cols spans ic width = some w := by
  intro spans
  induction spans with
  | zero => intro ic width _; exact ⟨_, rfl⟩
  | succ n ih =>
    intro ic width h
    rw [span_width]
    have hlt : ic + 1 < cols.length := by omega
    rw [List.getElem?_eq_getElem hlt]
    exact ih _ _ (by omega)

theorem ops_width_append (strlen : List Char → Nat) (a b : List term_op) :
    ops_width strlen (a ++ b) = ops_width strlen a + ops_width strlen b := by
  induction a with
  | nil => simp [ops_width]
  | cons x a ih =>
    cases x with
    | word s => rw [List.cons_append, ops_width, ops_width, ih]; omega
    | fontpush_bold => exact ih
    | fontpush_under => exact ih
    | fontpopq => exact ih

theorem tbl_char_loop_width (strlen : List Char → Nat) (c : Char) (len : Nat)
    (h1 : strlen [c] = 1) :
    ∀ (fuel i : Nat), len ≤ i + fuel →
      ops_width strlen (tbl_char_loop c 1 len fuel i) = len - i := by
  intro fuel
  induction fuel with
  | zero =>
    intro i h
    simp only [tbl_char_loop, ops_width]
    omega
  | succ f ih =>
    intro i h
    rw [tbl_char_loop]
    by_cases hlt : i < len
    · rw [if_pos hlt, ops_width, h1, ih (i + 1) (by omega)]
      omega
    · rw [if_neg hlt, ops_width]
      omega

theorem tbl_char_width (strlen : List Char → Nat) (c : Char) (len : Nat) (h1 : strlen [c] = 1) :
    ∃ ops, tbl_char strlen c len = some ops ∧ ops_width strlen ops = len := by
  unfold tbl_char
  rw [if_neg (by rw [h1]; simp), h1]
  exact ⟨_, rfl, by rw [tbl_char_loop_width strlen c len h1 len 0 (by omega)]; omega⟩

theorem tbl_word_width (strlen : List Char → Nat) (dp : tbl_dat) (s : List Char)
    (hs : dp.string = some s) : ops_width strlen (tbl_word dp) = strlen s := by
  unfold tbl_word
  rw [hs]
  split
  · simp [ops_width]
  · split <;> simp [ops_width]

set_option maxRecDepth 100000 in
/-- C30, as stated, fails for LONG cells: on a device on which every
character, and so `term_len(tp, 1)`, is 2 units wide, a LONG cell with the
text ab (4 units) in a column 10 wide gets the padding (2, 4), not (1, 5):
`tbl_literal` writes one non-breaking space before the text and two after
it. -/
theorem tbl_literal_long_pads_term_len :
    literal_pad 2 tbl_cellt.TBL_CELL_LONG 10 4 = (2, 4) ∧
    tbl_literal (fun s => 2 * s.length) (fun n => 2 * n) [{ width := 10 }]
        (cell 0 tbl_cellt.TBL_CELL_LONG {} "ab") { width := 10 } =
      some [term_op.word [ASCII_NBRSP], term_op.word "ab".toList, term_op.fontpopq,
        term_op.word [ASCII_NBRSP], term_op.word [ASCII_NBRSP]] := by
  decide

/-- C30, amended: for a data cell with the text `s` whose spanned columns lie
inside the column array, `tbl_literal` writes the padding `padl`, the text and
the padding `padr`, where, with `w` the field width (the width of the column
plus, for each column spanned, its width and 3), `len` the width of the text
and `rem = w - len` cut off at 0, `(padl, padr)` is `(0, rem)` for LEFT,
`(rem, 0)` for RIGHT, `(rem / 2, (rem + 1) / 2)` for CENTRE and
`(term_len(tp, 1), rem - term_len(tp, 1))` cut off at 0 for LONG; for LEFT,
RIGHT and CENTRE `padl + len + padr` is the larger of `w` and `len`. -/
theorem tbl_literal_spec (strlen : List Char → Nat) (term_len : Nat → Nat) (cols : List roffcol)
    (dp : tbl_dat) (col : roffcol) (s : List Char) (hs : dp.string = some s)
    (hin : dp.layout.col + dp.spans < cols.length) :
    ∃ padl padr,
      tbl_literal strlen term_len cols dp col =
        (tbl_char strlen ASCII_NBRSP padl).bind (fun l =>
          (tbl_char strlen ASCII_NBRSP padr).bind (fun r => some (l ++ tbl_word dp ++ r))) ∧
      (dp.layout.pos = tbl_cellt.TBL_CELL_LEFT →
        padl = 0 ∧ padr = field_width cols dp.spans dp.layout.col col.width - strlen s) ∧
      (dp.layout.pos = tbl_cellt.TBL_CELL_RIGHT →
        padl = field_width cols dp.spans dp.layout.col col.width - strlen s ∧ padr = 0) ∧
      (dp.layout.pos = tbl_cellt.TBL_CELL_CENTRE →
        padl = (field_width cols dp.spans dp.layout.col col.width - strlen s) / 2 ∧
        padr = (field_width cols dp.spans dp.layout.col col.width - strlen s + 1) / 2) ∧
      (dp.layout.pos = tbl_cellt.TBL_CELL_LONG →
        padl = term_len 1 ∧
        padr = field_width cols dp.spans dp.layout.col col.width - strlen s - term_len 1) ∧
      (dp.layout.pos = tbl_cellt.TBL_CELL_LEFT ∨ dp.layout.pos = tbl_cellt.TBL_CELL_RIGHT ∨
        dp.layout.pos = tbl_cellt.TBL_CELL_CENTRE →
        padl + strlen s + padr =
          max (field_width cols dp.spans dp.layout.col col.width) (strlen s)) ∧
      (strlen [ASCII_NBRSP] = 1 → ∃ ops, tbl_literal strlen term_len cols dp col = some ops ∧
        ops_width strlen ops = padl + strlen s + padr) := by
  obtain ⟨w, hw⟩ := span_width_total cols dp.spans dp.layout.col col.width hin
  have hf := span_width_eq cols _ _ _ _ hw
  have hlit : tbl_literal strlen term_len cols dp col =
      (tbl_char strlen ASCII_NBRSP (literal_pad (term_len 1) dp.layout.pos w (strlen s)).1).bind
        (fun l => (tbl_char strlen ASCII_NBRSP
          (literal_pad (term_len 1) dp.layout.pos w (strlen s)).2).bind
            (fun r => some (l ++ tbl_word dp ++ r))) := by
    unfold tbl_literal
    rw [hs]
    simp only []
    rw [hw]
    simp only []
    cases tbl_char strlen ASCII_NBRSP (literal_pad (term_len 1) dp.layout.pos w (strlen s)).1 <;>
      cases tbl_char strlen ASCII_NBRSP (literal_pad (term_len 1) dp.layout.pos w (strlen s)).2 <;>
      rfl
  refine ⟨(literal_pad (term_len 1) dp.layout.pos w (strlen s)).1,
    (literal_pad (term_len 1) dp.layout.pos w (strlen s)).2, hlit, ?_, ?_, ?_, ?_, ?_, ?_⟩
  · intro hp
    rw [hp, ← hf]
    unfold literal_pad
    simp only []
    constructor
    · trivial
    · show (if w > strlen s then w - strlen s else 0) = _
      split <;> omega
  · intro hp
    rw [hp, ← hf]
    unfold literal_pad
    simp only []
    constructor
    · show (if w > strlen s then w - strlen s else 0) = _
      split <;> omega
    · trivial
  · intro hp
    rw [hp, ← hf]
    unfold literal_pad
    simp only []
    have hr : (if w > strlen s then w - strlen s else 0) = w - strlen s := by
      split <;> omega
    rw [hr]
    by_cases h2 : 2 > w - strlen s
    · rw [if_pos h2]
      constructor
      · show 0 = _
        omega
      · show w - strlen s = _
        omega
    · rw [if_neg h2]
      constructor
      · rfl
      · show w - strlen s - (w - strlen s) / 2 = _
        omega
  · intro hp
    rw [hp, ← hf]
    unfold literal_pad
    simp only []
    have hr : (if w > strlen s then w - strlen s else 0) = w - strlen s := by
      split <;> omega
    rw [hr]
    constructor
    · trivial
    · show (if w - strlen s > term_len 1 then w - strlen s - term_len 1 else 0) = _
      split <;> omega
  · intro hp
    rw [← hf]
    unfold literal_pad
    simp only []
    have hr : (if w > strlen s then w - strlen s else 0) = w - strlen s := by
      split <;> omega
    rw [hr]
    rcases hp with hp | hp | hp <;> rw [hp] <;> simp only []
    · show 0 + strlen s + (w - strlen s) = _
      omega
    · show (w - strlen s) + strlen s + 0 = _
      omega
    · by_cases h2 : 2 > w - strlen s
      · rw [if_pos h2]
        show 0 + strlen s + (w - strlen s) = _
        omega
      · rw [if_neg h2]
        show (w - strlen s) / 2 + strlen s + (w - strlen s - (w - strlen s) / 2) = _
        omega
  · intro h1
    obtain ⟨l, hl, hlw⟩ := tbl_char_width strlen ASCII_NBRSP
      (literal_pad (term_len 1) dp.layout.pos w (strlen s)).1 h1
    obtain ⟨r, hr, hrw⟩ := tbl_char_width strlen ASCII_NBRSP
      (literal_pad (term_len 1) dp.layout.pos w (strlen s)).2 h1
    refine ⟨l ++ tbl_word dp ++ r, ?_, ?_⟩
    · rw [hlit, hl, hr]
      rfl
    · rw [ops_width_append, ops_width_append, hlw, hrw, tbl_word_width strlen dp s hs]

set_option maxRecDepth 100000 in
theorem tbl_literal_spec_witness :
    ∃ padl padr,
      tbl_literal tbl_unit.slen tbl_unit.len [{ width := 7 }, { width := 4 }]
          (cell 0 tbl_cellt.TBL_CELL_CENTRE {} "abc") { width := 7 } =
        (tbl_char tbl_unit.slen ASCII_NBRSP padl).bind (fun l =>
          (tbl_char tbl_unit.slen ASCII_NBRSP padr).bind (fun r =>
            some (l ++ tbl_word (cell 0 tbl_cellt.TBL_CELL_CENTRE {} "abc") ++ r))) ∧
      padl = 2 ∧ padr = 2 := by
  obtain ⟨padl, padr, h1, -, -, h4, -, -, -⟩ :=
    tbl_literal_spec tbl_unit.slen tbl_unit.len [{ width := 7 }, { width := 4 }]
      (cell 0 tbl_cellt.TBL_CELL_CENTRE {} "abc") { width := 7 } "abc".toList (by decide)
      (by decide)
  obtain ⟨h5, h6⟩ := h4 (by decide)
  exact ⟨padl, padr, h1, by rw [h5]; decide, by rw [h6]; decide⟩

end TblTerm

/-! # Properties of the validator -/

namespace Validate




theorem frame_refl (m : mdoc) : frame m m := ⟨[], by simp⟩

theorem frame_trans (m m1 m2 : mdoc) (h1 : frame m m1) (h2 : frame m1 m2) : frame m m2 := by
  obtain ⟨d1, rfl⟩ := h1
  obtain ⟨d2, rfl⟩ := h2
  exact ⟨d1 ++ d2, by simp⟩

theorem frame_emit (e : externs) (m : mdoc) (d : diag) (r : Bool × mdoc)
    (h : mdoc_emit e m d = some r) : frame m r.2 := by
  simp only [mdoc_emit, Option.some.injEq] at h
  subst h
  exact ⟨[d], rfl⟩

theorem frame_emit_last (e : externs) (m : mdoc) (l : diag_level) (msg : String)
    (r : Bool × mdoc) (h : mdoc_emit_last e m l msg = some r) : frame m r.2 := by
  unfold mdoc_emit_last at h
  split at h
  · cases h
  · exact frame_emit _ _ _ _ h

theorem frame_emit_node (e : externs) (m : mdoc) (n : mdoc_node) (l : diag_level) (msg : String)
    (r : Bool × mdoc) (h : mdoc_emit_node e m n l msg = some r) : frame m r.2 :=
  frame_emit _ _ _ _ h

theorem frame_ret (m : mdoc) (b : Bool) (r : Bool × mdoc) (h : some (b, m) = some r) :
    frame m r.2 := by
  cases h; exact frame_refl m

theorem frame_check_child (e : externs) (err : Bool) (op : ineq) (m : mdoc) (p : String)
    (sz : Nat) (r : Bool × mdoc) (h : check_child e err op m p sz = some r) : frame m r.2 := by
  unfold check_child at h
  repeat' split at h
  all_goals first
    | exact frame_emit_last _ _ _ _ _ h
    | exact frame_ret _ _ _ h
    | cases h

theorem frame_check_body (e : externs) (err : Bool) (op : ineq) (num : Nat) (m : mdoc)
    (r : Bool × mdoc) (h : check_body e err op num m = some r) : frame m r.2 := by
  unfold check_body at h
  repeat' split at h
  all_goals first
    | exact frame_check_child _ _ _ _ _ _ _ h
    | exact frame_ret _ _ _ h
    | cases h

theorem frame_check_elem (e : externs) (err : Bool) (op : ineq) (num : Nat) (m : mdoc)
    (r : Bool × mdoc) (h : check_elem e err op num m = some r) : frame m r.2 := by
  unfold check_elem at h
  repeat' split at h
  all_goals first
    | exact frame_check_child _ _ _ _ _ _ _ h
    | exact frame_ret _ _ _ h
    | cases h

theorem frame_check_head (e : externs) (err : Bool) (op : ineq) (num : Nat) (m : mdoc)
    (r : Bool × mdoc) (h : check_head e err op num m = some r) : frame m r.2 := by
  unfold check_head at h
  repeat' split at h
  all_goals first
    | exact frame_check_child _ _ _ _ _ _ _ h
    | exact frame_ret _ _ _ h
    | cases h

theorem frame_post_bf (e : externs) (m : mdoc) (r : Bool × mdoc)
    (h : post_bf e m = some r) : frame m r.2 := by
  unfold post_bf at h
  repeat' split at h
  all_goals first
    | exact frame_emit_last _ _ _ _ _ h
    | exact frame_emit_node _ _ _ _ _ _ h
    | exact frame_ret _ _ _ h
    | cases h

theorem frame_post_nm (e : externs) (m : mdoc) (r : Bool × mdoc)
    (h : post_nm e m = some r) : frame m r.2 := by
  unfold post_nm at h
  repeat' split at h
  all_goals first
    | exact frame_emit_last _ _ _ _ _ h
    | exact frame_emit_node _ _ _ _ _ _ h
    | exact frame_ret _ _ _ h
    | cases h

theorem frame_post_xr (e : externs) (m : mdoc) (r : Bool × mdoc)
    (h : post_xr e m = some r) : frame m r.2 := by
  unfold post_xr at h
  repeat' split at h
  all_goals first
    | exact frame_emit_last _ _ _ _ _ h
    | exact frame_emit_node _ _ _ _ _ _ h
    | exact frame_ret _ _ _ h
    | cases h

theorem frame_post_at (e : externs) (m : mdoc) (r : Bool × mdoc)
    (h : post_at e m = some r) : frame m r.2 := by
  unfold post_at at h
  repeat' split at h
  all_goals first
    | exact frame_emit_last _ _ _ _ _ h
    | exact frame_emit_node _ _ _ _ _ _ h
    | exact frame_ret _ _ _ h
    | cases h

theorem frame_post_an (e : externs) (m : mdoc) (r : Bool × mdoc)
    (h : post_an e m = some r) : frame m r.2 := by
  unfold post_an at h
  repeat' split at h
  all_goals first
    | exact frame_emit_last _ _ _ _ _ h
    | exact frame_emit_node _ _ _ _ _ _ h
    | exact frame_ret _ _ _ h
    | cases h

theorem frame_post_ex (e : externs) (m : mdoc) (r : Bool × mdoc)
    (h : post_ex e m = some r) : frame m r.2 := by
  unfold post_ex at h
  repeat' split at h
  all_goals first
    | exact frame_emit_last _ _ _ _ _ h
    | exact frame_emit_node _ _ _ _ _ _ h
    | exact frame_ret _ _ _ h
    | cases h

theorem frame_post_bl (e : externs) (m : mdoc) (r : Bool × mdoc)
    (h : post_bl e m = some r) : frame m r.2 := by
  unfold post_bl at h
  repeat' split at h
  all_goals first
    | exact frame_emit_last _ _ _ _ _ h
    | exact frame_emit_node _ _ _ _ _ _ h
    | exact frame_ret _ _ _ h
    | cases h

theorem frame_ebool (e : externs) (m : mdoc) (r : Bool × mdoc)
    (h : ebool e m = some r) : frame m r.2 := by
  unfold ebool at h
  repeat' split at h
  all_goals first
    | exact frame_emit_last _ _ _ _ _ h
    | exact frame_emit_node _ _ _ _ _ _ h
    | exact frame_ret _ _ _ h
    | cases h

theorem frame_post_root (e : externs) (m : mdoc) (r : Bool × mdoc)
    (h : post_root e m = some r) : frame m r.2 := by
  unfold post_root at h
  repeat' split at h
  all_goals first
    | exact frame_emit_last _ _ _ _ _ h
    | exact frame_emit_node _ _ _ _ _ _ h
    | exact frame_ret _ _ _ h
    | cases h

theorem frame_post_sh_head (e : externs) (m : mdoc) (r : Bool × mdoc)
    (h : post_sh_head e m = some r) : frame m r.2 := by
  unfold post_sh_head at h
  split at h
  · cases h
  · split at h
    · cases h
    · split at h
      · cases h
      · exact frame_emit_last _ _ _ _ _ h
      · simp only [] at h
        split_ifs at h
        all_goals first
          | exact frame_emit_last _ _ _ _ _ h
          | exact frame_ret _ _ _ h

theorem frame_it_warn (e : externs) (m : mdoc) (c : Bool) (msg : String) (r : Bool × mdoc)
    (h : it_warn e m c msg = some r) : frame m r.2 := by
  unfold it_warn at h
  split at h
  · exact frame_emit_last _ _ _ _ _ h
  · exact frame_ret _ _ _ h

theorem frame_post_it (e : externs) (m : mdoc) (r : Bool × mdoc)
    (h : post_it e m = some r) : frame m r.2 := by
  unfold post_it at h
  split at h
  · cases h
  · split at h
    · exact frame_ret _ _ _ h
    · split at h
      · simp only [] at h
        split at h
        · cases h
        · split at h
          · cases h
          · rename_i m1 hw1
            have f1 : frame m m1 := by
              split at hw1
              · exact frame_it_warn _ _ _ _ _ hw1
              · exact frame_it_warn _ _ _ _ _ hw1
            cases h
            exact f1
          · rename_i m1 hw1
            have f1 : frame m m1 := by
              split at hw1
              · exact frame_it_warn _ _ _ _ _ hw1
              · exact frame_it_warn _ _ _ _ _ hw1
            split at h
            · cases h
            · rename_i m2 hw2
              have f2 : frame m1 m2 := by
                split at hw2
                · exact frame_it_warn _ _ _ _ _ hw2
                · exact frame_it_warn _ _ _ _ _ hw2
              cases h
              exact frame_trans _ _ _ f1 f2
            · rename_i m2 hw2
              have f2 : frame m1 m2 := by
                split at hw2
                · exact frame_it_warn _ _ _ _ _ hw2
                · exact frame_it_warn _ _ _ _ _ hw2
              have f12 := frame_trans _ _ _ f1 f2
              split at h
              · cases h; exact f12
              · split at h
                · split at h
                  · cases h; exact f12
                  · exact frame_trans _ _ _ f12 (frame_emit_last _ _ _ _ _ h)
                · cases h
      · cases h

theorem frame_sh_body_loop (e : externs) (cs : List mdoc_node) :
    ∀ (m : mdoc) (r : Bool × mdoc), sh_body_loop e m cs = some r → frame m r.2 := by
  induction cs with
  | nil => intro m r h; exact frame_ret _ _ _ h
  | cons n rest ih =>
    intro m r h
    cases rest with
    | nil => exact frame_ret _ _ _ h
    | cons n1 rest =>
      simp only [sh_body_loop] at h
      split_ifs at h
      · exact ih _ _ h
      · exact ih _ _ h
      · split at h
        · cases h
        · rename_i m1 he
          cases h
          exact frame_emit_node _ _ _ _ _ _ he
        · rename_i m1 he
          exact frame_trans _ _ _ (frame_emit_node _ _ _ _ _ _ he) (ih _ _ h)

theorem frame_post_sh_body (e : externs) (m : mdoc) (r : Bool × mdoc)
    (h : post_sh_body e m = some r) : frame m r.2 := by
  unfold post_sh_body at h
  split at h
  · exact frame_ret _ _ _ h
  · split at h
    · cases h
    · exact frame_emit_last _ _ _ _ _ h
    · split at h
      · cases h
      · rename_i m1 hl
        cases h
        exact frame_sh_body_loop _ _ _ _ hl
      · rename_i m1 hl
        have f1 := frame_sh_body_loop _ _ _ _ hl
        split at h
        · cases h; exact f1
        · exact frame_trans _ _ _ f1 (frame_emit_last _ _ _ _ _ h)


theorem frame_post_sh (e : externs) (m : mdoc) (r : Bool × mdoc)
    (h : post_sh e m = some r) : frame m r.2 := by
  unfold post_sh at h
  split at h
  · cases h
  · split_ifs at h
    · exact frame_post_sh_head _ _ _ h
    · exact frame_post_sh_body _ _ _ h
    · exact frame_ret _ _ _ h

theorem frame_run (e : externs) (p : v_post) (m : mdoc) (r : Bool × mdoc)
    (h : p.run e m = some r) : frame m r.2 := by
  cases p
  case ebool => exact frame_ebool _ _ _ h
  case post_sh => exact frame_post_sh _ _ _ h
  case post_bl => exact frame_post_bl _ _ _ h
  case post_it => exact frame_post_it _ _ _ h
  case post_ex => exact frame_post_ex _ _ _ h
  case post_an => exact frame_post_an _ _ _ h
  case post_at => exact frame_post_at _ _ _ h
  case post_xr => exact frame_post_xr _ _ _ h
  case post_nm => exact frame_post_nm _ _ _ h
  case post_bf => exact frame_post_bf _ _ _ h
  all_goals first
    | exact frame_check_head _ _ _ _ _ _ h
    | exact frame_check_elem _ _ _ _ _ _ h
    | exact frame_check_body _ _ _ _ _ _ h

theorem frame_run_posts (e : externs) (ps : List v_post) :
    ∀ (m : mdoc) (r : Bool × mdoc), run_posts e ps m = some r → frame m r.2 := by
  induction ps with
  | nil => intro m r h; exact frame_ret _ _ _ h
  | cons p ps ih =>
    intro m r h
    simp only [run_posts] at h
    split at h
    · cases h
    · rename_i m1 hp
      cases h
      exact frame_run _ _ _ _ hp
    · rename_i m1 hp
      exact frame_trans _ _ _ (frame_run _ _ _ _ hp) (ih _ _ h)

/-- A call of `mdoc_valid_post` on a document whose current node carries the
flag returns success with the document unchanged. -/
theorem mdoc_valid_post_valid (e : externs) (m : mdoc) (last : mdoc_node)
    (hl : m.nodes[m.last]? = some last) (hv : last.VALID = true) :
    mdoc_valid_post e m = some (true, m) := by
  unfold mdoc_valid_post
  rw [hl]
  simp [hv]

/-- What a returning call of `mdoc_valid_post` leaves: the current node is
the same node with the flag set, every other node is as before, and the log
has only grown. -/
theorem mdoc_valid_post_frame (e : externs) (m : mdoc) (r : Bool × mdoc)
    (h : mdoc_valid_post e m = some r) :
    ∃ last, m.nodes[m.last]? = some last ∧
      frame { m with nodes := m.nodes.set m.last { last with VALID := true } } r.2 := by
  unfold mdoc_valid_post at h
  split at h
  · cases h
  · rename_i last hl
    refine ⟨last, hl, ?_⟩
    have hlt : m.last < m.nodes.length := by
      rcases List.getElem?_eq_some_iff.1 hl with ⟨hlt, _⟩
      exact hlt
    split at h
    · rename_i hv
      cases h
      have hset : m.nodes.set m.last { last with VALID := true } = m.nodes := by
        apply List.ext_getElem?
        intro i
        by_cases hi : i = m.last
        · subst hi
          rw [List.getElem?_set_self hlt, hl]
          congr 1
          cases last
          simp only [mdoc_node.mk.injEq, true_and, and_true] at hv ⊢
          simp_all
        · rw [List.getElem?_set_ne (Ne.symm hi)]
      rw [hset]
      exact frame_refl _
    · simp only [] at h
      split_ifs at h
      · exact frame_ret _ _ _ h
      · exact frame_post_root _ _ _ h
      · split at h
        · exact frame_ret _ _ _ h
        · exact frame_run_posts _ _ _ _ h

/-- C10: post-validation is idempotent through the VALID flag.  For a document
whose current node `last` exists, a call of `mdoc_valid_post` made when `last`
carries VALID returns success and leaves the document, its log included,
unchanged; and a call that returns leaves the document with VALID set on
`last`, nothing else changed but diagnostics added to the log, so that the
call after it, whatever the callbacks answer, returns success, emits nothing
and leaves the state of the first call. -/
theorem mdoc_valid_post_idempotent (e : externs) (m : mdoc) (last : mdoc_node)
    (hl : m.nodes[m.last]? = some last) :
    (last.VALID = true → mdoc_valid_post e m = some (true, m)) ∧
    (∀ (r : Bool) (m1 : mdoc), mdoc_valid_post e m = some (r, m1) →
      frame { m with nodes := m.nodes.set m.last { last with VALID := true } } m1 ∧
      m1.nodes[m1.last]? = some { last with VALID := true } ∧
      (∀ e2 : externs, mdoc_valid_post e2 m1 = some (true, m1))) := by
  refine ⟨fun hv => mdoc_valid_post_valid e m last hl hv, ?_⟩
  intro r m1 h
  obtain ⟨last1, hl1, hf⟩ := mdoc_valid_post_frame e m (r, m1) h
  rw [hl] at hl1
  cases hl1
  have hlt : m.last < m.nodes.length := by
    rcases List.getElem?_eq_some_iff.1 hl with ⟨hlt, _⟩
    exact hlt
  have hnode : m1.nodes[m1.last]? = some { last with VALID := true } := by
    obtain ⟨ds, hds⟩ := hf
    simp only [] at hds
    rw [hds]
    exact List.getElem?_set_self hlt
  exact ⟨hf, hnode, fun e2 => mdoc_valid_post_valid e2 m1 _ hnode rfl⟩

set_option maxRecDepth 100000 in
/-- The document `doc_pp`: the first call sets the flag and logs the warning
of the rule of `Pp`, and the statement of C10 holds of it. -/
theorem mdoc_valid_post_idempotent_witness :
    doc_pp.nodes[doc_pp.last]? = some node_pp ∧
    mdoc_valid_post externs_continue doc_pp = some (true, doc_pp_valid) ∧
    doc_pp_valid ≠ doc_pp ∧
    ((node_pp.VALID = true → mdoc_valid_post externs_continue doc_pp = some (true, doc_pp)) ∧
    (∀ (r : Bool) (m1 : mdoc), mdoc_valid_post externs_continue doc_pp = some (r, m1) →
      frame { doc_pp with
          nodes := doc_pp.nodes.set doc_pp.last { node_pp with VALID := true } } m1 ∧
      m1.nodes[m1.last]? = some { node_pp with VALID := true } ∧
      (∀ e2 : externs, mdoc_valid_post e2 m1 = some (true, m1)))) :=
  ⟨by decide, by decide, by decide,
    mdoc_valid_post_idempotent externs_continue doc_pp node_pp (by decide)⟩


theorem emit_ne_silent (e : externs) (m : mdoc) (d : diag) (b : Bool) :
    mdoc_emit e m d ≠ some (b, m) := by
  intro h
  simp only [mdoc_emit, Option.some.injEq, Prod.mk.injEq] at h
  have hl := congrArg mdoc.log h.2
  simp at hl

theorem emit_node_ne_silent (e : externs) (m : mdoc) (n : mdoc_node) (l : diag_level)
    (msg : String) (b : Bool) : mdoc_emit_node e m n l msg ≠ some (b, m) :=
  emit_ne_silent _ _ _ _

theorem emit_last_ne_silent (e : externs) (m : mdoc) (l : diag_level)
    (msg : String) (b : Bool) : mdoc_emit_last e m l msg ≠ some (b, m) := by
  unfold mdoc_emit_last
  split
  · simp
  · exact emit_ne_silent _ _ _ _

theorem emit_node_err_fst (e : externs) (he : err_aborts e) (m : mdoc) (n : mdoc_node)
    (msg : String) : (mdoc_emit_node e m n diag_level.ERR msg).map Prod.fst = some false := by
  have h := he { level := diag_level.ERR, line := n.line, pos := n.pos, msg := msg } rfl
  simp [mdoc_emit_node, mdoc_emit, h]

theorem run_pres_one (e : externs) (p : v_pre) (m : mdoc) (node : mdoc_node) :
    run_pres e [p] m node = p.run e m node := by
  simp only [run_pres]
  rcases h : p.run e m node with _ | ⟨b, m1⟩
  · rfl
  · cases b <;> rfl

theorem mdoc_valid_pre_prologue (e : externs) (m : mdoc) (node : mdoc_node)
    (htok : node.tok = mdoc_tok.MDOC_Dd ∨ node.tok = mdoc_tok.MDOC_Dt ∨
      node.tok = mdoc_tok.MDOC_Os)
    (h1 : node.type ≠ mdoc_type.MDOC_TEXT) (h2 : node.type ≠ mdoc_type.MDOC_ROOT) :
    mdoc_valid_pre e m node = pre_prologue e m node := by
  unfold mdoc_valid_pre
  rw [if_neg h1, if_neg h2]
  rcases htok with h | h | h <;> rw [h] <;>
    simp only [mdoc_valids_pre, pres_prologue, run_pres_one, v_pre.run]

/-- C11: the prologue rule.  For a `Dd`, `Dt` or `Os` node, `pre_prologue`
passes (returns success with no diagnostic, and, when errors abort, returns
success at all) exactly when `lastnamed` is `SEC_PROLOGUE` and for `Dd`
neither title nor date is set, for `Dt` the date is set and the title is not,
for `Os` title and date are set and os is not; in every other case it emits
one error at the node; with `lastnamed` not `SEC_PROLOGUE` the error is
"prologue only", and for a `Dt` in the prologue with no title and no date it
is "prologue out-of-order".  For a node that is neither text nor the root,
`mdoc_valid_pre` is this rule. -/
theorem pre_prologue_rule (e : externs) (m : mdoc) (node : mdoc_node)
    (htok : node.tok = mdoc_tok.MDOC_Dd ∨ node.tok = mdoc_tok.MDOC_Dt ∨
      node.tok = mdoc_tok.MDOC_Os) :
    (pre_prologue e m node = some (true, m) ↔ prologue_claim m node.tok) ∧
    (err_aborts e →
      ((pre_prologue e m node).map Prod.fst = some true ↔ prologue_claim m node.tok)) ∧
    (¬ prologue_claim m node.tok →
      ∃ msg, pre_prologue e m node = mdoc_emit_node e m node diag_level.ERR msg) ∧
    (m.lastnamed ≠ mdoc_sec.SEC_PROLOGUE →
      pre_prologue e m node = mdoc_emit_node e m node diag_level.ERR "prologue only") ∧
    (m.lastnamed = mdoc_sec.SEC_PROLOGUE → node.tok = mdoc_tok.MDOC_Dt →
      m.meta.title = none → m.meta.date = 0 →
      pre_prologue e m node = mdoc_emit_node e m node diag_level.ERR "prologue out-of-order") ∧
    (node.type ≠ mdoc_type.MDOC_TEXT → node.type ≠ mdoc_type.MDOC_ROOT →
      mdoc_valid_pre e m node = pre_prologue e m node) := by
  have key : (prologue_claim m node.tok ∧ pre_prologue e m node = some (true, m)) ∨
      (¬ prologue_claim m node.tok ∧
        ∃ msg, pre_prologue e m node = mdoc_emit_node e m node diag_level.ERR msg) := by
    by_cases hp : m.lastnamed = mdoc_sec.SEC_PROLOGUE
    · rcases htok with h | h | h
      · cases ht : m.meta.title <;> by_cases hd : m.meta.date = 0 <;>
          simp [pre_prologue, prologue_claim, prologue_order, prologue_fresh, hp, h, ht, hd]
      · cases ht : m.meta.title <;> by_cases hd : m.meta.date = 0 <;>
          simp [pre_prologue, prologue_claim, prologue_order, prologue_fresh, hp, h, ht, hd]
      · cases ht : m.meta.title <;> by_cases hd : m.meta.date = 0 <;>
          cases ho : m.meta.os <;>
          simp [pre_prologue, prologue_claim, prologue_order, prologue_fresh, hp, h, ht, hd, ho]
    · right
      refine ⟨fun hc => hp hc.1, "prologue only", ?_⟩
      simp [pre_prologue, hp]
  refine ⟨?_, ?_, ?_, ?_, ?_, mdoc_valid_pre_prologue e m node htok⟩
  · rcases key with ⟨hc, hr⟩ | ⟨hc, msg, hr⟩
    · exact ⟨fun _ => hc, fun _ => hr⟩
    · constructor
      · intro h
        rw [hr] at h
        exact absurd h (emit_node_ne_silent _ _ _ _ _ _)
      · intro h
        exact absurd h hc
  · intro he
    rcases key with ⟨hc, hr⟩ | ⟨hc, msg, hr⟩
    · rw [hr]
      exact ⟨fun _ => hc, fun _ => rfl⟩
    · rw [hr, emit_node_err_fst e he]
      constructor
      · intro h
        cases h
      · intro h
        exact absurd h hc
  · intro hc
    rcases key with ⟨hc1, _⟩ | ⟨_, hr⟩
    · exact absurd hc1 hc
    · exact hr
  · intro hp
    simp [pre_prologue, hp]
  · intro hp ht htt hd
    simp [pre_prologue, prologue_order, hp, ht, htt, hd]

set_option maxRecDepth 100000 in
/-- A `Dt` met in the prologue before any `Dd`: the error is "prologue
out-of-order" and the rule returns failure. -/
theorem pre_prologue_rule_witness :
    (node_dt.tok = mdoc_tok.MDOC_Dd ∨ node_dt.tok = mdoc_tok.MDOC_Dt ∨
      node_dt.tok = mdoc_tok.MDOC_Os) ∧
    pre_prologue externs_strict doc_prologue node_dt =
      some (false, { doc_prologue with log :=
        [ { level := diag_level.ERR, line := 1, pos := 1, msg := "prologue out-of-order" } ] }) ∧
    ((pre_prologue externs_strict doc_prologue node_dt = some (true, doc_prologue) ↔
      prologue_claim doc_prologue node_dt.tok) ∧
    (err_aborts externs_strict →
      ((pre_prologue externs_strict doc_prologue node_dt).map Prod.fst = some true ↔
        prologue_claim doc_prologue node_dt.tok)) ∧
    (¬ prologue_claim doc_prologue node_dt.tok →
      ∃ msg, pre_prologue externs_strict doc_prologue node_dt =
        mdoc_emit_node externs_strict doc_prologue node_dt diag_level.ERR msg) ∧
    (doc_prologue.lastnamed ≠ mdoc_sec.SEC_PROLOGUE →
      pre_prologue externs_strict doc_prologue node_dt =
        mdoc_emit_node externs_strict doc_prologue node_dt diag_level.ERR "prologue only") ∧
    (doc_prologue.lastnamed = mdoc_sec.SEC_PROLOGUE → node_dt.tok = mdoc_tok.MDOC_Dt →
      doc_prologue.meta.title = none → doc_prologue.meta.date = 0 →
      pre_prologue externs_strict doc_prologue node_dt =
        mdoc_emit_node externs_strict doc_prologue node_dt diag_level.ERR
          "prologue out-of-order") ∧
    (node_dt.type ≠ mdoc_type.MDOC_TEXT → node_dt.type ≠ mdoc_type.MDOC_ROOT →
      mdoc_valid_pre externs_strict doc_prologue node_dt =
        pre_prologue externs_strict doc_prologue node_dt)) :=
  ⟨by decide, by decide, pre_prologue_rule externs_strict doc_prologue node_dt (by decide)⟩


theorem display_loop_eq (nodes : List mdoc_node) :
    ∀ (fuel : Nat) (start : Option Nat) (l : List mdoc_node),
      ancestors nodes fuel start = some l →
      display_loop nodes fuel start = some (l.find? is_bd_block) := by
  intro fuel
  induction fuel with
  | zero =>
    intro start l h
    cases start with
    | none =>
      simp only [ancestors, Option.some.injEq] at h
      subst h
      rfl
    | some i => simp [ancestors] at h
  | succ f ih =>
    intro start l h
    cases start with
    | none =>
      simp only [ancestors, Option.some.injEq] at h
      subst h
      rfl
    | some i =>
      simp only [ancestors] at h
      simp only [display_loop]
      cases hn : nodes[i]? with
      | none => rw [hn] at h; simp at h
      | some n =>
        rw [hn] at h
        simp only [Option.map_eq_some'] at h
        obtain ⟨l1, hl1, rfl⟩ := h
        simp only []
        by_cases hb : n.type = mdoc_type.MDOC_BLOCK ∧ n.tok = mdoc_tok.MDOC_Bd
        · rw [if_pos hb]
          have : is_bd_block n = true := by simp [is_bd_block, hb]
          simp [List.find?, this]
        · rw [if_neg hb]
          have : is_bd_block n = false := by simp [is_bd_block, hb]
          rw [ih _ _ hl1]
          simp [List.find?, this]

theorem ancestors_succ (nodes : List mdoc_node) :
    ∀ (fuel : Nat) (start : Option Nat) (l : List mdoc_node),
      ancestors nodes fuel start = some l → ancestors nodes (fuel + 1) start = some l := by
  intro fuel
  induction fuel with
  | zero =>
    intro start l h
    cases start with
    | none => simpa [ancestors] using h
    | some i => simp [ancestors] at h
  | succ f ih =>
    intro start l h
    cases start with
    | none => simpa [ancestors] using h
    | some i =>
      rw [ancestors] at h
      rw [ancestors]
      cases hn : nodes[i]? with
      | none => rw [hn] at h; simp at h
      | some n =>
        rw [hn] at h
        simp only [Option.map_eq_some'] at h
        obtain ⟨l1, hl1, rfl⟩ := h
        simp only []
        rw [ih _ _ hl1]
        rfl

theorem pre_display_eq (e : externs) (m : mdoc) (node last : mdoc_node) (l : List mdoc_node)
    (hl : m.nodes[m.last]? = some last)
    (hanc : ancestors m.nodes m.nodes.length last.parent = some l)
    (hb : node.type = mdoc_type.MDOC_BLOCK) :
    pre_display e m node =
      if l.any is_bd_block then
        mdoc_emit_node e m node diag_level.ERR "displays may not be nested"
      else some (true, m) := by
  unfold pre_display
  rw [if_neg (by simp [hb]), hl]
  simp only []
  rw [display_loop_eq _ _ _ _ hanc]
  cases hf : l.find? is_bd_block with
  | none =>
    have : l.any is_bd_block = false := by
      rw [List.find?_eq_none] at hf
      simpa [List.any_eq_false] using hf
    simp [this]
  | some a =>
    have : l.any is_bd_block = true := by
      rw [List.any_eq_true]
      exact ⟨a, List.mem_of_find?_eq_some hf, List.find?_some hf⟩
    simp [this]

theorem emit_node_ne_pass (e : externs) (m : mdoc) (n : mdoc_node) (l : diag_level)
    (msg : String) : some (true, m) ≠ mdoc_emit_node e m n l msg :=
  fun h => emit_node_ne_silent e m n l msg true h.symm

/-- C12: display nesting.  `pre_display` walks the parent chain of the
current node `last`, beside or below which the node is being attached when it
is pre-validated.  When that chain ends, with `l` the ancestors of `last`: a
node that is no BLOCK passes `pre_display`; a BLOCK fails with "displays may
not be nested", reported at the node, if and only if some ancestor of `last`
is a `Bd` BLOCK, and passes in silence otherwise.  For a node attached beside
`last`, or below a `last` that is no `Bd` BLOCK, these are the ancestors of
the node itself: it fails if and only if one of its own ancestors is a `Bd`
BLOCK.  For `D1` and `Dl` the rule is all of `mdoc_valid_pre`, and for `Bd`
its error is the result of `mdoc_valid_pre` when errors abort. -/
theorem pre_display_rule (e : externs) (m : mdoc) (node last : mdoc_node) (l : List mdoc_node)
    (hl : m.nodes[m.last]? = some last)
    (hanc : ancestors m.nodes m.nodes.length last.parent = some l) :
    (node.type ≠ mdoc_type.MDOC_BLOCK → pre_display e m node = some (true, m)) ∧
    (node.type = mdoc_type.MDOC_BLOCK →
      (pre_display e m node =
          mdoc_emit_node e m node diag_level.ERR "displays may not be nested" ↔
        ∃ a ∈ l, is_bd_block a = true) ∧
      (pre_display e m node = some (true, m) ↔ ∀ a ∈ l, is_bd_block a = false) ∧
      (node.parent = last.parent ∨ (node.parent = some m.last ∧ is_bd_block last = false) →
        ∃ l1, ancestors m.nodes (m.nodes.length + 1) node.parent = some l1 ∧
          (pre_display e m node =
              mdoc_emit_node e m node diag_level.ERR "displays may not be nested" ↔
            ∃ a ∈ l1, is_bd_block a = true)) ∧
      (node.tok = mdoc_tok.MDOC_D1 ∨ node.tok = mdoc_tok.MDOC_Dl →
        mdoc_valid_pre e m node = pre_display e m node) ∧
      (node.tok = mdoc_tok.MDOC_Bd → err_aborts e → (∃ a ∈ l, is_bd_block a = true) →
        mdoc_valid_pre e m node =
          mdoc_emit_node e m node diag_level.ERR "displays may not be nested")) := by
  refine ⟨fun hn => by simp [pre_display, hn], fun hb => ?_⟩
  have heq := pre_display_eq e m node last l hl hanc hb
  have hfail : pre_display e m node =
      mdoc_emit_node e m node diag_level.ERR "displays may not be nested" ↔
      ∃ a ∈ l, is_bd_block a = true := by
    rw [heq]
    by_cases ha : l.any is_bd_block = true
    · rw [if_pos ha]
      rw [List.any_eq_true] at ha
      exact ⟨fun _ => ha, fun _ => rfl⟩
    · rw [if_neg ha]
      constructor
      · intro h
        exact absurd h (emit_node_ne_pass _ _ _ _ _)
      · intro h
        exact absurd (List.any_eq_true.2 h) ha
  have hpass : pre_display e m node = some (true, m) ↔ ∀ a ∈ l, is_bd_block a = false := by
    rw [heq]
    by_cases ha : l.any is_bd_block = true
    · rw [if_pos ha]
      constructor
      · intro h
        exact absurd h (emit_node_ne_silent _ _ _ _ _ _)
      · intro h
        rw [List.any_eq_true] at ha
        obtain ⟨a, hal, hab⟩ := ha
        rw [h a hal] at hab
        cases hab
    · rw [if_neg ha]
      refine ⟨fun _ a hal => ?_, fun _ => rfl⟩
      cases hab : is_bd_block a
      · rfl
      · exact absurd (List.any_eq_true.2 ⟨a, hal, hab⟩) ha
  have hnt : node.type ≠ mdoc_type.MDOC_TEXT := by rw [hb]; decide
  have hnr : node.type ≠ mdoc_type.MDOC_ROOT := by rw [hb]; decide
  refine ⟨hfail, hpass, ?_, ?_, ?_⟩
  · rintro (hp | ⟨hp, hlb⟩)
    · refine ⟨l, ?_, hfail⟩
      rw [hp]
      exact ancestors_succ _ _ _ _ hanc
    · refine ⟨last :: l, ?_, ?_⟩
      · rw [hp, ancestors, hl]
        simp only []
        rw [hanc]
        rfl
      · rw [hfail]
        constructor
        · rintro ⟨a, hal, hab⟩
          exact ⟨a, List.mem_cons_of_mem _ hal, hab⟩
        · rintro ⟨a, hal, hab⟩
          rcases List.mem_cons.1 hal with rfl | hal
          · rw [hlb] at hab
            cases hab
          · exact ⟨a, hal, hab⟩
  · intro ht
    unfold mdoc_valid_pre
    rw [if_neg hnt, if_neg hnr]
    rcases ht with h | h <;> rw [h] <;>
      simp only [mdoc_valids_pre, pres_d1, run_pres_one, v_pre.run]
  · intro ht he hex
    unfold mdoc_valid_pre
    rw [if_neg hnt, if_neg hnr, ht]
    simp only [mdoc_valids_pre, pres_bd, run_pres, v_pre.run]
    rw [hfail.2 hex]
    have h := he ⟨diag_level.ERR, node.line, node.pos, "displays may not be nested"⟩ rfl
    simp only [mdoc_emit_node, mdoc_emit, h]

theorem err_aborts_strict : err_aborts externs_strict := by
  intro d hd
  simp [externs_strict, hd]

set_option maxRecDepth 100000 in
/-- The scenario of the specification: with the current node at the body of
the outer `Bd`, the inner `Bd` block is rejected. -/
theorem pre_display_rule_witness :
    doc_nested.nodes[doc_nested.last]? = some node_outer_body ∧
    ancestors doc_nested.nodes doc_nested.nodes.length node_outer_body.parent =
      some anc_outer_body ∧
    pre_display externs_strict doc_nested node_inner_bd =
      mdoc_emit_node externs_strict doc_nested node_inner_bd diag_level.ERR
        "displays may not be nested" ∧
    mdoc_valid_pre externs_strict doc_nested node_inner_bd =
      mdoc_emit_node externs_strict doc_nested node_inner_bd diag_level.ERR
        "displays may not be nested" :=
  ⟨by decide, by decide,
    ((pre_display_rule externs_strict doc_nested node_inner_bd node_outer_body anc_outer_body
      (by decide) (by decide)).2 (by decide)).1.2 (by decide),
    ((pre_display_rule externs_strict doc_nested node_inner_bd node_outer_body anc_outer_body
      (by decide) (by decide)).2 (by decide)).2.2.2.2 (by decide) err_aborts_strict
      (by decide)⟩


theorem type_loop_pos (is_type : mdoc_argt → Bool) (args : List mdoc_arg) :
    ∀ t : Nat, t ≠ 0 →
      type_loop is_type args t =
        match args.filter (fun a => is_type a.arg) with
        | [] => Sum.inr t
        | a :: _ => Sum.inl a := by
  induction args with
  | nil => intro t _; rfl
  | cons a rest ih =>
    intro t ht
    by_cases ha : is_type a.arg = true
    · simp [type_loop, ha, ht]
    · simp only [type_loop, ha, Bool.false_eq_true, if_false]
      rw [ih t ht]
      simp [List.filter, ha]

theorem type_loop_zero (is_type : mdoc_argt → Bool) (args : List mdoc_arg) :
    type_loop is_type args 0 =
      match args.filter (fun a => is_type a.arg) with
      | [] => Sum.inr 0
      | [_] => Sum.inr 1
      | _ :: b :: _ => Sum.inl b := by
  induction args with
  | nil => rfl
  | cons a rest ih =>
    by_cases ha : is_type a.arg = true
    · simp only [type_loop, ha, if_true]
      rw [type_loop_pos is_type rest 1 (by decide)]
      simp only [List.filter, ha]
      cases rest.filter (fun a => is_type a.arg) with
      | nil => rfl
      | cons b r => rfl
    · simp only [type_loop, ha, Bool.false_eq_true, if_false]
      rw [ih]
      simp [List.filter, ha]

theorem pre_types_rule (is_type : mdoc_argt → Bool) (e : externs) (m : mdoc)
    (node last : mdoc_node) (hb : node.type = mdoc_type.MDOC_BLOCK)
    (hl : m.nodes[m.last]? = some last) :
    type_exclusive is_type e m node last (pre_types is_type e m node) := by
  unfold type_exclusive type_args pre_types
  rw [if_neg (by simp [hb]), type_loop_zero]
  generalize node.argv.filter (fun a => is_type a.arg) = fl
  rcases fl with _ | ⟨a, _ | ⟨b, r⟩⟩
  · simp only [ne_eq, not_true_eq_false, if_false, List.length_nil]
    refine ⟨?_, ?_, ?_⟩
    · constructor
      · intro h
        exact absurd h (emit_last_ne_silent _ _ _ _ _)
      · intro h
        cases h
    · intro _
      simp [mdoc_emit_last, hl]
    · intro a h
      simp at h
  · simp
  · simp only [List.length_cons]
    refine ⟨?_, ?_, ?_⟩
    · constructor
      · intro h
        exact absurd h (emit_ne_silent _ _ _ _)
      · intro h
        omega
    · intro h
      omega
    · intro a1 h
      simp only [List.getElem?_cons_succ, List.getElem?_cons_zero, Option.some.injEq] at h
      subst h
      rfl

/-- C13: type exclusivity.  On a BLOCK, with `last` the current node, `pre_bl`
(and `pre_bd`) passes in silence if and only if exactly one argument of the
block is in the list-type set Bullet, Dash, Enum, Hyphen, Item, Tag, Diag,
Hang, Ohang, Inset, Column (the display-type set Ragged, Unfilled, Filled,
Literal, File); with none it reports the error "no type specified", with two
or more the error "multiple types specified" at the position of the second
such argument.  For a `Bl` block, `pre_bl` is all of `mdoc_valid_pre`. -/
theorem pre_bl_bd_type_exclusive (e : externs) (m : mdoc) (node last : mdoc_node)
    (hb : node.type = mdoc_type.MDOC_BLOCK) (hl : m.nodes[m.last]? = some last) :
    type_exclusive is_list_type e m node last (pre_bl e m node) ∧
    type_exclusive is_display_type e m node last (pre_bd e m node) ∧
    (∀ a : mdoc_argt, is_list_type a = true ↔
      a ∈ [mdoc_argt.MDOC_Bullet, mdoc_argt.MDOC_Dash, mdoc_argt.MDOC_Enum,
        mdoc_argt.MDOC_Hyphen, mdoc_argt.MDOC_Item, mdoc_argt.MDOC_Tag, mdoc_argt.MDOC_Diag,
        mdoc_argt.MDOC_Hang, mdoc_argt.MDOC_Ohang, mdoc_argt.MDOC_Inset,
        mdoc_argt.MDOC_Column]) ∧
    (∀ a : mdoc_argt, is_display_type a = true ↔
      a ∈ [mdoc_argt.MDOC_Ragged, mdoc_argt.MDOC_Unfilled, mdoc_argt.MDOC_Filled,
        mdoc_argt.MDOC_Literal, mdoc_argt.MDOC_File]) ∧
    (node.tok = mdoc_tok.MDOC_Bl → mdoc_valid_pre e m node = pre_bl e m node) := by
  refine ⟨pre_types_rule is_list_type e m node last hb hl,
    pre_types_rule is_display_type e m node last hb hl, ?_, ?_, ?_⟩
  · intro a
    cases a <;> decide
  · intro a
    cases a <;> decide
  · intro ht
    unfold mdoc_valid_pre
    rw [if_neg (by rw [hb]; decide), if_neg (by rw [hb]; decide), ht]
    simp only [mdoc_valids_pre, pres_bl, run_pres_one, v_pre.run]

set_option maxRecDepth 100000 in
/-- A `Bl` block with `-tag` and `-column`: the error is reported at the
position of `-column`, the second list type. -/
theorem pre_bl_bd_type_exclusive_witness :
    node_bl_two_types.type = mdoc_type.MDOC_BLOCK ∧
    doc_prologue.nodes[doc_prologue.last]? = some { type := mdoc_type.MDOC_ROOT } ∧
    pre_bl externs_strict doc_prologue node_bl_two_types =
      some (false, { doc_prologue with
        log := [⟨diag_level.ERR, 4, 28, "multiple types specified"⟩] }) ∧
    pre_bd externs_strict doc_prologue node_bl_two_types =
      some (false, { doc_prologue with
        log := [⟨diag_level.ERR, 0, 0, "no type specified"⟩] }) ∧
    type_exclusive is_list_type externs_strict doc_prologue node_bl_two_types
      { type := mdoc_type.MDOC_ROOT } (pre_bl externs_strict doc_prologue node_bl_two_types) :=
  ⟨by decide, by decide, by decide, by decide,
    (pre_bl_bd_type_exclusive externs_strict doc_prologue node_bl_two_types
      { type := mdoc_type.MDOC_ROOT } (by decide) (by decide)).1⟩


set_option maxRecDepth 100000 in
/-- C14, a fault of the code: `post_it` compares the number of children of
the `It` head with the number of values of the first argument of the `Bl`,
whatever that argument is.  For `.Bl -width w -column a b c` and an `It` head
with three children, the `Column` argument has three values, yet the rule
fails with "need 1 columns (have 3)"; with the arguments in the other order
the same item passes. -/
theorem post_it_counts_first_argument :
    ((doc_it [arg_width, arg_column]).nodes[5]?.bind
      (fun h => children (doc_it [arg_width, arg_column]) h)).map List.length = some 3 ∧
    arg_column.arg = mdoc_argt.MDOC_Column ∧ arg_column.sz = 3 ∧
    it_scan [arg_width, arg_column] = (it_type.TYPE_OHEAD, some mdoc_argt.MDOC_Column) ∧
    post_it externs_strict (doc_it [arg_width, arg_column]) =
      some (false, { doc_it [arg_width, arg_column] with
        log := [⟨diag_level.ERR, 5, 1, "need 1 columns (have 3)"⟩] }) ∧
    mdoc_valid_post externs_strict (doc_it [arg_width, arg_column]) =
      some (false, { doc_it [arg_width, arg_column] with
        nodes := (doc_it [arg_width, arg_column]).nodes.set 4
          { type := mdoc_type.MDOC_BLOCK, tok := mdoc_tok.MDOC_It, line := 5, pos := 1,
            parent := some 3, child := some 5, head := some 5, body := some 9, VALID := true },
        log := [⟨diag_level.ERR, 5, 1, "need 1 columns (have 3)"⟩] }) ∧
    post_it externs_strict (doc_it [arg_column, arg_width]) =
      some (true, doc_it [arg_column, arg_width]) := by
  decide


theorem xstrcmp_iff (p : List Char) (q : String) : xstrcmp p q = true ↔ p = q.toList := by
  simp [xstrcmp]

theorem emit_last_err_fst (e : externs) (he : err_aborts e) (m : mdoc) (last : mdoc_node)
    (hl : m.nodes[m.last]? = some last) (msg : String) :
    (mdoc_emit_last e m diag_level.ERR msg).map Prod.fst = some false := by
  have h := he ⟨diag_level.ERR, last.line, last.pos, msg⟩ rfl
  simp [mdoc_emit_last, hl, mdoc_emit, h]

theorem post_bf_cases (e : externs) (m : mdoc) (last head : mdoc_node)
    (hl : m.nodes[m.last]? = some last) (hb : last.type = mdoc_type.MDOC_BLOCK)
    (hh : last.head.bind (fun h => m.nodes[h]?) = some head)
    (hc : ∀ c, head.child = some c → ∃ cn, m.nodes[c]? = some cn) :
    (bf_claim m last head ∧ post_bf e m = some (true, m)) ∨
    (¬ bf_claim m last head ∧ ∃ n msg, post_bf e m = mdoc_emit_node e m n diag_level.ERR msg) := by
  have hE : "Em".toList = ['E', 'm'] := rfl
  have hL : "Li".toList = ['L', 'i'] := rfl
  have hS : "Sm".toList = ['S', 'm'] := rfl
  have hlast : ∀ msg, mdoc_emit_last e m diag_level.ERR msg =
      mdoc_emit_node e m last diag_level.ERR msg := by
    intro msg
    simp [mdoc_emit_last, hl, mdoc_emit_node]
  unfold post_bf
  rw [hl]
  simp only [hb, ne_eq, not_true_eq_false, if_false, hh]
  by_cases h0 : last.argv.length = 0
  · rw [if_pos h0]
    cases hch : head.child with
    | none =>
      right
      refine ⟨?_, last, _, hlast _⟩
      rintro (⟨_, c, cn, h, _⟩ | ⟨h1, _⟩)
      · rw [hch] at h
        cases h
      · omega
    | some c =>
      obtain ⟨cn, hcn⟩ := hc c hch
      simp only [hcn]
      by_cases h1 : cn.string = ['E', 'm']
      · left
        refine ⟨Or.inl ⟨h0, c, cn, hch, hcn, Or.inl h1⟩, ?_⟩
        rw [if_pos ((xstrcmp_iff _ _).2 (by rw [hE]; exact h1))]
      · rw [if_neg (fun h => h1 (by rw [← hE]; exact (xstrcmp_iff _ _).1 h))]
        by_cases h2 : cn.string = ['L', 'i']
        · left
          refine ⟨Or.inl ⟨h0, c, cn, hch, hcn, Or.inr (Or.inl h2)⟩, ?_⟩
          rw [if_pos ((xstrcmp_iff _ _).2 (by rw [hL]; exact h2))]
        · rw [if_neg (fun h => h2 (by rw [← hL]; exact (xstrcmp_iff _ _).1 h))]
          by_cases h3 : cn.string = ['S', 'm']
          · left
            refine ⟨Or.inl ⟨h0, c, cn, hch, hcn, Or.inr (Or.inr h3)⟩, ?_⟩
            rw [if_pos ((xstrcmp_iff _ _).2 (by rw [hS]; exact h3))]
          · rw [if_neg (fun h => h3 (by rw [← hS]; exact (xstrcmp_iff _ _).1 h))]
            right
            refine ⟨?_, cn, _, rfl⟩
            rintro (⟨_, c1, cn1, hc1, hcn1, hs⟩ | ⟨hlen, _⟩)
            · rw [hch] at hc1
              cases hc1
              rw [hcn] at hcn1
              cases hcn1
              rcases hs with hs | hs | hs
              · exact h1 hs
              · exact h2 hs
              · exact h3 hs
            · omega
  · rw [if_neg h0]
    cases hch : head.child with
    | some c =>
      right
      simp only [Option.isSome_some, if_true]
      refine ⟨?_, last, _, hlast _⟩
      rintro (⟨hlen, _⟩ | ⟨_, h⟩)
      · exact h0 hlen
      · rw [hch] at h
        cases h
    | none =>
      simp only [Option.isSome_none, Bool.false_eq_true, if_false]
      by_cases h1 : last.argv.length = 1
      · left
        rw [if_pos h1]
        exact ⟨Or.inr ⟨h1, hch⟩, rfl⟩
      · right
        rw [if_neg h1]
        refine ⟨?_, last, _, hlast _⟩
        rintro (⟨hlen, _⟩ | ⟨hlen, _⟩)
        · exact h0 hlen
        · exact h1 hlen

theorem run_posts_bf (e : externs) (m : mdoc) (last : mdoc_node)
    (hl : m.nodes[m.last]? = some last) (hb : last.type = mdoc_type.MDOC_BLOCK) :
    run_posts e posts_bf m = post_bf e m := by
  simp only [posts_bf, run_posts, v_post.run, check_head, hl, hb]
  simp only [ne_eq, reduceCtorEq, not_false_eq_true, if_true]
  rcases h : post_bf e m with _ | ⟨b, m1⟩
  · rfl
  · cases b <;> rfl

/-- C15: the Bf post rule.  For a BLOCK as current node whose head (and the
head's first child, if any) can be read, `post_bf` passes in silence, and
when errors abort returns success at all, if and only if the block has no
argument and its head has a first child with the text Em, Li or Sm, or the
block has exactly one argument and its head has no child; every other shape
is reported as an error.  The rules of `Bf` as a whole, `posts_bf`, then do
what `post_bf` does. -/
theorem post_bf_rule (e : externs) (m : mdoc) (last head : mdoc_node)
    (hl : m.nodes[m.last]? = some last) (hb : last.type = mdoc_type.MDOC_BLOCK)
    (hh : last.head.bind (fun h => m.nodes[h]?) = some head)
    (hc : ∀ c, head.child = some c → ∃ cn, m.nodes[c]? = some cn) :
    (post_bf e m = some (true, m) ↔ bf_claim m last head) ∧
    (err_aborts e → ((post_bf e m).map Prod.fst = some true ↔ bf_claim m last head)) ∧
    (¬ bf_claim m last head →
      ∃ n msg, post_bf e m = mdoc_emit_node e m n diag_level.ERR msg) ∧
    run_posts e posts_bf m = post_bf e m := by
  refine ⟨?_, ?_, ?_, run_posts_bf e m last hl hb⟩
  · rcases post_bf_cases e m last head hl hb hh hc with ⟨hc1, hr⟩ | ⟨hc1, n, msg, hr⟩
    · exact ⟨fun _ => hc1, fun _ => hr⟩
    · rw [hr]
      exact ⟨fun h => absurd h (emit_node_ne_silent _ _ _ _ _ _), fun h => absurd h hc1⟩
  · intro he
    rcases post_bf_cases e m last head hl hb hh hc with ⟨hc1, hr⟩ | ⟨hc1, n, msg, hr⟩
    · rw [hr]
      exact ⟨fun _ => hc1, fun _ => rfl⟩
    · rw [hr, emit_node_err_fst e he]
      exact ⟨fun h => (by cases h), fun h => absurd h hc1⟩
  · intro hn
    rcases post_bf_cases e m last head hl hb hh hc with ⟨hc1, _⟩ | ⟨_, hr⟩
    · exact absurd hc1 hn
    · exact hr

set_option maxRecDepth 100000 in
/-- The block `.Bf Em` passes. -/
theorem post_bf_rule_witness :
    doc_bf.nodes[doc_bf.last]? = some node_bf ∧
    node_bf.type = mdoc_type.MDOC_BLOCK ∧
    node_bf.head.bind (fun h => doc_bf.nodes[h]?) = some node_bf_head ∧
    bf_claim doc_bf node_bf node_bf_head ∧
    post_bf externs_strict doc_bf = some (true, doc_bf) :=
  ⟨by decide, by decide, by decide,
    Or.inl ⟨by decide, 3, _, rfl, rfl, Or.inl rfl⟩,
    (post_bf_rule externs_strict doc_bf node_bf node_bf_head (by decide) (by decide)
      (by decide) (fun c h => by cases h; exact ⟨_, rfl⟩)).1.2
      (Or.inl ⟨by decide, 3, _, rfl, rfl, Or.inl rfl⟩)⟩


theorem frame_log_le (m m1 : mdoc) (h : frame m m1) : m.log.length ≤ m1.log.length := by
  obtain ⟨ds, rfl⟩ := h
  simp

theorem frame_nodes (m m1 : mdoc) (h : frame m m1) : m1.nodes = m.nodes ∧ m1.last = m.last := by
  obtain ⟨ds, rfl⟩ := h
  exact ⟨rfl, rfl⟩

theorem emit_log (e : externs) (m : mdoc) (d : diag) :
    ∃ r, mdoc_emit e m d = some r ∧ r.2.log.length = m.log.length + 1 ∧ frame m r.2 :=
  ⟨_, rfl, by simp, ⟨[d], rfl⟩⟩

theorem emit_last_log (e : externs) (m : mdoc) (last : mdoc_node)
    (hl : m.nodes[m.last]? = some last) (l : diag_level) (msg : String) :
    ∃ r, mdoc_emit_last e m l msg = some r ∧ r.2.log.length = m.log.length + 1 ∧
      frame m r.2 := by
  unfold mdoc_emit_last
  rw [hl]
  exact emit_log _ _ _

theorem sh_body_loop_silent (e : externs) (m : mdoc) (cs : List mdoc_node) :
    (∀ n ∈ cs.dropLast, is_name_child n = true) → sh_body_loop e m cs = some (true, m) := by
  induction cs with
  | nil => intro _; rfl
  | cons n rest ih =>
    intro h
    cases rest with
    | nil => rfl
    | cons n1 rest =>
      have hn : is_name_child n = true := h n (by simp [List.dropLast])
      have hrest : ∀ x ∈ (n1 :: rest).dropLast, is_name_child x = true := by
        intro x hx
        exact h x (by simp only [List.dropLast_cons₂]; exact List.mem_cons_of_mem _ hx)
      simp only [sh_body_loop]
      simp only [is_name_child, Bool.or_eq_true, decide_eq_true_eq] at hn
      rcases hn with hn | hn
      · rw [if_pos hn]
        exact ih hrest
      · by_cases h1 : n.type = mdoc_type.MDOC_ELEM ∧ n.tok = mdoc_tok.MDOC_Nm
        · rw [if_pos h1]
          exact ih hrest
        · rw [if_neg h1, if_pos hn]
          exact ih hrest

theorem sh_body_loop_total (e : externs) (cs : List mdoc_node) :
    ∀ m : mdoc, ∃ r, sh_body_loop e m cs = some r := by
  induction cs with
  | nil => intro m; exact ⟨_, rfl⟩
  | cons n rest ih =>
    intro m
    cases rest with
    | nil => exact ⟨_, rfl⟩
    | cons n1 rest =>
      simp only [sh_body_loop]
      split_ifs
      · exact ih m
      · exact ih m
      · simp only [mdoc_emit_node, mdoc_emit]
        cases e.sink _
        · exact ⟨_, rfl⟩
        · exact ih _

theorem sh_body_loop_loud (e : externs) (cs : List mdoc_node) :
    ∀ m : mdoc, (∃ n ∈ cs.dropLast, is_name_child n = false) →
      ∀ r, sh_body_loop e m cs = some r → m.log.length < r.2.log.length := by
  induction cs with
  | nil => intro m h; simp at h
  | cons n rest ih =>
    intro m h r hr
    cases rest with
    | nil => simp at h
    | cons n1 rest =>
      simp only [sh_body_loop] at hr
      simp only [List.dropLast_cons₂, List.mem_cons, exists_eq_or_imp] at h
      by_cases hn : is_name_child n = true
      · have hrest : ∃ x ∈ (n1 :: rest).dropLast, is_name_child x = false := by
          rcases h with h | h
          · rw [hn] at h
            cases h
          · exact h
        simp only [is_name_child, Bool.or_eq_true, decide_eq_true_eq] at hn
        split_ifs at hr with h1 h2
        · exact ih m hrest r hr
        · exact ih m hrest r hr
        · rcases hn with hn | hn
          · exact absurd hn h1
          · exact absurd hn h2
      · simp only [is_name_child, Bool.or_eq_true, decide_eq_true_eq, not_or] at hn
        rw [if_neg hn.1, if_neg hn.2] at hr
        simp only [mdoc_emit_node, mdoc_emit] at hr
        cases hs : e.sink _ with
        | false =>
          rw [hs] at hr
          simp only [Option.some.injEq] at hr
          subst hr
          simp
        | true =>
          rw [hs] at hr
          simp only [] at hr
          have hf := frame_log_le _ _ (frame_sh_body_loop e _ _ _ hr)
          simp at hf
          omega

theorem post_sh_body_cases (e : externs) (m : mdoc) (last : mdoc_node) (cs : List mdoc_node)
    (hl : m.nodes[m.last]? = some last) (hcs : children m last = some cs)
    (hn : m.lastnamed = mdoc_sec.SEC_NAME) :
    ((cs ≠ [] ∧ (∀ n ∈ cs.dropLast, is_name_child n = true) ∧
        cs.getLast?.map is_nd_elem = some true) ∧ post_sh_body e m = some (true, m)) ∨
    (¬ (cs ≠ [] ∧ (∀ n ∈ cs.dropLast, is_name_child n = true) ∧
        cs.getLast?.map is_nd_elem = some true) ∧
      ∃ r, post_sh_body e m = some r ∧ m.log.length < r.2.log.length) := by
  have hnd : ∀ l : List mdoc_node,
      (l.getLast?.map (fun n => decide (n.type = mdoc_type.MDOC_ELEM ∧
        n.tok = mdoc_tok.MDOC_Nd))) = l.getLast?.map is_nd_elem := fun _ => rfl
  unfold post_sh_body
  rw [if_neg (by simp [hn]), hl]
  simp only [Option.some_bind, hcs]
  cases cs with
  | nil =>
    right
    refine ⟨fun h => h.1 rfl, ?_⟩
    obtain ⟨r, hr, hlen, _⟩ := emit_last_log e m last hl diag_level.WARN_COMPAT
      "section NAME should contain Nm and Nd"
    exact ⟨r, hr, by omega⟩
  | cons c cs1 =>
    simp only [hnd]
    by_cases hall : ∀ n ∈ (c :: cs1).dropLast, is_name_child n = true
    · rw [sh_body_loop_silent e m _ hall]
      simp only []
      by_cases hlast : (c :: cs1).getLast?.map is_nd_elem = some true
      · left
        rw [if_pos hlast]
        exact ⟨⟨by simp, hall, hlast⟩, rfl⟩
      · right
        rw [if_neg hlast]
        refine ⟨fun h => hlast h.2.2, ?_⟩
        obtain ⟨r, hr, hlen, _⟩ := emit_last_log e m last hl diag_level.WARN_COMPAT
          "section NAME should contain Nd as the last child"
        exact ⟨r, hr, by omega⟩
    · right
      refine ⟨fun h => hall h.2.1, ?_⟩
      have hbad : ∃ n ∈ (c :: cs1).dropLast, is_name_child n = false := by
        by_contra hcon
        apply hall
        intro n hn1
        cases hb : is_name_child n
        · exact absurd ⟨n, hn1, hb⟩ hcon
        · rfl
      obtain ⟨r0, hr0⟩ := sh_body_loop_total e (c :: cs1) m
      have hloud := sh_body_loop_loud e (c :: cs1) m hbad r0 hr0
      have hfr := frame_sh_body_loop e (c :: cs1) m r0 hr0
      rw [hr0]
      obtain ⟨b, m1⟩ := r0
      cases b with
      | false => exact ⟨_, rfl, hloud⟩
      | true =>
        simp only []
        split_ifs
        · exact ⟨_, rfl, hloud⟩
        · have hl1 : m1.nodes[m1.last]? = some last := by
            obtain ⟨h1, h2⟩ := frame_nodes _ _ hfr
            simp only [] at h1 h2
            rw [h1, h2]
            exact hl
          obtain ⟨r, hr, hlen, _⟩ := emit_last_log e m1 last hl1 diag_level.WARN_COMPAT
            "section NAME should contain Nd as the last child"
          refine ⟨r, hr, ?_⟩
          simp only [] at hloud
          omega

set_option maxRecDepth 100000 in
/-- C16, the claim as worded fails: the NAME body with the children `Nd`,
`Nd` has a child, all its children are `Nd` elements and the last one is an
`Nd` element, yet `post_sh_body` warns, at the first `Nd`, that the section
should contain `Nm` as initial body child. -/
theorem post_sh_body_warns_on_early_nd :
    (doc_name mdoc_tok.MDOC_Nd mdoc_tok.MDOC_Nd).lastnamed = mdoc_sec.SEC_NAME ∧
    (doc_name mdoc_tok.MDOC_Nd mdoc_tok.MDOC_Nd).nodes[4]? = some node_name_body ∧
    ((children (doc_name mdoc_tok.MDOC_Nd mdoc_tok.MDOC_Nd) node_name_body).map
      (fun cs => decide (cs ≠ []) &&
        cs.all (fun n => is_name_child n || is_nd_elem n) &&
        (cs.getLast?.map is_nd_elem == some true))) = some true ∧
    post_sh_body externs_continue (doc_name mdoc_tok.MDOC_Nd mdoc_tok.MDOC_Nd) =
      some (true, { doc_name mdoc_tok.MDOC_Nd mdoc_tok.MDOC_Nd with
        log := [⟨diag_level.WARN_COMPAT, 5, 1,
          "section NAME should contain Nm as initial body child"⟩] }) ∧
    post_sh externs_continue (doc_name mdoc_tok.MDOC_Nd mdoc_tok.MDOC_Nd) =
      some (true, { doc_name mdoc_tok.MDOC_Nd mdoc_tok.MDOC_Nd with
        log := [⟨diag_level.WARN_COMPAT, 5, 1,
          "section NAME should contain Nm as initial body child"⟩] }) := by
  decide

/-- C16: the body of the NAME section.  While `lastnamed` is `SEC_NAME`, for
a current node whose children `cs` can be read, `post_sh_body` returns, adds
to the log and changes nothing else, and it adds nothing (it emits no
warning) if and only if the body has at least one child, every child but the
last is an `Nm` element or text, and the last child is an `Nd` element; it
then returns success.  On a BODY, `post_sh` is `post_sh_body`. -/
theorem post_sh_body_rule (e : externs) (m : mdoc) (last : mdoc_node) (cs : List mdoc_node)
    (hl : m.nodes[m.last]? = some last) (hcs : children m last = some cs)
    (hn : m.lastnamed = mdoc_sec.SEC_NAME) :
    (∃ r, post_sh_body e m = some r ∧ frame m r.2 ∧
      (r.2.log = m.log ↔
        cs ≠ [] ∧ (∀ n ∈ cs.dropLast, is_name_child n = true) ∧
          cs.getLast?.map is_nd_elem = some true) ∧
      (r.2.log = m.log → r = (true, m))) ∧
    (last.type = mdoc_type.MDOC_BODY → post_sh e m = post_sh_body e m) := by
  constructor
  · rcases post_sh_body_cases e m last cs hl hcs hn with ⟨hc, hr⟩ | ⟨hc, r, hr, hlen⟩
    · exact ⟨_, hr, frame_refl m, ⟨fun _ => hc, fun _ => rfl⟩, fun _ => rfl⟩
    · refine ⟨r, hr, frame_post_sh_body e m r hr, ⟨fun h => ?_, fun h => absurd h hc⟩,
        fun h => ?_⟩
      · rw [h] at hlen
        omega
      · rw [h] at hlen
        omega
  · intro hb
    unfold post_sh
    rw [hl]
    simp [hb]

set_option maxRecDepth 100000 in
/-- The NAME body with the children `Nm`, `Nd` passes in silence. -/
theorem post_sh_body_rule_witness :
    (doc_name mdoc_tok.MDOC_Nm mdoc_tok.MDOC_Nd).nodes[
      (doc_name mdoc_tok.MDOC_Nm mdoc_tok.MDOC_Nd).last]? = some node_name_body ∧
    (doc_name mdoc_tok.MDOC_Nm mdoc_tok.MDOC_Nd).lastnamed = mdoc_sec.SEC_NAME ∧
    post_sh_body externs_continue (doc_name mdoc_tok.MDOC_Nm mdoc_tok.MDOC_Nd) =
      some (true, doc_name mdoc_tok.MDOC_Nm mdoc_tok.MDOC_Nd) ∧
    post_sh externs_continue (doc_name mdoc_tok.MDOC_Nm mdoc_tok.MDOC_Nd) =
      post_sh_body externs_continue (doc_name mdoc_tok.MDOC_Nm mdoc_tok.MDOC_Nd) :=
  ⟨by decide, by decide, by decide,
    (post_sh_body_rule externs_continue (doc_name mdoc_tok.MDOC_Nm mdoc_tok.MDOC_Nd)
      node_name_body
      ((children (doc_name mdoc_tok.MDOC_Nm mdoc_tok.MDOC_Nd) node_name_body).getD [])
      (by decide) (by decide) (by decide)).2 (by decide)⟩


theorem ord_inj (a b : mdoc_sec) (h : a.ord = b.ord) : a = b := by
  cases a <;> cases b <;> first | rfl | (exact absurd h (by decide))

theorem post_sh_head_eq (e : externs) (m : mdoc) (last : mdoc_node) (buf : List Char)
    (hl : m.nodes[m.last]? = some last) (htok : last.tok = mdoc_tok.MDOC_Sh)
    (hbuf : (children m last).bind (fun cs => xstrlcats 64 cs []) = some (some buf)) :
    post_sh_head e m =
      if m.lastnamed = mdoc_sec.SEC_BODY ∧ e.mdoc_atosec buf ≠ mdoc_sec.SEC_NAME then
        mdoc_emit_last e m diag_level.ERR "section NAME must be first"
      else if e.mdoc_atosec buf = mdoc_sec.SEC_CUSTOM then some (true, m)
      else if e.mdoc_atosec buf = m.lastnamed then
        mdoc_emit_last e m diag_level.WARN_SYNTAX "section repeated"
      else if (e.mdoc_atosec buf).ord < m.lastnamed.ord then
        mdoc_emit_last e m diag_level.WARN_SYNTAX "section out of conventional order"
      else some (true, m) := by
  unfold post_sh_head
  rw [hl]
  simp only [htok, ne_eq, not_true_eq_false, if_false, hbuf]

theorem emit_last_fst (e : externs) (hs : ∀ d : diag, e.sink d = false) (m : mdoc)
    (l : diag_level) (msg : String) (m1 : mdoc) :
    mdoc_emit_last e m l msg ≠ some (true, m1) := by
  unfold mdoc_emit_last
  split
  · simp
  · simp [mdoc_emit, hs]

theorem head_sec_eq (e : externs) (m : mdoc) (h : Nat) (sec : mdoc_sec)
    (hsec : head_sec e m h = some sec) :
    ∃ hd buf, m.nodes[h]? = some hd ∧
      (children m hd).bind (fun cs => xstrlcats 64 cs []) = some (some buf) ∧
      sec = e.mdoc_atosec buf := by
  unfold head_sec at hsec
  cases hn : m.nodes[h]? with
  | none => rw [hn] at hsec; simp at hsec
  | some hd =>
    rw [hn] at hsec
    simp only [Option.some_bind] at hsec
    cases hb : (children m hd).bind (fun cs => xstrlcats 64 cs []) with
    | none => rw [hb] at hsec; simp at hsec
    | some ob =>
      rw [hb] at hsec
      simp only [Option.some_bind] at hsec
      cases ob with
      | none => simp at hsec
      | some buf =>
        simp only [Option.map_some', Option.some.injEq] at hsec
        exact ⟨hd, buf, rfl, hb, hsec.symm⟩

theorem sh_head_true (e : externs) (hs : ∀ d : diag, e.sink d = false) (m m1 : mdoc)
    (sec : mdoc_sec) (h : post_sh_head e m = some (true, m1))
    (hsec : head_sec e m m.last = some sec) :
    m1 = m ∧ (sec ≠ mdoc_sec.SEC_CUSTOM → m.lastnamed.ord < sec.ord) := by
  obtain ⟨hd, buf, hl, hbuf, rfl⟩ := head_sec_eq e m m.last sec hsec
  have htok : hd.tok = mdoc_tok.MDOC_Sh := by
    by_contra hne
    unfold post_sh_head at h
    rw [hl] at h
    simp [hne] at h
  rw [post_sh_head_eq e m hd buf hl htok hbuf] at h
  split_ifs at h with h1 h2 h3 h4
  · exact absurd h (emit_last_fst e hs _ _ _ _)
  · simp only [Option.some.injEq, Prod.mk.injEq, true_and] at h
    exact ⟨h.symm, fun hc => absurd h2 hc⟩
  · exact absurd h (emit_last_fst e hs _ _ _ _)
  · exact absurd h (emit_last_fst e hs _ _ _ _)
  · simp only [Option.some.injEq, Prod.mk.injEq, true_and] at h
    refine ⟨h.symm, fun _ => ?_⟩
    have hne : (e.mdoc_atosec buf).ord ≠ m.lastnamed.ord := fun hh => h3 (ord_inj _ _ hh)
    omega

theorem sh_walk_sorted (e : externs) (hs : ∀ d : diag, e.sink d = false) (heads : List Nat) :
    ∀ (m m1 : mdoc) (secs : List mdoc_sec), sh_walk e m heads = some (true, m1, secs) →
      (∀ s ∈ secs, s ≠ mdoc_sec.SEC_CUSTOM → m.lastnamed.ord < s.ord) ∧
      ((secs.filter (fun s => decide (s ≠ mdoc_sec.SEC_CUSTOM))).map mdoc_sec.ord).Pairwise
        (fun a b => a < b) := by
  induction heads with
  | nil =>
    intro m m1 secs h
    simp only [sh_walk, Option.some.injEq, Prod.mk.injEq, true_and] at h
    obtain ⟨_, rfl⟩ := h
    simp
  | cons h hs1 ih =>
    intro m m1 secs hw
    simp only [sh_walk] at hw
    split at hw
    · rename_i m2 sec hp hsec
      simp only [Option.map_eq_some'] at hw
      obtain ⟨⟨b, m3, rest⟩, hrec, heq⟩ := hw
      simp only [Prod.mk.injEq] at heq
      obtain ⟨rfl, rfl, rfl⟩ := heq
      have hsec1 : head_sec e { m with last := h } ({ m with last := h } : mdoc).last
          = some sec := hsec
      obtain ⟨rfl, hlt⟩ := sh_head_true e hs _ _ sec hp hsec1
      obtain ⟨ih1, ih2⟩ := ih _ _ _ hrec
      by_cases hc : sec = mdoc_sec.SEC_CUSTOM
      · subst hc
        simp only [sh_seen, if_true] at ih1
        refine ⟨?_, ?_⟩
        · intro s hsm hsc
          rcases List.mem_cons.1 hsm with rfl | hsm
          · exact absurd rfl hsc
          · exact ih1 s hsm hsc
        · simpa [List.filter] using ih2
      · have hlt1 : m.lastnamed.ord < sec.ord := hlt hc
        have hseen : (sh_seen { m with last := h } sec).lastnamed = sec := by
          simp [sh_seen, hc, hlt1]
        rw [hseen] at ih1
        refine ⟨?_, ?_⟩
        · intro s hsm hsc
          rcases List.mem_cons.1 hsm with rfl | hsm
          · exact hlt1
          · exact lt_trans hlt1 (ih1 s hsm hsc)
        · have hf : (sec :: rest).filter (fun s => decide (s ≠ mdoc_sec.SEC_CUSTOM)) =
              sec :: rest.filter (fun s => decide (s ≠ mdoc_sec.SEC_CUSTOM)) := by
            simp [List.filter, hc]
          rw [hf, List.map_cons, List.pairwise_cons]
          refine ⟨?_, ih2⟩
          intro a ha
          simp only [List.mem_map, List.mem_filter, decide_eq_true_eq] at ha
          obtain ⟨s, ⟨hsm, hsc⟩, rfl⟩ := ha
          exact ih1 s hsm hsc
    · simp at hw
    · simp at hw

/-- C17: section ordering.  For an `Sh` head as current node whose title
`buf` fits the buffer and maps to a named section `sec` (not CUSTOM, and not
one of the markers PROLOGUE and BODY, which no title maps to):
`post_sh_head` passes without a diagnostic only if `sec` is strictly greater
than `lastnamed` in the enumeration (and exactly when, besides, `lastnamed`
is not `SEC_BODY` or `sec` is NAME); `sec = lastnamed` warns "section
repeated"; `sec < lastnamed` warns "section out of conventional order"; with
`lastnamed = SEC_BODY` any `sec` other than NAME is the error "section NAME
must be first".  Hence, when every diagnostic stops the validation, the
named sections of the heads that a walk over the document's `Sh` heads
accepts are strictly increasing in the enumeration: pairwise distinct and in
enumeration order. -/
theorem post_sh_head_order (e : externs) (m : mdoc) (last : mdoc_node) (buf : List Char)
    (hl : m.nodes[m.last]? = some last) (htok : last.tok = mdoc_tok.MDOC_Sh)
    (hbuf : (children m last).bind (fun cs => xstrlcats 64 cs []) = some (some buf))
    (hnc : e.mdoc_atosec buf ≠ mdoc_sec.SEC_CUSTOM)
    (hnamed : e.mdoc_atosec buf ≠ mdoc_sec.SEC_PROLOGUE ∧
      e.mdoc_atosec buf ≠ mdoc_sec.SEC_BODY) :
    (post_sh_head e m = some (true, m) → m.lastnamed.ord < (e.mdoc_atosec buf).ord) ∧
    (post_sh_head e m = some (true, m) ↔
      m.lastnamed.ord < (e.mdoc_atosec buf).ord ∧
        (m.lastnamed = mdoc_sec.SEC_BODY → e.mdoc_atosec buf = mdoc_sec.SEC_NAME)) ∧
    (e.mdoc_atosec buf = m.lastnamed →
      post_sh_head e m = mdoc_emit_last e m diag_level.WARN_SYNTAX "section repeated") ∧
    ((e.mdoc_atosec buf).ord < m.lastnamed.ord →
      post_sh_head e m =
        mdoc_emit_last e m diag_level.WARN_SYNTAX "section out of conventional order") ∧
    (m.lastnamed = mdoc_sec.SEC_BODY → e.mdoc_atosec buf ≠ mdoc_sec.SEC_NAME →
      post_sh_head e m = mdoc_emit_last e m diag_level.ERR "section NAME must be first") ∧
    ((∀ d : diag, e.sink d = false) →
      ∀ (heads : List Nat) (m1 : mdoc) (secs : List mdoc_sec),
        sh_walk e m heads = some (true, m1, secs) →
        ((secs.filter (fun s => decide (s ≠ mdoc_sec.SEC_CUSTOM))).map mdoc_sec.ord).Pairwise
          (fun a b => a < b)) := by
  have heq := post_sh_head_eq e m last buf hl htok hbuf
  have hiff : post_sh_head e m = some (true, m) ↔
      m.lastnamed.ord < (e.mdoc_atosec buf).ord ∧
        (m.lastnamed = mdoc_sec.SEC_BODY → e.mdoc_atosec buf = mdoc_sec.SEC_NAME) := by
    rw [heq]
    split_ifs with h1 h3 h4
    · refine ⟨fun h => absurd h (emit_last_ne_silent _ _ _ _ _), fun h => ?_⟩
      exact absurd (h.2 h1.1) h1.2
    · refine ⟨fun h => absurd h (emit_last_ne_silent _ _ _ _ _), fun h => ?_⟩
      rw [h3] at h
      exact absurd h.1 (lt_irrefl _)
    · refine ⟨fun h => absurd h (emit_last_ne_silent _ _ _ _ _), fun h => ?_⟩
      exact absurd h.1 (by omega)
    · refine ⟨fun _ => ⟨?_, ?_⟩, fun _ => rfl⟩
      · have hne : (e.mdoc_atosec buf).ord ≠ m.lastnamed.ord := fun hh => h3 (ord_inj _ _ hh)
        omega
      · intro hb
        by_contra hn
        exact h1 ⟨hb, hn⟩
  refine ⟨fun h => (hiff.1 h).1, hiff, ?_, ?_, ?_, ?_⟩
  · intro hs
    rw [heq]
    have h1 : ¬ (m.lastnamed = mdoc_sec.SEC_BODY ∧ e.mdoc_atosec buf ≠ mdoc_sec.SEC_NAME) := by
      rintro ⟨hb, _⟩
      rw [← hs] at hb
      exact hnamed.2 hb
    rw [if_neg h1, if_neg hnc, if_pos hs]
  · intro hlt
    rw [heq]
    have h1 : ¬ (m.lastnamed = mdoc_sec.SEC_BODY ∧ e.mdoc_atosec buf ≠ mdoc_sec.SEC_NAME) := by
      rintro ⟨hb, _⟩
      rw [hb] at hlt
      have h0 : (e.mdoc_atosec buf).ord = 0 := by
        have : mdoc_sec.SEC_BODY.ord = 1 := rfl
        omega
      exact hnamed.1 (ord_inj _ _ h0)
    have h3 : e.mdoc_atosec buf ≠ m.lastnamed := by
      intro hh
      rw [hh] at hlt
      exact lt_irrefl _ hlt
    rw [if_neg h1, if_neg hnc, if_neg h3, if_pos hlt]
  · intro hb hn
    rw [heq, if_pos ⟨hb, hn⟩]
  · intro hs heads m1 secs hw
    exact (sh_walk_sorted e hs heads m m1 secs hw).2

set_option maxRecDepth 100000 in
/-- The heads NAME and DESCRIPTION after the prologue: both pass, in this
order; the walk over DESCRIPTION and then NAME is stopped at NAME. -/
theorem post_sh_head_order_witness :
    (doc_sh "NAME".toList "DESCRIPTION".toList mdoc_sec.SEC_BODY).nodes[2]? =
      some node_sh_head ∧
    post_sh_head externs_werror (doc_sh "NAME".toList "DESCRIPTION".toList mdoc_sec.SEC_BODY) =
      some (true, doc_sh "NAME".toList "DESCRIPTION".toList mdoc_sec.SEC_BODY) ∧
    (sh_walk externs_werror (doc_sh "NAME".toList "DESCRIPTION".toList mdoc_sec.SEC_BODY)
      [2, 5]).map (fun r => (r.1, r.2.2)) =
        some (true, [mdoc_sec.SEC_NAME, mdoc_sec.SEC_DESCRIPTION]) ∧
    (sh_walk externs_werror (doc_sh "DESCRIPTION".toList "NAME".toList mdoc_sec.SEC_NAME)
      [2, 5]).map (fun r => (r.1, r.2.2)) = some (false, [mdoc_sec.SEC_DESCRIPTION]) ∧
    mdoc_sec.SEC_BODY.ord < mdoc_sec.SEC_NAME.ord :=
  ⟨by decide, by decide, by decide, by decide,
    (post_sh_head_order externs_werror
      (doc_sh "NAME".toList "DESCRIPTION".toList mdoc_sec.SEC_BODY) node_sh_head "NAME".toList
      (by decide) (by decide) (by decide) (by decide) (by decide)).1 (by decide)⟩

set_option maxRecDepth 100000 in
/-- C18, the claim as worded fails: with `lastnamed = SEC_BODY`, an `Sh` head
whose title FOO maps to `SEC_CUSTOM` is rejected with the error "section NAME
must be first". -/
theorem post_sh_head_custom_first_rejected :
    externs_strict.mdoc_atosec "FOO".toList = mdoc_sec.SEC_CUSTOM ∧
    (doc_sh "FOO".toList "BAR".toList mdoc_sec.SEC_BODY).lastnamed = mdoc_sec.SEC_BODY ∧
    (doc_sh "FOO".toList "BAR".toList mdoc_sec.SEC_BODY).nodes[2]? = some node_sh_head ∧
    (children (doc_sh "FOO".toList "BAR".toList mdoc_sec.SEC_BODY) node_sh_head).bind
      (fun cs => xstrlcats 64 cs []) = some (some "FOO".toList) ∧
    post_sh_head externs_strict (doc_sh "FOO".toList "BAR".toList mdoc_sec.SEC_BODY) =
      some (false, { doc_sh "FOO".toList "BAR".toList mdoc_sec.SEC_BODY with
        log := [⟨diag_level.ERR, 4, 1, "section NAME must be first"⟩] }) ∧
    post_sh externs_strict (doc_sh "FOO".toList "BAR".toList mdoc_sec.SEC_BODY) =
      some (false, { doc_sh "FOO".toList "BAR".toList mdoc_sec.SEC_BODY with
        log := [⟨diag_level.ERR, 4, 1, "section NAME must be first"⟩] }) := by
  decide

/-- C18: CUSTOM sections and the section rules.  For an `Sh` head as current
node whose title fits the buffer and maps to `SEC_CUSTOM`: for every value of
`lastnamed` other than `SEC_BODY`, `post_sh_head` succeeds and emits no
diagnostic; with `lastnamed = SEC_BODY` it reports the error "section NAME
must be first".  On a HEAD, `post_sh` is `post_sh_head`. -/
theorem post_sh_head_custom (e : externs) (m : mdoc) (last : mdoc_node) (buf : List Char)
    (hl : m.nodes[m.last]? = some last) (htok : last.tok = mdoc_tok.MDOC_Sh)
    (hbuf : (children m last).bind (fun cs => xstrlcats 64 cs []) = some (some buf))
    (hc : e.mdoc_atosec buf = mdoc_sec.SEC_CUSTOM) :
    (m.lastnamed ≠ mdoc_sec.SEC_BODY → post_sh_head e m = some (true, m)) ∧
    (m.lastnamed = mdoc_sec.SEC_BODY →
      post_sh_head e m = mdoc_emit_last e m diag_level.ERR "section NAME must be first") ∧
    (last.type = mdoc_type.MDOC_HEAD → post_sh e m = post_sh_head e m) := by
  have heq := post_sh_head_eq e m last buf hl htok hbuf
  refine ⟨fun hb => ?_, fun hb => ?_, fun ht => ?_⟩
  · rw [heq, if_neg (fun h => hb h.1), if_pos hc]
  · rw [heq, if_pos ⟨hb, by rw [hc]; decide⟩]
  · unfold post_sh
    rw [hl]
    simp [ht]

set_option maxRecDepth 100000 in
/-- After NAME, the custom section FOO passes in silence. -/
theorem post_sh_head_custom_witness :
    (doc_sh "FOO".toList "BAR".toList mdoc_sec.SEC_NAME).nodes[
      (doc_sh "FOO".toList "BAR".toList mdoc_sec.SEC_NAME).last]? = some node_sh_head ∧
    externs_strict.mdoc_atosec "FOO".toList = mdoc_sec.SEC_CUSTOM ∧
    post_sh_head externs_strict (doc_sh "FOO".toList "BAR".toList mdoc_sec.SEC_NAME) =
      some (true, doc_sh "FOO".toList "BAR".toList mdoc_sec.SEC_NAME) :=
  ⟨by decide, by decide,
    (post_sh_head_custom externs_strict (doc_sh "FOO".toList "BAR".toList mdoc_sec.SEC_NAME)
      node_sh_head "FOO".toList (by decide) (by decide) (by decide) (by decide)).1
      (by decide)⟩


theorem post_root_cases (e : externs) (m : mdoc) (first last : mdoc_node)
    (hf : m.nodes[m.first]? = some first) (hl : m.nodes[m.last]? = some last)
    (hc : ∀ c, first.child = some c → ∃ cn, m.nodes[c]? = some cn) :
    (root_claim m first ∧ post_root e m = some (true, m)) ∨
    (¬ root_claim m first ∧
      ∃ msg, post_root e m = mdoc_emit_node e m last diag_level.ERR msg ∧
        (first.child = none → msg = "document lacks data") ∧
        (first.child ≠ none → m.lastnamed = mdoc_sec.SEC_PROLOGUE →
          msg = "document lacks prologue") ∧
        (first.child ≠ none → m.lastnamed ≠ mdoc_sec.SEC_PROLOGUE →
          msg = "lacking post-prologue `Sh'")) := by
  have hlast : ∀ msg, mdoc_emit_last e m diag_level.ERR msg =
      mdoc_emit_node e m last diag_level.ERR msg := by
    intro msg
    simp [mdoc_emit_last, hl, mdoc_emit_node]
  unfold post_root
  rw [hf]
  simp only []
  cases hch : first.child with
  | none =>
    right
    refine ⟨?_, _, hlast _, fun _ => rfl, fun h => absurd rfl h, fun h => absurd rfl h⟩
    rintro ⟨c, cn, h, _⟩
    rw [hch] at h
    cases h
  | some c =>
    obtain ⟨cn, hcn⟩ := hc c hch
    simp only []
    by_cases hp : m.lastnamed = mdoc_sec.SEC_PROLOGUE
    · right
      rw [if_pos hp]
      refine ⟨?_, _, hlast _, fun h => (by cases h), fun _ _ => rfl, fun _ h => absurd hp h⟩
      rintro ⟨_, _, _, _, h, _⟩
      exact h hp
    · rw [if_neg hp, hcn]
      simp only []
      by_cases hb : cn.type = mdoc_type.MDOC_BLOCK
      · by_cases ht : cn.tok = mdoc_tok.MDOC_Sh
        · left
          refine ⟨⟨c, cn, hch, hcn, hp, hb, ht⟩, ?_⟩
          simp [hb, ht]
        · right
          refine ⟨?_, "lacking post-prologue `Sh'", ?_, fun h => (by cases h),
            fun _ h => absurd h hp, fun _ _ => rfl⟩
          · rintro ⟨c1, cn1, h1, h2, _, _, h5⟩
            rw [hch] at h1
            cases h1
            rw [hcn] at h2
            cases h2
            exact ht h5
          · simp [hb, ht, hlast]
      · right
        refine ⟨?_, "lacking post-prologue `Sh'", ?_, fun h => (by cases h),
          fun _ h => absurd h hp, fun _ _ => rfl⟩
        · rintro ⟨c1, cn1, h1, h2, _, h4, _⟩
          rw [hch] at h1
          cases h1
          rw [hcn] at h2
          cases h2
          exact hb h4
        · simp [hb, hlast]

theorem flag_getElem (m : mdoc) (last : mdoc_node) (hl : m.nodes[m.last]? = some last)
    (i : Nat) :
    (m.nodes.set m.last { last with VALID := true })[i]? =
      (m.nodes[i]?).map (fun n => if i = m.last then { n with VALID := true } else n) := by
  by_cases hi : i = m.last
  · subst hi
    have hlt : m.last < m.nodes.length := (List.getElem?_eq_some_iff.1 hl).1
    rw [List.getElem?_set_self hlt, hl]
    simp
  · rw [List.getElem?_set_ne (Ne.symm hi)]
    cases m.nodes[i]? <;> simp [hi]

theorem root_claim_flag (m : mdoc) (last first : mdoc_node)
    (hl : m.nodes[m.last]? = some last) :
    root_claim { m with nodes := m.nodes.set m.last { last with VALID := true } }
      (if m.first = m.last then { first with VALID := true } else first) ↔
    root_claim m first := by
  have hchild : (if m.first = m.last then { first with VALID := true } else first).child =
      first.child := by
    split_ifs <;> rfl
  unfold root_claim
  simp only [hchild, flag_getElem m last hl]
  constructor
  · rintro ⟨c, cn, h1, h2, h3, h4, h5⟩
    simp only [Option.map_eq_some'] at h2
    obtain ⟨cn0, h20, rfl⟩ := h2
    refine ⟨c, cn0, h1, h20, h3, ?_, ?_⟩
    · split_ifs at h4 <;> exact h4
    · split_ifs at h5 <;> exact h5
  · rintro ⟨c, cn, h1, h2, h3, h4, h5⟩
    refine ⟨c, _, h1, by rw [h2]; rfl, h3, ?_, ?_⟩
    · split_ifs <;> exact h4
    · split_ifs <;> exact h5

/-- C19: the root rule.  With `first` the root of the document and `last` the
current node (the first child of the root, if any, being readable),
`post_root` passes in silence, and when errors abort returns success at all,
if and only if the root has a child, `lastnamed` is not `SEC_PROLOGUE`, and
the first child is an `Sh` BLOCK; an empty root reports "document lacks
data", a non-empty root with `lastnamed = SEC_PROLOGUE` "document lacks
prologue", and otherwise a wrong first child the lacking post-prologue `Sh`.
A call of `mdoc_valid_post` with a current node of kind ROOT not yet
validated sets the flag and is then this rule. -/
theorem post_root_rule (e : externs) (m : mdoc) (first last : mdoc_node)
    (hf : m.nodes[m.first]? = some first) (hl : m.nodes[m.last]? = some last)
    (hc : ∀ c, first.child = some c → ∃ cn, m.nodes[c]? = some cn) :
    (post_root e m = some (true, m) ↔ root_claim m first) ∧
    (err_aborts e → ((post_root e m).map Prod.fst = some true ↔ root_claim m first)) ∧
    (first.child = none →
      post_root e m = mdoc_emit_node e m last diag_level.ERR "document lacks data") ∧
    (first.child ≠ none → m.lastnamed = mdoc_sec.SEC_PROLOGUE →
      post_root e m = mdoc_emit_node e m last diag_level.ERR "document lacks prologue") ∧
    (first.child ≠ none → m.lastnamed ≠ mdoc_sec.SEC_PROLOGUE → ¬ root_claim m first →
      post_root e m = mdoc_emit_node e m last diag_level.ERR "lacking post-prologue `Sh'") ∧
    (last.type = mdoc_type.MDOC_ROOT → last.VALID = false →
      mdoc_valid_post e m =
        post_root e { m with nodes := m.nodes.set m.last { last with VALID := true } } ∧
      (mdoc_valid_post e m =
          some (true, { m with nodes := m.nodes.set m.last { last with VALID := true } }) ↔
        root_claim m first)) := by
  refine ⟨?_, ?_, ?_, ?_, ?_, ?_⟩
  · rcases post_root_cases e m first last hf hl hc with ⟨h1, hr⟩ | ⟨h1, msg, hr, _⟩
    · exact ⟨fun _ => h1, fun _ => hr⟩
    · rw [hr]
      exact ⟨fun h => absurd h (emit_node_ne_silent _ _ _ _ _ _), fun h => absurd h h1⟩
  · intro he
    rcases post_root_cases e m first last hf hl hc with ⟨h1, hr⟩ | ⟨h1, msg, hr, _⟩
    · rw [hr]
      exact ⟨fun _ => h1, fun _ => rfl⟩
    · rw [hr, emit_node_err_fst e he]
      exact ⟨fun h => (by cases h), fun h => absurd h h1⟩
  · intro h0
    rcases post_root_cases e m first last hf hl hc with ⟨⟨c, _, h1, _⟩, _⟩ | ⟨_, msg, hr, hm, _⟩
    · rw [h0] at h1
      cases h1
    · rw [hr, hm h0]
  · intro h0 hp
    rcases post_root_cases e m first last hf hl hc with ⟨⟨_, _, _, _, h1, _⟩, _⟩ |
      ⟨_, msg, hr, _, hm, _⟩
    · exact absurd hp h1
    · rw [hr, hm h0 hp]
  · intro h0 hp hn
    rcases post_root_cases e m first last hf hl hc with ⟨h1, _⟩ | ⟨_, msg, hr, _, _, hm⟩
    · exact absurd h1 hn
    · rw [hr, hm h0 hp]
  · intro ht hv
    have hdisp : mdoc_valid_post e m =
        post_root e { m with nodes := m.nodes.set m.last { last with VALID := true } } := by
      unfold mdoc_valid_post
      rw [hl]
      simp [hv, ht]
    refine ⟨hdisp, ?_⟩
    rw [hdisp, ← root_claim_flag m last first hl]
    have hf1 : ({ m with nodes := m.nodes.set m.last { last with VALID := true } } :
        mdoc).nodes[m.first]? =
        some (if m.first = m.last then { first with VALID := true } else first) := by
      simp only [flag_getElem m last hl, hf, Option.map_some']
    have hl1 : ({ m with nodes := m.nodes.set m.last { last with VALID := true } } :
        mdoc).nodes[m.last]? = some { last with VALID := true } := by
      simp only [flag_getElem m last hl, hl, Option.map_some', if_true]
    have hc1 : ∀ c, (if m.first = m.last then { first with VALID := true } else first).child
        = some c → ∃ cn, ({ m with nodes := m.nodes.set m.last { last with VALID := true } } :
          mdoc).nodes[c]? = some cn := by
      intro c hcc
      have hcc1 : first.child = some c := by
        split_ifs at hcc <;> exact hcc
      obtain ⟨cn, hcn⟩ := hc c hcc1
      refine ⟨if c = m.last then { cn with VALID := true } else cn, ?_⟩
      simp only [flag_getElem m last hl, hcn, Option.map_some']
    rcases post_root_cases e _ _ _ hf1 hl1 hc1 with ⟨h1, hr⟩ | ⟨h1, msg, hr, _⟩
    · exact ⟨fun _ => h1, fun _ => hr⟩
    · rw [hr]
      exact ⟨fun h => absurd h (emit_node_ne_silent _ _ _ _ _ _), fun h => absurd h h1⟩

set_option maxRecDepth 100000 in
/-- The document that is only a root: "document lacks data". -/
theorem post_root_rule_witness :
    doc_prologue.nodes[doc_prologue.first]? = some { type := mdoc_type.MDOC_ROOT } ∧
    doc_prologue.nodes[doc_prologue.last]? = some { type := mdoc_type.MDOC_ROOT } ∧
    post_root externs_strict doc_prologue =
      some (false, { doc_prologue with
        log := [⟨diag_level.ERR, 0, 0, "document lacks data"⟩] }) ∧
    post_root externs_strict doc_prologue =
      mdoc_emit_node externs_strict doc_prologue { type := mdoc_type.MDOC_ROOT }
        diag_level.ERR "document lacks data" :=
  ⟨by decide, by decide, by decide,
    (post_root_rule externs_strict doc_prologue { type := mdoc_type.MDOC_ROOT }
      { type := mdoc_type.MDOC_ROOT } (by decide) (by decide)
      (fun c h => by cases h)).2.2.1 (by decide)⟩


set_option maxRecDepth 100000 in
/-- C20, a fault of the code: `check_stdarg` reads `argv[0].arg` before it
tests `argc`, so for a node with an empty argument vector it reads an argument
that does not exist (the result `none`) instead of warning; thus `pre_ex` on
an `Ex` without arguments in a manual of section 1.  For a node with at least
one argument it passes in silence if and only if the node has exactly one
argument and that argument is `Std`, and otherwise issues the COMPAT warning
"one argument suggested" at the node and returns the answer of the
callback. -/
theorem check_stdarg_reads_missing_argument (e : externs) (m : mdoc) (node : mdoc_node) :
    (node.argv = [] → check_stdarg e m node = none) ∧
    (node.argv ≠ [] →
      (check_stdarg e m node = some (true, m) ↔
        ∃ a, node.argv = [a] ∧ a.arg = mdoc_argt.MDOC_Std) ∧
      ((¬ ∃ a, node.argv = [a] ∧ a.arg = mdoc_argt.MDOC_Std) →
        check_stdarg e m node =
          some (e.sink ⟨diag_level.WARN_COMPAT, node.line, node.pos, "one argument suggested"⟩,
            { m with log := m.log ++
              [⟨diag_level.WARN_COMPAT, node.line, node.pos, "one argument suggested"⟩] }))) ∧
    node_ex_noargs.tok = mdoc_tok.MDOC_Ex ∧ node_ex_noargs.argv = [] ∧
    check_stdarg externs_strict doc_msec1 node_ex_noargs = none ∧
    pre_ex externs_strict doc_msec1 node_ex_noargs = none ∧
    mdoc_valid_pre externs_strict doc_msec1 node_ex_noargs = none := by
  refine ⟨?_, ?_, by decide, by decide, by decide, by decide, by decide⟩
  · intro h
    simp [check_stdarg, h]
  · intro h
    cases hargv : node.argv with
    | nil => exact absurd hargv h
    | cons a0 rest =>
      have hcs : check_stdarg e m node =
          if a0.arg = mdoc_argt.MDOC_Std ∧ node.argv.length = 1 then some (true, m)
          else mdoc_emit_node e m node diag_level.WARN_COMPAT "one argument suggested" := by
        unfold check_stdarg
        rw [hargv]
      have hiff : (a0.arg = mdoc_argt.MDOC_Std ∧ node.argv.length = 1) ↔
          ∃ a, a0 :: rest = [a] ∧ a.arg = mdoc_argt.MDOC_Std := by
        rw [hargv]
        constructor
        · rintro ⟨h1, h2⟩
          cases rest with
          | nil => exact ⟨a0, rfl, h1⟩
          | cons b r => simp at h2
        · rintro ⟨a, h1, h2⟩
          simp only [List.cons.injEq] at h1
          obtain ⟨rfl, rfl⟩ := h1
          exact ⟨h2, rfl⟩
      rw [hcs]
      constructor
      · constructor
        · intro hr
          by_cases hc : a0.arg = mdoc_argt.MDOC_Std ∧ node.argv.length = 1
          · exact hiff.1 hc
          · rw [if_neg hc] at hr
            exact absurd hr (emit_node_ne_silent _ _ _ _ _ _)
        · intro hr
          rw [if_pos (hiff.2 hr)]
      · intro hn
        rw [if_neg (fun hc => hn (hiff.1 hc))]
        rfl


/-- What the column check of `post_it` computes: for an `It` BLOCK in a list
whose first list-type argument is `Column`, with a head that has a child and
a body that has none (so that no warning comes first), the number of
children of the head is compared with the number of values of the first
argument `a0` of the `Bl`, be it the `Column` argument or not. -/
theorem post_it_column_check (e : externs) (m : mdoc) (last bl head body : mdoc_node)
    (a0 : mdoc_arg) (cs : List mdoc_node)
    (hl : m.nodes[m.last]? = some last) (hb : last.type = mdoc_type.MDOC_BLOCK)
    (hbl : (last.parent.bind (fun p => m.nodes[p]?)).bind
      (fun p => p.parent.bind (fun q => m.nodes[q]?)) = some bl)
    (hh : last.head.bind (fun h => m.nodes[h]?) = some head)
    (hbd : last.body.bind (fun b => m.nodes[b]?) = some body)
    (hscan : it_scan bl.argv = (it_type.TYPE_OHEAD, some mdoc_argt.MDOC_Column))
    (hhc : head.child.isSome = true) (hbc : body.child = none)
    (ha0 : bl.argv.head? = some a0) (hcs : children m head = some cs) :
    post_it e m =
      if cs.length = a0.sz then some (true, m)
      else mdoc_emit_last e m diag_level.ERR
        ("need " ++ toString a0.sz ++ " columns (have " ++ toString cs.length ++ ")") := by
  unfold post_it
  rw [hl]
  simp only [hb, ne_eq, not_true_eq_false, if_false, hbl, hh, hbd, hscan]
  have hnone : head.child.isNone = false := by
    cases hch : head.child with
    | none => rw [hch] at hhc; cases hhc
    | some c => rfl
  simp [it_warn, hnone, hbc, ha0, hcs]


theorem check_child_spec (e : externs) (err : Bool) (op : ineq) (m : mdoc) (p : String)
    (sz k : Nat) (hk : count_child m = some k) :
    (check_child e err op m p sz = some (true, m) ↔ op.holds k sz = true) ∧
    (op.holds k sz = false →
      ∃ msg, check_child e err op m p sz =
        mdoc_emit_last e m (if err then diag_level.ERR else diag_level.WARN_SYNTAX) msg) := by
  unfold check_child
  rw [hk]
  simp only []
  cases hh : op.holds k sz
  · simp only [Bool.false_eq_true, if_false]
    constructor
    · constructor
      · intro h
        cases err
        · exact absurd h (emit_last_ne_silent _ _ _ _ _)
        · exact absurd h (emit_last_ne_silent _ _ _ _ _)
      · intro h
        cases h
    · intro _
      cases err
      · exact ⟨_, rfl⟩
      · exact ⟨_, rfl⟩
  · simp

/-- C21: the generated count rules.  For a rule `p` that the table
`count_rule` lists with the node kind `t`, the class and the test that its
name reads (`ge1`: k ≥ 1, `le1`: k ≤ 1, `le2`: k ≤ 2, `eq0`: k = 0, `eq1`:
k = 1), and a current node `last`: an h-rule on a node that is no HEAD and a
b-rule on a node that is no BODY pass in silence without counting; an e-rule
on a node that is no ELEM fails its assertion; on a node of its kind with `k`
children the rule passes in silence if and only if the test holds of `k`, and
otherwise reports, an err-rule as an error and a warn-rule as a warning. -/
theorem count_rules_spec (p : v_post) (t : mdoc_type) (err : Bool) (ok : Nat → Bool)
    (hp : count_rule p = some (t, err, ok)) (e : externs) (m : mdoc) (last : mdoc_node)
    (hl : m.nodes[m.last]? = some last) :
    (t ≠ mdoc_type.MDOC_ELEM → last.type ≠ t → p.run e m = some (true, m)) ∧
    (t = mdoc_type.MDOC_ELEM → last.type ≠ t → p.run e m = none) ∧
    (last.type = t → ∀ k, count_child m = some k →
      (p.run e m = some (true, m) ↔ ok k = true) ∧
      (ok k = false →
        ∃ msg, p.run e m =
          mdoc_emit_last e m (if err then diag_level.ERR else diag_level.WARN_SYNTAX) msg)) := by
  cases p <;> simp only [count_rule, Option.some.injEq, Prod.mk.injEq, reduceCtorEq] at hp <;>
    obtain ⟨rfl, rfl, rfl⟩ := hp <;>
    (refine ⟨?_, ?_, ?_⟩
     · intro h1 h2
       first
         | exact absurd rfl h1
         | simp [v_post.run, check_head, check_body, hl, h2]
     · intro h1 h2
       first
         | exact absurd h1 (by decide)
         | simp [v_post.run, check_elem, hl, h2]
     · intro ht k hk
       have hc := fun err op sz s => check_child_spec e err op m s sz k hk
       simp only [v_post.run, check_head, check_body, check_elem, hl, ht, ne_eq,
         not_true_eq_false, if_false]
       first
         | simpa [ineq.holds] using hc _ ineq.gt 0 _
         | simpa [ineq.holds, Nat.lt_succ_iff] using hc _ ineq.lt 2 _
         | simpa [ineq.holds, Nat.lt_succ_iff] using hc _ ineq.lt 3 _
         | simpa [ineq.holds] using hc _ ineq.eq 0 _
         | simpa [ineq.holds] using hc _ ineq.eq 1 _)

set_option maxRecDepth 100000 in
/-- The rule `ewarn_eq0` of `Pp` on an element with one child: a warning, and
no silent pass. -/
theorem count_rules_spec_witness :
    count_rule v_post.ewarn_eq0 =
      some (mdoc_type.MDOC_ELEM, false, fun k => decide (k = 0)) ∧
    doc_pp.nodes[doc_pp.last]? = some node_pp ∧
    count_child doc_pp = some 1 ∧
    v_post.ewarn_eq0.run externs_continue doc_pp =
      some (true, { doc_pp with
        log := [⟨diag_level.WARN_SYNTAX, 3, 1, "suggests line parameters 0 == (has 1)"⟩] }) ∧
    ¬ (v_post.ewarn_eq0.run externs_continue doc_pp = some (true, doc_pp)) :=
  ⟨rfl, by decide, by decide, by decide,
    fun h => absurd
      (((count_rules_spec v_post.ewarn_eq0 mdoc_type.MDOC_ELEM false (fun k => decide (k = 0))
        rfl externs_continue doc_pp node_pp (by decide)).2.2 (by decide) 1 (by decide)).1.1 h)
      (by decide)⟩


theorem frame_check_stdarg (e : externs) (m : mdoc) (node : mdoc_node) (r : Bool × mdoc)
    (h : check_stdarg e m node = some r) : frame m r.2 := by
  unfold check_stdarg at h
  repeat' split at h
  all_goals first
    | exact frame_emit_node _ _ _ _ _ _ h
    | exact frame_ret _ _ _ h
    | cases h

theorem frame_check_msec (e : externs) (m : mdoc) (node : mdoc_node) (l : List mdoc_msec)
    (r : Bool × mdoc) (h : check_msec e m node l = some r) : frame m r.2 := by
  unfold check_msec at h
  repeat' split at h
  all_goals first
    | exact frame_emit_node _ _ _ _ _ _ h
    | exact frame_ret _ _ _ h

theorem frame_check_parent (e : externs) (m : mdoc) (node : mdoc_node) (tok : Option mdoc_tok)
    (t : mdoc_type) (r : Bool × mdoc) (h : check_parent e m node tok t = some r) :
    frame m r.2 := by
  unfold check_parent at h
  repeat' split at h
  all_goals first
    | exact frame_emit_node _ _ _ _ _ _ h
    | exact frame_ret _ _ _ h
    | cases h

theorem frame_pre_display (e : externs) (m : mdoc) (node : mdoc_node) (r : Bool × mdoc)
    (h : pre_display e m node = some r) : frame m r.2 := by
  unfold pre_display at h
  repeat' split at h
  all_goals first
    | exact frame_emit_node _ _ _ _ _ _ h
    | exact frame_ret _ _ _ h
    | cases h

theorem frame_pre_types (is_type : mdoc_argt → Bool) (e : externs) (m : mdoc) (node : mdoc_node)
    (r : Bool × mdoc) (h : pre_types is_type e m node = some r) : frame m r.2 := by
  unfold pre_types at h
  repeat' split at h
  all_goals first
    | exact frame_emit _ _ _ _ h
    | exact frame_emit_last _ _ _ _ _ h
    | exact frame_ret _ _ _ h

theorem frame_pre_block (e : externs) (m : mdoc) (node : mdoc_node) (tok : Option mdoc_tok)
    (t : mdoc_type) (r : Bool × mdoc)
    (h : (if node.type ≠ mdoc_type.MDOC_BLOCK then some (true, m)
      else check_parent e m node tok t) = some r) : frame m r.2 := by
  split at h
  · exact frame_ret _ _ _ h
  · exact frame_check_parent _ _ _ _ _ _ h

theorem frame_pre_msec_stdarg (e : externs) (m : mdoc) (node : mdoc_node) (l : List mdoc_msec)
    (r : Bool × mdoc)
    (h : (match check_msec e m node l with
      | none => none
      | some (false, m1) => some (false, m1)
      | some (true, m1) => check_stdarg e m1 node) = some r) : frame m r.2 := by
  cases hq : check_msec e m node l with
  | none => rw [hq] at h; cases h
  | some q =>
    obtain ⟨b, m1⟩ := q
    have h1 := frame_check_msec e m node l _ hq
    rw [hq] at h
    cases b with
    | false =>
      simp only [Option.some.injEq] at h
      subst h
      exact h1
    | true =>
      simp only [] at h
      exact frame_trans _ _ _ h1 (frame_check_stdarg _ _ _ _ h)

theorem frame_pre_prologue (e : externs) (m : mdoc) (node : mdoc_node) (r : Bool × mdoc)
    (h : pre_prologue e m node = some r) : frame m r.2 := by
  unfold pre_prologue at h
  repeat' split at h
  all_goals first
    | exact frame_emit_node _ _ _ _ _ _ h
    | exact frame_ret _ _ _ h
    | cases h

theorem frame_pre_run (e : externs) (p : v_pre) (m : mdoc) (node : mdoc_node) (r : Bool × mdoc)
    (h : p.run e m node = some r) : frame m r.2 := by
  cases p
  case pre_display => exact frame_pre_display _ _ _ _ h
  case pre_sh => exact frame_pre_block _ _ _ _ _ _ h
  case pre_ss => exact frame_pre_block _ _ _ _ _ _ h
  case pre_bd => exact frame_pre_types _ _ _ _ _ h
  case pre_bl => exact frame_pre_types _ _ _ _ _ h
  case pre_it => exact frame_pre_block _ _ _ _ _ _ h
  case pre_cd => exact frame_check_msec _ _ _ _ _ h
  case pre_er => exact frame_check_msec _ _ _ _ _ h
  case pre_ex => exact frame_pre_msec_stdarg _ _ _ _ _ h
  case pre_rv => exact frame_pre_msec_stdarg _ _ _ _ _ h
  case pre_an =>
    simp only [v_pre.run, pre_an] at h
    split at h
    · exact frame_ret _ _ _ h
    · exact frame_emit_node _ _ _ _ _ _ h
  case pre_st =>
    simp only [v_pre.run, pre_st] at h
    split at h
    · exact frame_ret _ _ _ h
    · exact frame_emit_node _ _ _ _ _ _ h
  case pre_prologue => exact frame_pre_prologue _ _ _ _ h

theorem frame_run_pres (e : externs) (ps : List v_pre) (node : mdoc_node) :
    ∀ (m : mdoc) (r : Bool × mdoc), run_pres e ps m node = some r → frame m r.2 := by
  induction ps with
  | nil => intro m r h; exact frame_ret _ _ _ h
  | cons p ps ih =>
    intro m r h
    rw [run_pres] at h
    cases hq : p.run e m node with
    | none => rw [hq] at h; cases h
    | some q =>
      obtain ⟨b, m1⟩ := q
      have h1 := frame_pre_run e p m node _ hq
      rw [hq] at h
      cases b with
      | false =>
        simp only [Option.some.injEq] at h
        subst h
        exact h1
      | true =>
        simp only [] at h
        exact frame_trans _ _ _ h1 (ih _ _ h)

theorem mdoc_valid_pre_frame (e : externs) (m : mdoc) (node : mdoc_node) (r : Bool × mdoc)
    (h : mdoc_valid_pre e m node = some r) : frame m r.2 := by
  unfold mdoc_valid_pre at h
  split at h
  · exact frame_ret _ _ _ h
  · split at h
    · cases h
    · split at h
      · exact frame_ret _ _ _ h
      · exact frame_run_pres _ _ _ _ _ h

/-- C31: the frame of the validator.  A returning call of `mdoc_valid_pre`
leaves the node array, the indices of the current and the first node, the meta
record and `lastnamed` as they were; a returning call of `mdoc_valid_post`
leaves all of these as they were except that the current node `last` carries
the flag VALID afterwards; so `lastnamed` is not decreased by either call.
(What the calls add is diagnostics handed to the callbacks.) -/
theorem validator_frame (e : externs) (m : mdoc) (node : mdoc_node) (r : Bool × mdoc) :
    (mdoc_valid_pre e m node = some r →
      r.2.nodes = m.nodes ∧ r.2.last = m.last ∧ r.2.first = m.first ∧ r.2.meta = m.meta ∧
      r.2.lastnamed = m.lastnamed) ∧
    (mdoc_valid_post e m = some r →
      ∃ last, m.nodes[m.last]? = some last ∧
        r.2.nodes = m.nodes.set m.last { last with VALID := true } ∧
        r.2.last = m.last ∧ r.2.first = m.first ∧ r.2.meta = m.meta ∧
        r.2.lastnamed = m.lastnamed) ∧
    (mdoc_valid_pre e m node = some r ∨ mdoc_valid_post e m = some r →
      m.lastnamed.ord ≤ r.2.lastnamed.ord) := by
  have hpre : mdoc_valid_pre e m node = some r →
      r.2.nodes = m.nodes ∧ r.2.last = m.last ∧ r.2.first = m.first ∧ r.2.meta = m.meta ∧
      r.2.lastnamed = m.lastnamed := by
    intro h
    obtain ⟨ds, hds⟩ := mdoc_valid_pre_frame e m node r h
    rw [hds]
    exact ⟨rfl, rfl, rfl, rfl, rfl⟩
  have hpost : mdoc_valid_post e m = some r →
      ∃ last, m.nodes[m.last]? = some last ∧
        r.2.nodes = m.nodes.set m.last { last with VALID := true } ∧
        r.2.last = m.last ∧ r.2.first = m.first ∧ r.2.meta = m.meta ∧
        r.2.lastnamed = m.lastnamed := by
    intro h
    obtain ⟨last, hl, ds, hds⟩ := mdoc_valid_post_frame e m r h
    refine ⟨last, hl, ?_⟩
    rw [hds]
    exact ⟨rfl, rfl, rfl, rfl, rfl⟩
  refine ⟨hpre, hpost, ?_⟩
  rintro (h | h)
  · rw [(hpre h).2.2.2.2]
  · obtain ⟨_, _, _, _, _, _, h6⟩ := hpost h
    rw [h6]

set_option maxRecDepth 100000 in
theorem validator_frame_witness :
    mdoc_valid_post externs_continue doc_pp = some (true, doc_pp_valid) ∧
    ∃ last, doc_pp.nodes[doc_pp.last]? = some last ∧
      doc_pp_valid.nodes = doc_pp.nodes.set doc_pp.last { last with VALID := true } ∧
      doc_pp_valid.last = doc_pp.last ∧ doc_pp_valid.first = doc_pp.first ∧
      doc_pp_valid.meta = doc_pp.meta ∧ doc_pp_valid.lastnamed = doc_pp.lastnamed :=
  ⟨by decide,
    (validator_frame externs_continue doc_pp node_pp (true, doc_pp_valid)).2.1 (by decide)⟩


theorem emit_node_msg (e : externs) (m : mdoc) (n : mdoc_node) (l : diag_level)
    (msg1 msg2 : String) :
    mdoc_emit_node e m n l msg1 = mdoc_emit_node e m n l msg2 ↔ msg1 = msg2 := by
  constructor
  · intro h
    simp only [mdoc_emit_node, mdoc_emit, Option.some.injEq, Prod.mk.injEq] at h
    have hl := congrArg mdoc.log h.2
    simp only [List.append_cancel_left_eq, List.cons.injEq, diag.mk.injEq, and_true,
      true_and] at hl
    exact hl
  · intro h
    rw [h]

theorem silent_ne_emit_node (e : externs) (m : mdoc) (n : mdoc_node) (l : diag_level)
    (msg : String) (b : Bool) : some (b, m) ≠ mdoc_emit_node e m n l msg :=
  fun h => emit_node_ne_silent e m n l msg b h.symm

set_option maxRecDepth 100000 in
/-- C39, as stated, fails after the prologue: a second `Dd`, met when the
date, the title and the system are set and a section has been named, is
reported as "prologue only", not as "prologue out-of-order". -/
theorem repeated_dd_after_prologue :
    pre_prologue externs_strict (doc_complete mdoc_sec.SEC_NAME) node_dd =
      some (false, { doc_complete mdoc_sec.SEC_NAME with
        log := [⟨diag_level.ERR, 9, 1, "prologue only"⟩] }) := by
  decide

/-- C39, amended: for a `Dd`, `Dt` or `Os` node, `pre_prologue` reports
"prologue repetition" exactly when the document is in its prologue
(`lastnamed` is `SEC_PROLOGUE`), the node is an `Os`, and title, date and os
are all set; for `Dd` and `Dt` the repetition test is never reached with a
value already set.  While the document is in its prologue, a `Dd` met when the
date is set and a `Dt` met when the title is set are reported as "prologue
out-of-order"; once a section has been named, every prologue macro, repeated
or not, is reported as "prologue only". -/
theorem prologue_diagnostics (e : externs) (m : mdoc) (node : mdoc_node)
    (htok : node.tok = mdoc_tok.MDOC_Dd ∨ node.tok = mdoc_tok.MDOC_Dt ∨
      node.tok = mdoc_tok.MDOC_Os) :
    (pre_prologue e m node = mdoc_emit_node e m node diag_level.ERR "prologue repetition" ↔
      m.lastnamed = mdoc_sec.SEC_PROLOGUE ∧ node.tok = mdoc_tok.MDOC_Os ∧
      m.meta.title ≠ none ∧ m.meta.date ≠ 0 ∧ m.meta.os ≠ none) ∧
    (m.lastnamed = mdoc_sec.SEC_PROLOGUE → node.tok = mdoc_tok.MDOC_Dd → m.meta.date ≠ 0 →
      pre_prologue e m node =
        mdoc_emit_node e m node diag_level.ERR "prologue out-of-order") ∧
    (m.lastnamed = mdoc_sec.SEC_PROLOGUE → node.tok = mdoc_tok.MDOC_Dt → m.meta.title ≠ none →
      pre_prologue e m node =
        mdoc_emit_node e m node diag_level.ERR "prologue out-of-order") ∧
    (m.lastnamed ≠ mdoc_sec.SEC_PROLOGUE →
      pre_prologue e m node = mdoc_emit_node e m node diag_level.ERR "prologue only") := by
  refine ⟨?_, ?_, ?_, ?_⟩
  · by_cases hp : m.lastnamed = mdoc_sec.SEC_PROLOGUE
    · rcases htok with h | h | h
      · cases ht : m.meta.title <;> by_cases hd : m.meta.date = 0 <;>
          simp [pre_prologue, prologue_order, prologue_fresh, hp, h, ht, hd, emit_node_msg,
            silent_ne_emit_node]
      · cases ht : m.meta.title <;> by_cases hd : m.meta.date = 0 <;>
          simp [pre_prologue, prologue_order, prologue_fresh, hp, h, ht, hd, emit_node_msg,
            silent_ne_emit_node]
      · cases ht : m.meta.title <;> by_cases hd : m.meta.date = 0 <;>
          cases ho : m.meta.os <;>
          simp [pre_prologue, prologue_order, prologue_fresh, hp, h, ht, hd, ho, emit_node_msg,
            silent_ne_emit_node]
    · simp [pre_prologue, hp, emit_node_msg]
  · intro hp h hd
    cases ht : m.meta.title <;>
      simp [pre_prologue, prologue_order, hp, h, ht, hd]
  · intro hp h ht
    cases ht1 : m.meta.title with
    | none => exact absurd ht1 ht
    | some t => simp [pre_prologue, prologue_order, hp, h, ht1]
  · intro hp
    simp [pre_prologue, hp]

set_option maxRecDepth 100000 in
/-- An `Os` met in the prologue when title, date and os are set is reported as
"prologue repetition". -/
theorem prologue_diagnostics_witness :
    (node_os.tok = mdoc_tok.MDOC_Dd ∨ node_os.tok = mdoc_tok.MDOC_Dt ∨
      node_os.tok = mdoc_tok.MDOC_Os) ∧
    pre_prologue externs_strict (doc_complete mdoc_sec.SEC_PROLOGUE) node_os =
      mdoc_emit_node externs_strict (doc_complete mdoc_sec.SEC_PROLOGUE) node_os
        diag_level.ERR "prologue repetition" :=
  ⟨by decide,
    (prologue_diagnostics externs_strict (doc_complete mdoc_sec.SEC_PROLOGUE) node_os
      (by decide)).1.2 (by decide)⟩


theorem claimed_it_type_list (a : mdoc_argt) :
    is_list_type a = true ↔ claimed_it_type a ≠ it_type.TYPE_NONE := by
  cases a <;> decide

theorem it_scan_cons (a : mdoc_arg) (rest : List mdoc_arg) :
    it_scan (a :: rest) =
      if is_list_type a.arg then (claimed_it_type a.arg, some a.arg) else it_scan rest := by
  cases ha : a.arg <;> simp [it_scan, ha, is_list_type, claimed_it_type]

/-- The scan of `post_it` finds the first argument that names a list type. -/
theorem it_scan_type_args (argv : List mdoc_arg) :
    it_scan argv =
      match argv.filter (fun a => is_list_type a.arg) with
      | [] => (it_type.TYPE_NONE, none)
      | a :: _ => (claimed_it_type a.arg, some a.arg) := by
  induction argv with
  | nil => rfl
  | cons a rest ih =>
    rw [it_scan_cons]
    by_cases ha : is_list_type a.arg = true
    · simp [ha, List.filter]
    · simp only [ha, Bool.false_eq_true, if_false, List.filter]
      exact ih

theorem it_warn_some (e : externs) (m : mdoc) (last : mdoc_node) (c : Bool) (msg : String)
    (hl : m.nodes[m.last]? = some last) :
    ∃ (b : Bool) (ds : List diag), it_warn e m c msg = some (b, { m with log := m.log ++ ds }) := by
  unfold it_warn
  cases c with
  | true =>
    exact ⟨e.sink ⟨diag_level.WARN_SYNTAX, last.line, last.pos, msg⟩,
      [⟨diag_level.WARN_SYNTAX, last.line, last.pos, msg⟩],
      by simp only [if_true, mdoc_emit_last, hl, mdoc_emit]⟩
  | false => exact ⟨true, [], by simp⟩

/-- When the scan finds a list type and the pointers of the `It` block
resolve, `post_it` returns: its assertion holds and nothing after it faults. -/
theorem post_it_total (e : externs) (m : mdoc) (last bl head body : mdoc_node)
    (hl : m.nodes[m.last]? = some last) (hb : last.type = mdoc_type.MDOC_BLOCK)
    (hbl : (last.parent.bind (fun p => m.nodes[p]?)).bind
      (fun p => p.parent.bind (fun q => m.nodes[q]?)) = some bl)
    (hh : last.head.bind (fun h => m.nodes[h]?) = some head)
    (hbd : last.body.bind (fun b => m.nodes[b]?) = some body)
    (hscan : (it_scan bl.argv).1 ≠ it_type.TYPE_NONE)
    (hcs : (children m head).isSome = true) : (post_it e m).isSome = true := by
  have hargv : ∃ a0, bl.argv.head? = some a0 := by
    cases hv : bl.argv with
    | nil => rw [hv] at hscan; exact absurd rfl hscan
    | cons a r => exact ⟨a, rfl⟩
  obtain ⟨a0, ha0⟩ := hargv
  obtain ⟨cs, hcs1⟩ := Option.isSome_iff_exists.1 hcs
  unfold post_it
  rw [hl]
  simp only [hb, ne_eq, not_true_eq_false, if_false, hbl, hh, hbd]
  rw [if_neg hscan]
  obtain ⟨b1, ds1, h1⟩ : ∃ (b : Bool) (ds : List diag),
      (if (it_scan bl.argv).1 = it_type.TYPE_BODY
        then it_warn e m head.child.isSome "no argument suggested"
        else it_warn e m head.child.isNone "argument(s) suggested") =
        some (b, { m with log := m.log ++ ds }) := by
    split_ifs
    · exact it_warn_some e m last _ _ hl
    · exact it_warn_some e m last _ _ hl
  rw [h1]
  cases b1 with
  | false => rfl
  | true =>
    simp only []
    obtain ⟨b2, ds2, h2⟩ : ∃ (b : Bool) (ds : List diag),
        (if (it_scan bl.argv).1 = it_type.TYPE_OHEAD
          then it_warn e { m with log := m.log ++ ds1 } body.child.isSome
            "no multiline body suggested"
          else it_warn e { m with log := m.log ++ ds1 } body.child.isNone
            "multiline body suggested") =
          some (b, { m with log := m.log ++ ds1 ++ ds }) := by
      split_ifs
      · exact it_warn_some e { m with log := m.log ++ ds1 } last _ _ hl
      · exact it_warn_some e { m with log := m.log ++ ds1 } last _ _ hl
    rw [h2]
    cases b2 with
    | false => rfl
    | true =>
      simp only []
      split_ifs
      · have hc : children { m with log := m.log ++ ds1 ++ ds2 } head = some cs := hcs1
        rw [ha0, hc]
        simp only []
        split_ifs
        · rfl
        · simp only [mdoc_emit_last, hl, mdoc_emit]
          rfl
      · rfl

/-- C38: the assertion of `post_it` holds on lists that `pre_bl` has let
pass.  Let `bl` be a `Bl` BLOCK on which `pre_bl` passed (it returned success
with no diagnostic, or it returned success with callbacks that stop at an
error).  Then exactly one argument `a` of `bl` names a list type, the scan of
`post_it` over the arguments of `bl` finds the kind that `a` names (Tag, Diag,
Hang, Ohang, Inset: head; Bullet, Dash, Enum, Hyphen, Item: body; Column: head
without body), which is not `TYPE_NONE`, and for every `It` BLOCK whose
grandparent is `bl`, with head and body pointers that resolve, `post_it`
returns. -/
theorem post_it_assertion_holds (e : externs) (m0 : mdoc) (bl : mdoc_node)
    (hb : bl.type = mdoc_type.MDOC_BLOCK)
    (hpre : pre_bl e m0 bl = some (true, m0) ∨
      (err_aborts e ∧ (pre_bl e m0 bl).map Prod.fst = some true)) :
    ∃ a, type_args is_list_type bl = [a] ∧
      it_scan bl.argv = (claimed_it_type a.arg, some a.arg) ∧
      claimed_it_type a.arg ≠ it_type.TYPE_NONE ∧
      ∀ (m : mdoc) (last head body : mdoc_node),
        m.nodes[m.last]? = some last → last.type = mdoc_type.MDOC_BLOCK →
        (last.parent.bind (fun p => m.nodes[p]?)).bind
          (fun p => p.parent.bind (fun q => m.nodes[q]?)) = some bl →
        last.head.bind (fun h => m.nodes[h]?) = some head →
        last.body.bind (fun b => m.nodes[b]?) = some body →
        (children m head).isSome = true → (post_it e m).isSome = true := by
  have hone : ∃ a, type_args is_list_type bl = [a] := by
    unfold pre_bl pre_types at hpre
    rw [if_neg (by simp [hb]), type_loop_zero] at hpre
    unfold type_args
    generalize bl.argv.filter (fun a => is_list_type a.arg) = fl at hpre
    rcases fl with _ | ⟨a, _ | ⟨b, r⟩⟩
    · simp only [ne_eq, not_true_eq_false, if_false] at hpre
      rcases hpre with h | ⟨he, h⟩
      · exact absurd h (emit_last_ne_silent _ _ _ _ _)
      · exfalso
        unfold mdoc_emit_last at h
        cases hl : m0.nodes[m0.last]? with
        | none => rw [hl] at h; cases h
        | some last =>
          rw [hl] at h
          have hs := he ⟨diag_level.ERR, last.line, last.pos, "no type specified"⟩ rfl
          simp [mdoc_emit, hs] at h
    · exact ⟨a, rfl⟩
    · simp only [] at hpre
      rcases hpre with h | ⟨he, h⟩
      · exact absurd h (emit_ne_silent _ _ _ _)
      · exfalso
        have hs := he ⟨diag_level.ERR, b.line, b.pos, "multiple types specified"⟩ rfl
        simp [mdoc_perr, mdoc_emit, hs] at h
  obtain ⟨a, ha⟩ := hone
  have hs : it_scan bl.argv = (claimed_it_type a.arg, some a.arg) := by
    rw [it_scan_type_args]
    unfold type_args at ha
    rw [ha]
  have hty : is_list_type a.arg = true := by
    have hmem : a ∈ type_args is_list_type bl := by rw [ha]; exact List.mem_singleton.2 rfl
    unfold type_args at hmem
    exact (List.mem_filter.1 hmem).2
  have hne := (claimed_it_type_list a.arg).1 hty
  refine ⟨a, ha, hs, hne, ?_⟩
  intro m last head body hl hbk hbl hh hbd hcs
  exact post_it_total e m last bl head body hl hbk hbl hh hbd (by rw [hs]; exact hne) hcs

set_option maxRecDepth 100000 in
/-- The list `.Bl -width w -column a b c`: `pre_bl` passes, the one argument
that names a list type is `-column`, and the scan finds `TYPE_OHEAD`. -/
theorem post_it_assertion_holds_witness :
    node_bl_column.type = mdoc_type.MDOC_BLOCK ∧
    pre_bl externs_strict doc_prologue node_bl_column = some (true, doc_prologue) ∧
    (doc_it [arg_width, arg_column]).nodes[1]? = some node_bl_column ∧
    it_scan node_bl_column.argv = (it_type.TYPE_OHEAD, some mdoc_argt.MDOC_Column) ∧
    (post_it externs_strict (doc_it [arg_width, arg_column])).isSome = true ∧
    ∃ a, type_args is_list_type node_bl_column = [a] ∧
      it_scan node_bl_column.argv = (claimed_it_type a.arg, some a.arg) ∧
      claimed_it_type a.arg ≠ it_type.TYPE_NONE ∧
      ∀ (m : mdoc) (last head body : mdoc_node),
        m.nodes[m.last]? = some last → last.type = mdoc_type.MDOC_BLOCK →
        (last.parent.bind (fun p => m.nodes[p]?)).bind
          (fun p => p.parent.bind (fun q => m.nodes[q]?)) = some node_bl_column →
        last.head.bind (fun h => m.nodes[h]?) = some head →
        last.body.bind (fun b => m.nodes[b]?) = some body →
        (children m head).isSome = true → (post_it externs_strict m).isSome = true :=
  ⟨by decide, by decide, by decide, by decide, by decide,
    post_it_assertion_holds externs_strict doc_prologue node_bl_column (by decide)
      (Or.inl (by decide))⟩

end Validate
